import Mathlib

/-! Simple Version Control: shallow embedding and verified properties.

The engine of `src/svc.c` and its components (`commit/`, `branch/`,
`file_data/`, `snapshot/`) embedded as pure functions over explicit state.

Conventions of the embedding
* A C string is the list of its bytes (unsigned values) without the
  terminating NUL.  `char` is signed, as on x86-64 Linux, so arithmetic on a
  character goes through `charVal`.
* A nullable pointer argument is an `Option`.
* The engine handle `VersionControl *` is the explicit state.  Every `Commit`
  is heap allocated and owned by the commit log, so a `Commit *` is the index
  of the commit in the log.
* The filesystem is a finite map from paths to regular files.  The content
  store lives in the same filesystem, under the path computed by the format
  `SVC_FILE_PATH_FMT` of `params.h`.
* `params.h` is not part of the sources at hand; its constants are the fields
  of `Params`.
* Array capacities (`files_len`, `len_commits`, ...) are kept as fields next
  to the list holding the used prefix of the array.
-/

set_option maxRecDepth 8000

namespace SVC

/-! ## Strings and the C library -/

/-- Bytes of a NUL terminated C string, terminator excluded. -/
abbrev CString := List Nat

/-- Value of a byte read through the signed type `char`. -/
def charVal (b : Nat) : Int := if b < 128 then (b : Int) else (b : Int) - 256

/-- Bytes of a string literal, used to write examples. -/
def cstr (s : String) : CString := s.toList.map Char.toNat

/-- Byte is a 7-bit ASCII character (and not the terminator). -/
def isAscii (b : Nat) : Prop := 0 < b ∧ b < 128

instance (b : Nat) : Decidable (isAscii b) := by unfold isAscii; infer_instance

/-- C library `tolower` in the C locale, on unsigned byte values. -/
def tolower (b : Nat) : Nat := if 65 ≤ b ∧ b ≤ 90 then b + 32 else b

/-- C library `strcmp`: bytes compared as unsigned values; only the sign of
the result is specified, so the result is `-1`, `0` or `1`. -/
def strcmp : CString → CString → Int
  | [], [] => 0
  | [], _ :: _ => -1
  | _ :: _, [] => 1
  | a :: as, b :: bs => if a < b then -1 else if b < a then 1 else strcmp as bs

/-- C library `strcasecmp`: `strcmp` on the lower-cased strings. -/
def strcasecmp (a b : CString) : Int := strcmp (a.map tolower) (b.map tolower)

/-- C library `qsort`, modelled as a stable sort that exchanges two elements
only when the comparison function returns a positive value. -/
def qsort {α : Type} (compar : α → α → Int) (base : List α) : List α :=
  base.insertionSort (fun a b => compar a b ≤ 0)

/-- Wrap-around of a mathematical integer into `long long` (64 bit, two's
complement). -/
def wrapLL (x : Int) : Int :=
  (x + 9223372036854775808) % 18446744073709551616 - 9223372036854775808

/-- Character code of one lowercase hexadecimal digit. -/
def hexDigit (d : Nat) : Nat := if d < 10 then 48 + d else 87 + d

/-- Hexadecimal digits of `n`, most significant first, in front of `acc`. -/
def hexAux : Nat → Nat → CString → CString
  | 0, _, acc => acc
  | fuel + 1, n, acc =>
    if n < 16 then hexDigit n :: acc
    else hexAux fuel (n / 16) (hexDigit (n % 16) :: acc)

/-- Lowercase hexadecimal rendering of a natural number (`"0"` for zero). -/
def toHex (n : Nat) : CString := hexAux (n + 1) n []

/-- Result of C library `snprintf(buf, size, "%06llx", v)`: the value is read
as `unsigned long long`, printed in lowercase hexadecimal, zero padded to
width six, and cut to `size - 1` characters. -/
def snprintf_06llx (size : Nat) (v : Int) : CString :=
  (List.leftpad 6 48 (toHex (v % 18446744073709551616).toNat)).take (size - 1)

/-! ## Data model (`file_data.h`, `snapshot.h`, `commit.h`, `branch.h`, `svc.c`) -/

/-- The `enum FileState` of `file_data.h`. -/
inductive FileState where
  | Tracked
  | Staged
  | Deleted
deriving DecidableEq, Repr

/-- The `struct FileData` of `file_data.h`.  `previous_hash` holds the `int`
that was stored into the `size_t` field. -/
structure FileData where
  file_path : CString
  state : FileState
  previous_hash : Int
deriving DecidableEq, Repr

/-- The `enum CommitChangeType` of `commit.h`. -/
inductive CommitChangeType where
  | Add
  | Remove
  | Change
deriving DecidableEq, Repr

/-- The `struct HashChange` of `commit.h`; a field the code never wrote is
`none`. -/
structure HashChange where
  old_hash : Option Int
  new_hash : Option Int
deriving DecidableEq, Repr

/-- The `struct CommitRecord` of `commit.h`. -/
structure CommitRecord where
  file_name : CString
  change_type : CommitChangeType
  hash_change : HashChange
deriving DecidableEq, Repr

/-- The `struct FileSnapshot` of `snapshot.h`. -/
structure FileSnapshot where
  name : CString
  hash : Int
deriving DecidableEq, Repr

/-- The `struct Snapshot` of `snapshot.h`; `n_files` is the length of
`file_snapshots`. -/
structure Snapshot where
  file_snapshots : List FileSnapshot
  file_snapshots_len : Nat
deriving DecidableEq, Repr

/-- The `struct Commit` of `commit.h`.  Parents are indices into the commit
log; `n_record` and `n_parent_commits` are the lengths of the lists. -/
structure Commit where
  id : Option CString
  branch_id : Nat
  message : CString
  commit_record : List CommitRecord
  record_len : Nat
  parent_commits : List Nat
  snapshot : Snapshot
deriving DecidableEq, Repr

/-- The `struct Branch` of `branch.h`; `commit` is an index into the commit
log, `n_files` the length of `files`. -/
structure Branch where
  name : CString
  commit : Option Nat
  files : List FileData
  files_len : Nat
deriving DecidableEq, Repr

/-- The `struct VersionControl` of `svc.c`. -/
structure VersionControl where
  branches : List Branch
  len_branches : Nat
  current_branch : Nat
  commits : List Commit
  len_commits : Nat
deriving DecidableEq, Repr

/-- Constants of `params.h`, which is not among the sources.
`svc_file_path h` is the string printed by the format `SVC_FILE_PATH_FMT` for
the hash `h`; `BRANCH_NAME_REGEX name` says that the pattern compiles and that
`regexec` finds a match in `name`. -/
structure Params where
  ARRAY_GROWTH_RATE : Nat
  INIT_BRANCHES_SIZE : Nat
  INIT_COMMIT_SIZE : Nat
  INIT_STAGING_SIZE : Nat
  INIT_SNAPSHOT_SIZE : Nat
  DEFAULT_BRANCH_NAME : CString
  svc_file_path : Int → CString
  BRANCH_NAME_REGEX : CString → Bool

/-- A regular file: whether it can be opened for reading, and its bytes. -/
structure FileNode where
  readable : Bool
  contents : List Nat
deriving DecidableEq, Repr

/-- The filesystem: the regular file found at each path, if any. -/
abbrev FileSystem := CString → Option FileNode

/-- Engine state together with the filesystem it works on. -/
structure World where
  vc : VersionControl
  fs : FileSystem

/-- System call `access(path, F_OK) != -1`. -/
def access (fs : FileSystem) (path : CString) : Bool := (fs path).isSome

/-- Filesystem after `fopen(path, "w")`, `fwrite(contents)`, `fclose`. -/
def writeFile (fs : FileSystem) (path : CString) (contents : List Nat) : FileSystem :=
  fun q => if q = path then some { readable := true, contents := contents } else fs q

/-! ## `file_data.c` -/

/-- Value of `errno` left by a failed `fopen`, as far as `hash_file` tells
the cases apart. -/
inductive Errno where
  | zero
  | ENOENT
  | EFAULT
  | EACCES
deriving DecidableEq, Repr

/-- Value of `errno` after `errno = 0; fopen(path, "r")`. -/
def fopen_errno (fs : FileSystem) (path : CString) : Errno :=
  match fs path with
  | none => Errno.ENOENT
  | some f => if f.readable then Errno.zero else Errno.EACCES

/-- The function `hash_and_copy_file`; `copy` says whether both `file_copy`
and `file_size` are non-NULL.  Returns the hash and the value left in
`*file_copy` (`none` for NULL).  For bytes below 256 no `int` overflows. -/
def hash_and_copy_file (fs : FileSystem) (file_path : CString) (copy : Bool) :
    Int × Option (List Nat) :=
  match fs file_path with
  | none => (-1, none)
  | some f =>
    if f.readable then
      let hash := file_path.foldl (fun h c => Int.tmod (h + charVal c) 1000) 0
      (f.contents.foldl (fun h c => Int.tmod (h + (c : Int)) 2000000000) hash,
        if copy then some f.contents else none)
    else (-1, none)

/-- The function `is_unknown`: `false` when some entry that is not Deleted has
this path. -/
def is_unknown : List FileData → CString → Bool
  | [], _ => true
  | fd :: rest, file_path =>
    if strcmp fd.file_path file_path = 0 ∧ fd.state ≠ FileState.Deleted then false
    else is_unknown rest file_path

/-! ## `snapshot.c` -/

/-- The function `init_snapshot`. -/
def init_snapshot (P : Params) : Snapshot :=
  { file_snapshots := [], file_snapshots_len := P.INIT_SNAPSHOT_SIZE }

/-- The function `new_file_snapshot`. -/
def new_file_snapshot (P : Params) (fs : FileSystem) (ss : Option Snapshot)
    (name : Option CString) (hash : Int) (file_contents : Option (List Nat)) :
    Int × Option Snapshot × FileSystem :=
  match ss, name, file_contents with
  | some s, some n, some c =>
    if hash = 0 then (-1, ss, fs)
    else
      let len := if s.file_snapshots.length = s.file_snapshots_len
        then s.file_snapshots_len * P.ARRAY_GROWTH_RATE else s.file_snapshots_len
      let s1 : Snapshot :=
        { file_snapshots := s.file_snapshots ++ [{ name := n, hash := hash }],
          file_snapshots_len := len }
      let file_name := P.svc_file_path hash
      (0, some s1, if access fs file_name then fs else writeFile fs file_name c)
  | _, _, _ => (-1, ss, fs)

/-! ## `commit.c` -/

/-- The function `init_commit`. -/
def init_commit (P : Params) (message : Option CString) (commit_record_len : Nat)
    (branch_id : Nat) : Option Commit :=
  match message with
  | none => none
  | some m =>
    some { id := none, message := m, branch_id := branch_id, commit_record := [],
           record_len := commit_record_len, parent_commits := [],
           snapshot := init_snapshot P }

/-- The function `compare_commit_record_name`. -/
def compare_commit_record_name (a b : CommitRecord) : Int :=
  let cmp := strcasecmp a.file_name b.file_name
  let cmp := if cmp = 0 then strcmp a.file_name b.file_name else cmp
  if cmp > 0 then 1 else 0

/-- One round of the message loop of `generate_commit_id`. -/
def id_message_step (id : Int) (c : Nat) : Int :=
  Int.tmod (wrapLL (id + charVal c)) 1000

/-- One round of the file name loop of `generate_commit_id`. -/
def id_name_step (id : Int) (c : Nat) : Int :=
  wrapLL (Int.tmod (wrapLL (id * Int.tmod (charVal c) 37)) 15485863 + 1)

/-- One round of the record loop of `generate_commit_id`. -/
def id_record_step (id : Int) (r : CommitRecord) : Int :=
  let id1 :=
    match r.change_type with
    | CommitChangeType.Add => wrapLL (id + 376591)
    | CommitChangeType.Remove => wrapLL (id + 85973)
    | CommitChangeType.Change => wrapLL (id + 9573681)
  r.file_name.foldl id_name_step id1

/-- Number held by `id` in `generate_commit_id` when the loops are done, for
records that are already sorted. -/
def commit_id_number (message : CString) (records : List CommitRecord) : Int :=
  records.foldl id_record_step (message.foldl id_message_step 0)

/-- The function `generate_commit_id`: the id string, and the commit with its
records sorted in place. -/
def generate_commit_id (commit : Commit) : CString × Commit :=
  let sorted := qsort compare_commit_record_name commit.commit_record
  (snprintf_06llx 16 (commit_id_number commit.message sorted),
    { commit with commit_record := sorted })

/-- The function `resize_commit_record`. -/
def resize_commit_record (P : Params) (commit : Commit) : Commit :=
  if commit.commit_record.length = commit.record_len then
    { commit with record_len := commit.record_len * P.ARRAY_GROWTH_RATE }
  else commit

/-- The function `commit_deleted_file`. -/
def commit_deleted_file (P : Params) (commit : Commit) (file_path : Option CString) :
    Int × Commit :=
  match file_path with
  | none => (-1, commit)
  | some p =>
    let c1 := resize_commit_record P commit
    (0, { c1 with commit_record := c1.commit_record ++
      [{ file_name := p, change_type := CommitChangeType.Remove,
         hash_change := { old_hash := none, new_hash := none } }] })

/-- The function `commit_staged_file`. -/
def commit_staged_file (P : Params) (fs : FileSystem) (commit : Commit)
    (file_path : Option CString) : Int × Commit × FileSystem :=
  match file_path with
  | none => (-1, commit, fs)
  | some p =>
    let hc := hash_and_copy_file fs p true
    let c1 := resize_commit_record P commit
    let c2 : Commit := { c1 with commit_record := c1.commit_record ++
      [{ file_name := p, change_type := CommitChangeType.Add,
         hash_change := { old_hash := none, new_hash := some hc.1 } }] }
    let r := new_file_snapshot P fs (some c2.snapshot) (some p) hc.1 hc.2
    (hc.1, { c2 with snapshot := r.2.1.getD c2.snapshot }, r.2.2)

/-- The function `commit_tracked_file`. -/
def commit_tracked_file (P : Params) (fs : FileSystem) (commit : Commit)
    (file_path : Option CString) (old_hash : Int) : Int × Commit × FileSystem :=
  match file_path with
  | none => (-1, commit, fs)
  | some p =>
    let hc := hash_and_copy_file fs p true
    let c2 : Commit :=
      if hc.1 ≠ old_hash then
        let c1 := resize_commit_record P commit
        { c1 with commit_record := c1.commit_record ++
          [{ file_name := p, change_type := CommitChangeType.Change,
             hash_change := { old_hash := some old_hash, new_hash := some hc.1 } }] }
      else commit
    let r := new_file_snapshot P fs (some c2.snapshot) (some p) hc.1 hc.2
    (hc.1, { c2 with snapshot := r.2.1.getD c2.snapshot }, r.2.2)

/-! ## `branch.c` -/

/-- The function `init_master_branch`. -/
def init_master_branch (P : Params) : Branch :=
  { name := P.DEFAULT_BRANCH_NAME, files := [], files_len := P.INIT_STAGING_SIZE,
    commit := none }

/-- The function `clean_branch_files`. -/
def clean_branch_files (b : Branch) : Branch :=
  { b with files := b.files.filter (fun fd => fd.state ≠ FileState.Deleted) }

/-! ## `svc.c` -/

/-- The branch `vc->branches[vc->current_branch]`.  An index outside the
array is undefined behaviour in C; the embedding then reads an empty branch
(and `setCurrent` stores nothing). -/
def current (vc : VersionControl) : Branch :=
  (vc.branches.get? vc.current_branch).getD
    { name := [], commit := none, files := [], files_len := 0 }

/-- Store into `vc->branches[vc->current_branch]`. -/
def setCurrent (vc : VersionControl) (b : Branch) : VersionControl :=
  { vc with branches := vc.branches.set vc.current_branch b }

/-- The function `svc_init`, when `mkdir` succeeds.  The master branch is the
only branch, so `MASTER_BRANCH_INDEX` is 0. -/
def svc_init (P : Params) : VersionControl :=
  { branches := [init_master_branch P], len_branches := P.INIT_BRANCHES_SIZE,
    current_branch := 0, commits := [], len_commits := P.INIT_COMMIT_SIZE }

/-- The function `hash_file`. -/
def hash_file (fs : FileSystem) (file_path : Option CString) : Int :=
  match file_path with
  | none => -1
  | some p =>
    let hash := (hash_and_copy_file fs p false).1
    if hash = -1 then
      match fopen_errno fs p with
      | Errno.ENOENT => -2
      | Errno.EFAULT => -1
      | _ => -3
    else hash

/-- Body of the roster loop of `svc_commit` for the entry `fd`: the commit
being built, the filesystem and the entry afterwards. -/
def commit_entry (P : Params) (fs : FileSystem) (commit : Commit) (fd : FileData) :
    Commit × FileSystem × FileData :=
  match fd.state with
  | FileState.Deleted => ((commit_deleted_file P commit (some fd.file_path)).2, fs, fd)
  | FileState.Staged =>
    if access fs fd.file_path = false then
      (commit, fs, { fd with state := FileState.Deleted })
    else
      let r := commit_staged_file P fs commit (some fd.file_path)
      (r.2.1, r.2.2, { fd with state := FileState.Tracked, previous_hash := r.1 })
  | FileState.Tracked =>
    if access fs fd.file_path = false then
      ((commit_deleted_file P commit (some fd.file_path)).2, fs,
        { fd with state := FileState.Deleted })
    else
      let r := commit_tracked_file P fs commit (some fd.file_path) fd.previous_hash
      (r.2.1, r.2.2, { fd with previous_hash := r.1 })

/-- The roster loop of `svc_commit`. -/
def commit_files (P : Params) :
    FileSystem → Commit → List FileData → Commit × FileSystem × List FileData
  | fs, commit, [] => (commit, fs, [])
  | fs, commit, fd :: rest =>
    let r := commit_entry P fs commit fd
    let t := commit_files P r.2.1 r.1 rest
    (t.1, t.2.1, r.2.2 :: t.2.2)

/-- The function `svc_commit`. -/
def svc_commit (P : Params) (w : World) (message : Option CString) :
    Option CString × World :=
  match message with
  | none => (none, w)
  | some m =>
    let vc := w.vc
    let len_commits := if vc.commits.length = vc.len_commits
      then vc.len_commits * P.ARRAY_GROWTH_RATE else vc.len_commits
    let b := current vc
    match init_commit P (some m) b.files.length vc.current_branch with
    | none => (none, w)
    | some new_commit =>
      let r := commit_files P w.fs new_commit b.files
      if r.1.commit_record.length = 0 then
        (none,
          { vc := setCurrent { vc with len_commits := len_commits }
              { b with files := r.2.2 },
            fs := r.2.1 })
      else
        let g := generate_commit_id r.1
        let c : Commit :=
          { g.2 with
            id := some g.1,
            parent_commits :=
              match b.commit with
              | some p => [p]
              | none => g.2.parent_commits }
        let b1 := clean_branch_files
          { b with files := r.2.2, commit := some vc.commits.length }
        (some g.1,
          { vc := setCurrent
              { vc with commits := vc.commits ++ [c], len_commits := len_commits } b1,
            fs := r.2.1 })

/-- The search loop of `get_commit`, about to look at index `i - 1`. -/
def get_commit_loop (commits : List Commit) (commit_id : CString) : Nat → Option Nat
  | 0 => none
  | i + 1 =>
    match commits.get? i with
    | some c =>
      match c.id with
      | some id => if strcmp id commit_id = 0 then some i else get_commit_loop commits commit_id i
      | none => get_commit_loop commits commit_id i
    | none => get_commit_loop commits commit_id i

/-- The function `get_commit`: the log index of the commit found. -/
def get_commit (vc : VersionControl) (commit_id : Option CString) : Option Nat :=
  match commit_id with
  | none => none
  | some id => get_commit_loop vc.commits id vc.commits.length

/-- The function `svc_add`; `none` when the process ends.  On a full roster
`safe_realloc` is called with `files_len * ARRAY_GROWTH_RATE * sizeof(FileData)`
bytes; when that is 0, `realloc` of the C library (glibc) frees the array and
returns NULL, and `safe_realloc` calls `exit(2)`. -/
def svc_add (P : Params) (w : World) (file_name : Option CString) : Option (Int × World) :=
  match file_name with
  | none => some (-1, w)
  | some name =>
    if access w.fs name = false then some (-3, w)
    else
      let cur_branch := current w.vc
      if is_unknown cur_branch.files name = false then some (-2, w)
      else
        let hash := hash_file w.fs (some name)
        if cur_branch.files.length = cur_branch.files_len ∧
            cur_branch.files_len * P.ARRAY_GROWTH_RATE = 0 then none
        else
          let files_len := if cur_branch.files.length = cur_branch.files_len
            then cur_branch.files_len * P.ARRAY_GROWTH_RATE else cur_branch.files_len
          let staged : FileData :=
            { file_path := name, state := FileState.Staged, previous_hash := hash }
          let b : Branch :=
            { cur_branch with files := cur_branch.files ++ [staged], files_len := files_len }
          some (hash, { vc := setCurrent w.vc b, fs := w.fs })

/-- The loop of `svc_rm` over the roster: the returned value and the roster
afterwards. -/
def svc_rm_files : List FileData → CString → Int × List FileData
  | [], _ => (-2, [])
  | fd :: rest, file_name =>
    if strcmp fd.file_path file_name = 0 ∧ fd.state = FileState.Staged then
      (fd.previous_hash, rest)
    else if strcmp fd.file_path file_name = 0 ∧ fd.state ≠ FileState.Deleted then
      (fd.previous_hash, { fd with state := FileState.Deleted } :: rest)
    else
      let r := svc_rm_files rest file_name
      (r.1, fd :: r.2)

/-- The function `svc_rm`. -/
def svc_rm (w : World) (file_name : Option CString) : Int × World :=
  match file_name with
  | none => (-1, w)
  | some name =>
    let curr_branch := current w.vc
    let r := svc_rm_files curr_branch.files name
    (r.1, { vc := setCurrent w.vc ({ curr_branch with files := r.2 }), fs := w.fs })

/-- Commit under construction, roster and filesystem at the end of the roster
loop of `svc_commit` called with the message `m`. -/
def svc_commit_loop (P : Params) (w : World) (m : CString) :
    Commit × FileSystem × List FileData :=
  commit_files P w.fs
    { id := none, message := m, branch_id := w.vc.current_branch, commit_record := [],
      record_len := (current w.vc).files.length, parent_commits := [],
      snapshot := init_snapshot P }
    (current w.vc).files

/-- The function `is_valid_branch_name` of `branch.c`. -/
def is_valid_branch_name (P : Params) (name : Option CString) : Bool :=
  match name with
  | none => false
  | some n => P.BRANCH_NAME_REGEX n

/-- The function `copy_file_data` of `file_data.c`: every entry is copied,
its path string included. -/
def copy_file_data (fd : List FileData) : List FileData :=
  fd.map (fun x => { x with file_path := x.file_path })

/-- The function `update_file` of `file_data.c`; `none` when the process ends
with `exit(2)`.  `fopen(old, "w+")` empties or creates the target and fails on
a file that cannot be read; write permission is not modelled. -/
def update_file (fs : FileSystem) (old_file_path : CString)
    (new_file_path : Option CString) : Option FileSystem :=
  match new_file_path with
  | none => some fs
  | some new_path =>
    let opened : Bool :=
      match fs old_file_path with
      | some f => f.readable
      | none => true
    if opened = false then none
    else
      let fs1 := writeFile fs old_file_path []
      match fs1 new_path with
      | none => none
      | some f =>
        if f.readable then some (writeFile fs1 old_file_path f.contents) else none

/-- C library `remove(path)`. -/
def removeFile (fs : FileSystem) (path : CString) : FileSystem :=
  fun q => if q = path then none else fs q

/-- The search loop of `get_branch_index`, about to look at index `i - 1`. -/
def get_branch_index_loop (branches : List Branch) (branch_name : CString) :
    Nat → Option Nat
  | 0 => none
  | i + 1 =>
    match branches.get? i with
    | some b =>
      if strcmp b.name branch_name = 0 then some i
      else get_branch_index_loop branches branch_name i
    | none => get_branch_index_loop branches branch_name i

/-- The function `get_branch_index`; `none` stands for the result -1. -/
def get_branch_index (vc : VersionControl) (branch_name : Option CString) : Option Nat :=
  match branch_name with
  | none => none
  | some name => get_branch_index_loop vc.branches name vc.branches.length

/-- The roster loop of `check_uncommitted_changes`. -/
def check_uncommitted_files (fs : FileSystem) : List FileData → Int
  | [] => 0
  | fd :: rest =>
    if fd.state = FileState.Staged then 1
    else if fd.state = FileState.Tracked then
      if hash_file fs (some fd.file_path) ≠ fd.previous_hash then 1
      else check_uncommitted_files fs rest
    else check_uncommitted_files fs rest

/-- The function `check_uncommitted_changes`. -/
def check_uncommitted_changes (w : World) : Int :=
  match (current w.vc).commit with
  | none => 0
  | some _ => check_uncommitted_files w.fs (current w.vc).files

/-- The function `svc_branch`. -/
def svc_branch (P : Params) (w : World) (branch_name : Option CString) : Int × World :=
  match branch_name with
  | none => (-1, w)
  | some name =>
    if is_valid_branch_name P (some name) = false then (-1, w)
    else if (get_branch_index w.vc (some name)).isSome then (-2, w)
    else if check_uncommitted_changes w ≠ 0 then (-3, w)
    else
      let vc := w.vc
      let len_branches := if vc.len_branches = vc.branches.length
        then vc.len_branches + 1 else vc.len_branches
      let cur := current vc
      let b : Branch := { cur with name := name, files := copy_file_data cur.files }
      (0, { vc := { vc with branches := vc.branches ++ [b], len_branches := len_branches },
            fs := w.fs })

/-- The loop of `restore_snapshot`; `none` when `update_file` ends the
process. -/
def restore_files (P : Params) : FileSystem → List FileSnapshot → Option FileSystem
  | fs, [] => some fs
  | fs, e :: rest =>
    match update_file fs e.name (some (P.svc_file_path e.hash)) with
    | none => none
    | some fs1 => restore_files P fs1 rest

/-- The function `restore_snapshot`. -/
def restore_snapshot (P : Params) (fs : FileSystem) (ss : Option Snapshot) :
    Option FileSystem :=
  match ss with
  | none => some fs
  | some s => restore_files P fs s.file_snapshots

/-- The function `svc_checkout`; `none` when the process ends (`exit(2)` in
`update_file`, or a current commit that is not in the log). -/
def svc_checkout (P : Params) (w : World) (branch_name : Option CString) :
    Option (Int × World) :=
  match branch_name with
  | none => some (-1, w)
  | some name =>
    match get_branch_index w.vc (some name) with
    | none => some (-1, w)
    | some branch_index =>
      if check_uncommitted_changes w ≠ 0 then some (-2, w)
      else
        let vc : VersionControl := { w.vc with current_branch := branch_index }
        match (current vc).commit with
        | none => some (0, { vc := vc, fs := w.fs })
        | some c =>
          match vc.commits.get? c with
          | none => none
          | some commit =>
            match restore_snapshot P w.fs (some commit.snapshot) with
            | none => none
            | some fs => some (0, { vc := vc, fs := fs })

/-- The function `svc_reset`; `none` when the process ends with `exit(2)`. -/
def svc_reset (P : Params) (w : World) (commit_id : Option CString) :
    Option (Int × World) :=
  match commit_id with
  | none => some (-1, w)
  | some id =>
    match get_commit w.vc (some id) with
    | none => some (-2, w)
    | some k =>
      match w.vc.commits.get? k with
      | none => none
      | some c =>
        let c1 : Commit := { c with branch_id := w.vc.current_branch }
        let files : List FileData := c.snapshot.file_snapshots.map
          (fun s => { file_path := s.name, state := FileState.Tracked, previous_hash := s.hash })
        let b : Branch :=
          { current w.vc with commit := some k, files := files, files_len := files.length }
        let vc := setCurrent { w.vc with commits := w.vc.commits.set k c1 } b
        match restore_snapshot P w.fs (some c.snapshot) with
        | none => none
        | some fs => some (0, { vc := vc, fs := fs })

/-- The `struct resolution` of `svc.h`. -/
structure resolution where
  file_name : CString
  resolved_file : Option CString
deriving DecidableEq, Repr

/-- The first loop of `svc_merge`: every file of the merged snapshot that is
unknown to the active roster is restored when missing on disk, then added;
`none` when `update_file` or `svc_add` ends the process. -/
def merge_stage (P : Params) : World → List FileSnapshot → Option World
  | w, [] => some w
  | w, e :: rest =>
    if is_unknown (current w.vc).files e.name then
      let restored : Option FileSystem :=
        if access w.fs e.name = false then
          update_file w.fs e.name (some (P.svc_file_path e.hash))
        else some w.fs
      match restored with
      | none => none
      | some fs =>
        match svc_add P { vc := w.vc, fs := fs } (some e.name) with
        | none => none
        | some r => merge_stage P r.2 rest
    else merge_stage P w rest

/-- The second loop of `svc_merge`: the resolutions are applied in order. -/
def merge_resolve : FileSystem → List resolution → Option FileSystem
  | fs, [] => some fs
  | fs, r :: rest =>
    let found : Bool :=
      match r.resolved_file with
      | some p => access fs p
      | none => false
    if found = false then merge_resolve (removeFile fs r.file_name) rest
    else
      match update_file fs r.file_name r.resolved_file with
      | none => none
      | some fs1 => merge_resolve fs1 rest

/-- The function `svc_merge`; `none` when the process ends (`exit(2)` in
`update_file` or in the `safe_realloc` of `svc_add`, or a merged branch without
a commit in the log, which the code dereferences).  The message buffer is taken to be large enough. -/
def svc_merge (P : Params) (w : World) (branch_name : Option CString)
    (resolutions : List resolution) : Option (Option CString × World) :=
  match branch_name with
  | none => some (none, w)
  | some name =>
    match get_branch_index w.vc (some name) with
    | none => some (none, w)
    | some branch_index =>
      if branch_index = w.vc.current_branch then some (none, w)
      else if check_uncommitted_changes w ≠ 0 then some (none, w)
      else
        match ((w.vc.branches.get? branch_index).bind (fun b => b.commit)).bind
            (fun c => w.vc.commits.get? c) with
        | none => none
        | some merged =>
          match merge_stage P w merged.snapshot.file_snapshots with
          | none => none
          | some w1 =>
            match merge_resolve w1.fs resolutions with
            | none => none
            | some fs2 =>
              let r := svc_commit P { vc := w1.vc, fs := fs2 }
                (some (cstr "Merged branch " ++ name))
              match r.1 with
              | none => some (none, r.2)
              | some commit_id =>
                let last := r.2.vc.commits.length - 1
                match r.2.vc.commits.get? last,
                    (r.2.vc.branches.get? branch_index).bind (fun b => b.commit) with
                | some c, some head =>
                  let c1 : Commit := { c with parent_commits := c.parent_commits ++ [head] }
                  some (some commit_id,
                    { vc := { r.2.vc with commits := r.2.vc.commits.set last c1 },
                      fs := r.2.fs })
                | _, _ => none

/-- Integer value of an enumerator of `enum CommitChangeType`. -/
def change_type_value : CommitChangeType → Int
  | CommitChangeType.Add => 0
  | CommitChangeType.Remove => 1
  | CommitChangeType.Change => 2

/-- The function `compare_commit_record_change` of `commit.c`. -/
def compare_commit_record_change (a b : CommitRecord) : Int :=
  if change_type_value a.change_type > change_type_value b.change_type then 1 else 0

/-- The function `print_commit`, as far as it changes the engine: the records
of the selected commit are sorted in place by change type.  The text written
to stdout is not part of the state. -/
def print_commit (w : World) (commit_id : Option CString) : World :=
  match commit_id with
  | none => w
  | some id =>
    match get_commit w.vc (some id) with
    | none => w
    | some k =>
      match w.vc.commits.get? k with
      | none => w
      | some c =>
        let c1 : Commit :=
          { c with commit_record := qsort compare_commit_record_change c.commit_record }
        { vc := { w.vc with commits := w.vc.commits.set k c1 }, fs := w.fs }

/-! ## Reference definitions, written after the specification -/

/-- Reference step for one file name character:
`id = ((id * (c mod 37)) mod 15485863) + 1`. -/
def reference_name_step (id : Int) (c : Nat) : Int :=
  (id * ((c : Int) % 37)) % 15485863 + 1

/-- Value of one lowercase hexadecimal digit character. -/
def hexDigitValue (ch : Nat) : Nat := if ch < 58 then ch - 48 else ch - 87

/-- Number written by a string of lowercase hexadecimal digits. -/
def hexValue (s : CString) : Nat := s.foldl (fun v ch => 16 * v + hexDigitValue ch) 0

/-- Character is one of `0-9` or `a-f`. -/
def isLowerHex (ch : Nat) : Prop := (48 ≤ ch ∧ ch ≤ 57) ∨ (97 ≤ ch ∧ ch ≤ 102)

instance (ch : Nat) : Decidable (isLowerHex ch) := by unfold isLowerHex; infer_instance

/-- Every file of `fs` is found unchanged in `fs2`. -/
def FsExtends (fs fs2 : FileSystem) : Prop := ∀ p f, fs p = some f → fs2 p = some f

/-- Filesystems `fs` and `fs2` hold the same file at every path that is not a
path of the content store. -/
def AgreeOffStore (P : Params) (fs fs2 : FileSystem) : Prop :=
  ∀ p, (∀ h, P.svc_file_path h ≠ p) → fs2 p = fs p

/-- Hash that `svc_commit` computes for the file at `path`. -/
def current_hash (fs : FileSystem) (path : CString) : Int :=
  (hash_and_copy_file fs path true).1

/-- Record that the specification prescribes for one roster entry. -/
def expected_record (fs : FileSystem) (fd : FileData) : Option CommitRecord :=
  match fd.state with
  | FileState.Deleted =>
    some { file_name := fd.file_path, change_type := CommitChangeType.Remove,
           hash_change := { old_hash := none, new_hash := none } }
  | FileState.Staged =>
    if access fs fd.file_path then
      some { file_name := fd.file_path, change_type := CommitChangeType.Add,
             hash_change := { old_hash := none, new_hash := some (current_hash fs fd.file_path) } }
    else none
  | FileState.Tracked =>
    if access fs fd.file_path then
      if current_hash fs fd.file_path ≠ fd.previous_hash then
        some { file_name := fd.file_path, change_type := CommitChangeType.Change,
               hash_change := { old_hash := some fd.previous_hash,
                                new_hash := some (current_hash fs fd.file_path) } }
      else none
    else
      some { file_name := fd.file_path, change_type := CommitChangeType.Remove,
             hash_change := { old_hash := none, new_hash := none } }

/-- Roster entry that the specification prescribes after the commit loop. -/
def expected_entry (fs : FileSystem) (fd : FileData) : FileData :=
  match fd.state with
  | FileState.Deleted => fd
  | FileState.Staged =>
    if access fs fd.file_path then
      { fd with state := FileState.Tracked, previous_hash := current_hash fs fd.file_path }
    else { fd with state := FileState.Deleted }
  | FileState.Tracked =>
    if access fs fd.file_path then
      { fd with previous_hash := current_hash fs fd.file_path }
    else { fd with state := FileState.Deleted }

/-- Bytes of the file at `path`; empty when there is no file. -/
def fileContents (fs : FileSystem) (path : CString) : List Nat :=
  match fs path with
  | some f => f.contents
  | none => []

/-- The file at `path` exists and can be opened for reading. -/
def canRead (fs : FileSystem) (path : CString) : Bool :=
  match fs path with
  | some f => f.readable
  | none => false

/-- The path can be opened by `fopen(path, "w+")`: no file is there yet, or
the file can be read. -/
def canUpdate (fs : FileSystem) (path : CString) : Bool :=
  match fs path with
  | some f => f.readable
  | none => true

/-- Restoring the entries cannot end the process: the blob of every entry can
be read and every named file can be opened for update. -/
def restore_ready (P : Params) (fs : FileSystem) (entries : List FileSnapshot) : Bool :=
  entries.all (fun e => canRead fs (P.svc_file_path e.hash) && canUpdate fs e.name)

/-- No entry is named like a path of the content store. -/
def StoreSeparate (P : Params) (entries : List FileSnapshot) : Prop :=
  ∀ e ∈ entries, ∀ h, P.svc_file_path h ≠ e.name

/-- Filesystem prescribed for a restore of the entries: in order, each named
file receives the bytes that `blobs` holds under the store path of the entry's
hash. -/
def restore_expected (P : Params) (blobs : FileSystem) :
    FileSystem → List FileSnapshot → FileSystem
  | fs, [] => fs
  | fs, e :: rest =>
    restore_expected P blobs
      (writeFile fs e.name (fileContents blobs (P.svc_file_path e.hash))) rest

/-- The current commit of branch `b`, if it has one, is in the log and its
snapshot can be restored without ending the process. -/
def head_ready (P : Params) (w : World) (b : Branch) : Bool :=
  match b.commit with
  | none => true
  | some k =>
    match w.vc.commits.get? k with
    | none => false
    | some c => restore_ready P w.fs c.snapshot.file_snapshots

/-- Roster that `svc_reset` builds from the entries of a snapshot. -/
def roster_of_snapshot (entries : List FileSnapshot) : List FileData :=
  entries.map
    (fun s => { file_path := s.name, state := FileState.Tracked, previous_hash := s.hash })

/-- From `vc` to `vc1` the commit log, the active branch index, the current
commit of the active branch and every other branch are the same. -/
def SameHeads (vc vc1 : VersionControl) : Prop :=
  vc1.commits = vc.commits ∧ vc1.current_branch = vc.current_branch ∧
    (current vc1).commit = (current vc).commit ∧
    ∀ i, i ≠ vc.current_branch → vc1.branches.get? i = vc.branches.get? i

/-- Snapshot entry that `svc_commit` takes for one roster entry: the path
with its current hash, when the entry is not Deleted, the file can be read and
the hash is not 0. -/
def expected_snapshot (fs : FileSystem) (fd : FileData) : Option FileSnapshot :=
  if fd.state ≠ FileState.Deleted ∧ canRead fs fd.file_path = true ∧
      current_hash fs fd.file_path ≠ 0 then
    some { name := fd.file_path, hash := current_hash fs fd.file_path }
  else none

/-- Filesystem `fs` seen while `svc_commit` runs from the filesystem `fs0`
with the snapshot entries `snap` taken so far: files outside the store are
those of `fs0`, every file of `fs0` is kept, every other file is the blob
written for one of the entries, and every entry has its blob. -/
def CommitStore (P : Params) (fs0 fs : FileSystem) (snap : List FileSnapshot) : Prop :=
  AgreeOffStore P fs0 fs ∧ FsExtends fs0 fs ∧
    (∀ q f, fs q = some f → fs0 q = some f ∨
      ∃ e ∈ snap, P.svc_file_path e.hash = q ∧
        f = { readable := true, contents := fileContents fs0 e.name }) ∧
    ∀ e ∈ snap, (fs (P.svc_file_path e.hash)).isSome = true

/-- Roster entry after a commit that recorded nothing: a Staged entry, whose
file is then missing, is Deleted; any other entry is as before. -/
def after_noop_commit (fd : FileData) : FileData :=
  if fd.state = FileState.Staged then { fd with state := FileState.Deleted } else fd

/-- File name `a` is strictly after `b`: greater in the comparison without
case, or equal there and greater in the comparison with case. -/
def name_after (a b : CString) : Prop :=
  strcasecmp a b > 0 ∨ (strcasecmp a b = 0 ∧ strcmp a b > 0)

instance (a b : CString) : Decidable (name_after a b) := by
  unfold name_after; infer_instance

/-- File name `a` is before `b` or equal to it in the order by name: smaller
in the comparison without case, or equal there and not greater in the
comparison with case. -/
def name_le (a b : CString) : Prop :=
  strcasecmp a b < 0 ∨ (strcasecmp a b = 0 ∧ strcmp a b ≤ 0)

instance (a b : CString) : Decidable (name_le a b) := by
  unfold name_le; infer_instance

/-- One step in the life of an engine: a call of an operation with its
arguments, or a change made to the files from outside the engine. -/
inductive Op where
  | add (file_name : Option CString)
  | rm (file_name : Option CString)
  | commit (message : Option CString)
  | branch (branch_name : Option CString)
  | checkout (branch_name : Option CString)
  | reset (commit_id : Option CString)
  | merge (branch_name : Option CString) (resolutions : List resolution)
  | print (commit_id : Option CString)
  | files (fs : FileSystem)

/-- World after one step; `none` when the process ends during the call. -/
def apply_op (P : Params) (w : World) : Op → Option World
  | Op.add n => (svc_add P w n).map (fun r => r.2)
  | Op.rm n => some (svc_rm w n).2
  | Op.commit m => some (svc_commit P w m).2
  | Op.branch n => some (svc_branch P w n).2
  | Op.checkout n => (svc_checkout P w n).map (fun r => r.2)
  | Op.reset id => (svc_reset P w id).map (fun r => r.2)
  | Op.merge n rs => (svc_merge P w n rs).map (fun r => r.2)
  | Op.print id => some (print_commit w id)
  | Op.files fs => some { vc := w.vc, fs := fs }

/-- World after a sequence of steps, first step first. -/
def run_ops (P : Params) (w : World) : List Op → Option World
  | [] => some w
  | op :: rest =>
    match apply_op P w op with
    | none => none
    | some w1 => run_ops P w1 rest

/-- World `w` is reached from `svc_init`, next to some initial files, by a
sequence of steps. -/
def Reachable (P : Params) (w : World) : Prop :=
  ∃ fs0 ops, run_ops P { vc := svc_init P, fs := fs0 } ops = some w

/-- Name and current commit of every branch, in order. -/
def heads (vc : VersionControl) : List (CString × Option Nat) :=
  vc.branches.map (fun b => (b.name, b.commit))

/-- Parent list of every logged commit, in log order. -/
def parent_lists (vc : VersionControl) : List (List Nat) :=
  vc.commits.map (fun c => c.parent_commits)

/-- No two branches have the same name. -/
def BranchNamesUnique (vc : VersionControl) : Prop :=
  (vc.branches.map (fun b => b.name)).Nodup

/-- Every parent of the commit at log index `i` is an index below `i`, every
commit has at most two parents, and the current commit of every branch is
absent or an index of the log. -/
def CommitDag (vc : VersionControl) : Prop :=
  (∀ i c, vc.commits.get? i = some c → ∀ p ∈ c.parent_commits, p < i) ∧
    (∀ c ∈ vc.commits, c.parent_commits.length ≤ 2) ∧
    ∀ b ∈ vc.branches, ∀ k, b.commit = some k → k < vc.commits.length

/-- Commit `i` reaches commit `j` by following parent links along the list
of indices `path`, which starts at `i` and ends at `j`. -/
def ParentPath (vc : VersionControl) : Nat → List Nat → Nat → Prop
  | i, [], j => i = j
  | i, k :: rest, j =>
    (∃ c, vc.commits.get? i = some c ∧ k ∈ c.parent_commits) ∧ ParentPath vc k rest j

/-- What one step does to the names and current commits of the branches and
to the parent lists of the log: nothing; or the active branch is pointed to a
logged commit; or a commit whose parents are current commits of branches, at
most two, is appended and the active branch is pointed to it; or a branch with
a new name is appended with the current commit of the active branch. -/
def SkeletonStep (vc vc2 : VersionControl) : Prop :=
  (heads vc2 = heads vc ∧ parent_lists vc2 = parent_lists vc) ∨
    (∃ k, k < vc.commits.length ∧ parent_lists vc2 = parent_lists vc ∧
      heads vc2 = (heads vc).set vc.current_branch ((current vc).name, some k)) ∨
    (∃ ps : List Nat, (∀ p ∈ ps, ∃ b ∈ vc.branches, b.commit = some p) ∧ ps.length ≤ 2 ∧
      parent_lists vc2 = parent_lists vc ++ [ps] ∧
      heads vc2 = (heads vc).set vc.current_branch
        ((current vc).name, some vc.commits.length)) ∨
    (∃ n, (∀ b ∈ vc.branches, b.name ≠ n) ∧ parent_lists vc2 = parent_lists vc ∧
      heads vc2 = heads vc ++ [(n, (current vc).commit)])

/-- Commit `c2` has the id, message, parents, snapshot and record capacity of
`c`, and the records of `c` in some order. -/
def CommitKept (c c2 : Commit) : Prop :=
  c2.id = c.id ∧ c2.message = c.message ∧ c2.parent_commits = c.parent_commits ∧
    c2.snapshot = c.snapshot ∧ c2.record_len = c.record_len ∧
    c2.commit_record.Perm c.commit_record

/-- A value of C arithmetic stored in an `int` (32 bit): `none` when it does
not fit, which is a signed overflow. -/
def checkInt (x : Int) : Option Int :=
  if -2147483648 ≤ x ∧ x ≤ 2147483647 then some x else none

/-- One round of the path loop of `hash_and_copy_file`, with overflow
detection: `hash = (hash + file_path[i]) % 1000`. -/
def checked_path_step (hash : Option Int) (c : Nat) : Option Int :=
  hash.bind (fun h => (checkInt (h + charVal c)).map (fun s => Int.tmod s 1000))

/-- One round of the content loop of `hash_and_copy_file`, with overflow
detection: `hash = (hash + c) % 2000000000`. -/
def checked_content_step (hash : Option Int) (c : Nat) : Option Int :=
  hash.bind (fun h => (checkInt (h + (c : Int))).map (fun s => Int.tmod s 2000000000))

/-- The hash loops of `hash_and_copy_file` with overflow detection: `none`
when some intermediate value does not fit an `int`. -/
def checked_file_hash (path : CString) (contents : List Nat) : Option Int :=
  contents.foldl checked_content_step (path.foldl checked_path_step (some 0))

/-- Sum of a list of byte values. -/
def byte_sum (l : List Nat) : Int := (l.map Int.ofNat).sum

/-- Closed form of the file hash: the sum of the characters of the path
modulo 1000, plus the sum of the content bytes, modulo 2000000000. -/
def reference_file_hash (path : CString) (contents : List Nat) : Int :=
  (byte_sum path % 1000 + byte_sum contents) % 2000000000

/-- A value of C arithmetic stored in a `long long` (64 bit): `none` when it
does not fit, which is a signed overflow. -/
def checkLL (x : Int) : Option Int :=
  if -9223372036854775808 ≤ x ∧ x ≤ 9223372036854775807 then some x else none

/-- One round of the message loop of `generate_commit_id`, with overflow
detection. -/
def checked_id_message_step (id : Option Int) (c : Nat) : Option Int :=
  id.bind (fun v => (checkLL (v + charVal c)).map (fun s => Int.tmod s 1000))

/-- One round of the file name loop of `generate_commit_id`, with overflow
detection. -/
def checked_id_name_step (id : Option Int) (c : Nat) : Option Int :=
  id.bind (fun v =>
    (checkLL (v * Int.tmod (charVal c) 37)).bind (fun p =>
      checkLL (Int.tmod p 15485863 + 1)))

/-- One round of the record loop of `generate_commit_id`, with overflow
detection. -/
def checked_id_record_step (id : Option Int) (r : CommitRecord) : Option Int :=
  r.file_name.foldl checked_id_name_step
    (id.bind (fun v =>
      match r.change_type with
      | CommitChangeType.Add => checkLL (v + 376591)
      | CommitChangeType.Remove => checkLL (v + 85973)
      | CommitChangeType.Change => checkLL (v + 9573681)))

/-- The loops of `generate_commit_id` over sorted records with overflow
detection: `none` when some intermediate value does not fit a `long long`. -/
def checked_commit_id_number (message : CString) (records : List CommitRecord) :
    Option Int :=
  records.foldl checked_id_record_step (message.foldl checked_id_message_step (some 0))

/-- Snapshot entries of the first parent of the commit `c` (none when `c` has
no parent). -/
def first_parent_snapshot (vc : VersionControl) (c : Commit) : List FileSnapshot :=
  match c.parent_commits.head? with
  | none => []
  | some p =>
    match vc.commits.get? p with
    | none => []
    | some pc => pc.snapshot.file_snapshots

/-- Every Remove record of the commit `c` names a file that has an entry in
the snapshot of the first parent of `c`. -/
def RemoveRecordsCommitted (vc : VersionControl) (c : Commit) : Prop :=
  ∀ r ∈ c.commit_record, r.change_type = CommitChangeType.Remove →
    r.file_name ∈ (first_parent_snapshot vc c).map (fun e => e.name)

instance (vc : VersionControl) (c : Commit) : Decidable (RemoveRecordsCommitted vc c) := by
  unfold RemoveRecordsCommitted; infer_instance

/-- Paths of the roster entries that are not Deleted, in roster order. -/
def live_paths (files : List FileData) : List CString :=
  (files.filter (fun fd => fd.state ≠ FileState.Deleted)).map (fun fd => fd.file_path)

/-- No roster of any branch holds two entries with the same path that are
both other than Deleted. -/
def RosterPathsUnique (vc : VersionControl) : Prop :=
  ∀ b ∈ vc.branches, (live_paths b.files).Nodup

/-- File names of the snapshot of a commit, in snapshot order. -/
def snapshot_names (c : Commit) : List CString :=
  c.snapshot.file_snapshots.map (fun e => e.name)

/-- No snapshot of a logged commit holds the same file name twice. -/
def SnapshotNamesUnique (vc : VersionControl) : Prop :=
  ∀ c ∈ vc.commits, (snapshot_names c).Nodup

/-- Rosters and snapshots are free of repeated paths. -/
def PathsUnique (vc : VersionControl) : Prop :=
  RosterPathsUnique vc ∧ SnapshotNamesUnique vc

/-- From the roster of `b` to that of `b1` the capacity does not go down and a
count that was at most the capacity still is. -/
def Grown (b b1 : Branch) : Prop :=
  b.files_len ≤ b1.files_len ∧
    (b.files.length ≤ b.files_len → b1.files.length ≤ b1.files_len)

/-- From `vc` to `vc2` the active branch index is the same and the only branch
that may differ is the active one, whose roster has grown as `Grown` says. -/
def SetStep (vc vc2 : VersionControl) : Prop :=
  vc2.current_branch = vc.current_branch ∧
    ∃ b1, vc2.branches = vc.branches.set vc.current_branch b1 ∧ Grown (current vc) b1

/-- The active branch index is valid and the count of every roster is at most
its capacity. -/
def RosterFits (vc : VersionControl) : Prop :=
  vc.current_branch < vc.branches.length ∧ ∀ b ∈ vc.branches, b.files.length ≤ b.files_len

/-! ## Example data -/

/-- Modelled from the spec: the pattern `BRANCH_NAME_REGEX` of `params.h` is
not among the sources; a name is valid when it is non-empty and made of
characters in `[0-9a-zA-Z/_-]`. -/
def branch_name_syntax (name : CString) : Bool :=
  !name.isEmpty &&
    name.all (fun c => (48 ≤ c && c ≤ 57) || (97 ≤ c && c ≤ 122) || (65 ≤ c && c ≤ 90) ||
      c == 47 || c == 95 || c == 45)

/-- Sample values for the constants of `params.h`; blobs are kept under
`.svc/` followed by the hash in hexadecimal. -/
def exampleParams : Params :=
  { ARRAY_GROWTH_RATE := 2, INIT_BRANCHES_SIZE := 4, INIT_COMMIT_SIZE := 4,
    INIT_STAGING_SIZE := 4, INIT_SNAPSHOT_SIZE := 4,
    DEFAULT_BRANCH_NAME := cstr "master",
    svc_file_path := fun h => cstr ".svc/" ++ toHex h.toNat,
    BRANCH_NAME_REGEX := branch_name_syntax }

/-- Filesystem holding the single readable file `path` with bytes `contents`. -/
def singleFile (path : CString) (contents : List Nat) : FileSystem :=
  fun q => if q = path then some { readable := true, contents := contents } else none

/-- Commit built from the message `first` and the one record `Add a.txt`. -/
def exampleCommit : Commit :=
  { id := none, branch_id := 0, message := cstr "first",
    commit_record :=
      [{ file_name := cstr "a.txt", change_type := CommitChangeType.Add,
         hash_change := { old_hash := none, new_hash := some 615 } }],
    record_len := 1, parent_commits := [],
    snapshot := { file_snapshots := [], file_snapshots_len := 4 } }

/-- World after a call that may end the process; `w` when it did. -/
def worldAfter (r : Option (Int × World)) (w : World) : World :=
  match r with
  | some x => x.2
  | none => w

/-- Fresh engine next to the file `a.txt` with content `x`. -/
def exampleWorld0 : World :=
  { vc := svc_init exampleParams, fs := singleFile (cstr "a.txt") (cstr "x") }

/-- World after `svc_add("a.txt")` on the fresh engine. -/
def exampleWorld1 : World :=
  worldAfter (svc_add exampleParams exampleWorld0 (some (cstr "a.txt"))) exampleWorld0

/-- World after the further `svc_commit("first")`. -/
def exampleWorld2 : World :=
  (svc_commit exampleParams exampleWorld1 (some (cstr "first"))).2

/-- World after the content of `a.txt` was then changed to `y`. -/
def exampleWorld3 : World :=
  { vc := exampleWorld2.vc, fs := writeFile exampleWorld2.fs (cstr "a.txt") (cstr "y") }

/-- World after `svc_rm("a.txt")`, `svc_commit("second")` and a new
`svc_add("a.txt")` on top of `exampleWorld2`. -/
def exampleWorld4 : World :=
  let w4 := (svc_commit exampleParams (svc_rm exampleWorld2 (some (cstr "a.txt"))).2
    (some (cstr "second"))).2
  worldAfter (svc_add exampleParams w4 (some (cstr "a.txt"))) w4

/-- Fresh engine next to the empty file `dddddddddd`, whose hash is 0: the
characters of the path sum to 1000 and there is no content. -/
def zeroHashWorld : World :=
  { vc := svc_init exampleParams, fs := singleFile (cstr "dddddddddd") [] }

/-- World reached from `zeroHashWorld` by `svc_add("dddddddddd")`. -/
def zeroHashStagedWorld : World :=
  worldAfter (svc_add exampleParams zeroHashWorld (some (cstr "dddddddddd"))) zeroHashWorld

/-- Fresh engine next to the file `a.txt` that exists but cannot be opened
for reading. -/
def unreadableWorld : World :=
  { vc := svc_init exampleParams,
    fs := fun q => if q = cstr "a.txt" then some { readable := false, contents := cstr "x" }
      else none }

/-- World reached from `exampleWorld1` (the Staged `a.txt`, no commit yet) by
`svc_branch("dev")`. -/
def stagedBranchWorld : World := (svc_branch exampleParams exampleWorld1 (some (cstr "dev"))).2

/-- World reached on a fresh engine next to `a.txt` by `svc_branch("dev")`,
`svc_checkout("dev")`, `svc_add("a.txt")`, `svc_commit("first")` and
`svc_checkout("master")`: master is active and has no commit, dev has one. -/
def unbornMasterWorld : World :=
  let w1 := (svc_branch exampleParams exampleWorld0 (some (cstr "dev"))).2
  let w2 := worldAfter (svc_checkout exampleParams w1 (some (cstr "dev"))) w1
  let w3 := worldAfter (svc_add exampleParams w2 (some (cstr "a.txt"))) w2
  let w4 := (svc_commit exampleParams w3 (some (cstr "first"))).2
  worldAfter (svc_checkout exampleParams w4 (some (cstr "master"))) w4

/-- Filesystem with `a.txt` holding `x` and `b.txt` holding `z`. -/
def twoFiles : FileSystem :=
  fun q =>
    if q = cstr "a.txt" then some { readable := true, contents := cstr "x" }
    else if q = cstr "b.txt" then some { readable := true, contents := cstr "z" }
    else none

/-- World reached on a fresh engine next to `a.txt` and `b.txt` by
`svc_add("a.txt")`, `svc_commit("first")`, `svc_branch("dev")`,
`svc_checkout("dev")`, `svc_add("b.txt")`, `svc_commit("second")` and
`svc_checkout("master")`: master (active) and dev both have a commit. -/
def twoHeadsWorld : World :=
  let w0 : World := { vc := svc_init exampleParams, fs := twoFiles }
  let w1 := worldAfter (svc_add exampleParams w0 (some (cstr "a.txt"))) w0
  let w2 := (svc_commit exampleParams w1 (some (cstr "first"))).2
  let w3 := (svc_branch exampleParams w2 (some (cstr "dev"))).2
  let w4 := worldAfter (svc_checkout exampleParams w3 (some (cstr "dev"))) w3
  let w5 := worldAfter (svc_add exampleParams w4 (some (cstr "b.txt"))) w4
  let w6 := (svc_commit exampleParams w5 (some (cstr "second"))).2
  worldAfter (svc_checkout exampleParams w6 (some (cstr "master"))) w6

/-- Filesystem with `a.txt` holding `b` and `b.txt` holding `a`: the two
files have different contents and the same hash, 593. -/
def swappedFiles : FileSystem :=
  fun q =>
    if q = cstr "a.txt" then some { readable := true, contents := cstr "b" }
    else if q = cstr "b.txt" then some { readable := true, contents := cstr "a" }
    else none

/-- World reached on a fresh engine next to the files of `swappedFiles` by
`svc_add("a.txt")` and `svc_add("b.txt")`. -/
def collisionWorld : World :=
  let w0 : World := { vc := svc_init exampleParams, fs := swappedFiles }
  let w1 := worldAfter (svc_add exampleParams w0 (some (cstr "a.txt"))) w0
  worldAfter (svc_add exampleParams w1 (some (cstr "b.txt"))) w1

/-- Commit `443094` that `svc_commit("first")` logs in `exampleWorld1`: its
snapshot names `a.txt` with hash 615. -/
def firstCommit : Commit :=
  { exampleCommit with
    id := some (cstr "443094"),
    snapshot := { file_snapshots := [{ name := cstr "a.txt", hash := 615 }],
                  file_snapshots_len := 4 } }

/-- World reached from `exampleWorld3` (commit `443094` of `a.txt` holding `x`,
then `a.txt` rewritten to `y`) by `svc_commit("second")` and by rewriting
`a.txt` to `z`. -/
def editedWorld : World :=
  let w4 := (svc_commit exampleParams exampleWorld3 (some (cstr "second"))).2
  { vc := w4.vc, fs := writeFile w4.fs (cstr "a.txt") (cstr "z") }

/-- World reached from `exampleWorld1` (the Staged `a.txt`) when `a.txt` is
removed from the working tree. -/
def missingStagedWorld : World :=
  { vc := exampleWorld1.vc, fs := removeFile exampleWorld1.fs (cstr "a.txt") }

/-- World reached from `unbornMasterWorld` (master active without a commit,
dev with the commit `443094` of `a.txt`) by `svc_add("a.txt")`: the roster of
master holds the Staged `a.txt`. -/
def stagedUnbornWorld : World :=
  worldAfter (svc_add exampleParams unbornMasterWorld (some (cstr "a.txt"))) unbornMasterWorld

/-- World reached from `stagedUnbornWorld` when `a.txt` is removed from the
working tree. -/
def stagedGoneWorld : World :=
  { vc := stagedUnbornWorld.vc, fs := removeFile stagedUnbornWorld.fs (cstr "a.txt") }

/-- World reached on a fresh engine next to `a.txt` and `b.txt` by
`svc_add("a.txt")`, `svc_commit("first")`, a change of `a.txt`,
`svc_add("b.txt")` and `svc_commit("second")`: the second commit, `418aa2`,
holds the records Change `a.txt` and Add `b.txt`, in this order. -/
def mixedRecordsWorld : World :=
  let w0 : World := { vc := svc_init exampleParams, fs := twoFiles }
  let w1 := worldAfter (svc_add exampleParams w0 (some (cstr "a.txt"))) w0
  let w2 := (svc_commit exampleParams w1 (some (cstr "first"))).2
  let w3 : World := { vc := w2.vc, fs := writeFile w2.fs (cstr "a.txt") (cstr "y") }
  let w4 := worldAfter (svc_add exampleParams w3 (some (cstr "b.txt"))) w3
  (svc_commit exampleParams w4 (some (cstr "second"))).2

/-- Commit with the message `first` and the records Change `a.txt`, Add
`b.txt`, in this order. -/
def commitAB : Commit :=
  { exampleCommit with
    commit_record :=
      [{ file_name := cstr "a.txt", change_type := CommitChangeType.Change,
         hash_change := { old_hash := some 615, new_hash := some 616 } },
       { file_name := cstr "b.txt", change_type := CommitChangeType.Add,
         hash_change := { old_hash := none, new_hash := some 618 } }] }

/-- Commit with the message `first` and the records of `commitAB` in the
other order. -/
def commitBA : Commit :=
  { exampleCommit with
    commit_record :=
      [{ file_name := cstr "b.txt", change_type := CommitChangeType.Add,
         hash_change := { old_hash := none, new_hash := some 618 } },
       { file_name := cstr "a.txt", change_type := CommitChangeType.Change,
         hash_change := { old_hash := some 615, new_hash := some 616 } }] }

/-- World reached from `unreadableWorld` (the file `a.txt` exists but cannot
be opened) by `svc_add("a.txt")`, which stages the file. -/
def unreadableStagedWorld : World :=
  worldAfter (svc_add exampleParams unreadableWorld (some (cstr "a.txt"))) unreadableWorld

/-- World after the further `svc_commit("first")`. -/
def unreadableCommittedWorld : World :=
  (svc_commit exampleParams unreadableStagedWorld (some (cstr "first"))).2

/-- World reached from `missingStagedWorld` (the Staged `a.txt` is gone from
the working tree, nothing was committed) by `svc_commit("m1")`, which records
nothing, and `svc_commit("m2")`. -/
def removedUncommittedWorld : World :=
  (svc_commit exampleParams
    (svc_commit exampleParams missingStagedWorld (some (cstr "m1"))).2
    (some (cstr "m2"))).2

/-- World reached from `zeroHashWorld` (the file `dddddddddd` has hash 0) by
`svc_add`, `svc_commit("m1")`, `svc_rm` and `svc_commit("m2")`. -/
def removedZeroHashWorld : World :=
  (svc_commit exampleParams
    (svc_rm
      (svc_commit exampleParams
        zeroHashStagedWorld
        (some (cstr "m1"))).2
      (some (cstr "dddddddddd"))).2
    (some (cstr "m2"))).2

/-- World reached from `exampleWorld2` (`a.txt` committed) by `svc_rm("a.txt")`
and `svc_add("a.txt")`: the roster holds `a.txt` twice, once Deleted and once
Staged. -/
def readdedWorld : World :=
  let w3 := (svc_rm exampleWorld2 (some (cstr "a.txt"))).2
  worldAfter (svc_add exampleParams w3 (some (cstr "a.txt"))) w3

/-- Working tree with the five readable files `a.txt` to `e.txt`. -/
def fiveFiles : FileSystem :=
  fun q =>
    if q ∈ [cstr "a.txt", cstr "b.txt", cstr "c.txt", cstr "d.txt", cstr "e.txt"] then
      some { readable := true, contents := cstr "x" }
    else none

/-- World reached on a fresh engine next to `fiveFiles` by `svc_add` of
`a.txt`, `b.txt`, `c.txt` and `d.txt`: the roster of master is full. -/
def fourAddedWorld : World :=
  let w0 : World := { vc := svc_init exampleParams, fs := fiveFiles }
  let w1 := worldAfter (svc_add exampleParams w0 (some (cstr "a.txt"))) w0
  let w2 := worldAfter (svc_add exampleParams w1 (some (cstr "b.txt"))) w1
  let w3 := worldAfter (svc_add exampleParams w2 (some (cstr "c.txt"))) w2
  worldAfter (svc_add exampleParams w3 (some (cstr "d.txt"))) w3

/-- World after the further `svc_add("e.txt")`. -/
def fiveAddedWorld : World :=
  worldAfter (svc_add exampleParams fourAddedWorld (some (cstr "e.txt"))) fourAddedWorld

/-- World reached from `exampleWorld2` (`a.txt` committed) by `svc_rm("a.txt")`
and `svc_commit("second")`: the head commit `725200` has an empty snapshot. -/
def emptiedWorld : World :=
  (svc_commit exampleParams (svc_rm exampleWorld2 (some (cstr "a.txt"))).2
    (some (cstr "second"))).2

/-- World after the further `svc_reset("725200")`. -/
def resetEmptyWorld : World :=
  worldAfter (svc_reset exampleParams emptiedWorld (some (cstr "725200"))) emptiedWorld

/-- World reached from `exampleWorld2` by `svc_reset("443094")`. -/
def resetFirstWorld : World :=
  worldAfter (svc_reset exampleParams exampleWorld2 (some (cstr "443094"))) exampleWorld2

/-- Working tree with `a.txt` holding `x` and `.svc/268`, a path of the
content store, holding `z`. -/
def storePathFiles : FileSystem :=
  fun q =>
    if q = cstr "a.txt" then some { readable := true, contents := cstr "x" }
    else if q = cstr ".svc/268" then some { readable := true, contents := cstr "z" }
    else none

/-- World reached on a fresh engine next to `storePathFiles` by
`svc_add("a.txt")`, `svc_add(".svc/268")` and `svc_commit("first")`. -/
def storePathCommittedWorld : World :=
  let w0 : World := { vc := svc_init exampleParams, fs := storePathFiles }
  let w1 := worldAfter (svc_add exampleParams w0 (some (cstr "a.txt"))) w0
  let w2 := worldAfter (svc_add exampleParams w1 (some (cstr ".svc/268"))) w1
  (svc_commit exampleParams w2 (some (cstr "first"))).2

/-- World reached from `storePathCommittedWorld` when `.svc/268` is removed
from disk and `a.txt` is rewritten to `y`, whose hash is 616, in hexadecimal
268. -/
def storePathWorld : World :=
  { vc := storePathCommittedWorld.vc,
    fs := writeFile (removeFile storePathCommittedWorld.fs (cstr ".svc/268"))
      (cstr "a.txt") (cstr "y") }

/-- World reached from `exampleWorld2` (`a.txt` committed, its blob stored in
`.svc/267`) by `svc_add(".svc/267")` and `svc_commit("second")`: the snapshot
of the head commit `bf808e` names `a.txt` and `.svc/267`, in this order. -/
def blobTrackedWorld : World :=
  let w3 := worldAfter (svc_add exampleParams exampleWorld2 (some (cstr ".svc/267")))
    exampleWorld2
  (svc_commit exampleParams w3 (some (cstr "second"))).2

/-- World reached from `blobTrackedWorld` when `.svc/267` is rewritten to
`q`. -/
def blobRewrittenWorld : World :=
  { vc := blobTrackedWorld.vc,
    fs := writeFile blobTrackedWorld.fs (cstr ".svc/267") (cstr "q") }

/-- World after `svc_reset("bf808e")` in `blobRewrittenWorld`. -/
def blobResetOnceWorld : World :=
  worldAfter (svc_reset exampleParams blobRewrittenWorld (some (cstr "bf808e")))
    blobRewrittenWorld

/-- World after a second `svc_reset("bf808e")`. -/
def blobResetTwiceWorld : World :=
  worldAfter (svc_reset exampleParams blobResetOnceWorld (some (cstr "bf808e")))
    blobResetOnceWorld

/-- Working tree with `a.txt`, `b.txt` and `.svc/268`, a path of the content
store, all holding `x`; the hash of `b.txt` is 616, in hexadecimal 268. -/
def storeAliasFiles : FileSystem :=
  fun q =>
    if q ∈ [cstr "a.txt", cstr "b.txt", cstr ".svc/268"] then
      some { readable := true, contents := cstr "x" }
    else none

/-- World reached on a fresh engine next to `storeAliasFiles` by
`svc_branch("dev")`, `svc_checkout("dev")`, `svc_add("a.txt")`,
`svc_commit("first")`, `svc_add(".svc/267")`, `svc_add(".svc/268")`,
`svc_add("b.txt")`, `svc_commit("second")` and `svc_checkout("master")`: the
snapshot of the head of dev names `a.txt`, `.svc/267`, `.svc/268` and `b.txt`,
in this order, and master is active without a commit. -/
def storeAliasWorld : World :=
  let w0 : World := { vc := svc_init exampleParams, fs := storeAliasFiles }
  let w1 := (svc_branch exampleParams w0 (some (cstr "dev"))).2
  let w2 := worldAfter (svc_checkout exampleParams w1 (some (cstr "dev"))) w1
  let w3 := worldAfter (svc_add exampleParams w2 (some (cstr "a.txt"))) w2
  let w4 := (svc_commit exampleParams w3 (some (cstr "first"))).2
  let w5 := worldAfter (svc_add exampleParams w4 (some (cstr ".svc/267"))) w4
  let w6 := worldAfter (svc_add exampleParams w5 (some (cstr ".svc/268"))) w5
  let w7 := worldAfter (svc_add exampleParams w6 (some (cstr "b.txt"))) w6
  let w8 := (svc_commit exampleParams w7 (some (cstr "second"))).2
  worldAfter (svc_checkout exampleParams w8 (some (cstr "master"))) w8

/-- World reached from `storeAliasWorld` when `.svc/267` and `.svc/268` are
rewritten to `q`. -/
def storeRewrittenWorld : World :=
  { vc := storeAliasWorld.vc,
    fs := writeFile (writeFile storeAliasWorld.fs (cstr ".svc/267") (cstr "q"))
      (cstr ".svc/268") (cstr "q") }

/-- World after `svc_checkout("dev")` in `storeRewrittenWorld`. -/
def storeCheckedOutWorld : World :=
  worldAfter (svc_checkout exampleParams storeRewrittenWorld (some (cstr "dev")))
    storeRewrittenWorld

/-! # Verified properties -/

/-! ## Arithmetic of `generate_commit_id` -/

theorem wrapLL_eq_self (x : Int) (h1 : -9223372036854775808 ≤ x)
    (h2 : x < 9223372036854775808) : wrapLL x = x := by
  unfold wrapLL
  omega

theorem charVal_of_ascii (c : Nat) (h : isAscii c) : charVal c = (c : Int) := by
  unfold isAscii at h
  unfold charVal
  simp [h.2]

theorem id_name_step_eq (id : Int) (c : Nat) (h0 : 0 ≤ id)
    (h1 : id ≤ 95736810015485863) (hc : isAscii c) :
    id_name_step id c = reference_name_step id c ∧
      1 ≤ id_name_step id c ∧ id_name_step id c ≤ 15485863 := by
  have hc2 := hc
  unfold isAscii at hc2
  have hk0 : 0 ≤ (c : Int) % 37 := Int.emod_nonneg _ (by omega)
  have hk1 : (c : Int) % 37 ≤ 36 := by omega
  have hp0 : 0 ≤ id * ((c : Int) % 37) := mul_nonneg h0 hk0
  have hp1 : id * ((c : Int) % 37) ≤ 95736810015485863 * 36 :=
    mul_le_mul h1 hk1 hk0 (by norm_num)
  have hm0 := Int.emod_nonneg (id * ((c : Int) % 37)) (show (15485863 : Int) ≠ 0 by norm_num)
  have hm1 := Int.emod_lt_of_pos (id * ((c : Int) % 37)) (show (0 : Int) < 15485863 by norm_num)
  have t1 : Int.tmod (c : Int) 37 = (c : Int) % 37 :=
    Int.tmod_eq_emod (by omega) (by omega)
  have t2 : Int.tmod (id * ((c : Int) % 37)) 15485863 = (id * ((c : Int) % 37)) % 15485863 :=
    Int.tmod_eq_emod hp0 (by omega)
  unfold id_name_step reference_name_step
  rw [charVal_of_ascii c hc, t1,
    wrapLL_eq_self (id * ((c : Int) % 37)) (by omega) (by omega), t2,
    wrapLL_eq_self _ (by omega) (by omega)]
  omega

theorem hexDigit_isLowerHex (d : Nat) (h : d < 16) : isLowerHex (hexDigit d) := by
  unfold isLowerHex hexDigit
  split <;> omega

theorem hexAux_isLowerHex (fuel : Nat) :
    ∀ (n : Nat) (acc : CString), (∀ x ∈ acc, isLowerHex x) →
      ∀ x ∈ hexAux fuel n acc, isLowerHex x := by
  induction fuel with
  | zero => intro n acc hacc x hx; exact hacc x hx
  | succ fuel ih =>
    intro n acc hacc x hx
    unfold hexAux at hx
    split at hx
    · rename_i hlt
      rcases List.mem_cons.1 hx with h | h
      · rw [h]; exact hexDigit_isLowerHex n hlt
      · exact hacc x h
    · refine ih (n / 16) _ ?_ x hx
      intro y hy
      rcases List.mem_cons.1 hy with h | h
      · rw [h]; exact hexDigit_isLowerHex _ (Nat.mod_lt _ (by norm_num))
      · exact hacc y h

theorem hexAux_length_le (fuel : Nat) :
    ∀ (n : Nat) (acc : CString) (k : Nat), n < 16 ^ (k + 1) →
      (hexAux fuel n acc).length ≤ acc.length + (k + 1) := by
  induction fuel with
  | zero => intro n acc k _; simp [hexAux]
  | succ fuel ih =>
    intro n acc k hn
    unfold hexAux
    split
    · simp
    · rename_i hge
      cases k with
      | zero => simp at hn; omega
      | succ k =>
        have hdiv : n / 16 < 16 ^ (k + 1) := by
          rw [Nat.div_lt_iff_lt_mul (by norm_num)]
          calc n < 16 ^ (k + 1 + 1) := hn
            _ = 16 ^ (k + 1) * 16 := by ring
        have := ih (n / 16) (hexDigit (n % 16) :: acc) k hdiv
        simp only [List.length_cons] at this
        omega

theorem snprintf_06llx_length (v : Int) : 6 ≤ (snprintf_06llx 16 v).length := by
  unfold snprintf_06llx
  rw [List.length_take, List.leftpad_length]
  omega

theorem snprintf_06llx_isLowerHex (v : Int) : ∀ ch ∈ snprintf_06llx 16 v, isLowerHex ch := by
  intro ch hch
  unfold snprintf_06llx at hch
  have h1 := List.mem_of_mem_take hch
  unfold List.leftpad at h1
  rcases List.mem_append.1 h1 with h | h
  · rw [(List.mem_replicate.1 h).2]
    unfold isLowerHex
    omega
  · exact hexAux_isLowerHex _ _ [] (by simp) ch h

theorem snprintf_06llx_of_small (v : Int) (h0 : 0 ≤ v) (h1 : v < 1152921504606846976) :
    snprintf_06llx 16 v = List.leftpad 6 48 (toHex v.toNat) := by
  unfold snprintf_06llx
  rw [Int.emod_eq_of_lt h0 (by omega)]
  apply List.take_of_length_le
  rw [List.leftpad_length]
  have hlen := hexAux_length_le (v.toNat + 1) v.toNat [] 14 (by norm_num; omega)
  simp only [List.length_nil] at hlen
  unfold toHex
  omega

theorem hexDigitValue_hexDigit (d : Nat) (h : d < 16) : hexDigitValue (hexDigit d) = d := by
  unfold hexDigitValue hexDigit
  split <;> split <;> omega

theorem hexAux_append (fuel : Nat) :
    ∀ (n : Nat) (acc : CString), hexAux fuel n acc = hexAux fuel n [] ++ acc := by
  induction fuel with
  | zero => intro n acc; simp [hexAux]
  | succ fuel ih =>
    intro n acc
    unfold hexAux
    split
    · simp
    · rw [ih (n / 16) (hexDigit (n % 16) :: acc), ih (n / 16) [hexDigit (n % 16)]]
      simp

theorem hexAux_value (fuel : Nat) :
    ∀ n : Nat, n < fuel → hexValue (hexAux fuel n []) = n := by
  induction fuel with
  | zero => intro n h; omega
  | succ fuel ih =>
    intro n hn
    unfold hexAux
    split
    · rename_i hlt
      simp [hexValue, hexDigitValue_hexDigit n hlt]
    · have hdiv : n / 16 < fuel := by omega
      have hrec := ih (n / 16) hdiv
      unfold hexValue at hrec ⊢
      rw [hexAux_append, List.foldl_append, hrec]
      simp only [List.foldl_cons, List.foldl_nil,
        hexDigitValue_hexDigit _ (Nat.mod_lt n (by norm_num : 16 > 0))]
      omega

theorem hexValue_toHex (n : Nat) : hexValue (toHex n) = n :=
  hexAux_value (n + 1) n (by omega)

/-! ## The commit id (C1, C2) -/

theorem resize_commit_record_fields (P : Params) (c : Commit) :
    (resize_commit_record P c).commit_record = c.commit_record ∧
      (resize_commit_record P c).snapshot = c.snapshot ∧
      (resize_commit_record P c).parent_commits = c.parent_commits ∧
      (resize_commit_record P c).branch_id = c.branch_id ∧
      (resize_commit_record P c).message = c.message ∧
      (resize_commit_record P c).id = c.id := by
  unfold resize_commit_record
  split <;> simp

theorem commit_entry_fields (P : Params) (fs : FileSystem) (c : Commit) (fd : FileData) :
    (commit_entry P fs c fd).1.parent_commits = c.parent_commits ∧
      (commit_entry P fs c fd).1.branch_id = c.branch_id ∧
      (commit_entry P fs c fd).1.message = c.message ∧
      (commit_entry P fs c fd).1.id = c.id := by
  obtain ⟨_, _, h3, h4, h5, h6⟩ := resize_commit_record_fields P c
  unfold commit_entry
  cases fd.state
  · simp only [commit_tracked_file, commit_deleted_file]
    split
    · simp [h3, h4, h5, h6]
    · split <;> simp [h3, h4, h5, h6]
  · simp only [commit_staged_file]
    split <;> simp [h3, h4, h5, h6]
  · simp [commit_deleted_file, h3, h4, h5, h6]

theorem commit_files_fields (P : Params) (files : List FileData) :
    ∀ (fs : FileSystem) (c : Commit),
      (commit_files P fs c files).1.parent_commits = c.parent_commits ∧
        (commit_files P fs c files).1.branch_id = c.branch_id ∧
        (commit_files P fs c files).1.message = c.message ∧
        (commit_files P fs c files).1.id = c.id := by
  induction files with
  | nil => intro fs c; simp [commit_files]
  | cons fd rest ih =>
    intro fs c
    obtain ⟨a1, a2, a3, a4⟩ := commit_entry_fields P fs c fd
    obtain ⟨b1, b2, b3, b4⟩ :=
      ih (commit_entry P fs c fd).2.1 (commit_entry P fs c fd).1
    simp only [commit_files]
    exact ⟨b1.trans a1, b2.trans a2, b3.trans a3, b4.trans a4⟩

theorem svc_commit_none_iff (P : Params) (w : World) (m : CString) :
    (svc_commit P w (some m)).1 = none ↔ (svc_commit_loop P w m).1.commit_record = [] := by
  unfold svc_commit svc_commit_loop
  simp only [init_commit]
  split
  · rename_i h
    simp [List.length_eq_zero.1 h]
  · rename_i h
    simp only [List.length_eq_zero] at h
    simp [h]

theorem svc_commit_success (P : Params) (w : World) (m : Option CString) (id : CString)
    (h : (svc_commit P w m).1 = some id) :
    ∃ msg, m = some msg ∧ (svc_commit_loop P w msg).1.commit_record ≠ [] ∧
      id = (generate_commit_id (svc_commit_loop P w msg).1).1 ∧
      (svc_commit P w m).2.vc.commits = w.vc.commits ++
        [{ (generate_commit_id (svc_commit_loop P w msg).1).2 with
            id := some id,
            parent_commits :=
              match (current w.vc).commit with
              | some p => [p]
              | none => [] }] ∧
      (svc_commit P w m).2.vc.branches = w.vc.branches.set w.vc.current_branch
        (clean_branch_files
          { current w.vc with
            files := (svc_commit_loop P w msg).2.2, commit := some w.vc.commits.length }) ∧
      (svc_commit P w m).2.vc.current_branch = w.vc.current_branch ∧
      (svc_commit P w m).2.fs = (svc_commit_loop P w msg).2.1 := by
  cases m with
  | none => simp [svc_commit] at h
  | some msg =>
    refine ⟨msg, rfl, ?_⟩
    have hne : (svc_commit_loop P w msg).1.commit_record ≠ [] := by
      intro hnil
      rw [(svc_commit_none_iff P w msg).2 hnil] at h
      exact Option.noConfusion h
    have hpar : (svc_commit_loop P w msg).1.parent_commits = [] :=
      (commit_files_fields P _ _ _).1
    have hlen : ¬ (svc_commit_loop P w msg).1.commit_record.length = 0 := by
      simpa [List.length_eq_zero] using hne
    unfold svc_commit at h ⊢
    simp only [init_commit] at h ⊢
    unfold svc_commit_loop at hne hlen hpar ⊢
    rw [if_neg hlen] at h ⊢
    simp only [Option.some.injEq] at h
    subst h
    refine ⟨hne, rfl, ?_, rfl, rfl, rfl⟩
    simp only [setCurrent, generate_commit_id, hpar]

theorem strcmp_self (a : CString) : strcmp a a = 0 := by
  induction a with
  | nil => rfl
  | cons x xs ih => simp [strcmp, ih]

theorem get_commit_loop_last (cs : List Commit) (c : Commit) (id : CString)
    (hc : c.id = some id) :
    get_commit_loop (cs ++ [c]) id (cs.length + 1) = some cs.length := by
  have hget : (cs ++ [c]).get? cs.length = some c := by simp
  simp only [get_commit_loop, hget, hc, strcmp_self, if_true]

theorem current_files_ne_nil (vc : VersionControl) (h : (current vc).files ≠ []) :
    vc.current_branch < vc.branches.length := by
  by_contra hge
  apply h
  unfold current
  rw [List.get?_eq_none.2 (by omega)]
  rfl

theorem current_of_set (vc vc2 : VersionControl) (b : Branch)
    (hb : vc2.branches = vc.branches.set vc.current_branch b)
    (hc : vc2.current_branch = vc.current_branch)
    (hlt : vc.current_branch < vc.branches.length) : current vc2 = b := by
  unfold current
  rw [hb, hc]
  simp [hlt]

theorem svc_commit_loop_in_range (P : Params) (w : World) (m : CString)
    (h : (svc_commit_loop P w m).1.commit_record ≠ []) :
    w.vc.current_branch < w.vc.branches.length := by
  apply current_files_ne_nil
  intro hnil
  apply h
  unfold svc_commit_loop
  rw [hnil]
  rfl

/-- C2: whenever `svc_commit` records at least one change, that is whenever
it returns an id, the id has at least 6 characters and each of them is one of
`0-9`, `a-f`. -/
theorem svc_commit_id_format (P : Params) (w : World) (m : Option CString) (id : CString)
    (h : (svc_commit P w m).1 = some id) : 6 ≤ id.length ∧ ∀ ch ∈ id, isLowerHex ch := by
  obtain ⟨msg, _, _, hid, _⟩ := svc_commit_success P w m id h
  rw [hid]
  unfold generate_commit_id
  exact ⟨snprintf_06llx_length _, snprintf_06llx_isLowerHex _⟩

/-- Witness for C2: committing the staged `a.txt` with message `first`
returns `443094`. -/
theorem svc_commit_id_format_witness :
    (svc_commit exampleParams exampleWorld1 (some (cstr "first"))).1 = some (cstr "443094") ∧
      (6 ≤ (cstr "443094").length ∧ ∀ ch ∈ cstr "443094", isLowerHex ch) :=
  ⟨by decide,
    svc_commit_id_format exampleParams exampleWorld1 (some (cstr "first")) (cstr "443094")
      (by decide)⟩

/-- C3: if `svc_commit` returns an id, then `get_commit` with that id in the
resulting state returns the commit just created, which is the last element of
the commit log, whatever ids the older commits have. -/
theorem get_commit_after_svc_commit (P : Params) (w : World) (m : Option CString)
    (id : CString) (h : (svc_commit P w m).1 = some id) :
    ∃ c, (svc_commit P w m).2.vc.commits = w.vc.commits ++ [c] ∧ c.id = some id ∧
      get_commit (svc_commit P w m).2.vc (some id) = some w.vc.commits.length ∧
      (svc_commit P w m).2.vc.commits.get? w.vc.commits.length = some c := by
  obtain ⟨msg, _, _, _, hlog, _⟩ := svc_commit_success P w m id h
  refine ⟨_, hlog, rfl, ?_, ?_⟩
  · unfold get_commit
    simp only [hlog, List.length_append, List.length_singleton]
    exact get_commit_loop_last _ _ _ rfl
  · rw [hlog]
    simp

/-- Witness for C3: in `exampleWorld4` the log already holds a commit with id
`443094` at index 0; the new commit gets the same id and `get_commit` returns
the new one, at index 2. -/
theorem get_commit_after_svc_commit_witness :
    (exampleWorld4.vc.commits.get? 0).map (fun c => c.id) = some (some (cstr "443094")) ∧
      exampleWorld4.vc.commits.length = 2 ∧
      ∃ c, (svc_commit exampleParams exampleWorld4 (some (cstr "first"))).2.vc.commits =
          exampleWorld4.vc.commits ++ [c] ∧ c.id = some (cstr "443094") ∧
        get_commit (svc_commit exampleParams exampleWorld4 (some (cstr "first"))).2.vc
          (some (cstr "443094")) = some exampleWorld4.vc.commits.length ∧
        (svc_commit exampleParams exampleWorld4 (some (cstr "first"))).2.vc.commits.get?
          exampleWorld4.vc.commits.length = some c :=
  ⟨by decide, by decide,
    get_commit_after_svc_commit exampleParams exampleWorld4 (some (cstr "first"))
      (cstr "443094") (by decide)⟩

/-! ## The roster loop of `svc_commit` -/

theorem new_file_snapshot_fs (P : Params) (fs : FileSystem) (ss : Option Snapshot)
    (name : Option CString) (hash : Int) (fc : Option (List Nat)) :
    (new_file_snapshot P fs ss name hash fc).2.2 = fs ∨
      ∃ c, (new_file_snapshot P fs ss name hash fc).2.2 =
          writeFile fs (P.svc_file_path hash) c ∧ fs (P.svc_file_path hash) = none := by
  unfold new_file_snapshot
  split
  · split
    · exact Or.inl rfl
    · simp only
      split
      · exact Or.inl rfl
      · rename_i hacc
        refine Or.inr ⟨_, rfl, ?_⟩
        simpa [access] using hacc
  · exact Or.inl rfl

theorem commit_entry_fs (P : Params) (fs : FileSystem) (c : Commit) (fd : FileData) :
    (commit_entry P fs c fd).2.1 = fs ∨
      ∃ h b, (commit_entry P fs c fd).2.1 = writeFile fs (P.svc_file_path h) b ∧
        fs (P.svc_file_path h) = none := by
  unfold commit_entry
  cases fd.state
  · simp only
    split
    · exact Or.inl rfl
    · simp only [commit_tracked_file]
      rcases new_file_snapshot_fs P fs _ _ _ _ with h | ⟨b, h1, h2⟩
      · exact Or.inl h
      · exact Or.inr ⟨_, b, h1, h2⟩
  · simp only
    split
    · exact Or.inl rfl
    · simp only [commit_staged_file]
      rcases new_file_snapshot_fs P fs _ _ _ _ with h | ⟨b, h1, h2⟩
      · exact Or.inl h
      · exact Or.inr ⟨_, b, h1, h2⟩
  · exact Or.inl rfl

theorem commit_entry_fsExtends (P : Params) (fs0 fs : FileSystem) (c : Commit)
    (fd : FileData) (h : FsExtends fs0 fs) : FsExtends fs0 (commit_entry P fs c fd).2.1 := by
  rcases commit_entry_fs P fs c fd with e | ⟨x, b, e, hnone⟩
  · rw [e]; exact h
  · rw [e]
    intro p f hp
    have hfs := h p f hp
    unfold writeFile
    have hne : p ≠ P.svc_file_path x := by
      intro heq
      rw [heq, hnone] at hfs
      exact Option.noConfusion hfs
    simp [hne, hfs]

theorem commit_entry_agreeOffStore (P : Params) (fs0 fs : FileSystem) (c : Commit)
    (fd : FileData) (h : AgreeOffStore P fs0 fs) :
    AgreeOffStore P fs0 (commit_entry P fs c fd).2.1 := by
  rcases commit_entry_fs P fs c fd with e | ⟨x, b, e, _⟩
  · rw [e]; exact h
  · rw [e]
    intro p hp
    unfold writeFile
    have hne : p ≠ P.svc_file_path x := fun heq => hp x heq.symm
    simp [hne, h p hp]

theorem expected_congr (fs fs2 : FileSystem) (fd : FileData)
    (h : fs2 fd.file_path = fs fd.file_path) :
    expected_record fs2 fd = expected_record fs fd ∧
      expected_entry fs2 fd = expected_entry fs fd := by
  unfold expected_record expected_entry current_hash hash_and_copy_file access
  rw [h]
  exact ⟨rfl, rfl⟩

theorem commit_entry_spec (P : Params) (fs : FileSystem) (c : Commit) (fd : FileData) :
    (commit_entry P fs c fd).1.commit_record =
        c.commit_record ++ (expected_record fs fd).toList ∧
      (commit_entry P fs c fd).2.2 = expected_entry fs fd := by
  obtain ⟨hr, _⟩ := resize_commit_record_fields P c
  unfold commit_entry expected_record expected_entry current_hash
  cases fd.state
  · simp only
    by_cases hacc : access fs fd.file_path = true
    · simp only [hacc, commit_tracked_file]
      by_cases hh : (hash_and_copy_file fs fd.file_path true).1 = fd.previous_hash
      · simp [hh]
      · simp [hh, hr]
    · simp [hacc, commit_deleted_file, hr]
  · simp only
    by_cases hacc : access fs fd.file_path = true
    · simp [hacc, commit_staged_file, hr]
    · simp [hacc]
  · simp [commit_deleted_file, hr]

theorem commit_files_spec (P : Params) (fs0 : FileSystem) (Inv : FileSystem → Prop)
    (hstep : ∀ fs c fd, Inv fs → Inv (commit_entry P fs c fd).2.1)
    (files : List FileData) :
    ∀ (fs : FileSystem) (c : Commit), Inv fs →
      (∀ fs1, Inv fs1 → ∀ fd ∈ files, fs1 fd.file_path = fs0 fd.file_path) →
      (commit_files P fs c files).1.commit_record =
          c.commit_record ++ files.filterMap (expected_record fs0) ∧
        (commit_files P fs c files).2.2 = files.map (expected_entry fs0) ∧
        Inv (commit_files P fs c files).2.1 := by
  induction files with
  | nil => intro fs c hinv _; simp [commit_files, hinv]
  | cons fd rest ih =>
    intro fs c hinv hagree
    obtain ⟨e1, e2⟩ := commit_entry_spec P fs c fd
    obtain ⟨g1, g2⟩ := expected_congr fs0 fs fd (hagree fs hinv fd (by simp))
    obtain ⟨i1, i2, i3⟩ := ih (commit_entry P fs c fd).2.1 (commit_entry P fs c fd).1
      (hstep fs c fd hinv) (fun fs1 h1 x hx => hagree fs1 h1 x (by simp [hx]))
    simp only [commit_files]
    refine ⟨?_, ?_, i3⟩
    · rw [i1, e1, g1, List.filterMap_cons]
      cases expected_record fs0 fd <;> simp
    · rw [i2, e2, g2, List.map_cons]

theorem svc_commit_noop (P : Params) (w : World) (m : CString)
    (h : (svc_commit_loop P w m).1.commit_record = []) :
    (svc_commit P w (some m)).2.vc.commits = w.vc.commits ∧
      (svc_commit P w (some m)).2.vc.branches = w.vc.branches.set w.vc.current_branch
        { current w.vc with files := (svc_commit_loop P w m).2.2 } ∧
      (svc_commit P w (some m)).2.vc.current_branch = w.vc.current_branch := by
  unfold svc_commit_loop at h
  unfold svc_commit
  simp only [init_commit]
  rw [if_pos (by simp [h])]
  exact ⟨rfl, rfl, rfl⟩

theorem current_files_of_set (vc vc2 : VersionControl) (b : Branch)
    (hb : vc2.branches = vc.branches.set vc.current_branch b)
    (hc : vc2.current_branch = vc.current_branch)
    (hnil : (current vc).files = [] → b.files = []) :
    (current vc2).files = b.files := by
  by_cases hlt : vc.current_branch < vc.branches.length
  · rw [current_of_set vc vc2 b hb hc hlt]
  · have hcur : (current vc).files = [] := by
      by_contra hne
      exact hlt (current_files_ne_nil vc hne)
    rw [hnil hcur]
    unfold current
    rw [hb, hc, List.set_eq_of_length_le (by omega), List.get?_eq_none.2 (by omega)]
    rfl

/-! ## Commits without changes (C4) -/

/-- C4: when every entry of the active roster is Tracked, its file exists
and hashes to the recorded last hash (so nothing is Staged or Deleted),
`svc_commit` returns absent and the commit log is the same as before. -/
theorem svc_commit_no_changes (P : Params) (w : World) (m : Option CString)
    (hst : ∀ fd ∈ (current w.vc).files, fd.state = FileState.Tracked ∧
      access w.fs fd.file_path = true ∧ current_hash w.fs fd.file_path = fd.previous_hash) :
    (svc_commit P w m).1 = none ∧ (svc_commit P w m).2.vc.commits = w.vc.commits ∧
      (svc_commit P w m).2.vc.commits.length = w.vc.commits.length := by
  cases m with
  | none => exact ⟨rfl, rfl, rfl⟩
  | some msg =>
    have hloop : (svc_commit_loop P w msg).1.commit_record = [] := by
      obtain ⟨h1, _, _⟩ := commit_files_spec P w.fs (FsExtends w.fs)
        (fun fs c fd h => commit_entry_fsExtends P w.fs fs c fd h) (current w.vc).files w.fs
        { id := none, message := msg, branch_id := w.vc.current_branch, commit_record := [],
          record_len := (current w.vc).files.length, parent_commits := [],
          snapshot := init_snapshot P }
        (fun p f h => h)
        (by
          intro fs1 hext fd hfd
          obtain ⟨_, hacc, _⟩ := hst fd hfd
          unfold access at hacc
          obtain ⟨f, hf⟩ := Option.isSome_iff_exists.1 hacc
          rw [hf, hext _ f hf])
      unfold svc_commit_loop
      rw [h1, List.nil_append, List.filterMap_eq_nil_iff]
      intro fd hfd
      obtain ⟨h1, h2, h3⟩ := hst fd hfd
      unfold expected_record
      simp [h1, h2, h3]
    have hlog := (svc_commit_noop P w msg hloop).1
    exact ⟨(svc_commit_none_iff P w msg).2 hloop, hlog, by rw [hlog]⟩

/-- Witness for C4: right after the first commit, with `a.txt` untouched, a
second `svc_commit` returns absent and the log still has its one commit. -/
theorem svc_commit_no_changes_witness :
    (svc_commit exampleParams exampleWorld2 (some (cstr "again"))).1 = none ∧
      (svc_commit exampleParams exampleWorld2 (some (cstr "again"))).2.vc.commits =
        exampleWorld2.vc.commits ∧
      (svc_commit exampleParams exampleWorld2 (some (cstr "again"))).2.vc.commits.length =
        exampleWorld2.vc.commits.length :=
  svc_commit_no_changes exampleParams exampleWorld2 (some (cstr "again")) (by decide)

/-! ## The snapshot of a new commit (C5) -/

/-- C5, evaluation at the failing input: on a fresh engine next to the empty
file `dddddddddd` (hash 0), `svc_add` followed by `svc_commit("first")`
succeeds and leaves the file Tracked in the roster, yet the snapshot of the
new commit is empty: `new_file_snapshot` refuses the hash 0. -/
theorem svc_commit_zero_hash_snapshot_empty :
    (svc_add exampleParams zeroHashWorld (some (cstr "dddddddddd"))).map
        (fun r => (r.1, (current r.2.vc).files)) =
        some (0, [{ file_path := cstr "dddddddddd", state := FileState.Staged,
                    previous_hash := 0 }]) ∧
      (current zeroHashStagedWorld.vc).files =
        [{ file_path := cstr "dddddddddd", state := FileState.Staged, previous_hash := 0 }] ∧
      (svc_commit exampleParams zeroHashStagedWorld (some (cstr "first"))).1.isSome = true ∧
      (current (svc_commit exampleParams zeroHashStagedWorld
        (some (cstr "first"))).2.vc).files =
        [{ file_path := cstr "dddddddddd", state := FileState.Tracked, previous_hash := 0 }] ∧
      (svc_commit exampleParams zeroHashStagedWorld
        (some (cstr "first"))).2.vc.commits.map (fun c => c.snapshot.file_snapshots) =
        [[]] := by
  decide

/-! ## The records of a commit (C6) -/

theorem exampleParams_store_path_ne (h : Int) (p : CString) (hp : p.head? ≠ some 46) :
    exampleParams.svc_file_path h ≠ p := by
  intro heq
  apply hp
  rw [← heq]
  have hc : cstr ".svc/" = [46, 115, 118, 99, 47] := by decide
  simp [exampleParams, hc]

/-- C6, as the specification states it, fails when a roster path is a path of
the content store.  In `storePathWorld`, a reachable state, the roster holds
`a.txt` and `.svc/268` as Tracked, `.svc/268` is missing from disk and `a.txt`
has the new hash 616.  The claim prescribes a Change record for `a.txt` and a
Remove record for `.svc/268`, which then is Deleted.  But the loop of
`svc_commit` first writes the blob of `a.txt` to `.svc/268`, then finds a file
at `.svc/268`: it records a Change of `.svc/268` from 707 to 706, and the entry
stays Tracked in the roster after the commit `46c6d1`. -/
theorem svc_commit_records_store_path :
    Reachable exampleParams storePathWorld ∧
      (current storePathWorld.vc).files =
        [{ file_path := cstr "a.txt", state := FileState.Tracked, previous_hash := 615 },
         { file_path := cstr ".svc/268", state := FileState.Tracked, previous_hash := 707 }] ∧
      access storePathWorld.fs (cstr ".svc/268") = false ∧
      (current storePathWorld.vc).files.filterMap (expected_record storePathWorld.fs) =
        [{ file_name := cstr "a.txt", change_type := CommitChangeType.Change,
           hash_change := { old_hash := some 615, new_hash := some 616 } },
         { file_name := cstr ".svc/268", change_type := CommitChangeType.Remove,
           hash_change := { old_hash := none, new_hash := none } }] ∧
      (svc_commit_loop exampleParams storePathWorld (cstr "second")).1.commit_record =
        [{ file_name := cstr "a.txt", change_type := CommitChangeType.Change,
           hash_change := { old_hash := some 615, new_hash := some 616 } },
         { file_name := cstr ".svc/268", change_type := CommitChangeType.Change,
           hash_change := { old_hash := some 707, new_hash := some 706 } }] ∧
      (svc_commit exampleParams storePathWorld (some (cstr "second"))).1 =
        some (cstr "46c6d1") ∧
      (current (svc_commit exampleParams storePathWorld (some (cstr "second"))).2.vc).files =
        [{ file_path := cstr "a.txt", state := FileState.Tracked, previous_hash := 616 },
         { file_path := cstr ".svc/268", state := FileState.Tracked, previous_hash := 706 }] := by
  refine ⟨⟨storePathFiles,
      [Op.add (some (cstr "a.txt")), Op.add (some (cstr ".svc/268")),
       Op.commit (some (cstr "first")),
       Op.files (writeFile (removeFile storePathCommittedWorld.fs (cstr ".svc/268"))
         (cstr "a.txt") (cstr "y"))], rfl⟩,
    by decide, by decide, by decide, by decide, by decide, by decide⟩

/-- C6, amended: when no roster path is a path of the content store, the records
accumulated by the loop of `svc_commit` are, in roster order, the records
prescribed entry by entry (`expected_record`): Remove for a Deleted entry, Add
with the current hash for a Staged entry whose file exists, nothing for a
Staged entry whose file is missing, Remove for a Tracked entry whose file is
missing, and for a Tracked entry whose file exists a Change with the old and
the current hash exactly when they differ.  The entries change state as
prescribed (`expected_entry`).  `svc_commit` returns absent exactly when there
is no such record; otherwise the logged commit holds these records sorted by
name and the roster keeps the entries that are not Deleted. -/
theorem svc_commit_records (P : Params) (w : World) (m : CString)
    (hsep : ∀ fd ∈ (current w.vc).files, ∀ h, P.svc_file_path h ≠ fd.file_path) :
    (svc_commit_loop P w m).1.commit_record =
        (current w.vc).files.filterMap (expected_record w.fs) ∧
      (svc_commit_loop P w m).2.2 = (current w.vc).files.map (expected_entry w.fs) ∧
      ((svc_commit P w (some m)).1 = none ↔
        (current w.vc).files.filterMap (expected_record w.fs) = []) ∧
      ((svc_commit P w (some m)).1 = none →
        (current (svc_commit P w (some m)).2.vc).files =
          (current w.vc).files.map (expected_entry w.fs)) ∧
      (∀ id, (svc_commit P w (some m)).1 = some id →
        ∃ c, (svc_commit P w (some m)).2.vc.commits = w.vc.commits ++ [c] ∧
          c.commit_record = qsort compare_commit_record_name
            ((current w.vc).files.filterMap (expected_record w.fs)) ∧
          (current (svc_commit P w (some m)).2.vc).files =
            ((current w.vc).files.map (expected_entry w.fs)).filter
              (fun fd => fd.state ≠ FileState.Deleted)) := by
  obtain ⟨h1, h2, _⟩ := commit_files_spec P w.fs (AgreeOffStore P w.fs)
    (fun fs c fd h => commit_entry_agreeOffStore P w.fs fs c fd h) (current w.vc).files w.fs
    { id := none, message := m, branch_id := w.vc.current_branch, commit_record := [],
      record_len := (current w.vc).files.length, parent_commits := [],
      snapshot := init_snapshot P }
    (fun p _ => rfl) (fun fs1 hagree fd hfd => hagree fd.file_path (hsep fd hfd))
  rw [List.nil_append] at h1
  have e1 : (svc_commit_loop P w m).1.commit_record =
      (current w.vc).files.filterMap (expected_record w.fs) := h1
  have e2 : (svc_commit_loop P w m).2.2 = (current w.vc).files.map (expected_entry w.fs) := h2
  refine ⟨e1, e2, ?_, ?_, ?_⟩
  · rw [svc_commit_none_iff, e1]
  · intro hnone
    have hloop := (svc_commit_none_iff P w m).1 hnone
    obtain ⟨_, hb, hc⟩ := svc_commit_noop P w m hloop
    rw [current_files_of_set w.vc _ _ hb hc (by intro hnil; simp [e2, hnil]), e2]
  · intro id hid
    obtain ⟨msg, hmsg, hne, _, hlog, hb, hc, _⟩ := svc_commit_success P w (some m) id hid
    cases hmsg
    refine ⟨_, hlog, ?_, ?_⟩
    · simp only [generate_commit_id, e1]
    · rw [current_of_set w.vc _ _ hb hc (svc_commit_loop_in_range P w m hne)]
      simp only [clean_branch_files, e2]

/-- Witness for C6: after `a.txt` (hash 615) was committed and its content
changed from `x` to `y`, the second commit holds exactly one record, a Change
of `a.txt` with old hash 615. -/
theorem svc_commit_records_witness :
    ∃ c, (svc_commit exampleParams exampleWorld3 (some (cstr "second"))).2.vc.commits =
        exampleWorld3.vc.commits ++ [c] ∧
      c.commit_record =
        [{ file_name := cstr "a.txt", change_type := CommitChangeType.Change,
           hash_change := { old_hash := some 615, new_hash := some 616 } }] := by
  have hroster : (current exampleWorld3.vc).files =
      [{ file_path := cstr "a.txt", state := FileState.Tracked, previous_hash := 615 }] := by
    decide
  have hsep : ∀ fd ∈ (current exampleWorld3.vc).files, ∀ h,
      exampleParams.svc_file_path h ≠ fd.file_path := by
    intro fd hfd h
    rw [hroster, List.mem_singleton] at hfd
    rw [hfd]
    exact exampleParams_store_path_ne h _ (by decide)
  obtain ⟨_, _, _, _, h5⟩ := svc_commit_records exampleParams exampleWorld3 (cstr "second") hsep
  obtain ⟨c, hc1, hc2, _⟩ := h5 (cstr "800b43") (by decide)
  refine ⟨c, hc1, ?_⟩
  rw [hc2]
  decide

/-! ## Linking a new commit (C7) -/

/-- C7: after a successful `svc_commit` the log is the old log with exactly
the new commit appended; the active branch points to the new commit; the
parents of the new commit are exactly the previous current commit of the
active branch, or none when the branch had no commit; its `branch_id` is the
index of the active branch, which stays the active branch. -/
theorem svc_commit_links (P : Params) (w : World) (m : Option CString) (id : CString)
    (h : (svc_commit P w m).1 = some id) :
    ∃ c, (svc_commit P w m).2.vc.commits = w.vc.commits ++ [c] ∧ c.id = some id ∧
      (current (svc_commit P w m).2.vc).commit = some w.vc.commits.length ∧
      (svc_commit P w m).2.vc.commits.get? w.vc.commits.length = some c ∧
      c.parent_commits =
        (match (current w.vc).commit with
          | some p => [p]
          | none => []) ∧
      c.branch_id = w.vc.current_branch ∧
      (svc_commit P w m).2.vc.current_branch = w.vc.current_branch := by
  obtain ⟨msg, _, hne, _, hlog, hb, hc, _⟩ := svc_commit_success P w m id h
  refine ⟨_, hlog, rfl, ?_, ?_, rfl, ?_, hc⟩
  · rw [current_of_set w.vc _ _ hb hc (svc_commit_loop_in_range P w msg hne)]
    rfl
  · rw [hlog]
    simp
  · simp only [generate_commit_id]
    exact (commit_files_fields P _ _ _).2.1

/-- Witness for C7: the second commit of the example is appended at index 1,
becomes the current commit of master and has the first commit as only
parent. -/
theorem svc_commit_links_witness :
    ∃ c, (svc_commit exampleParams exampleWorld3 (some (cstr "second"))).2.vc.commits =
        exampleWorld3.vc.commits ++ [c] ∧ c.id = some (cstr "800b43") ∧
      (current (svc_commit exampleParams exampleWorld3 (some (cstr "second"))).2.vc).commit =
        some exampleWorld3.vc.commits.length ∧
      (svc_commit exampleParams exampleWorld3 (some (cstr "second"))).2.vc.commits.get?
        exampleWorld3.vc.commits.length = some c ∧
      c.parent_commits =
        (match (current exampleWorld3.vc).commit with
          | some p => [p]
          | none => []) ∧
      c.branch_id = exampleWorld3.vc.current_branch ∧
      (svc_commit exampleParams exampleWorld3 (some (cstr "second"))).2.vc.current_branch =
        exampleWorld3.vc.current_branch :=
  svc_commit_links exampleParams exampleWorld3 (some (cstr "second")) (cstr "800b43")
    (by decide)

/-! ## `svc_add` and `svc_rm` (C8, C9, C10) -/

theorem strcmp_eq_zero_iff (a : CString) : ∀ b : CString, strcmp a b = 0 ↔ a = b := by
  induction a with
  | nil => intro b; cases b <;> simp [strcmp]
  | cons x xs ih =>
    intro b
    cases b with
    | nil => simp [strcmp]
    | cons y ys =>
      simp only [strcmp]
      by_cases h1 : x < y
      · simp only [h1, if_true]
        constructor
        · intro h; omega
        · intro h; simp only [List.cons.injEq] at h; omega
      · by_cases h2 : y < x
        · simp only [h1, h2, if_true, if_false]
          constructor
          · intro h; omega
          · intro h; simp only [List.cons.injEq] at h; omega
        · have hxy : x = y := by omega
          subst hxy
          simp [ih ys]

theorem is_unknown_iff (files : List FileData) (name : CString) :
    is_unknown files name = true ↔
      ∀ x ∈ files, x.file_path = name → x.state = FileState.Deleted := by
  induction files with
  | nil => simp [is_unknown]
  | cons fd rest ih =>
    simp only [is_unknown, strcmp_eq_zero_iff, List.mem_cons, forall_eq_or_imp, ← ih]
    by_cases hp : fd.file_path = name <;> by_cases hs : fd.state = FileState.Deleted <;>
      simp [hp, hs]

theorem svc_rm_files_first (name : CString) (e : FileData) (post : List FileData)
    (he : e.file_path = name) :
    ∀ pre : List FileData, (∀ x ∈ pre, x.file_path = name → x.state = FileState.Deleted) →
      (e.state = FileState.Staged →
        svc_rm_files (pre ++ e :: post) name = (e.previous_hash, pre ++ post)) ∧
      (e.state = FileState.Tracked →
        svc_rm_files (pre ++ e :: post) name =
          (e.previous_hash, pre ++ { e with state := FileState.Deleted } :: post)) := by
  intro pre
  induction pre with
  | nil =>
    intro _
    constructor
    · intro hs
      simp [svc_rm_files, strcmp_eq_zero_iff, he, hs]
    · intro hs
      simp [svc_rm_files, strcmp_eq_zero_iff, he, hs]
  | cons x xs ih =>
    intro hpre
    have hx : ¬ (x.file_path = name ∧ x.state = FileState.Staged) := by
      intro h
      have := hpre x (by simp) h.1
      rw [h.2] at this
      exact FileState.noConfusion this
    have hx2 : ¬ (x.file_path = name ∧ x.state ≠ FileState.Deleted) := by
      intro h
      exact h.2 (hpre x (by simp) h.1)
    obtain ⟨i1, i2⟩ := ih (fun y hy => hpre y (by simp [hy]))
    rw [List.cons_append]
    constructor
    · intro hs
      simp only [svc_rm_files, strcmp_eq_zero_iff, hx, hx2, if_false, i1 hs, List.cons_append]
    · intro hs
      simp only [svc_rm_files, strcmp_eq_zero_iff, hx, hx2, if_false, i2 hs, List.cons_append]

theorem svc_rm_files_none (name : CString) :
    ∀ files : List FileData,
      (∀ x ∈ files, x.file_path = name → x.state = FileState.Deleted) →
      svc_rm_files files name = (-2, files) := by
  intro files
  induction files with
  | nil => intro _; rfl
  | cons x xs ih =>
    intro hall
    have hx : ¬ (x.file_path = name ∧ x.state = FileState.Staged) := by
      intro h
      have := hall x (by simp) h.1
      rw [h.2] at this
      exact FileState.noConfusion this
    have hx2 : ¬ (x.file_path = name ∧ x.state ≠ FileState.Deleted) := by
      intro h
      exact h.2 (hall x (by simp) h.1)
    simp only [svc_rm_files, strcmp_eq_zero_iff, hx, hx2, if_false,
      ih (fun y hy => hall y (by simp [hy]))]

theorem svc_rm_roster (w : World) (name : CString) :
    (current (svc_rm w (some name)).2.vc).files =
      (svc_rm_files (current w.vc).files name).2 := by
  have h := current_files_of_set w.vc (svc_rm w (some name)).2.vc
    { current w.vc with files := (svc_rm_files (current w.vc).files name).2 } rfl rfl
    (by intro hnil; simp [hnil, svc_rm_files])
  exact h

/-- C8, evaluation at the failing input: on a fresh engine next to a file
`a.txt` that exists but cannot be opened for reading, `svc_add("a.txt")`
returns the error code -3 although it has appended a Staged entry (with hash
-3) to the roster, which was empty. -/
theorem svc_add_unreadable_returns_error_but_stages :
    access unreadableWorld.fs (cstr "a.txt") = true ∧
      (current unreadableWorld.vc).files = [] ∧
      (svc_add exampleParams unreadableWorld (some (cstr "a.txt"))).map
          (fun r => (r.1, (current r.2.vc).files)) =
        some (-3, [{ file_path := cstr "a.txt", state := FileState.Staged,
                     previous_hash := -3 }]) := by
  decide

/-- C9: `svc_rm` acts on the first roster entry for the path that is not
Deleted.  If that entry is Staged it is removed from the roster, the other
entries keeping their order, and its last hash is returned; if it is Tracked
its state becomes Deleted and its last hash is returned; if the roster has no
entry for the path, or only Deleted ones, -2 is returned and the roster is
unchanged.  The filesystem is the same after every call. -/
theorem svc_rm_contract (w : World) (name : CString) :
    (∀ pre e post, (current w.vc).files = pre ++ e :: post → e.file_path = name →
      (∀ x ∈ pre, x.file_path = name → x.state = FileState.Deleted) →
      (e.state = FileState.Staged →
        (svc_rm w (some name)).1 = e.previous_hash ∧
        (current (svc_rm w (some name)).2.vc).files = pre ++ post) ∧
      (e.state = FileState.Tracked →
        (svc_rm w (some name)).1 = e.previous_hash ∧
        (current (svc_rm w (some name)).2.vc).files =
          pre ++ { e with state := FileState.Deleted } :: post)) ∧
    ((∀ x ∈ (current w.vc).files, x.file_path = name → x.state = FileState.Deleted) →
      (svc_rm w (some name)).1 = -2 ∧
      (current (svc_rm w (some name)).2.vc).files = (current w.vc).files) ∧
    (∀ file_name, (svc_rm w file_name).2.fs = w.fs) := by
  refine ⟨?_, ?_, ?_⟩
  · intro pre e post hfiles he hpre
    obtain ⟨h1, h2⟩ := svc_rm_files_first name e post he pre hpre
    constructor
    · intro hs
      rw [svc_rm_roster]
      simp only [svc_rm, hfiles, h1 hs, and_self]
    · intro hs
      rw [svc_rm_roster]
      simp only [svc_rm, hfiles, h2 hs, and_self]
  · intro hall
    rw [svc_rm_roster]
    simp only [svc_rm, svc_rm_files_none name _ hall, and_self]
  · intro file_name
    cases file_name <;> rfl

/-- Witness for C9: removing the Staged `a.txt` (hash 615) of `exampleWorld1`
returns 615 and empties the roster; removing the Tracked `a.txt` of
`exampleWorld2` returns 615 and marks the entry Deleted. -/
theorem svc_rm_contract_witness :
    ((svc_rm exampleWorld1 (some (cstr "a.txt"))).1 = 615 ∧
      (current (svc_rm exampleWorld1 (some (cstr "a.txt"))).2.vc).files = []) ∧
    ((svc_rm exampleWorld2 (some (cstr "a.txt"))).1 = 615 ∧
      (current (svc_rm exampleWorld2 (some (cstr "a.txt"))).2.vc).files =
        [{ file_path := cstr "a.txt", state := FileState.Deleted, previous_hash := 615 }]) :=
  ⟨((svc_rm_contract exampleWorld1 (cstr "a.txt")).1 []
      { file_path := cstr "a.txt", state := FileState.Staged, previous_hash := 615 } []
      (by decide) rfl (by simp)).1 rfl,
    ((svc_rm_contract exampleWorld2 (cstr "a.txt")).1 []
      { file_path := cstr "a.txt", state := FileState.Tracked, previous_hash := 615 } []
      (by decide) rfl (by simp)).2 rfl⟩

theorem svc_add_accepts (P : Params) (w : World) (name : CString)
    (hex : access w.fs name = true) (hun : is_unknown (current w.vc).files name = true)
    (hroom : ¬ ((current w.vc).files.length = (current w.vc).files_len ∧
      (current w.vc).files_len * P.ARRAY_GROWTH_RATE = 0)) :
    ∃ r, svc_add P w (some name) = some r ∧
      r.1 = hash_file w.fs (some name) ∧
      r.2.fs = w.fs ∧
      r.2.vc.current_branch = w.vc.current_branch ∧
      r.2.vc.branches = w.vc.branches.set w.vc.current_branch
        { current w.vc with
          files := (current w.vc).files ++
            [{ file_path := name, state := FileState.Staged,
               previous_hash := hash_file w.fs (some name) }],
          files_len := if (current w.vc).files.length = (current w.vc).files_len
            then (current w.vc).files_len * P.ARRAY_GROWTH_RATE
            else (current w.vc).files_len } ∧
      r.2.vc = setCurrent w.vc
        { current w.vc with
          files := (current w.vc).files ++
            [{ file_path := name, state := FileState.Staged,
               previous_hash := hash_file w.fs (some name) }],
          files_len := if (current w.vc).files.length = (current w.vc).files_len
            then (current w.vc).files_len * P.ARRAY_GROWTH_RATE
            else (current w.vc).files_len } := by
  unfold svc_add
  simp only [hex, hun, Bool.true_eq_false, if_false, hroom]
  exact ⟨_, rfl, rfl, rfl, rfl, rfl, rfl⟩

theorem svc_add_ends (P : Params) (w : World) (name : CString)
    (hex : access w.fs name = true) (hun : is_unknown (current w.vc).files name = true)
    (hzero : (current w.vc).files.length = (current w.vc).files_len ∧
      (current w.vc).files_len * P.ARRAY_GROWTH_RATE = 0) :
    svc_add P w (some name) = none := by
  unfold svc_add
  simp only [hex, hun, Bool.true_eq_false, if_false]
  rw [if_pos hzero]

theorem svc_add_rejects (P : Params) (w : World) :
    svc_add P w none = some (-1, w) ∧
      (∀ name, access w.fs name = false → svc_add P w (some name) = some (-3, w)) ∧
      (∀ name, access w.fs name = true → is_unknown (current w.vc).files name = false →
        svc_add P w (some name) = some (-2, w)) := by
  refine ⟨rfl, ?_, ?_⟩
  · intro name h
    simp [svc_add, h]
  · intro name h1 h2
    simp [svc_add, h1, h2]

theorem svc_add_cases (P : Params) (w : World) (file_name : Option CString)
    (r : Int × World) (h : svc_add P w file_name = some r) :
    r.2 = w ∨ ∃ name, file_name = some name ∧ access w.fs name = true ∧
      is_unknown (current w.vc).files name = true ∧
      ¬ ((current w.vc).files.length = (current w.vc).files_len ∧
        (current w.vc).files_len * P.ARRAY_GROWTH_RATE = 0) ∧
      r.1 = hash_file w.fs (some name) ∧
      r.2.fs = w.fs ∧
      r.2.vc.current_branch = w.vc.current_branch ∧
      r.2.vc.branches = w.vc.branches.set w.vc.current_branch
        { current w.vc with
          files := (current w.vc).files ++
            [{ file_path := name, state := FileState.Staged,
               previous_hash := hash_file w.fs (some name) }],
          files_len := if (current w.vc).files.length = (current w.vc).files_len
            then (current w.vc).files_len * P.ARRAY_GROWTH_RATE
            else (current w.vc).files_len } ∧
      r.2.vc = setCurrent w.vc
        { current w.vc with
          files := (current w.vc).files ++
            [{ file_path := name, state := FileState.Staged,
               previous_hash := hash_file w.fs (some name) }],
          files_len := if (current w.vc).files.length = (current w.vc).files_len
            then (current w.vc).files_len * P.ARRAY_GROWTH_RATE
            else (current w.vc).files_len } := by
  obtain ⟨r1, r2, r3⟩ := svc_add_rejects P w
  cases file_name with
  | none =>
    rw [r1] at h
    exact Or.inl (by rw [← Option.some.inj h])
  | some name =>
    by_cases hex : access w.fs name = true
    · by_cases hun : is_unknown (current w.vc).files name = true
      · by_cases hzero : (current w.vc).files.length = (current w.vc).files_len ∧
            (current w.vc).files_len * P.ARRAY_GROWTH_RATE = 0
        · rw [svc_add_ends P w name hex hun hzero] at h
          exact Option.noConfusion h
        · obtain ⟨r0, e, a1, a2, a3, a4, a5⟩ := svc_add_accepts P w name hex hun hzero
          rw [e] at h
          have hr := Option.some.inj h
          subst hr
          exact Or.inr ⟨name, rfl, hex, hun, hzero, a1, a2, a3, a4, a5⟩
      · rw [r3 name hex (by simpa using hun)] at h
        exact Or.inl (by rw [← Option.some.inj h])
    · rw [r2 name (by simpa using hex)] at h
      exact Or.inl (by rw [← Option.some.inj h])

/-- C10: for a path that exists and that `svc_add` accepts (no entry of the
active roster other than Deleted ones has it), whenever `svc_add` returns it
has appended one Staged entry, and an immediately following `svc_rm` of the
same path gives back the roster as it was before the add, entry by entry, and
returns the hash that `svc_add` returned.  And `svc_add` does return for such a
path unless the roster is full and its capacity times the growth rate is 0,
where `safe_realloc` ends the process. -/
theorem svc_add_then_svc_rm (P : Params) (w : World) (name : CString)
    (hwf : w.vc.current_branch < w.vc.branches.length)
    (hex : access w.fs name = true)
    (hun : is_unknown (current w.vc).files name = true) :
    (∀ r, svc_add P w (some name) = some r →
      (current r.2.vc).files =
          (current w.vc).files ++
            [{ file_path := name, state := FileState.Staged, previous_hash := r.1 }] ∧
        (current (svc_rm r.2 (some name)).2.vc).files = (current w.vc).files ∧
        (current (svc_rm r.2 (some name)).2.vc).files.length = (current w.vc).files.length ∧
        (svc_rm r.2 (some name)).1 = r.1) ∧
      (¬ ((current w.vc).files.length = (current w.vc).files_len ∧
          (current w.vc).files_len * P.ARRAY_GROWTH_RATE = 0) →
        ∃ r, svc_add P w (some name) = some r) := by
  have hunique : ∀ x, x ∈ (current w.vc).files → x.file_path = name →
      x.state = FileState.Deleted := (is_unknown_iff _ _).1 hun
  constructor
  · intro r hret
    by_cases hzero : (current w.vc).files.length = (current w.vc).files_len ∧
        (current w.vc).files_len * P.ARRAY_GROWTH_RATE = 0
    · rw [svc_add_ends P w name hex hun hzero] at hret
      exact Option.noConfusion hret
    · obtain ⟨r0, e, h1, _, h3, h4, _⟩ := svc_add_accepts P w name hex hun hzero
      rw [e] at hret
      have hr := Option.some.inj hret
      subst hr
      have hroster : (current r0.2.vc).files =
          (current w.vc).files ++
            [{ file_path := name, state := FileState.Staged, previous_hash := r0.1 }] := by
        rw [current_of_set w.vc _ _ h4 h3 hwf, h1]
      have hrm := (svc_rm_files_first name
        { file_path := name, state := FileState.Staged, previous_hash := r0.1 } [] rfl
        (current w.vc).files hunique).1 rfl
      have hfiles : (current (svc_rm r0.2 (some name)).2.vc).files = (current w.vc).files := by
        rw [svc_rm_roster, hroster, hrm, List.append_nil]
      refine ⟨hroster, hfiles, by rw [hfiles], ?_⟩
      show (svc_rm_files (current r0.2.vc).files name).1 = _
      rw [hroster, hrm]
  · intro hroom
    obtain ⟨r0, e, _⟩ := svc_add_accepts P w name hex hun hroom
    exact ⟨r0, e⟩

/-- Witness for C10: on the fresh engine next to `a.txt`, `svc_add("a.txt")`
returns 615 and stages the file, and `svc_rm("a.txt")` returns 615 and leaves
the roster empty as before. -/
theorem svc_add_then_svc_rm_witness :
    svc_add exampleParams exampleWorld0 (some (cstr "a.txt")) = some (615, exampleWorld1) ∧
      (current exampleWorld0.vc).files = [] ∧
      ((current exampleWorld1.vc).files =
        (current exampleWorld0.vc).files ++
          [{ file_path := cstr "a.txt", state := FileState.Staged, previous_hash := 615 }] ∧
      (current (svc_rm exampleWorld1 (some (cstr "a.txt"))).2.vc).files =
        (current exampleWorld0.vc).files ∧
      (current (svc_rm exampleWorld1 (some (cstr "a.txt"))).2.vc).files.length =
        (current exampleWorld0.vc).files.length ∧
      (svc_rm exampleWorld1 (some (cstr "a.txt"))).1 = 615) ∧
      ∃ r, svc_add exampleParams exampleWorld0 (some (cstr "a.txt")) = some r :=
  ⟨rfl, by decide,
    (svc_add_then_svc_rm exampleParams exampleWorld0 (cstr "a.txt") (by decide) (by decide)
      (by decide)).1 (615, exampleWorld1) rfl,
    (svc_add_then_svc_rm exampleParams exampleWorld0 (cstr "a.txt") (by decide) (by decide)
      (by decide)).2 (by decide)⟩

theorem svc_commit_example_snapshot :
    exampleWorld2.vc.commits.map (fun c => c.snapshot.file_snapshots) =
      [[{ name := cstr "a.txt", hash := 615 }]] := by
  decide

/-! ## Branches and uncommitted changes (C11, C12, C13, C14) -/

theorem copy_file_data_eq (fd : List FileData) : copy_file_data fd = fd := by
  unfold copy_file_data
  induction fd with
  | nil => rfl
  | cons x xs ih => simp only [List.map_cons, ih]

theorem get_branch_index_loop_some (bs : List Branch) (name : CString) :
    ∀ n i, get_branch_index_loop bs name n = some i →
      i < n ∧ (∃ b, bs.get? i = some b ∧ b.name = name) ∧
      ∀ j, i < j → j < n → ∀ b, bs.get? j = some b → b.name ≠ name := by
  intro n
  induction n with
  | zero => intro i h; simp [get_branch_index_loop] at h
  | succ n ih =>
    intro i h
    unfold get_branch_index_loop at h
    cases hget : bs.get? n with
    | none =>
      rw [hget] at h
      obtain ⟨h1, h2, h3⟩ := ih i h
      refine ⟨by omega, h2, ?_⟩
      intro j hj1 hj2 b hb
      by_cases hjn : j = n
      · rw [hjn, hget] at hb
        exact Option.noConfusion hb
      · exact h3 j hj1 (by omega) b hb
    | some b0 =>
      rw [hget] at h
      simp only at h
      by_cases hname : strcmp b0.name name = 0
      · rw [if_pos hname] at h
        have hi : n = i := Option.some.inj h
        subst hi
        refine ⟨by omega, ⟨b0, hget, (strcmp_eq_zero_iff _ _).1 hname⟩, ?_⟩
        intro j hj1 hj2
        omega
      · rw [if_neg hname] at h
        obtain ⟨h1, h2, h3⟩ := ih i h
        refine ⟨by omega, h2, ?_⟩
        intro j hj1 hj2 b hb
        by_cases hjn : j = n
        · rw [hjn, hget] at hb
          have hb0 : b0 = b := Option.some.inj hb
          rw [← hb0]
          intro heq
          exact hname ((strcmp_eq_zero_iff _ _).2 heq)
        · exact h3 j hj1 (by omega) b hb

theorem get_branch_index_loop_none (bs : List Branch) (name : CString) :
    ∀ n, get_branch_index_loop bs name n = none ↔
      ∀ j, j < n → ∀ b, bs.get? j = some b → b.name ≠ name := by
  intro n
  induction n with
  | zero => simp [get_branch_index_loop]
  | succ n ih =>
    unfold get_branch_index_loop
    cases hget : bs.get? n with
    | none =>
      simp only [ih]
      constructor
      · intro h j hj b hb
        by_cases hjn : j = n
        · rw [hjn, hget] at hb
          exact Option.noConfusion hb
        · exact h j (by omega) b hb
      · intro h j hj b hb
        exact h j (by omega) b hb
    | some b0 =>
      simp only
      by_cases hname : strcmp b0.name name = 0
      · rw [if_pos hname]
        constructor
        · intro h
          exact Option.noConfusion h
        · intro h
          exact absurd ((strcmp_eq_zero_iff _ _).1 hname) (h n (by omega) b0 hget)
      · rw [if_neg hname, ih]
        constructor
        · intro h j hj b hb
          by_cases hjn : j = n
          · rw [hjn, hget] at hb
            have hb0 : b0 = b := Option.some.inj hb
            rw [← hb0]
            intro heq
            exact hname ((strcmp_eq_zero_iff _ _).2 heq)
          · exact h j (by omega) b hb
        · intro h j hj b hb
          exact h j (by omega) b hb

theorem get_branch_index_none_iff (vc : VersionControl) (name : CString) :
    get_branch_index vc (some name) = none ↔ ∀ b ∈ vc.branches, b.name ≠ name := by
  unfold get_branch_index
  rw [get_branch_index_loop_none]
  constructor
  · intro h b hb
    obtain ⟨j, hj⟩ := List.get?_of_mem hb
    have hlt : j < vc.branches.length := by
      by_contra hge
      rw [List.get?_eq_none.2 (by omega)] at hj
      exact Option.noConfusion hj
    exact h j hlt b hj
  · intro h j _ b hb
    exact h b (List.get?_mem hb)

theorem get_branch_index_loop_last (bs : List Branch) (b : Branch) :
    get_branch_index_loop (bs ++ [b]) b.name (bs.length + 1) = some bs.length := by
  have hget : (bs ++ [b]).get? bs.length = some b := by simp
  simp only [get_branch_index_loop, hget, strcmp_self, if_true]

theorem check_uncommitted_files_range (fs : FileSystem) (files : List FileData) :
    check_uncommitted_files fs files = 0 ∨ check_uncommitted_files fs files = 1 := by
  induction files with
  | nil => exact Or.inl rfl
  | cons fd rest ih =>
    unfold check_uncommitted_files
    split
    · exact Or.inr rfl
    · split
      · split
        · exact Or.inr rfl
        · exact ih
      · exact ih

theorem check_uncommitted_files_iff (fs : FileSystem) (files : List FileData) :
    check_uncommitted_files fs files = 1 ↔
      ∃ fd ∈ files, fd.state = FileState.Staged ∨
        (fd.state = FileState.Tracked ∧ hash_file fs (some fd.file_path) ≠ fd.previous_hash) := by
  induction files with
  | nil => simp [check_uncommitted_files]
  | cons fd rest ih =>
    unfold check_uncommitted_files
    by_cases h1 : fd.state = FileState.Staged
    · simp [h1]
    · by_cases h2 : fd.state = FileState.Tracked
      · by_cases h3 : hash_file fs (some fd.file_path) = fd.previous_hash
        · simp [h1, h2, h3, ih]
        · simp [h2, h3]
      · simp [h1, h2, ih]

theorem check_uncommitted_changes_iff (w : World) (k : Nat)
    (hk : (current w.vc).commit = some k) :
    check_uncommitted_changes w = 1 ↔
      ∃ fd ∈ (current w.vc).files, fd.state = FileState.Staged ∨
        (fd.state = FileState.Tracked ∧
          hash_file w.fs (some fd.file_path) ≠ fd.previous_hash) := by
  unfold check_uncommitted_changes
  rw [hk]
  exact check_uncommitted_files_iff w.fs _

theorem check_uncommitted_changes_range (w : World) :
    check_uncommitted_changes w = 0 ∨ check_uncommitted_changes w = 1 := by
  unfold check_uncommitted_changes
  split
  · exact Or.inl rfl
  · exact check_uncommitted_files_range _ _

theorem svc_branch_rejects (P : Params) (w : World) :
    svc_branch P w none = (-1, w) ∧
      (∀ name, is_valid_branch_name P (some name) = false →
        svc_branch P w (some name) = (-1, w)) ∧
      (∀ name, is_valid_branch_name P (some name) = true →
        (∃ b ∈ w.vc.branches, b.name = name) → svc_branch P w (some name) = (-2, w)) ∧
      (∀ name, is_valid_branch_name P (some name) = true →
        (∀ b ∈ w.vc.branches, b.name ≠ name) → check_uncommitted_changes w = 1 →
        svc_branch P w (some name) = (-3, w)) := by
  refine ⟨rfl, ?_, ?_, ?_⟩
  · intro name h
    simp [svc_branch, h]
  · intro name h1 ⟨b, hb, hname⟩
    have hidx : (get_branch_index w.vc (some name)).isSome = true := by
      cases hg : get_branch_index w.vc (some name) with
      | some i => rfl
      | none => exact absurd hname ((get_branch_index_none_iff w.vc name).1 hg b hb)
    simp [svc_branch, h1, hidx]
  · intro name h1 h2 h3
    have hidx : get_branch_index w.vc (some name) = none :=
      (get_branch_index_none_iff w.vc name).2 h2
    simp [svc_branch, h1, hidx, h3]

/-- C11, evaluation at the failing input: on a fresh engine `svc_branch`
returns -2 for `master` and -1 for `bad name!` with the branch count still 1,
but once `a.txt` is Staged (and nothing committed yet) `svc_branch("dev")`
returns 0 and appends a branch, where the contract asks for -3. -/
theorem svc_branch_staged_without_commit :
    (svc_branch exampleParams exampleWorld0 (some (cstr "master"))).1 = -2 ∧
      (svc_branch exampleParams exampleWorld0 (some (cstr "bad name!"))).1 = -1 ∧
      (svc_branch exampleParams exampleWorld0
        (some (cstr "bad name!"))).2.vc.branches.length = 1 ∧
      (current exampleWorld1.vc).files =
        [{ file_path := cstr "a.txt", state := FileState.Staged, previous_hash := 615 }] ∧
      (svc_branch exampleParams exampleWorld1 (some (cstr "dev"))).1 = 0 ∧
      exampleWorld1.vc.branches.length = 1 ∧
      (svc_branch exampleParams exampleWorld1 (some (cstr "dev"))).2.vc.branches.length = 2 := by
  decide

/-- C12: when `svc_branch` returns 0, exactly one branch was appended at the
end of the branch list; it has the given name, the roster of the active branch
(entry by entry) and the current commit of the active branch; the branches
that existed before, the active branch index, the commit log and the
filesystem are unchanged. -/
theorem svc_branch_success (P : Params) (w : World) (branch_name : Option CString)
    (h : (svc_branch P w branch_name).1 = 0) :
    ∃ name, branch_name = some name ∧
      (svc_branch P w branch_name).2.vc.branches = w.vc.branches ++
        [{ name := name, commit := (current w.vc).commit, files := (current w.vc).files,
           files_len := (current w.vc).files_len }] ∧
      (svc_branch P w branch_name).2.vc.branches.length = w.vc.branches.length + 1 ∧
      (∀ i, i < w.vc.branches.length →
        (svc_branch P w branch_name).2.vc.branches.get? i = w.vc.branches.get? i) ∧
      (svc_branch P w branch_name).2.vc.current_branch = w.vc.current_branch ∧
      (svc_branch P w branch_name).2.vc.commits = w.vc.commits ∧
      (svc_branch P w branch_name).2.fs = w.fs := by
  cases branch_name with
  | none => simp [svc_branch] at h
  | some name =>
    refine ⟨name, rfl, ?_⟩
    unfold svc_branch at h ⊢
    simp only at h ⊢
    split at h
    · simp at h
    · split at h
      · simp at h
      · split at h
        · simp at h
        · rename_i h1 h2 h3
          rw [if_neg h1, if_neg h2, if_neg h3]
          simp only [copy_file_data_eq, List.length_append, List.length_singleton, true_and,
            and_true]
          intro i hi
          simp only [List.get?_eq_getElem?, List.getElem?_append_left hi]

/-- Witness for C12: on the fresh engine `svc_branch("dev")` returns 0 and
appends the branch `dev` with the empty roster and no commit. -/
theorem svc_branch_success_witness :
    ∃ name, some (cstr "dev") = some name ∧
      (svc_branch exampleParams exampleWorld0 (some (cstr "dev"))).2.vc.branches =
        exampleWorld0.vc.branches ++
        [{ name := name, commit := (current exampleWorld0.vc).commit,
           files := (current exampleWorld0.vc).files,
           files_len := (current exampleWorld0.vc).files_len }] ∧
      (svc_branch exampleParams exampleWorld0 (some (cstr "dev"))).2.vc.branches.length =
        exampleWorld0.vc.branches.length + 1 ∧
      (∀ i, i < exampleWorld0.vc.branches.length →
        (svc_branch exampleParams exampleWorld0 (some (cstr "dev"))).2.vc.branches.get? i =
          exampleWorld0.vc.branches.get? i) ∧
      (svc_branch exampleParams exampleWorld0 (some (cstr "dev"))).2.vc.current_branch =
        exampleWorld0.vc.current_branch ∧
      (svc_branch exampleParams exampleWorld0 (some (cstr "dev"))).2.vc.commits =
        exampleWorld0.vc.commits ∧
      (svc_branch exampleParams exampleWorld0 (some (cstr "dev"))).2.fs = exampleWorld0.fs :=
  svc_branch_success exampleParams exampleWorld0 (some (cstr "dev")) (by decide)

/-- C13, evaluation at the failing input: after `svc_add("a.txt")` on a fresh
engine the active roster holds a Staged entry, yet `check_uncommitted_changes`
returns 0, because the active branch has no commit. -/
theorem check_uncommitted_changes_misses_staged :
    (current exampleWorld1.vc).files =
        [{ file_path := cstr "a.txt", state := FileState.Staged, previous_hash := 615 }] ∧
      (current exampleWorld1.vc).commit = none ∧
      check_uncommitted_changes exampleWorld1 = 0 := by
  decide

/-- C14, evaluation at the failing input: in the state reached by
`svc_add("a.txt")` and `svc_branch("dev")` on a fresh engine the active roster
holds a Staged entry and the active branch is 0, yet `svc_checkout("dev")`
returns 0 and makes branch 1 the active branch. -/
theorem svc_checkout_with_staged_entry_switches :
    (current stagedBranchWorld.vc).files =
        [{ file_path := cstr "a.txt", state := FileState.Staged, previous_hash := 615 }] ∧
      stagedBranchWorld.vc.current_branch = 0 ∧
      (svc_checkout exampleParams stagedBranchWorld (some (cstr "dev"))).map
        (fun r => (r.1, r.2.vc.current_branch)) = some (0, 1) := by
  decide

/-! ## Restoring a snapshot -/

theorem writeFile_same (fs : FileSystem) (p : CString) (c : List Nat) :
    writeFile fs p c p = some { readable := true, contents := c } := by
  simp [writeFile]

theorem writeFile_other (fs : FileSystem) (p q : CString) (c : List Nat) (h : q ≠ p) :
    writeFile fs p c q = fs q := by
  simp [writeFile, h]

theorem writeFile_writeFile (fs : FileSystem) (p : CString) (a b : List Nat) :
    writeFile (writeFile fs p a) p b = writeFile fs p b := by
  funext q
  by_cases h : q = p <;> simp [writeFile, h]

theorem update_file_some (fs : FileSystem) (target blob : CString)
    (ht : canUpdate fs target = true) (hb : canRead fs blob = true) :
    update_file fs target (some blob) =
      some (writeFile fs target (if blob = target then [] else fileContents fs blob)) := by
  unfold canUpdate at ht
  unfold canRead at hb
  unfold update_file
  simp only [ht, Bool.true_eq_false, if_false]
  by_cases hbt : blob = target
  · subst hbt
    simp [writeFile_same, writeFile_writeFile]
  · rw [writeFile_other _ _ _ _ hbt]
    cases hf : fs blob with
    | none => rw [hf] at hb; exact Bool.noConfusion hb
    | some f =>
      rw [hf] at hb
      simp only at hb
      simp [hb, hbt, writeFile_writeFile, fileContents, hf]

theorem canRead_writeFile (fs : FileSystem) (p q : CString) (c : List Nat)
    (h : canRead fs q = true) : canRead (writeFile fs p c) q = true := by
  unfold canRead at h ⊢
  by_cases hq : q = p
  · rw [hq, writeFile_same]
  · rw [writeFile_other _ _ _ _ hq]; exact h

theorem canUpdate_writeFile (fs : FileSystem) (p q : CString) (c : List Nat)
    (h : canUpdate fs q = true) : canUpdate (writeFile fs p c) q = true := by
  unfold canUpdate at h ⊢
  by_cases hq : q = p
  · rw [hq, writeFile_same]
  · rw [writeFile_other _ _ _ _ hq]; exact h

theorem restore_ready_cons (P : Params) (fs : FileSystem) (e : FileSnapshot)
    (rest : List FileSnapshot) :
    restore_ready P fs (e :: rest) = true ↔
      (canRead fs (P.svc_file_path e.hash) = true ∧ canUpdate fs e.name = true) ∧
        restore_ready P fs rest = true := by
  simp [restore_ready]

theorem restore_ready_writeFile (P : Params) (fs : FileSystem) (p : CString) (c : List Nat)
    (entries : List FileSnapshot) (h : restore_ready P fs entries = true) :
    restore_ready P (writeFile fs p c) entries = true := by
  induction entries with
  | nil => rfl
  | cons e rest ih =>
    rw [restore_ready_cons] at h ⊢
    exact ⟨⟨canRead_writeFile _ _ _ _ h.1.1, canUpdate_writeFile _ _ _ _ h.1.2⟩, ih h.2⟩

theorem restore_files_some (P : Params) (entries : List FileSnapshot) :
    ∀ fs, restore_ready P fs entries = true →
      ∃ fs2, restore_files P fs entries = some fs2 ∧
        ∀ l, restore_ready P fs l = true → restore_ready P fs2 l = true := by
  induction entries with
  | nil => intro fs _; exact ⟨fs, rfl, fun _ h => h⟩
  | cons e rest ih =>
    intro fs h
    rw [restore_ready_cons] at h
    obtain ⟨⟨hb, ht⟩, hrest⟩ := h
    obtain ⟨fs2, h2, hmono⟩ := ih _ (restore_ready_writeFile P fs e.name
      (if P.svc_file_path e.hash = e.name then [] else fileContents fs (P.svc_file_path e.hash))
      rest hrest)
    refine ⟨fs2, ?_, ?_⟩
    · simp only [restore_files, update_file_some fs e.name _ ht hb, h2]
    · intro l hl
      exact hmono l (restore_ready_writeFile P fs _ _ l hl)

theorem restore_files_expected (P : Params) (blobs : FileSystem)
    (entries : List FileSnapshot) (hsep : StoreSeparate P entries)
    (hb : ∀ e ∈ entries, canRead blobs (P.svc_file_path e.hash) = true) :
    ∀ fs, (∀ e ∈ entries, fs (P.svc_file_path e.hash) = blobs (P.svc_file_path e.hash)) →
      (∀ e ∈ entries, canUpdate fs e.name = true) →
      restore_files P fs entries = some (restore_expected P blobs fs entries) := by
  induction entries with
  | nil => intro fs _ _; rfl
  | cons e rest ih =>
    intro fs hagree ht
    have hne : P.svc_file_path e.hash ≠ e.name := hsep e (by simp) e.hash
    have hread : canRead fs (P.svc_file_path e.hash) = true := by
      have := hb e (by simp)
      unfold canRead at this ⊢
      rw [hagree e (by simp)]
      exact this
    have hcont : fileContents fs (P.svc_file_path e.hash) =
        fileContents blobs (P.svc_file_path e.hash) := by
      unfold fileContents
      rw [hagree e (by simp)]
    simp only [restore_files, restore_expected,
      update_file_some fs e.name _ (ht e (by simp)) hread, if_neg hne, hcont]
    apply ih (fun x hx => hsep x (by simp [hx])) (fun x hx => hb x (by simp [hx]))
    · intro x hx
      rw [writeFile_other _ _ _ _ (hsep e (by simp) x.hash)]
      exact hagree x (by simp [hx])
    · intro x hx
      exact canUpdate_writeFile _ _ _ _ (ht x (by simp [hx]))

theorem restore_ready_iff (P : Params) (fs : FileSystem) (entries : List FileSnapshot) :
    restore_ready P fs entries = true ↔
      ∀ e ∈ entries, canRead fs (P.svc_file_path e.hash) = true ∧ canUpdate fs e.name = true := by
  simp [restore_ready]

theorem restore_snapshot_expected (P : Params) (fs : FileSystem) (s : Snapshot)
    (hsep : StoreSeparate P s.file_snapshots)
    (hready : restore_ready P fs s.file_snapshots = true) :
    restore_snapshot P fs (some s) = some (restore_expected P fs fs s.file_snapshots) := by
  rw [restore_ready_iff] at hready
  exact restore_files_expected P fs s.file_snapshots hsep (fun e he => (hready e he).1) fs
    (fun _ _ => rfl) (fun e he => (hready e he).2)

theorem restore_expected_other (P : Params) (blobs : FileSystem)
    (entries : List FileSnapshot) (q : CString) (hq : ∀ e ∈ entries, e.name ≠ q) :
    ∀ fs, restore_expected P blobs fs entries q = fs q := by
  induction entries with
  | nil => intro fs; rfl
  | cons e rest ih =>
    intro fs
    simp only [restore_expected]
    rw [ih (fun x hx => hq x (by simp [hx])),
      writeFile_other _ _ _ _ (fun h => hq e (by simp) h.symm)]

theorem restore_expected_last (P : Params) (blobs : FileSystem)
    (pre : List FileSnapshot) (e : FileSnapshot) (post : List FileSnapshot)
    (hpost : ∀ x ∈ post, x.name ≠ e.name) :
    ∀ fs, restore_expected P blobs fs (pre ++ e :: post) e.name =
      some { readable := true, contents := fileContents blobs (P.svc_file_path e.hash) } := by
  induction pre with
  | nil =>
    intro fs
    simp only [List.nil_append, restore_expected]
    rw [restore_expected_other P blobs post e.name hpost, writeFile_same]
  | cons x xs ih =>
    intro fs
    simp only [List.cons_append, restore_expected]
    exact ih _

theorem restore_expected_written (P : Params) (blobs : FileSystem)
    (entries : List FileSnapshot) (q : CString) (hq : ∃ e ∈ entries, e.name = q) :
    ∀ fs fs2, restore_expected P blobs fs entries q = restore_expected P blobs fs2 entries q := by
  induction entries with
  | nil => obtain ⟨e, he, _⟩ := hq; simp at he
  | cons e rest ih =>
    intro fs fs2
    simp only [restore_expected]
    by_cases hrest : ∃ x ∈ rest, x.name = q
    · exact ih hrest _ _
    · have hno : ∀ x ∈ rest, x.name ≠ q := fun x hx hxq => hrest ⟨x, hx, hxq⟩
      have heq : e.name = q := by
        obtain ⟨x, hx, hxq⟩ := hq
        rcases List.mem_cons.1 hx with h | h
        · rw [← h]; exact hxq
        · exact absurd hxq (hno x h)
      rw [restore_expected_other P blobs rest q hno, restore_expected_other P blobs rest q hno,
        ← heq, writeFile_same, writeFile_same]

theorem restore_expected_idem (P : Params) (blobs fs : FileSystem)
    (entries : List FileSnapshot) :
    restore_expected P blobs (restore_expected P blobs fs entries) entries =
      restore_expected P blobs fs entries := by
  funext q
  by_cases hq : ∃ e ∈ entries, e.name = q
  · exact restore_expected_written P blobs entries q hq _ _
  · have hno : ∀ e ∈ entries, e.name ≠ q := fun e he heq => hq ⟨e, he, heq⟩
    rw [restore_expected_other P blobs entries q hno]

/-! ## Looking up a commit -/

theorem get_commit_loop_some (cs : List Commit) (id : CString) :
    ∀ n i, get_commit_loop cs id n = some i →
      i < n ∧ ∃ c, cs.get? i = some c ∧ c.id = some id := by
  intro n
  induction n with
  | zero => intro i h; simp [get_commit_loop] at h
  | succ n ih =>
    intro i h
    unfold get_commit_loop at h
    cases hget : cs.get? n with
    | none =>
      rw [hget] at h
      obtain ⟨h1, h2⟩ := ih i h
      exact ⟨by omega, h2⟩
    | some c0 =>
      rw [hget] at h
      simp only at h
      cases hid : c0.id with
      | none =>
        rw [hid] at h
        obtain ⟨h1, h2⟩ := ih i h
        exact ⟨by omega, h2⟩
      | some id0 =>
        rw [hid] at h
        simp only at h
        by_cases hcmp : strcmp id0 id = 0
        · rw [if_pos hcmp] at h
          have hi : n = i := Option.some.inj h
          subst hi
          refine ⟨by omega, c0, hget, ?_⟩
          rw [hid, (strcmp_eq_zero_iff _ _).1 hcmp]
        · rw [if_neg hcmp] at h
          obtain ⟨h1, h2⟩ := ih i h
          exact ⟨by omega, h2⟩

theorem get_commit_loop_none (cs : List Commit) (id : CString) :
    ∀ n, get_commit_loop cs id n = none ↔
      ∀ j, j < n → ∀ c, cs.get? j = some c → c.id ≠ some id := by
  intro n
  induction n with
  | zero => simp [get_commit_loop]
  | succ n ih =>
    unfold get_commit_loop
    have hstep : (∀ j, j < n + 1 → ∀ c, cs.get? j = some c → c.id ≠ some id) ↔
        (∀ c, cs.get? n = some c → c.id ≠ some id) ∧
          ∀ j, j < n → ∀ c, cs.get? j = some c → c.id ≠ some id := by
      constructor
      · intro h
        exact ⟨fun c hc => h n (by omega) c hc, fun j hj c hc => h j (by omega) c hc⟩
      · intro h j hj c hc
        by_cases hjn : j = n
        · rw [hjn] at hc
          exact h.1 c hc
        · exact h.2 j (by omega) c hc
    rw [hstep]
    cases hget : cs.get? n with
    | none => simp [ih]
    | some c0 =>
      simp only [Option.some.injEq, forall_eq']
      cases hid : c0.id with
      | none => simp [ih]
      | some id0 =>
        simp only
        by_cases hcmp : strcmp id0 id = 0
        · rw [if_pos hcmp]
          simp [(strcmp_eq_zero_iff _ _).1 hcmp]
        · rw [if_neg hcmp, ih]
          have hne : id0 ≠ id := fun heq => hcmp ((strcmp_eq_zero_iff _ _).2 heq)
          simp [hne]

theorem get_commit_none_iff (vc : VersionControl) (id : CString) :
    get_commit vc (some id) = none ↔ ∀ c ∈ vc.commits, c.id ≠ some id := by
  unfold get_commit
  rw [get_commit_loop_none]
  constructor
  · intro h c hc
    obtain ⟨j, hj⟩ := List.get?_of_mem hc
    have hlt : j < vc.commits.length := by
      by_contra hge
      rw [List.get?_eq_none.2 (by omega)] at hj
      exact Option.noConfusion hj
    exact h j hlt c hj
  · intro h j _ c hc
    exact h c (List.get?_mem hc)

theorem get_commit_loop_ids (cs cs2 : List Commit) (id : CString)
    (h : cs.map (fun c => c.id) = cs2.map (fun c => c.id)) :
    ∀ n, get_commit_loop cs id n = get_commit_loop cs2 id n := by
  intro n
  induction n with
  | zero => rfl
  | succ n ih =>
    have hget : (cs.get? n).map (fun c => c.id) = (cs2.get? n).map (fun c => c.id) := by
      simp only [List.get?_eq_getElem?, ← List.getElem?_map, h]
    unfold get_commit_loop
    cases h1 : cs.get? n with
    | none =>
      cases h2 : cs2.get? n with
      | none => exact ih
      | some c2 => rw [h1, h2] at hget; simp at hget
    | some c1 =>
      cases h2 : cs2.get? n with
      | none => rw [h1, h2] at hget; simp at hget
      | some c2 =>
        rw [h1, h2] at hget
        simp only [Option.map_some', Option.some.injEq] at hget
        simp only [hget, ih]

/-! ## `svc_checkout` (C15, C16) -/

theorem svc_checkout_found (P : Params) (w : World) (name : CString) (idx : Nat)
    (h : get_branch_index w.vc (some name) = some idx) :
    (svc_checkout P w (some name)).map (fun r => r.1) = some (-2) ∨
      (svc_checkout P w (some name)).map (fun r => r.1) = some 0 ∨
      svc_checkout P w (some name) = none := by
  unfold svc_checkout
  simp only [h]
  split
  · exact Or.inl rfl
  · split
    · exact Or.inr (Or.inl rfl)
    · split
      · exact Or.inr (Or.inr rfl)
      · split
        · exact Or.inr (Or.inr rfl)
        · exact Or.inr (Or.inl rfl)

theorem current_of_get (vc : VersionControl) (b : Branch)
    (h : vc.branches.get? vc.current_branch = some b) : current vc = b := by
  unfold current
  rw [h]
  rfl

/-- C15, as the specification states it, fails when the snapshot names a path
of the content store.  In `storeRewrittenWorld`, a reachable state, master is
active, the head of dev has the snapshot `a.txt` (615), `.svc/267` (704),
`.svc/268` (705), `b.txt` (616), and the files `.svc/267` and `.svc/268`, which
are the blobs of the hashes 615 and 616, hold `q`.  `svc_checkout("dev")`
returns 0.  Afterwards `b.txt` holds `x`, not the bytes `q` stored under its
hash when the call was made, because `.svc/268` was itself restored first; and
`a.txt` holds `q`, not the bytes `x` stored under its hash after the call,
because `.svc/267` was restored after it. -/
theorem svc_checkout_store_path :
    Reachable exampleParams storeRewrittenWorld ∧
      (storeRewrittenWorld.vc.commits.get? 1).map
          (fun c => c.snapshot.file_snapshots) =
        some [{ name := cstr "a.txt", hash := 615 }, { name := cstr ".svc/267", hash := 704 },
              { name := cstr ".svc/268", hash := 705 }, { name := cstr "b.txt", hash := 616 }] ∧
      (storeRewrittenWorld.vc.branches.get? 1).map (fun b => (b.name, b.commit)) =
        some (cstr "dev", some 1) ∧
      exampleParams.svc_file_path 615 = cstr ".svc/267" ∧
      exampleParams.svc_file_path 616 = cstr ".svc/268" ∧
      check_uncommitted_changes storeRewrittenWorld = 0 ∧
      (svc_checkout exampleParams storeRewrittenWorld (some (cstr "dev"))).map
          (fun r => (r.1, r.2.vc.current_branch)) = some (0, 1) ∧
      fileContents storeRewrittenWorld.fs (cstr ".svc/268") = cstr "q" ∧
      fileContents storeCheckedOutWorld.fs (cstr "b.txt") = cstr "x" ∧
      fileContents storeCheckedOutWorld.fs (cstr "a.txt") = cstr "q" ∧
      fileContents storeCheckedOutWorld.fs (cstr ".svc/267") = cstr "x" := by
  refine ⟨⟨storeAliasFiles,
      [Op.branch (some (cstr "dev")), Op.checkout (some (cstr "dev")),
       Op.add (some (cstr "a.txt")), Op.commit (some (cstr "first")),
       Op.add (some (cstr ".svc/267")), Op.add (some (cstr ".svc/268")),
       Op.add (some (cstr "b.txt")), Op.commit (some (cstr "second")),
       Op.checkout (some (cstr "master")),
       Op.files (writeFile (writeFile storeAliasWorld.fs (cstr ".svc/267") (cstr "q"))
         (cstr ".svc/268") (cstr "q"))], rfl⟩,
    by decide, by decide, by decide, by decide, by decide, by decide, by decide, by decide,
    by decide, by decide⟩

/-- C15, amended: `svc_checkout` returns -1, leaving the engine as it is, exactly
when the name is absent or no branch has it.  For a name that
`get_branch_index` finds at `idx`, with no uncommitted changes reported, it
returns 0; the only change to the engine is that `idx`, a branch with that
name, becomes the active branch index (no roster, commit pointer or logged
commit changes).  If that branch has no commit the filesystem is unchanged; if
it has one whose blobs can be read, every file named in its snapshot is
overwritten with the bytes stored under its snapshot hash (the last entry of a
name counting, and no name being a store path) and no other file changes. -/
theorem svc_checkout_contract (P : Params) (w : World) (branch_name : Option CString) :
    (((svc_checkout P w branch_name).map (fun r => r.1) = some (-1)) ↔
      (branch_name = none ∨
        ∃ n, branch_name = some n ∧ ∀ b ∈ w.vc.branches, b.name ≠ n)) ∧
    ((branch_name = none ∨ (∃ n, branch_name = some n ∧ ∀ b ∈ w.vc.branches, b.name ≠ n)) →
      svc_checkout P w branch_name = some (-1, w)) ∧
    (∀ n, branch_name = some n → (∃ b ∈ w.vc.branches, b.name = n) →
      ∃ idx, get_branch_index w.vc (some n) = some idx) ∧
    (∀ n idx, branch_name = some n → get_branch_index w.vc (some n) = some idx →
      check_uncommitted_changes w = 0 →
      ∃ b, w.vc.branches.get? idx = some b ∧ b.name = n ∧
        (b.commit = none →
          svc_checkout P w branch_name =
            some (0, { vc := { w.vc with current_branch := idx }, fs := w.fs })) ∧
        (∀ k c, b.commit = some k → w.vc.commits.get? k = some c →
          restore_ready P w.fs c.snapshot.file_snapshots = true →
          ∃ fs2, svc_checkout P w branch_name =
              some (0, { vc := { w.vc with current_branch := idx }, fs := fs2 }) ∧
            (StoreSeparate P c.snapshot.file_snapshots →
              (∀ pre e post, c.snapshot.file_snapshots = pre ++ e :: post →
                (∀ x ∈ post, x.name ≠ e.name) →
                fs2 e.name =
                  some (FileNode.mk true (fileContents w.fs (P.svc_file_path e.hash)))) ∧
              (∀ q, (∀ e ∈ c.snapshot.file_snapshots, e.name ≠ q) → fs2 q = w.fs q)))) := by
  have hminus : (branch_name = none ∨
      (∃ n, branch_name = some n ∧ ∀ b ∈ w.vc.branches, b.name ≠ n)) →
      svc_checkout P w branch_name = some (-1, w) := by
    intro h
    rcases h with h | ⟨n, hn, hall⟩
    · rw [h]; rfl
    · rw [hn]
      unfold svc_checkout
      simp only [(get_branch_index_none_iff w.vc n).2 hall]
  refine ⟨⟨?_, fun h => by rw [hminus h]; rfl⟩, hminus, ?_, ?_⟩
  · intro h
    cases branch_name with
    | none => exact Or.inl rfl
    | some n =>
      refine Or.inr ⟨n, rfl, ?_⟩
      cases hidx : get_branch_index w.vc (some n) with
      | none => exact (get_branch_index_none_iff w.vc n).1 hidx
      | some idx =>
        rcases svc_checkout_found P w n idx hidx with h2 | h2 | h2
        · rw [h2] at h; simp at h
        · rw [h2] at h; simp at h
        · rw [h2] at h; simp at h
  · intro n _ ⟨b, hb, hname⟩
    cases hidx : get_branch_index w.vc (some n) with
    | some idx => exact ⟨idx, rfl⟩
    | none => exact absurd hname ((get_branch_index_none_iff w.vc n).1 hidx b hb)
  · intro n idx hn hidx hclean
    obtain ⟨_, ⟨b, hb, hname⟩, _⟩ :=
      get_branch_index_loop_some w.vc.branches n w.vc.branches.length idx hidx
    have hcur : current { w.vc with current_branch := idx } = b := current_of_get _ b hb
    refine ⟨b, hb, hname, ?_, ?_⟩
    · intro hnone
      rw [hn]
      unfold svc_checkout
      simp only [hidx, hclean, ne_eq, not_true_eq_false, if_false, hcur, hnone]
    · intro k c hk hc hready
      obtain ⟨fs2, hfs2, _⟩ := restore_files_some P c.snapshot.file_snapshots w.fs hready
      refine ⟨fs2, ?_, ?_⟩
      · rw [hn]
        unfold svc_checkout
        simp only [hidx, hclean, ne_eq, not_true_eq_false, if_false, hcur, hk, hc,
          restore_snapshot, hfs2]
      · intro hsep
        have hexp := restore_snapshot_expected P w.fs c.snapshot hsep hready
        unfold restore_snapshot at hexp
        simp only at hexp
        rw [hfs2] at hexp
        have hfs : fs2 = restore_expected P w.fs w.fs c.snapshot.file_snapshots :=
          Option.some.inj hexp
        constructor
        · intro pre e post hsplit hpost
          rw [hfs, hsplit]
          exact restore_expected_last P w.fs pre e post hpost w.fs
        · intro q hq
          rw [hfs]
          exact restore_expected_other P w.fs _ q hq w.fs

theorem example_snapshot_separate :
    StoreSeparate exampleParams [{ name := cstr "a.txt", hash := 615 }] := by
  intro e he h
  rw [List.mem_singleton] at he
  rw [he]
  exact exampleParams_store_path_ne h _ (by decide)

/-- Witness for C15: in `exampleWorld2` (master holds the commit of `a.txt`)
`svc_checkout("master")` returns 0 with active branch 0 and `a.txt` holds the
bytes `x` stored under its snapshot hash 615. -/
theorem svc_checkout_contract_witness :
    ∃ fs2, svc_checkout exampleParams exampleWorld2 (some (cstr "master")) =
        some (0, { vc := { exampleWorld2.vc with current_branch := 0 }, fs := fs2 }) ∧
      fs2 (cstr "a.txt") = some (FileNode.mk true (cstr "x")) := by
  obtain ⟨b, hb, _, _, h4⟩ :=
    (svc_checkout_contract exampleParams exampleWorld2 (some (cstr "master"))).2.2.2
      (cstr "master") 0 rfl (by decide) (by decide)
  have hb0 : exampleWorld2.vc.branches.get? 0 = some (current exampleWorld2.vc) := by decide
  have hbeq : b = current exampleWorld2.vc := by
    rw [hb0] at hb
    exact (Option.some.inj hb).symm
  have hsnap : ((exampleWorld2.vc.commits.get? 0).getD exampleCommit).snapshot.file_snapshots =
      [{ name := cstr "a.txt", hash := 615 }] := by decide
  obtain ⟨fs2, h5, h6⟩ := h4 0 ((exampleWorld2.vc.commits.get? 0).getD exampleCommit)
    (by rw [hbeq]; decide) (by decide) (by decide)
  refine ⟨fs2, h5, ?_⟩
  have h7 := (h6 (by rw [hsnap]; exact example_snapshot_separate)).1 []
    { name := cstr "a.txt", hash := 615 } [] (by rw [hsnap]; rfl) (by simp)
  rw [h7]
  decide

theorem svc_branch_zero (P : Params) (w : World) (name : CString)
    (h : (svc_branch P w (some name)).1 = 0) :
    check_uncommitted_changes w = 0 ∧ ∀ b ∈ w.vc.branches, b.name ≠ name := by
  unfold svc_branch at h
  simp only at h
  split at h
  · simp at h
  · split at h
    · simp at h
    · split at h
      · simp at h
      · rename_i _ h2 h3
        refine ⟨by simpa using h3, ?_⟩
        apply (get_branch_index_none_iff w.vc name).1
        cases hg : get_branch_index w.vc (some name) with
        | none => rfl
        | some i => rw [hg] at h2; simp at h2

theorem svc_checkout_ok (P : Params) (w : World) (name : CString) (idx : Nat) (b : Branch)
    (hidx : get_branch_index w.vc (some name) = some idx)
    (hclean : check_uncommitted_changes w = 0)
    (hb : w.vc.branches.get? idx = some b) :
    (b.commit = none →
      svc_checkout P w (some name) =
        some (0, { vc := { w.vc with current_branch := idx }, fs := w.fs })) ∧
    (∀ k c fs2, b.commit = some k → w.vc.commits.get? k = some c →
      restore_files P w.fs c.snapshot.file_snapshots = some fs2 →
      svc_checkout P w (some name) =
        some (0, { vc := { w.vc with current_branch := idx }, fs := fs2 })) := by
  have hcur : current { w.vc with current_branch := idx } = b := current_of_get _ b hb
  constructor
  · intro hnone
    unfold svc_checkout
    simp only [hidx, hclean, ne_eq, not_true_eq_false, if_false, hcur, hnone]
  · intro k c fs2 hk hc hfs2
    unfold svc_checkout
    simp only [hidx, hclean, ne_eq, not_true_eq_false, if_false, hcur, hk, hc,
      restore_snapshot, hfs2]

/-- C16: when `svc_branch(name)` returns 0 (in a state whose active branch
index is valid and whose current commit, if any, can be restored), an
immediately following `svc_checkout(name)` returns 0, makes the new branch the
active one, and the active roster is then, entry by entry, the active roster
at the moment the branch was created. -/
theorem svc_branch_then_checkout (P : Params) (w : World) (name : CString)
    (hwf : w.vc.current_branch < w.vc.branches.length)
    (hready : head_ready P w (current w.vc) = true)
    (h : (svc_branch P w (some name)).1 = 0) :
    ∃ w2, svc_checkout P (svc_branch P w (some name)).2 (some name) = some (0, w2) ∧
      w2.vc.current_branch = w.vc.branches.length ∧
      (current w2.vc).name = name ∧
      (current w2.vc).files = (current w.vc).files := by
  obtain ⟨n, hn, hbr, _, hpre, hcb, hlog, hfs⟩ := svc_branch_success P w (some name) h
  cases hn
  obtain ⟨hclean, _⟩ := svc_branch_zero P w name h
  obtain ⟨w1, hw1⟩ : ∃ w1, w1 = (svc_branch P w (some name)).2 := ⟨_, rfl⟩
  rw [← hw1] at hbr hpre hcb hlog hfs ⊢
  have hcur : current w1.vc = current w.vc := by
    unfold current
    rw [hcb, hpre _ hwf]
  have hclean2 : check_uncommitted_changes w1 = 0 := by
    unfold check_uncommitted_changes at hclean ⊢
    rw [hcur, hfs]
    exact hclean
  have hidx : get_branch_index w1.vc (some name) = some w.vc.branches.length := by
    unfold get_branch_index
    rw [hbr, List.length_append, List.length_singleton]
    exact get_branch_index_loop_last w.vc.branches
      { name := name, commit := (current w.vc).commit, files := (current w.vc).files,
        files_len := (current w.vc).files_len }
  have hb : w1.vc.branches.get? w.vc.branches.length =
      some { name := name, commit := (current w.vc).commit, files := (current w.vc).files,
             files_len := (current w.vc).files_len } := by
    rw [hbr]
    simp
  obtain ⟨ok1, ok2⟩ := svc_checkout_ok P w1 name _ _ hidx hclean2 hb
  have hnew := current_of_get { w1.vc with current_branch := w.vc.branches.length } _ hb
  unfold head_ready at hready
  cases hk : (current w.vc).commit with
  | none =>
    refine ⟨_, ok1 hk, rfl, ?_, ?_⟩
    · simp only [hnew]
    · simp only [hnew]
  | some k =>
    rw [hk] at hready
    simp only at hready
    cases hc : w.vc.commits.get? k with
    | none => rw [hc] at hready; exact Bool.noConfusion hready
    | some c =>
      rw [hc] at hready
      simp only at hready
      obtain ⟨fs2, hfs2, _⟩ := restore_files_some P c.snapshot.file_snapshots w.fs hready
      refine ⟨_, ok2 k c fs2 hk (by rw [hlog]; exact hc) (by rw [hfs]; exact hfs2), rfl, ?_, ?_⟩
      · simp only [hnew]
      · simp only [hnew]

/-- Witness for C16: in `exampleWorld2` `svc_branch("dev")` returns 0, the
following `svc_checkout("dev")` returns 0 and the active roster is still the
Tracked `a.txt` with hash 615. -/
theorem svc_branch_then_checkout_witness :
    (current exampleWorld2.vc).files =
        [{ file_path := cstr "a.txt", state := FileState.Tracked, previous_hash := 615 }] ∧
      ∃ w2, svc_checkout exampleParams
          (svc_branch exampleParams exampleWorld2 (some (cstr "dev"))).2 (some (cstr "dev")) =
          some (0, w2) ∧
        w2.vc.current_branch = exampleWorld2.vc.branches.length ∧
        (current w2.vc).name = cstr "dev" ∧
        (current w2.vc).files = (current exampleWorld2.vc).files :=
  ⟨by decide,
    svc_branch_then_checkout exampleParams exampleWorld2 (cstr "dev") (by decide) (by decide)
      (by decide)⟩

/-! ## `svc_reset` (C17, C18) -/

theorem svc_reset_ok (P : Params) (w : World) (id : CString) (k : Nat) (c : Commit)
    (fs2 : FileSystem) (hk : get_commit w.vc (some id) = some k)
    (hc : w.vc.commits.get? k = some c)
    (hfs2 : restore_files P w.fs c.snapshot.file_snapshots = some fs2) :
    svc_reset P w (some id) =
      some (0,
        { vc := setCurrent
            { w.vc with
              commits := w.vc.commits.set k { c with branch_id := w.vc.current_branch } }
            { current w.vc with
              commit := some k,
              files := roster_of_snapshot c.snapshot.file_snapshots,
              files_len := (roster_of_snapshot c.snapshot.file_snapshots).length },
          fs := fs2 }) := by
  unfold svc_reset
  simp only [hk, hc, restore_snapshot, hfs2, roster_of_snapshot]

theorem set_map_id (cs : List Commit) (k : Nat) (c : Commit) (b : Nat)
    (hc : cs.get? k = some c) :
    (cs.set k { c with branch_id := b }).map (fun x => x.id) = cs.map (fun x => x.id) := by
  induction cs generalizing k with
  | nil => rfl
  | cons x xs ih =>
    cases k with
    | zero =>
      simp only [List.get?_cons_zero, Option.some.injEq] at hc
      simp [List.set, hc]
    | succ k =>
      simp only [List.get?_cons_succ] at hc
      simp only [List.set, List.map_cons, ih k hc]

/-- C17: `svc_reset` returns -1 for an absent id and -2 when no logged
commit has the id, leaving the engine and the filesystem as they are.  When a
logged commit has the id, `get_commit` finds one, at index `k`; then (the
active branch index being valid and the blobs of the commit readable)
`svc_reset` returns 0, the current commit of the active branch is `k`, the
active roster has exactly one entry per snapshot entry of that commit, in
snapshot order, with its path, state Tracked and its hash, and the log keeps
all its commits: same length, same ids, only `branch_id` of commit `k` is set
to the active branch. -/
theorem svc_reset_contract (P : Params) (w : World) :
    svc_reset P w none = some (-1, w) ∧
    (∀ id, (∀ c ∈ w.vc.commits, c.id ≠ some id) → svc_reset P w (some id) = some (-2, w)) ∧
    (∀ id, (∃ c ∈ w.vc.commits, c.id = some id) →
      ∃ k c, get_commit w.vc (some id) = some k ∧ w.vc.commits.get? k = some c ∧
        c.id = some id) ∧
    (∀ id k c, get_commit w.vc (some id) = some k → w.vc.commits.get? k = some c →
      w.vc.current_branch < w.vc.branches.length →
      restore_ready P w.fs c.snapshot.file_snapshots = true →
      ∃ w2, svc_reset P w (some id) = some (0, w2) ∧
        (current w2.vc).commit = some k ∧
        (current w2.vc).files = roster_of_snapshot c.snapshot.file_snapshots ∧
        (current w2.vc).files.length = c.snapshot.file_snapshots.length ∧
        w2.vc.commits = w.vc.commits.set k { c with branch_id := w.vc.current_branch } ∧
        w2.vc.commits.length = w.vc.commits.length ∧
        w2.vc.commits.map (fun x => x.id) = w.vc.commits.map (fun x => x.id) ∧
        w2.vc.current_branch = w.vc.current_branch) := by
  refine ⟨rfl, ?_, ?_, ?_⟩
  · intro id hall
    unfold svc_reset
    simp only [(get_commit_none_iff w.vc id).2 hall]
  · intro id ⟨c0, hc0, hid0⟩
    cases hg : get_commit w.vc (some id) with
    | none => exact absurd hid0 ((get_commit_none_iff w.vc id).1 hg c0 hc0)
    | some k =>
      obtain ⟨_, c, hc, hid⟩ := get_commit_loop_some w.vc.commits id _ k hg
      exact ⟨k, c, rfl, hc, hid⟩
  · intro id k c hk hc hwf hready
    obtain ⟨fs2, hfs2, _⟩ := restore_files_some P c.snapshot.file_snapshots w.fs hready
    refine ⟨_, svc_reset_ok P w id k c fs2 hk hc hfs2, ?_⟩
    have hcur := current_of_set w.vc
      (setCurrent
        { w.vc with commits := w.vc.commits.set k { c with branch_id := w.vc.current_branch } }
        { current w.vc with
          commit := some k,
          files := roster_of_snapshot c.snapshot.file_snapshots,
          files_len := (roster_of_snapshot c.snapshot.file_snapshots).length })
      { current w.vc with
        commit := some k,
        files := roster_of_snapshot c.snapshot.file_snapshots,
        files_len := (roster_of_snapshot c.snapshot.file_snapshots).length }
      rfl rfl hwf
    simp only [hcur]
    refine ⟨trivial, trivial, ?_, rfl, ?_, ?_, rfl⟩
    · simp [roster_of_snapshot]
    · simp [setCurrent]
    · exact set_map_id w.vc.commits k c _ hc

/-- Witness for C17: in `exampleWorld3` (`a.txt` changed to `y` after the
commit `443094`) `svc_reset("443094")` returns 0, the current commit is the
one at index 0 and the roster is the Tracked `a.txt` with hash 615. -/
theorem svc_reset_contract_witness :
    ∃ w2, svc_reset exampleParams exampleWorld3 (some (cstr "443094")) = some (0, w2) ∧
      (current w2.vc).commit = some 0 ∧
      (current w2.vc).files =
        [{ file_path := cstr "a.txt", state := FileState.Tracked, previous_hash := 615 }] := by
  obtain ⟨w2, h1, h2, h3, _⟩ := (svc_reset_contract exampleParams exampleWorld3).2.2.2
    (cstr "443094") 0 ((exampleWorld3.vc.commits.get? 0).getD exampleCommit)
    (by decide) (by decide) (by decide) (by decide)
  refine ⟨w2, h1, h2, ?_⟩
  rw [h3]
  decide

/-- C18, as the specification states it, fails when the snapshot names a path
of the content store.  In `blobRewrittenWorld`, a reachable state, the commit
`bf808e` has the snapshot `a.txt` (615), `.svc/267` (704), and `.svc/267`, the
blob of the hash 615, holds `q`.  Two calls of `svc_reset("bf808e")` in a row
both return 0; after the first `a.txt` holds `q`, after the second it holds
`x`, because the first call has restored `.svc/267` after `a.txt`. -/
theorem svc_reset_twice_store_path :
    Reachable exampleParams blobRewrittenWorld ∧
      (blobRewrittenWorld.vc.commits.get? 1).map
          (fun c => (c.id, c.snapshot.file_snapshots)) =
        some (some (cstr "bf808e"),
          [{ name := cstr "a.txt", hash := 615 }, { name := cstr ".svc/267", hash := 704 }]) ∧
      (svc_reset exampleParams blobRewrittenWorld (some (cstr "bf808e"))).map
          (fun r => r.1) = some 0 ∧
      (svc_reset exampleParams blobResetOnceWorld (some (cstr "bf808e"))).map
          (fun r => r.1) = some 0 ∧
      fileContents blobResetOnceWorld.fs (cstr "a.txt") = cstr "q" ∧
      fileContents blobResetTwiceWorld.fs (cstr "a.txt") = cstr "x" := by
  refine ⟨⟨singleFile (cstr "a.txt") (cstr "x"),
      [Op.add (some (cstr "a.txt")), Op.commit (some (cstr "first")),
       Op.add (some (cstr ".svc/267")), Op.commit (some (cstr "second")),
       Op.files (writeFile blobTrackedWorld.fs (cstr ".svc/267") (cstr "q"))], rfl⟩,
    by decide, by decide, by decide, by decide, by decide⟩

/-- C18, amended: for a commit id that `get_commit` finds (commit `c` at index `k`),
in a state whose active branch index is valid, whose blobs for `c` can be read
and where no file of the snapshot is named like a store path, two calls of
`svc_reset` in a row both return 0 and the second leaves the active roster,
the current commit of the active branch and the whole filesystem exactly as
the first left them. -/
theorem svc_reset_idempotent (P : Params) (w : World) (id : CString) (k : Nat) (c : Commit)
    (hk : get_commit w.vc (some id) = some k) (hc : w.vc.commits.get? k = some c)
    (hwf : w.vc.current_branch < w.vc.branches.length)
    (hready : restore_ready P w.fs c.snapshot.file_snapshots = true)
    (hsep : StoreSeparate P c.snapshot.file_snapshots) :
    ∃ w1 w2, svc_reset P w (some id) = some (0, w1) ∧
      svc_reset P w1 (some id) = some (0, w2) ∧
      (current w2.vc).files = (current w1.vc).files ∧
      (current w2.vc).commit = (current w1.vc).commit ∧
      w2.fs = w1.fs := by
  obtain ⟨fs1, hfs1, hmono⟩ := restore_files_some P c.snapshot.file_snapshots w.fs hready
  have hexp := restore_snapshot_expected P w.fs c.snapshot hsep hready
  unfold restore_snapshot at hexp
  simp only at hexp
  rw [hfs1] at hexp
  have hfs1eq : fs1 = restore_expected P w.fs w.fs c.snapshot.file_snapshots :=
    Option.some.inj hexp
  have hklt : k < w.vc.commits.length := by
    by_contra hge
    rw [List.get?_eq_none.2 (by omega)] at hc
    exact Option.noConfusion hc
  obtain ⟨w1, hw1⟩ : ∃ w1 : World, w1 =
      { vc := setCurrent
          { w.vc with
            commits := w.vc.commits.set k { c with branch_id := w.vc.current_branch } }
          { current w.vc with
            commit := some k,
            files := roster_of_snapshot c.snapshot.file_snapshots,
            files_len := (roster_of_snapshot c.snapshot.file_snapshots).length },
        fs := fs1 } := ⟨_, rfl⟩
  have hr1 : svc_reset P w (some id) = some (0, w1) := by
    rw [hw1]
    exact svc_reset_ok P w id k c fs1 hk hc hfs1
  have hcommits : w1.vc.commits =
      w.vc.commits.set k { c with branch_id := w.vc.current_branch } := by
    rw [hw1]; rfl
  have hbranches : w1.vc.branches = w.vc.branches.set w.vc.current_branch
      { current w.vc with
        commit := some k,
        files := roster_of_snapshot c.snapshot.file_snapshots,
        files_len := (roster_of_snapshot c.snapshot.file_snapshots).length } := by
    rw [hw1]; rfl
  have hcb : w1.vc.current_branch = w.vc.current_branch := by
    rw [hw1]; rfl
  have hfsw1 : w1.fs = fs1 := by
    rw [hw1]
  have hcur1 := current_of_set w.vc w1.vc _ hbranches hcb hwf
  have hk1 : get_commit w1.vc (some id) = some k := by
    have hk0 : get_commit_loop w.vc.commits id w.vc.commits.length = some k := hk
    show get_commit_loop w1.vc.commits id w1.vc.commits.length = some k
    rw [hcommits, List.length_set,
      get_commit_loop_ids _ w.vc.commits id (set_map_id w.vc.commits k c _ hc)]
    exact hk0
  have hc1 : w1.vc.commits.get? k = some { c with branch_id := w.vc.current_branch } := by
    rw [hcommits]
    simp [hklt]
  have hagree : ∀ e ∈ c.snapshot.file_snapshots,
      fs1 (P.svc_file_path e.hash) = w.fs (P.svc_file_path e.hash) := by
    intro e _
    rw [hfs1eq]
    exact restore_expected_other P w.fs _ _ (fun x hx heq => hsep x hx e.hash heq.symm) w.fs
  have hready1 := (restore_ready_iff P fs1 _).1 (hmono _ hready)
  have hready0 := (restore_ready_iff P w.fs _).1 hready
  have hsecond : restore_files P w1.fs c.snapshot.file_snapshots = some fs1 := by
    rw [hfsw1, restore_files_expected P w.fs c.snapshot.file_snapshots hsep
      (fun e he => (hready0 e he).1) fs1 hagree (fun e he => (hready1 e he).2)]
    rw [hfs1eq, restore_expected_idem]
  have hr2 := svc_reset_ok P w1 id k { c with branch_id := w.vc.current_branch } fs1 hk1 hc1
    hsecond
  have hwf1 : w1.vc.current_branch < w1.vc.branches.length := by
    rw [hcb, hbranches, List.length_set]
    exact hwf
  have hcur2 : ∀ (cs : List Commit) (b : Branch),
      current (setCurrent { w1.vc with commits := cs } b) = b := by
    intro cs b
    exact current_of_set w1.vc _ b rfl rfl hwf1
  refine ⟨w1, _, hr1, hr2, ?_, ?_, ?_⟩
  · rw [hcur2, hcur1]
  · rw [hcur2, hcur1]
  · exact hfsw1.symm

/-- Witness for C18: in `exampleWorld3` two calls of `svc_reset("443094")` in
a row both return 0 and the second changes neither the roster nor the current
commit nor the filesystem; after the first, `a.txt` holds `x` again. -/
theorem svc_reset_idempotent_witness :
    ∃ w1 w2, svc_reset exampleParams exampleWorld3 (some (cstr "443094")) = some (0, w1) ∧
      svc_reset exampleParams w1 (some (cstr "443094")) = some (0, w2) ∧
      (current w2.vc).files = (current w1.vc).files ∧
      (current w2.vc).commit = (current w1.vc).commit ∧
      w2.fs = w1.fs := by
  have hsnap : ((exampleWorld3.vc.commits.get? 0).getD exampleCommit).snapshot.file_snapshots =
      [{ name := cstr "a.txt", hash := 615 }] := by decide
  exact svc_reset_idempotent exampleParams exampleWorld3 (cstr "443094") 0
    ((exampleWorld3.vc.commits.get? 0).getD exampleCommit) (by decide) (by decide) (by decide)
    (by decide) (by rw [hsnap]; exact example_snapshot_separate)

/-! ## `svc_merge` (C20) -/

theorem sameHeads_refl (vc : VersionControl) : SameHeads vc vc :=
  ⟨rfl, rfl, rfl, fun _ _ => rfl⟩

theorem sameHeads_trans (a b c : VersionControl) (h1 : SameHeads a b) (h2 : SameHeads b c) :
    SameHeads a c := by
  obtain ⟨a1, a2, a3, a4⟩ := h1
  obtain ⟨b1, b2, b3, b4⟩ := h2
  refine ⟨b1.trans a1, b2.trans a2, b3.trans a3, ?_⟩
  intro i hi
  rw [b4 i (by rw [a2]; exact hi), a4 i hi]

theorem sameHeads_setCurrent (vc : VersionControl) (b : Branch)
    (hb : b.commit = (current vc).commit) : SameHeads vc (setCurrent vc b) := by
  refine ⟨rfl, rfl, ?_, ?_⟩
  · by_cases hlt : vc.current_branch < vc.branches.length
    · rw [current_of_set vc (setCurrent vc b) b rfl rfl hlt, hb]
    · unfold current setCurrent
      simp only
      rw [List.set_eq_of_length_le (by omega)]
  · intro i hi
    unfold setCurrent
    simp only [List.get?_eq_getElem?]
    rw [List.getElem?_set_ne (fun h => hi h.symm)]

theorem svc_add_sameHeads (P : Params) (w : World) (file_name : Option CString)
    (r : Int × World) (h : svc_add P w file_name = some r) : SameHeads w.vc r.2.vc := by
  rcases svc_add_cases P w file_name r h with h1 | ⟨_, _, _, _, _, _, _, _, _, hvc⟩
  · rw [h1]
    exact sameHeads_refl _
  · rw [hvc]
    exact sameHeads_setCurrent w.vc _ rfl

theorem merge_stage_nil (P : Params) (w w1 : World) (h : merge_stage P w [] = some w1) :
    w1 = w := by
  simp only [merge_stage, Option.some.injEq] at h
  exact h.symm

theorem merge_stage_cons (P : Params) (w w1 : World) (e : FileSnapshot)
    (rest : List FileSnapshot) (h : merge_stage P w (e :: rest) = some w1) :
    (is_unknown (current w.vc).files e.name = false ∧ merge_stage P w rest = some w1) ∨
      (is_unknown (current w.vc).files e.name = true ∧
        ∃ fs r,
          (if access w.fs e.name = false then
              update_file w.fs e.name (some (P.svc_file_path e.hash))
            else some w.fs) = some fs ∧
          svc_add P { vc := w.vc, fs := fs } (some e.name) = some r ∧
          merge_stage P r.2 rest = some w1) := by
  unfold merge_stage at h
  by_cases hun : is_unknown (current w.vc).files e.name = true
  · right
    refine ⟨hun, ?_⟩
    simp only [hun, if_true] at h
    cases hfs : (if access w.fs e.name = false then
        update_file w.fs e.name (some (P.svc_file_path e.hash)) else some w.fs) with
    | none => rw [hfs] at h; exact Option.noConfusion h
    | some fs =>
      rw [hfs] at h
      simp only at h
      cases hadd : svc_add P { vc := w.vc, fs := fs } (some e.name) with
      | none => rw [hadd] at h; exact Option.noConfusion h
      | some r =>
        rw [hadd] at h
        exact ⟨fs, r, rfl, hadd, h⟩
  · left
    have hf : is_unknown (current w.vc).files e.name = false := by simpa using hun
    simp only [hf, Bool.false_eq_true, if_false] at h
    exact ⟨hf, h⟩

theorem merge_stage_sameHeads (P : Params) (entries : List FileSnapshot) :
    ∀ w w1, merge_stage P w entries = some w1 → SameHeads w.vc w1.vc := by
  induction entries with
  | nil =>
    intro w w1 h
    simp only [merge_stage, Option.some.injEq] at h
    rw [← h]
    exact sameHeads_refl _
  | cons e rest ih =>
    intro w w1 h
    rcases merge_stage_cons P w w1 e rest h with ⟨_, h1⟩ | ⟨_, fs, r, _, hadd, h1⟩
    · exact ih _ _ h1
    · exact sameHeads_trans _ _ _
        (svc_add_sameHeads P { vc := w.vc, fs := fs } (some e.name) r hadd) (ih _ _ h1)

theorem set_append_last (l : List Commit) (a b : Commit) :
    (l ++ [a]).set l.length b = l ++ [b] := by
  induction l with
  | nil => rfl
  | cons x xs ih => simp only [List.cons_append, List.length_cons, List.set_cons_succ, ih]

theorem svc_merge_success (P : Params) (w : World) (branch_name : Option CString)
    (resolutions : List resolution) (id : CString)
    (h : (svc_merge P w branch_name resolutions).map (fun r => r.1) = some (some id)) :
    ∃ n idx mb head merged w1 fs2, branch_name = some n ∧
      get_branch_index w.vc (some n) = some idx ∧ idx ≠ w.vc.current_branch ∧
      check_uncommitted_changes w = 0 ∧
      w.vc.branches.get? idx = some mb ∧ mb.name = n ∧ mb.commit = some head ∧
      w.vc.commits.get? head = some merged ∧
      merge_stage P w merged.snapshot.file_snapshots = some w1 ∧
      merge_resolve w1.fs resolutions = some fs2 ∧
      (svc_commit P { vc := w1.vc, fs := fs2 } (some (cstr "Merged branch " ++ n))).1 =
        some id ∧
      ∃ c0, (svc_commit P { vc := w1.vc, fs := fs2 }
          (some (cstr "Merged branch " ++ n))).2.vc.commits = w.vc.commits ++ [c0] ∧
        c0.id = some id ∧
        c0.parent_commits =
          (match (current w.vc).commit with
            | some p => [p]
            | none => []) ∧
        svc_merge P w branch_name resolutions =
          some (some id,
            { vc :=
                { (svc_commit P { vc := w1.vc, fs := fs2 }
                    (some (cstr "Merged branch " ++ n))).2.vc with
                  commits := w.vc.commits ++
                    [{ c0 with parent_commits := c0.parent_commits ++ [head] }] },
              fs := (svc_commit P { vc := w1.vc, fs := fs2 }
                (some (cstr "Merged branch " ++ n))).2.fs }) := by
  cases branch_name with
  | none => simp [svc_merge] at h
  | some n =>
    unfold svc_merge at h
    cases hidx : get_branch_index w.vc (some n) with
    | none =>
      simp only [hidx] at h
      simp at h
    | some idx =>
      by_cases hself : idx = w.vc.current_branch
      · simp only [hidx, hself, if_true] at h
        simp at h
      · by_cases hun : check_uncommitted_changes w = 0
        · cases hm : ((w.vc.branches.get? idx).bind (fun b => b.commit)).bind
              (fun c => w.vc.commits.get? c) with
          | none =>
            simp only [hidx, hself, hun, ne_eq, not_true_eq_false, if_false, hm] at h
            simp at h
          | some merged =>
            obtain ⟨head, hhead, hmerged⟩ := Option.bind_eq_some.1 hm
            obtain ⟨mb, hmb, hmbc⟩ := Option.bind_eq_some.1 hhead
            cases hst : merge_stage P w merged.snapshot.file_snapshots with
            | none =>
              simp only [hidx, hself, hun, ne_eq, not_true_eq_false, if_false, hm, hst] at h
              simp at h
            | some w1 =>
              cases hres : merge_resolve w1.fs resolutions with
              | none =>
                simp only [hidx, hself, hun, ne_eq, not_true_eq_false, if_false, hm, hst,
                  hres] at h
                simp at h
              | some fs2 =>
                cases hr : (svc_commit P { vc := w1.vc, fs := fs2 }
                    (some (cstr "Merged branch " ++ n))).1 with
                | none =>
                  simp only [hidx, hself, hun, ne_eq, not_true_eq_false, if_false, hm, hst,
                    hres, hr] at h
                  simp at h
                | some cid =>
                  obtain ⟨hs1, hs2, hs3, hs4⟩ := merge_stage_sameHeads P _ w w1 hst
                  obtain ⟨msg, _, _, _, hlog0, hbr, hcb, _⟩ :=
                    svc_commit_success P { vc := w1.vc, fs := fs2 }
                      (some (cstr "Merged branch " ++ n)) cid hr
                  simp only at hlog0 hbr hcb
                  rw [hs1, hs3] at hlog0
                  obtain ⟨c0, hlog, hc0id, hc0par⟩ : ∃ c0, (svc_commit P { vc := w1.vc, fs := fs2 }
                      (some (cstr "Merged branch " ++ n))).2.vc.commits = w.vc.commits ++ [c0] ∧
                      c0.id = some cid ∧
                      c0.parent_commits =
                        (match (current w.vc).commit with
                          | some p => [p]
                          | none => []) := ⟨_, hlog0, rfl, rfl⟩
                  have hlast : (svc_commit P { vc := w1.vc, fs := fs2 }
                      (some (cstr "Merged branch " ++ n))).2.vc.commits.length - 1 =
                      w.vc.commits.length := by
                    rw [hlog]; simp
                  have hget : (svc_commit P { vc := w1.vc, fs := fs2 }
                      (some (cstr "Merged branch " ++ n))).2.vc.commits.get?
                      w.vc.commits.length = some c0 := by
                    rw [hlog]; simp
                  have hheadget : ((svc_commit P { vc := w1.vc, fs := fs2 }
                      (some (cstr "Merged branch " ++ n))).2.vc.branches.get? idx).bind
                      (fun b => b.commit) = some head := by
                    rw [hbr]
                    simp only [List.get?_eq_getElem?]
                    rw [List.getElem?_set_ne (by rw [hs2]; exact fun h => hself h.symm)]
                    have := hs4 idx hself
                    simp only [List.get?_eq_getElem?] at this hmb
                    rw [this, hmb]
                    exact hmbc
                  have hname : mb.name = n := by
                    obtain ⟨_, ⟨b, hb, hbn⟩, _⟩ :=
                      get_branch_index_loop_some w.vc.branches n w.vc.branches.length idx hidx
                    rw [hmb] at hb
                    rw [Option.some.inj hb]
                    exact hbn
                  simp only [hidx, hself, hun, ne_eq, not_true_eq_false, if_false, hm, hst,
                    hres, hr, hlast, hget, hheadget, Option.map_some', Option.some.injEq] at h
                  subst h
                  refine ⟨n, idx, mb, head, merged, w1, fs2, rfl, hidx, hself, hun, hmb, hname,
                    hmbc, hmerged, hst, hres, hr, c0, hlog, hc0id, hc0par, ?_⟩
                  unfold svc_merge
                  simp only [hidx, hself, hun, ne_eq, not_true_eq_false, if_false, hm, hst,
                    hres, hr, hlast, hget, hheadget]
                  simp only [hlog, set_append_last]
        · simp only [hidx, hself, hun, ne_eq, not_false_eq_true, if_true, if_false] at h
          simp at h

/-- C20, counterexample: in `unbornMasterWorld` the active branch master has
no commit; `svc_merge("dev")` succeeds with id `670353`, and the resulting
commit, the second of the log, has the single parent 0 (the head of dev). -/
theorem svc_merge_single_parent :
    (current unbornMasterWorld.vc).commit = none ∧
      (svc_merge exampleParams unbornMasterWorld (some (cstr "dev")) []).map
        (fun r => (r.1, r.2.vc.commits.map (fun c => c.parent_commits))) =
        some (some (cstr "670353"), [[], [0]]) := by
  decide

/-- C20, amended: when `svc_merge` returns a commit id, the log is the old
log with the merge commit appended, and the parents of the merge commit are
the head that the active branch had before the merge, if it had one, followed
by the head of the merged branch: exactly two parents when the active branch
had a head, and the head of the merged branch alone when it had none. -/
theorem svc_merge_parents (P : Params) (w : World) (branch_name : Option CString)
    (resolutions : List resolution) (id : CString)
    (h : (svc_merge P w branch_name resolutions).map (fun r => r.1) = some (some id)) :
    ∃ w2 n idx mb head c, svc_merge P w branch_name resolutions = some (some id, w2) ∧
      branch_name = some n ∧ get_branch_index w.vc (some n) = some idx ∧
      w.vc.branches.get? idx = some mb ∧ mb.name = n ∧ mb.commit = some head ∧
      w2.vc.commits = w.vc.commits ++ [c] ∧ c.id = some id ∧
      (∀ p, (current w.vc).commit = some p → c.parent_commits = [p, head]) ∧
      ((current w.vc).commit = none → c.parent_commits = [head]) := by
  obtain ⟨n, idx, mb, head, merged, w1, fs2, hn, hidx, _, _, hmb, hname, hhead, _, _, _, _,
    c0, _, hid, hpar, hfinal⟩ := svc_merge_success P w branch_name resolutions id h
  refine ⟨_, n, idx, mb, head, { c0 with parent_commits := c0.parent_commits ++ [head] },
    hfinal, hn, hidx, hmb, hname, hhead, rfl, hid, ?_, ?_⟩
  · intro p hp
    simp only [hpar, hp, List.singleton_append]
  · intro hnone
    simp only [hpar, hnone, List.nil_append]

/-- Witness for the amended C20: in `twoHeadsWorld` master (head 0) merges
dev (head 1); the merge commit `b36804` is appended to the log and its parents
are 0 and 1, in this order. -/
theorem svc_merge_parents_witness :
    ∃ w2 c, svc_merge exampleParams twoHeadsWorld (some (cstr "dev")) [] =
        some (some (cstr "b36804"), w2) ∧
      w2.vc.commits = twoHeadsWorld.vc.commits ++ [c] ∧ c.parent_commits = [0, 1] := by
  obtain ⟨w2, n, idx, mb, head, c, h1, hn, hidx, hmb, _, hhead, hlog, _, hp, _⟩ :=
    svc_merge_parents exampleParams twoHeadsWorld (some (cstr "dev")) [] (cstr "b36804")
      (by decide)
  cases hn
  have hidx1 : get_branch_index twoHeadsWorld.vc (some (cstr "dev")) = some 1 := by decide
  rw [hidx1] at hidx
  cases hidx
  have hhead1 : (twoHeadsWorld.vc.branches.get? 1).bind (fun b => b.commit) = some 1 := by
    decide
  rw [hmb] at hhead1
  have hh : head = 1 := by
    have : some head = some 1 := by rw [← hhead]; exact hhead1
    exact Option.some.inj this
  refine ⟨w2, c, h1, hlog, ?_⟩
  rw [hp 0 (by decide), hh]

/-! ## The snapshot and the blobs of a commit (C19) -/

theorem hash_and_copy_file_copy (fs : FileSystem) (p : CString) :
    (hash_and_copy_file fs p true).2 =
      if canRead fs p = true then some (fileContents fs p) else none := by
  unfold hash_and_copy_file canRead fileContents
  cases hf : fs p with
  | none => simp
  | some f =>
    by_cases hr : f.readable = true
    · simp [hr]
    · simp [hr]

theorem new_file_snapshot_spec (P : Params) (fs : FileSystem) (s : Snapshot) (n : CString)
    (h : Int) (fc : Option (List Nat)) :
    ((new_file_snapshot P fs (some s) (some n) h fc).2.1.getD s).file_snapshots =
        s.file_snapshots ++
          (if fc.isSome = true ∧ h ≠ 0 then [{ name := n, hash := h }] else []) ∧
      (new_file_snapshot P fs (some s) (some n) h fc).2.2 =
        (if fc.isSome = true ∧ h ≠ 0 then
          (if access fs (P.svc_file_path h) = true then fs
           else writeFile fs (P.svc_file_path h) (fc.getD []))
         else fs) := by
  unfold new_file_snapshot
  cases fc with
  | none => simp
  | some c =>
    by_cases hz : h = 0
    · simp [hz]
    · simp [hz]

theorem commit_tracked_file_snapshot (P : Params) (fs : FileSystem) (c : Commit)
    (p : CString) (old_hash : Int) :
    (commit_tracked_file P fs c (some p) old_hash).2.1.snapshot =
        (new_file_snapshot P fs (some c.snapshot) (some p) (hash_and_copy_file fs p true).1
          (hash_and_copy_file fs p true).2).2.1.getD c.snapshot ∧
      (commit_tracked_file P fs c (some p) old_hash).2.2 =
        (new_file_snapshot P fs (some c.snapshot) (some p) (hash_and_copy_file fs p true).1
          (hash_and_copy_file fs p true).2).2.2 := by
  obtain ⟨_, hsnap, _⟩ := resize_commit_record_fields P c
  unfold commit_tracked_file
  by_cases hne : (hash_and_copy_file fs p true).1 = old_hash
  · simp [hne]
  · simp [hne, hsnap]

theorem commit_staged_file_snapshot (P : Params) (fs : FileSystem) (c : Commit)
    (p : CString) :
    (commit_staged_file P fs c (some p)).2.1.snapshot =
        (new_file_snapshot P fs (some c.snapshot) (some p) (hash_and_copy_file fs p true).1
          (hash_and_copy_file fs p true).2).2.1.getD c.snapshot ∧
      (commit_staged_file P fs c (some p)).2.2 =
        (new_file_snapshot P fs (some c.snapshot) (some p) (hash_and_copy_file fs p true).1
          (hash_and_copy_file fs p true).2).2.2 := by
  obtain ⟨_, hsnap, _⟩ := resize_commit_record_fields P c
  unfold commit_staged_file
  simp [hsnap]

theorem new_file_snapshot_expected (P : Params) (fs : FileSystem) (s : Snapshot)
    (fd : FileData) (hst : fd.state ≠ FileState.Deleted) :
    ((new_file_snapshot P fs (some s) (some fd.file_path)
          (hash_and_copy_file fs fd.file_path true).1
          (hash_and_copy_file fs fd.file_path true).2).2.1.getD s).file_snapshots =
        s.file_snapshots ++ (expected_snapshot fs fd).toList ∧
      (new_file_snapshot P fs (some s) (some fd.file_path)
          (hash_and_copy_file fs fd.file_path true).1
          (hash_and_copy_file fs fd.file_path true).2).2.2 =
        (match expected_snapshot fs fd with
          | none => fs
          | some e =>
            if access fs (P.svc_file_path e.hash) = true then fs
            else writeFile fs (P.svc_file_path e.hash) (fileContents fs fd.file_path)) := by
  obtain ⟨n1, n2⟩ := new_file_snapshot_spec P fs s fd.file_path
    (hash_and_copy_file fs fd.file_path true).1 (hash_and_copy_file fs fd.file_path true).2
  rw [n1, n2, hash_and_copy_file_copy]
  unfold expected_snapshot current_hash
  by_cases hr : canRead fs fd.file_path = true
  · by_cases hz : (hash_and_copy_file fs fd.file_path true).1 = 0
    · simp [hr, hz]
    · simp [hr, hz, hst]
  · simp [hr]

theorem commit_entry_snapshot (P : Params) (fs : FileSystem) (c : Commit) (fd : FileData) :
    (commit_entry P fs c fd).1.snapshot.file_snapshots =
        c.snapshot.file_snapshots ++ (expected_snapshot fs fd).toList ∧
      (commit_entry P fs c fd).2.1 =
        (match expected_snapshot fs fd with
          | none => fs
          | some e =>
            if access fs (P.svc_file_path e.hash) = true then fs
            else writeFile fs (P.svc_file_path e.hash) (fileContents fs fd.file_path)) := by
  obtain ⟨_, hsnap, _⟩ := resize_commit_record_fields P c
  have hread : ¬ access fs fd.file_path = true → expected_snapshot fs fd = none := by
    unfold expected_snapshot canRead access
    cases fs fd.file_path <;> simp
  have hdel : fd.state = FileState.Deleted → expected_snapshot fs fd = none := by
    intro h
    simp [expected_snapshot, h]
  unfold commit_entry
  cases hst : fd.state
  · simp only
    by_cases hacc : access fs fd.file_path = true
    · simp only [hacc, Bool.true_eq_false, if_false]
      obtain ⟨t1, t2⟩ := commit_tracked_file_snapshot P fs c fd.file_path fd.previous_hash
      obtain ⟨n1, n2⟩ := new_file_snapshot_expected P fs c.snapshot fd (by simp [hst])
      exact ⟨by rw [t1, n1], by rw [t2, n2]⟩
    · simp [hacc, hread hacc, commit_deleted_file, hsnap]
  · simp only
    by_cases hacc : access fs fd.file_path = true
    · simp only [hacc, Bool.true_eq_false, if_false]
      obtain ⟨t1, t2⟩ := commit_staged_file_snapshot P fs c fd.file_path
      obtain ⟨n1, n2⟩ := new_file_snapshot_expected P fs c.snapshot fd (by simp [hst])
      exact ⟨by rw [t1, n1], by rw [t2, n2]⟩
    · simp [hacc, hread hacc]
  · simp [commit_deleted_file, hsnap, hdel hst]

theorem expected_snapshot_congr (fs fs2 : FileSystem) (fd : FileData)
    (h : fs2 fd.file_path = fs fd.file_path) :
    expected_snapshot fs2 fd = expected_snapshot fs fd ∧
      fileContents fs2 fd.file_path = fileContents fs fd.file_path := by
  unfold expected_snapshot current_hash hash_and_copy_file canRead fileContents
  rw [h]
  exact ⟨rfl, rfl⟩

theorem expected_snapshot_some (fs : FileSystem) (fd : FileData) (e : FileSnapshot)
    (h : expected_snapshot fs fd = some e) :
    e.name = fd.file_path ∧ e.hash = current_hash fs fd.file_path ∧
      fd.state ≠ FileState.Deleted ∧ canRead fs fd.file_path = true ∧ e.hash ≠ 0 := by
  unfold expected_snapshot at h
  split at h
  · rename_i hc
    have he := Option.some.inj h
    subst he
    exact ⟨rfl, rfl, hc.1, hc.2.1, hc.2.2⟩
  · exact Option.noConfusion h

theorem commit_entry_store (P : Params) (fs0 fs : FileSystem) (c : Commit) (fd : FileData)
    (hsep : ∀ h, P.svc_file_path h ≠ fd.file_path)
    (hinv : CommitStore P fs0 fs c.snapshot.file_snapshots) :
    (commit_entry P fs c fd).1.snapshot.file_snapshots =
        c.snapshot.file_snapshots ++ (expected_snapshot fs0 fd).toList ∧
      CommitStore P fs0 (commit_entry P fs c fd).2.1
        (commit_entry P fs c fd).1.snapshot.file_snapshots := by
  obtain ⟨hagree, hext, hfiles, hblobs⟩ := hinv
  obtain ⟨hexp, hcont⟩ := expected_snapshot_congr fs0 fs fd (hagree _ hsep)
  obtain ⟨s1, s2⟩ := commit_entry_snapshot P fs c fd
  rw [hexp] at s1 s2
  refine ⟨s1, commit_entry_agreeOffStore P fs0 fs c fd hagree,
    commit_entry_fsExtends P fs0 fs c fd hext, ?_, ?_⟩
  · intro q f hq
    rw [s1]
    cases hes : expected_snapshot fs0 fd with
    | none =>
      rw [hes] at s2
      simp only at s2
      rw [s2] at hq
      rcases hfiles q f hq with h | ⟨e, he, h1, h2⟩
      · exact Or.inl h
      · exact Or.inr ⟨e, by simp [he], h1, h2⟩
    | some e0 =>
      rw [hes] at s2
      simp only at s2
      obtain ⟨hname, _⟩ := expected_snapshot_some fs0 fd e0 hes
      by_cases hacc : access fs (P.svc_file_path e0.hash) = true
      · rw [if_pos hacc] at s2
        rw [s2] at hq
        rcases hfiles q f hq with h | ⟨e, he, h1, h2⟩
        · exact Or.inl h
        · exact Or.inr ⟨e, by simp [he], h1, h2⟩
      · rw [if_neg hacc] at s2
        rw [s2] at hq
        by_cases hqe : q = P.svc_file_path e0.hash
        · subst hqe
          rw [writeFile_same] at hq
          refine Or.inr ⟨e0, by simp, rfl, ?_⟩
          rw [hname, ← hcont]
          exact (Option.some.inj hq).symm
        · rw [writeFile_other _ _ _ _ hqe] at hq
          rcases hfiles q f hq with h | ⟨e, he, h1, h2⟩
          · exact Or.inl h
          · exact Or.inr ⟨e, by simp [he], h1, h2⟩
  · intro e he
    rw [s1] at he
    rcases List.mem_append.1 he with hold | hnew
    · have hsome := hblobs e hold
      cases hf : fs (P.svc_file_path e.hash) with
      | none => rw [hf] at hsome; exact absurd hsome (by simp)
      | some f =>
        rcases commit_entry_fs P fs c fd with h | ⟨x, b, h, _⟩
        · rw [h, hf]; rfl
        · rw [h]
          unfold writeFile
          split
          · rfl
          · rw [hf]; rfl
    · cases hes : expected_snapshot fs0 fd with
      | none => rw [hes] at hnew; simp at hnew
      | some e0 =>
        rw [hes] at hnew s2
        simp only [Option.toList, List.mem_singleton] at hnew
        subst hnew
        simp only at s2
        by_cases hacc : access fs (P.svc_file_path e.hash) = true
        · rw [if_pos hacc] at s2
          rw [s2]
          exact hacc
        · rw [if_neg hacc] at s2
          rw [s2, writeFile_same]
          rfl

theorem commit_files_store (P : Params) (fs0 : FileSystem) (files : List FileData) :
    ∀ (fs : FileSystem) (c : Commit),
      (∀ fd ∈ files, ∀ h, P.svc_file_path h ≠ fd.file_path) →
      CommitStore P fs0 fs c.snapshot.file_snapshots →
      (commit_files P fs c files).1.snapshot.file_snapshots =
          c.snapshot.file_snapshots ++ files.filterMap (expected_snapshot fs0) ∧
        CommitStore P fs0 (commit_files P fs c files).2.1
          (commit_files P fs c files).1.snapshot.file_snapshots := by
  induction files with
  | nil => intro fs c _ hinv; simpa [commit_files] using hinv
  | cons fd rest ih =>
    intro fs c hsep hinv
    obtain ⟨e1, e2⟩ := commit_entry_store P fs0 fs c fd (hsep fd (by simp)) hinv
    obtain ⟨i1, i2⟩ := ih (commit_entry P fs c fd).2.1 (commit_entry P fs c fd).1
      (fun x hx => hsep x (by simp [hx])) e2
    simp only [commit_files]
    refine ⟨?_, i2⟩
    rw [i1, e1, List.filterMap_cons]
    cases expected_snapshot fs0 fd <;> simp

theorem svc_commit_store (P : Params) (w : World) (m : CString) (id : CString) (C : Commit)
    (hsep : ∀ fd ∈ (current w.vc).files, ∀ h, P.svc_file_path h ≠ fd.file_path)
    (hcommit : (svc_commit P w (some m)).1 = some id)
    (hC : (svc_commit P w (some m)).2.vc.commits = w.vc.commits ++ [C]) :
    C.snapshot.file_snapshots = (current w.vc).files.filterMap (expected_snapshot w.fs) ∧
      C.id = some id ∧
      CommitStore P w.fs (svc_commit P w (some m)).2.fs C.snapshot.file_snapshots := by
  obtain ⟨msg, hm, _, _, hlog, _, _, hfs⟩ := svc_commit_success P w (some m) id hcommit
  have hmsg : msg = m := (Option.some.inj hm).symm
  subst hmsg
  rw [hlog] at hC
  have hCeq := List.append_cancel_left hC
  simp only [List.cons.injEq, and_true] at hCeq
  have hstart : CommitStore P w.fs w.fs (init_snapshot P).file_snapshots :=
    ⟨fun _ _ => rfl, fun _ _ h => h, fun _ _ h => Or.inl h, fun e he => by
      simp [init_snapshot] at he⟩
  obtain ⟨l1, l2⟩ := commit_files_store P w.fs (current w.vc).files w.fs
    { id := none, message := msg, branch_id := w.vc.current_branch, commit_record := [],
      record_len := (current w.vc).files.length, parent_commits := [],
      snapshot := init_snapshot P } hsep hstart
  have hsnapC : C.snapshot = (svc_commit_loop P w msg).1.snapshot := by
    rw [← hCeq]
    rfl
  rw [hfs, hsnapC]
  refine ⟨?_, ?_, l2⟩
  · unfold svc_commit_loop
    rw [l1]
    simp [init_snapshot]
  · rw [← hCeq]

theorem restore_expected_mem (P : Params) (blobs : FileSystem)
    (entries : List FileSnapshot) (q : CString) (hq : ∃ e ∈ entries, e.name = q) :
    ∀ fs, ∃ e ∈ entries, e.name = q ∧
      restore_expected P blobs fs entries q =
        some { readable := true, contents := fileContents blobs (P.svc_file_path e.hash) } := by
  induction entries with
  | nil => obtain ⟨e, he, _⟩ := hq; simp at he
  | cons e rest ih =>
    intro fs
    simp only [restore_expected]
    by_cases hrest : ∃ x ∈ rest, x.name = q
    · obtain ⟨x, hx, hxq, hval⟩ := ih hrest
        (writeFile fs e.name (fileContents blobs (P.svc_file_path e.hash)))
      exact ⟨x, by simp [hx], hxq, hval⟩
    · have hno : ∀ x ∈ rest, x.name ≠ q := fun x hx hxq => hrest ⟨x, hx, hxq⟩
      have heq : e.name = q := by
        obtain ⟨x, hx, hxq⟩ := hq
        rcases List.mem_cons.1 hx with h | h
        · rw [← h]; exact hxq
        · exact absurd hxq (hno x h)
      refine ⟨e, by simp, heq, ?_⟩
      rw [restore_expected_other P blobs rest q hno, ← heq, writeFile_same]

/-- C19, as the specification states it, fails when two files share a hash:
in `collisionWorld`, `b.txt` holds `a` when `svc_commit("both")` creates commit
`0d3119`, whose snapshot names `a.txt` and `b.txt` with the same hash 593; the
`svc_reset` to `0d3119` that follows at once returns 0 and leaves `b.txt`
holding `b`, the content of `a.txt`. -/
theorem svc_reset_after_hash_collision :
    fileContents collisionWorld.fs (cstr "b.txt") = cstr "a" ∧
      (svc_commit exampleParams collisionWorld (some (cstr "both"))).1 =
        some (cstr "0d3119") ∧
      (svc_commit exampleParams collisionWorld (some (cstr "both"))).2.vc.commits.map
          (fun c => (c.id, c.snapshot.file_snapshots.map (fun e => (e.name, e.hash)))) =
        [(some (cstr "0d3119"), [(cstr "a.txt", 593), (cstr "b.txt", 593)])] ∧
      (svc_reset exampleParams
          (svc_commit exampleParams collisionWorld (some (cstr "both"))).2
          (some (cstr "0d3119"))).map (fun r => (r.1, r.2.fs (cstr "b.txt"))) =
        some (0, some { readable := true, contents := cstr "b" }) := by
  decide

/-- C19, amended: let `svc_commit` in the world `w` create the commit `C` with
id `id`, where no roster path is a path of the content store and no two
contents share a store path (a blob already stored under the hash of a snapshot
entry is readable and holds that file's bytes, and snapshot entries with the
same store path name files with the same bytes). Let `w2` be any later world in
which `get_commit(id)` finds a commit with the snapshot of `C`, the blobs of
that snapshot are as the commit left them, and every snapshot path is missing or
can be opened. Then `svc_reset(id)` returns 0, and each file named in the
snapshot of `C`, which was readable when `C` was created, holds exactly the
bytes it had then. -/
theorem svc_reset_restores_committed (P : Params) (w : World) (m id : CString) (C : Commit)
    (w2 : World) (k : Nat) (c2 : Commit)
    (hsep : ∀ fd ∈ (current w.vc).files, ∀ h, P.svc_file_path h ≠ fd.file_path)
    (hcommit : (svc_commit P w (some m)).1 = some id)
    (hC : (svc_commit P w (some m)).2.vc.commits = w.vc.commits ++ [C])
    (hstored : ∀ e ∈ C.snapshot.file_snapshots, ∀ f, w.fs (P.svc_file_path e.hash) = some f →
      f.readable = true ∧ f.contents = fileContents w.fs e.name)
    (hshared : ∀ e ∈ C.snapshot.file_snapshots, ∀ e2 ∈ C.snapshot.file_snapshots,
      P.svc_file_path e2.hash = P.svc_file_path e.hash →
      fileContents w.fs e2.name = fileContents w.fs e.name)
    (hk : get_commit w2.vc (some id) = some k) (hc2 : w2.vc.commits.get? k = some c2)
    (hsnap : c2.snapshot.file_snapshots = C.snapshot.file_snapshots)
    (hstore : ∀ e ∈ C.snapshot.file_snapshots,
      w2.fs (P.svc_file_path e.hash) = (svc_commit P w (some m)).2.fs (P.svc_file_path e.hash))
    (htargets : ∀ e ∈ C.snapshot.file_snapshots, canUpdate w2.fs e.name = true) :
    ∃ w3, svc_reset P w2 (some id) = some (0, w3) ∧
      ∀ e ∈ C.snapshot.file_snapshots,
        canRead w.fs e.name = true ∧
        w3.fs e.name = some { readable := true, contents := fileContents w.fs e.name } := by
  obtain ⟨hS, _, _, _, hfiles, hblobs⟩ := svc_commit_store P w m id C hsep hcommit hC
  have hfrom : ∀ e ∈ C.snapshot.file_snapshots,
      ∃ fd ∈ (current w.vc).files, expected_snapshot w.fs fd = some e := by
    intro e he
    rw [hS] at he
    obtain ⟨fd, hfd, hfe⟩ := List.mem_filterMap.1 he
    exact ⟨fd, hfd, hfe⟩
  have hblob : ∀ e ∈ C.snapshot.file_snapshots,
      canRead w2.fs (P.svc_file_path e.hash) = true ∧
        fileContents w2.fs (P.svc_file_path e.hash) = fileContents w.fs e.name := by
    intro e he
    unfold canRead fileContents
    rw [hstore e he]
    have hsome := hblobs e he
    cases hf : (svc_commit P w (some m)).2.fs (P.svc_file_path e.hash) with
    | none => rw [hf] at hsome; exact absurd hsome (by simp)
    | some f =>
      simp only
      rcases hfiles _ f hf with h0 | ⟨e2, he2, hpath, hval⟩
      · exact hstored e he f h0
      · rw [hval]
        exact ⟨rfl, hshared e he e2 he2 hpath⟩
  have hsepS : StoreSeparate P C.snapshot.file_snapshots := by
    intro e he h
    obtain ⟨fd, hfd, hfe⟩ := hfrom e he
    rw [(expected_snapshot_some w.fs fd e hfe).1]
    exact hsep fd hfd h
  have hrestore := restore_files_expected P w2.fs C.snapshot.file_snapshots hsepS
    (fun e he => (hblob e he).1) w2.fs (fun _ _ => rfl) htargets
  rw [← hsnap] at hrestore
  refine ⟨_, svc_reset_ok P w2 id k c2 _ hk hc2 hrestore, ?_⟩
  intro e he
  obtain ⟨fd, _, hfe⟩ := hfrom e he
  obtain ⟨hname, _, _, hread, _⟩ := expected_snapshot_some w.fs fd e hfe
  refine ⟨by rw [hname]; exact hread, ?_⟩
  obtain ⟨x, hx, hxe, hval⟩ := restore_expected_mem P w2.fs C.snapshot.file_snapshots e.name
    ⟨e, he, rfl⟩ w2.fs
  simp only [hsnap]
  rw [hval, (hblob x hx).2, hxe]

/-- Witness for C19: `a.txt` held `x` when commit `443094` was created; after
the change to `y` was committed as `800b43` and the file was rewritten to `z`,
`svc_reset("443094")` returns 0 and `a.txt` holds `x` again. -/
theorem svc_reset_restores_committed_witness :
    fileContents exampleWorld1.fs (cstr "a.txt") = cstr "x" ∧
      fileContents editedWorld.fs (cstr "a.txt") = cstr "z" ∧
      editedWorld.vc.commits.map (fun c => c.id) =
        [some (cstr "443094"), some (cstr "800b43")] ∧
      ∃ w3, svc_reset exampleParams editedWorld (some (cstr "443094")) = some (0, w3) ∧
        w3.fs (cstr "a.txt") = some { readable := true, contents := cstr "x" } := by
  refine ⟨by decide, by decide, by decide, ?_⟩
  have hsep : ∀ fd ∈ (current exampleWorld1.vc).files, ∀ h,
      exampleParams.svc_file_path h ≠ fd.file_path := by
    intro fd hfd h
    have hfiles : (current exampleWorld1.vc).files =
        [{ file_path := cstr "a.txt", state := FileState.Staged, previous_hash := 615 }] := by
      decide
    rw [hfiles] at hfd
    rw [List.mem_singleton.1 hfd]
    exact exampleParams_store_path_ne h _ (by decide)
  have hstored : ∀ e ∈ firstCommit.snapshot.file_snapshots, ∀ f,
      exampleWorld1.fs (exampleParams.svc_file_path e.hash) = some f →
      f.readable = true ∧ f.contents = fileContents exampleWorld1.fs e.name := by
    intro e he f hf
    have he2 : e = { name := cstr "a.txt", hash := 615 } := List.mem_singleton.1 he
    subst he2
    have hnone : exampleWorld1.fs (exampleParams.svc_file_path 615) = none := by decide
    rw [hnone] at hf
    exact Option.noConfusion hf
  obtain ⟨w3, h1, h2⟩ := svc_reset_restores_committed exampleParams exampleWorld1
    (cstr "first") (cstr "443094") firstCommit editedWorld 0 firstCommit hsep
    (by decide) (by decide) hstored (by decide) (by decide) (by decide) rfl (by decide)
    (by decide)
  have h3 := (h2 { name := cstr "a.txt", hash := 615 } (by decide)).2
  have hx : fileContents exampleWorld1.fs (cstr "a.txt") = cstr "x" := by decide
  exact ⟨w3, h1, by rw [← hx]; exact h3⟩

/-! ## `get_commit` (C23) -/

theorem get_commit_loop_greatest (cs : List Commit) (id : CString) :
    ∀ n i, get_commit_loop cs id n = some i →
      ∀ j, i < j → j < n → ∀ c, cs.get? j = some c → c.id ≠ some id := by
  intro n
  induction n with
  | zero => intro i h; simp [get_commit_loop] at h
  | succ n ih =>
    intro i h j hij hjn c hc
    unfold get_commit_loop at h
    by_cases hj : j = n
    · subst hj
      rw [hc] at h
      simp only at h
      cases hid : c.id with
      | none => simp
      | some id0 =>
        rw [hid] at h
        simp only at h
        by_cases hcmp : strcmp id0 id = 0
        · rw [if_pos hcmp] at h
          have hi : j = i := Option.some.inj h
          omega
        · intro heq
          exact hcmp ((strcmp_eq_zero_iff _ _).2 (Option.some.inj heq))
    · have hrest : get_commit_loop cs id n = some i → c.id ≠ some id :=
        fun hloop => ih i hloop j hij (by omega) c hc
      cases hget : cs.get? n with
      | none =>
        rw [hget] at h
        exact hrest h
      | some c0 =>
        rw [hget] at h
        simp only at h
        cases hid : c0.id with
        | none =>
          rw [hid] at h
          exact hrest h
        | some id0 =>
          rw [hid] at h
          simp only at h
          by_cases hcmp : strcmp id0 id = 0
          · rw [if_pos hcmp] at h
            have hi : n = i := Option.some.inj h
            omega
          · rw [if_neg hcmp] at h
            exact hrest h

/-- C23: `get_commit` returns absent for an absent id, and for an id it
returns absent exactly when no logged commit has that id (so always on an
empty log); it returns the index `k` exactly when the commit at `k` has the id
and no commit at a greater index has it. -/
theorem get_commit_contract (vc : VersionControl) :
    get_commit vc none = none ∧
      (∀ id, get_commit vc (some id) = none ↔ ∀ c ∈ vc.commits, c.id ≠ some id) ∧
      (∀ id, vc.commits = [] → get_commit vc (some id) = none) ∧
      (∀ id k, get_commit vc (some id) = some k ↔
        (∃ c, vc.commits.get? k = some c ∧ c.id = some id) ∧
          ∀ j c, k < j → vc.commits.get? j = some c → c.id ≠ some id) := by
  refine ⟨rfl, get_commit_none_iff vc, ?_, ?_⟩
  · intro id hnil
    rw [get_commit_none_iff, hnil]
    intro c hc
    simp at hc
  · intro id k
    have hlen : ∀ j c, vc.commits.get? j = some c → j < vc.commits.length := by
      intro j c hj
      by_contra hge
      rw [List.get?_eq_none.2 (by omega)] at hj
      exact Option.noConfusion hj
    constructor
    · intro h
      obtain ⟨_, hfound⟩ := get_commit_loop_some vc.commits id _ k h
      refine ⟨hfound, fun j c hkj hc => ?_⟩
      exact get_commit_loop_greatest vc.commits id _ k h j hkj (hlen j c hc) c hc
    · intro ⟨⟨c, hc, hid⟩, hmax⟩
      cases hg : get_commit vc (some id) with
      | none =>
        exact absurd hid ((get_commit_none_iff vc id).1 hg c (List.get?_mem hc))
      | some k2 =>
        obtain ⟨hk2, c2, hc2, hid2⟩ := get_commit_loop_some vc.commits id _ k2 hg
        have h1 : ¬ k < k2 := fun hlt => hmax k2 c2 hlt hc2 hid2
        have h2 : ¬ k2 < k := fun hlt =>
          get_commit_loop_greatest vc.commits id _ k2 hg k hlt (hlen k c hc) c hc hid
        have hk : k2 = k := by omega
        rw [hk]

/-- Witness for C23: in the log of `editedWorld` (ids `443094`, `800b43`),
`get_commit("443094")` is index 0 and `get_commit("000000")` is absent. -/
theorem get_commit_contract_witness :
    get_commit editedWorld.vc (some (cstr "443094")) = some 0 ∧
      get_commit editedWorld.vc (some (cstr "000000")) = none :=
  ⟨((get_commit_contract editedWorld.vc).2.2.2 (cstr "443094") 0).2
      ⟨⟨firstCommit, by decide, by decide⟩, by
        intro j c hj hc
        have hlog : editedWorld.vc.commits.map (fun x => x.id) =
            [some (cstr "443094"), some (cstr "800b43")] := by decide
        have hcid : (editedWorld.vc.commits.map (fun x => x.id)).get? j = some c.id := by
          simp only [List.get?_eq_getElem?] at hc
          simp only [List.get?_eq_getElem?, List.getElem?_map, hc, Option.map_some']
        rw [hlog] at hcid
        match j, hj, hcid with
        | 1, _, h =>
          have h2 : c.id = some (cstr "800b43") := (Option.some.inj h).symm
          rw [h2]
          decide
        | j + 2, _, h => simp at h⟩,
    ((get_commit_contract editedWorld.vc).2.1 (cstr "000000")).2 (by decide)⟩

/-! ## `new_file_snapshot` (C28) -/

/-- C28: `new_file_snapshot` returns -1 and changes neither the snapshot nor
the filesystem when the snapshot, the name or the contents is absent or the
hash is 0.  Otherwise it returns 0, the entries become the old entries followed
by the one entry `(name, hash)`, and the filesystem is the old one when a blob
for the hash exists, and else the old one with the contents written to the
blob path of the hash; in both cases every file that existed is kept as it
was. -/
theorem new_file_snapshot_contract (P : Params) (fs : FileSystem) (ss : Option Snapshot)
    (name : Option CString) (hash : Int) (file_contents : Option (List Nat)) :
    ((ss = none ∨ name = none ∨ file_contents = none ∨ hash = 0) →
        new_file_snapshot P fs ss name hash file_contents = (-1, ss, fs)) ∧
      (∀ s n c, ss = some s → name = some n → file_contents = some c → hash ≠ 0 →
        ∃ s1, new_file_snapshot P fs ss name hash file_contents =
            (0, some s1,
              if access fs (P.svc_file_path hash) = true then fs
              else writeFile fs (P.svc_file_path hash) c) ∧
          s1.file_snapshots = s.file_snapshots ++ [{ name := n, hash := hash }] ∧
          ∀ q f, fs q = some f →
            (new_file_snapshot P fs ss name hash file_contents).2.2 q = some f) := by
  constructor
  · intro h
    unfold new_file_snapshot
    cases ss with
    | none => rfl
    | some s =>
      cases name with
      | none => rfl
      | some n =>
        cases file_contents with
        | none => rfl
        | some c =>
          have hz : hash = 0 := by simpa using h
          simp [hz]
  · intro s n c hs hn hc hz
    subst hs hn hc
    refine ⟨{ file_snapshots := s.file_snapshots ++ [{ name := n, hash := hash }],
              file_snapshots_len := if s.file_snapshots.length = s.file_snapshots_len
                then s.file_snapshots_len * P.ARRAY_GROWTH_RATE
                else s.file_snapshots_len }, ?_, rfl, ?_⟩
    · simp only [new_file_snapshot, if_neg hz]
    · intro q f hq
      simp only [new_file_snapshot, if_neg hz]
      by_cases hacc : access fs (P.svc_file_path hash) = true
      · simp only [hacc, if_true]
        exact hq
      · simp only [hacc, Bool.false_eq_true, if_false]
        have hne : q ≠ P.svc_file_path hash := by
          intro heq
          apply hacc
          unfold access
          rw [← heq, hq]
          rfl
        rw [writeFile_other _ _ _ _ hne]
        exact hq

/-- Witness for C28: on a filesystem without blobs, the entry `(a.txt, 615)`
is appended to an empty snapshot and the contents `x` are written to the blob
path of 615; with hash 0 the result is -1 and nothing changes. -/
theorem new_file_snapshot_contract_witness :
    (∃ s1, new_file_snapshot exampleParams exampleWorld0.fs (some (init_snapshot exampleParams))
          (some (cstr "a.txt")) 615 (some (cstr "x")) =
        (0, some s1,
          if access exampleWorld0.fs (exampleParams.svc_file_path 615) = true
          then exampleWorld0.fs
          else writeFile exampleWorld0.fs (exampleParams.svc_file_path 615) (cstr "x")) ∧
        s1.file_snapshots = [{ name := cstr "a.txt", hash := 615 }]) ∧
      new_file_snapshot exampleParams exampleWorld0.fs (some (init_snapshot exampleParams))
          (some (cstr "a.txt")) 0 (some (cstr "x")) =
        (-1, some (init_snapshot exampleParams), exampleWorld0.fs) := by
  obtain ⟨h1, h2⟩ := new_file_snapshot_contract exampleParams exampleWorld0.fs
    (some (init_snapshot exampleParams)) (some (cstr "a.txt")) 615 (some (cstr "x"))
  obtain ⟨s1, e1, e2, _⟩ := h2 _ _ _ rfl rfl rfl (by decide)
  exact ⟨⟨s1, e1, e2⟩,
    (new_file_snapshot_contract exampleParams exampleWorld0.fs
      (some (init_snapshot exampleParams)) (some (cstr "a.txt")) 0 (some (cstr "x"))).1
      (Or.inr (Or.inr (Or.inr rfl)))⟩

/-! ## The roster after a commit (C29) -/

theorem expected_entry_not_staged (fs : FileSystem) (fd : FileData) :
    (expected_entry fs fd).state ≠ FileState.Staged ∧
      (expected_entry fs fd).file_path = fd.file_path := by
  unfold expected_entry
  cases hst : fd.state
  · simp only
    split <;> simp [hst]
  · simp only
    split <;> simp
  · simp [hst]

theorem commit_files_not_staged (P : Params) (files : List FileData) :
    ∀ (fs : FileSystem) (c : Commit),
      ∀ fd ∈ (commit_files P fs c files).2.2, fd.state ≠ FileState.Staged := by
  induction files with
  | nil => intro fs c fd hfd; simp [commit_files] at hfd
  | cons x rest ih =>
    intro fs c fd hfd
    simp only [commit_files, List.mem_cons] at hfd
    rcases hfd with h | h
    · rw [h, (commit_entry_spec P fs c x).2]
      exact (expected_entry_not_staged fs x).1
    · exact ih _ _ fd h

/-- C29: when `svc_commit` returns an id, the active roster afterwards is the
roster left by the commit loop without its Deleted entries, and every entry of
it is Tracked; `clean_branch_files` keeps the name, the current commit and the
capacity of the branch, and its roster is the sublist of the entries that are
not Deleted, each one unchanged and in the original order. -/
theorem svc_commit_roster_clean (P : Params) (w : World) (m : Option CString) (id : CString)
    (h : (svc_commit P w m).1 = some id) :
    (∀ fd ∈ (current (svc_commit P w m).2.vc).files, fd.state = FileState.Tracked) ∧
      (∃ msg, m = some msg ∧ (current (svc_commit P w m).2.vc).files =
        (svc_commit_loop P w msg).2.2.filter (fun fd => fd.state ≠ FileState.Deleted)) ∧
      ∀ b : Branch,
        (clean_branch_files b).files = b.files.filter (fun fd => fd.state ≠ FileState.Deleted) ∧
        (clean_branch_files b).files.Sublist b.files ∧
        (∀ fd, fd ∈ (clean_branch_files b).files ↔
          fd ∈ b.files ∧ fd.state ≠ FileState.Deleted) ∧
        (clean_branch_files b).name = b.name ∧
        (clean_branch_files b).commit = b.commit ∧
        (clean_branch_files b).files_len = b.files_len := by
  obtain ⟨msg, hm, hne, _, _, hb, hc, _⟩ := svc_commit_success P w m id h
  have hcur := current_of_set w.vc (svc_commit P w m).2.vc _ hb hc
    (svc_commit_loop_in_range P w msg hne)
  refine ⟨?_, ⟨msg, hm, ?_⟩, ?_⟩
  · intro fd hfd
    rw [hcur] at hfd
    simp only [clean_branch_files, List.mem_filter, decide_eq_true_eq] at hfd
    have hns := commit_files_not_staged P _ _ _ fd hfd.1
    cases hst : fd.state
    · rfl
    · exact absurd hst hns
    · exact absurd hst hfd.2
  · rw [hcur]
    rfl
  · intro b
    refine ⟨rfl, List.filter_sublist _, ?_, rfl, rfl, rfl⟩
    intro fd
    simp [clean_branch_files]

/-- Witness for C29: after the commit `first` on `exampleWorld1` the roster
is the Tracked `a.txt`; after `svc_rm("a.txt")` on `exampleWorld2` the roster
holds a Deleted entry, and the commit `second` leaves an empty roster. -/
theorem svc_commit_roster_clean_witness :
    (current (svc_commit exampleParams exampleWorld1 (some (cstr "first"))).2.vc).files =
        [{ file_path := cstr "a.txt", state := FileState.Tracked, previous_hash := 615 }] ∧
      (∀ fd ∈ (current (svc_commit exampleParams exampleWorld1
          (some (cstr "first"))).2.vc).files, fd.state = FileState.Tracked) ∧
      (current (svc_rm exampleWorld2 (some (cstr "a.txt"))).2.vc).files =
        [{ file_path := cstr "a.txt", state := FileState.Deleted, previous_hash := 615 }] ∧
      (current (svc_commit exampleParams (svc_rm exampleWorld2 (some (cstr "a.txt"))).2
          (some (cstr "second"))).2.vc).files = [] :=
  ⟨by decide,
    (svc_commit_roster_clean exampleParams exampleWorld1 (some (cstr "first"))
      (cstr "443094") (by decide)).1, by decide, by decide⟩

/-! ## Commits that record nothing (C30) -/

theorem expected_entry_of_no_record (fs : FileSystem) (fd : FileData)
    (h : expected_record fs fd = none) : expected_entry fs fd = after_noop_commit fd := by
  unfold expected_record at h
  unfold expected_entry after_noop_commit
  cases hst : fd.state
  · rw [hst] at h
    simp only at h
    by_cases hacc : access fs fd.file_path = true
    · by_cases hh : current_hash fs fd.file_path = fd.previous_hash
      · simp only [hacc, hh, if_true]
        cases fd
        simp only [FileData.mk.injEq, true_and, and_true] at hst ⊢
        simp [hst]
      · simp [hacc, hh] at h
    · simp [hacc] at h
  · rw [hst] at h
    simp only at h
    by_cases hacc : access fs fd.file_path = true
    · simp [hacc] at h
    · simp [hacc]
  · rw [hst] at h
    simp at h

theorem commit_files_no_record (P : Params) (files : List FileData) :
    ∀ (fs : FileSystem) (c : Commit),
      ∃ extra, (commit_files P fs c files).1.commit_record = c.commit_record ++ extra ∧
        (extra = [] → (commit_files P fs c files).2.2 = files.map after_noop_commit) := by
  induction files with
  | nil => intro fs c; exact ⟨[], by simp [commit_files], fun _ => rfl⟩
  | cons fd rest ih =>
    intro fs c
    obtain ⟨e1, e2⟩ := commit_entry_spec P fs c fd
    obtain ⟨extra, h1, h2⟩ := ih (commit_entry P fs c fd).2.1 (commit_entry P fs c fd).1
    refine ⟨(expected_record fs fd).toList ++ extra, ?_, ?_⟩
    · simp only [commit_files]
      rw [h1, e1, List.append_assoc]
    · intro hnil
      obtain ⟨hrec, hextra⟩ := List.append_eq_nil.1 hnil
      have hnone : expected_record fs fd = none := by
        cases hr : expected_record fs fd with
        | none => rfl
        | some r => rw [hr] at hrec; simp at hrec
      simp only [commit_files, List.map_cons]
      rw [h2 hextra, e2, expected_entry_of_no_record fs fd hnone]

/-- C30, as the specification states it, fails: in `missingStagedWorld` the
roster holds the Staged `a.txt` and the file is gone; `svc_commit` returns
absent, and the roster entry is Deleted afterwards. -/
theorem svc_commit_noop_changes_roster :
    (svc_commit exampleParams missingStagedWorld (some (cstr "m"))).1 = none ∧
      (current missingStagedWorld.vc).files =
        [{ file_path := cstr "a.txt", state := FileState.Staged, previous_hash := 615 }] ∧
      (current (svc_commit exampleParams missingStagedWorld (some (cstr "m"))).2.vc).files =
        [{ file_path := cstr "a.txt", state := FileState.Deleted, previous_hash := 615 }] := by
  decide

/-- C30, amended: `svc_commit` without a message returns absent and changes
nothing.  Whenever `svc_commit` with a message returns absent, the commit log,
the active branch index and every other branch are the same as before; the
active branch keeps its name and current commit, and its roster keeps every
entry in place with the same path and last hash, and with the same state
except that each entry that was Staged is now Deleted. -/
theorem svc_commit_noop_effect (P : Params) (w : World) (m : CString)
    (h : (svc_commit P w (some m)).1 = none) :
    svc_commit P w none = (none, w) ∧
      (svc_commit P w (some m)).2.vc.commits = w.vc.commits ∧
      (svc_commit P w (some m)).2.vc.current_branch = w.vc.current_branch ∧
      (∀ i, i ≠ w.vc.current_branch →
        (svc_commit P w (some m)).2.vc.branches.get? i = w.vc.branches.get? i) ∧
      (svc_commit P w (some m)).2.vc.branches.length = w.vc.branches.length ∧
      (current (svc_commit P w (some m)).2.vc).name = (current w.vc).name ∧
      (current (svc_commit P w (some m)).2.vc).commit = (current w.vc).commit ∧
      (current (svc_commit P w (some m)).2.vc).files =
        (current w.vc).files.map after_noop_commit := by
  have hrec := (svc_commit_none_iff P w m).1 h
  obtain ⟨hlog, hb, hc⟩ := svc_commit_noop P w m hrec
  have hfiles : (svc_commit_loop P w m).2.2 = (current w.vc).files.map after_noop_commit := by
    obtain ⟨extra, h1, h2⟩ := commit_files_no_record P (current w.vc).files w.fs
      { id := none, message := m, branch_id := w.vc.current_branch, commit_record := [],
        record_len := (current w.vc).files.length, parent_commits := [],
        snapshot := init_snapshot P }
    have hextra : extra = [] := by
      have : (svc_commit_loop P w m).1.commit_record = [] ++ extra := h1
      rw [hrec] at this
      simpa using this.symm
    exact h2 hextra
  rw [hfiles] at hb
  refine ⟨rfl, hlog, hc, ?_, ?_, ?_⟩
  · intro i hi
    rw [hb]
    simp only [List.get?_eq_getElem?]
    rw [List.getElem?_set_ne (fun heq => hi heq.symm)]
  · rw [hb, List.length_set]
  · by_cases hlt : w.vc.current_branch < w.vc.branches.length
    · rw [current_of_set w.vc _ _ hb hc hlt]
      exact ⟨rfl, rfl, rfl⟩
    · have hsame : (svc_commit P w (some m)).2.vc.branches = w.vc.branches := by
        rw [hb, List.set_eq_of_length_le (by omega)]
      have hcur : current (svc_commit P w (some m)).2.vc = current w.vc := by
        unfold current
        rw [hsame, hc]
      have hdef : current w.vc = { name := [], commit := none, files := [], files_len := 0 } := by
        unfold current
        rw [List.get?_eq_none.2 (by omega)]
        rfl
      rw [hcur]
      refine ⟨rfl, rfl, ?_⟩
      rw [hdef]
      rfl

/-- Witness for C30: on `exampleWorld2`, where `a.txt` is Tracked and
unchanged, `svc_commit` returns absent and the roster is the same as before;
on `missingStagedWorld` the Staged entry becomes Deleted. -/
theorem svc_commit_noop_effect_witness :
    (current (svc_commit exampleParams exampleWorld2 (some (cstr "again"))).2.vc).files =
        (current exampleWorld2.vc).files.map after_noop_commit ∧
      (current exampleWorld2.vc).files.map after_noop_commit = (current exampleWorld2.vc).files ∧
      (current (svc_commit exampleParams missingStagedWorld (some (cstr "m"))).2.vc).files =
        (current missingStagedWorld.vc).files.map after_noop_commit :=
  ⟨(svc_commit_noop_effect exampleParams exampleWorld2 (cstr "again")
      (by decide)).2.2.2.2.2.2.2,
    by decide,
    (svc_commit_noop_effect exampleParams missingStagedWorld (cstr "m")
      (by decide)).2.2.2.2.2.2.2⟩

/-! ## The order of the records (C27) -/

theorem strcmp_range (a : CString) : ∀ b : CString,
    strcmp a b = -1 ∨ strcmp a b = 0 ∨ strcmp a b = 1 := by
  induction a with
  | nil => intro b; cases b <;> simp [strcmp]
  | cons x xs ih =>
    intro b
    cases b with
    | nil => simp [strcmp]
    | cons y ys =>
      unfold strcmp
      split
      · simp
      · split
        · simp
        · exact ih ys

theorem strcmp_swap (a : CString) : ∀ b : CString, strcmp b a = - strcmp a b := by
  induction a with
  | nil => intro b; cases b <;> simp [strcmp]
  | cons x xs ih =>
    intro b
    cases b with
    | nil => simp [strcmp]
    | cons y ys =>
      unfold strcmp
      by_cases h1 : x < y
      · have h2 : ¬ y < x := by omega
        simp [h1, h2]
      · by_cases h2 : y < x
        · simp [h1, h2]
        · simp [h1, h2, ih ys]

theorem strcmp_trans (a : CString) : ∀ b c : CString,
    strcmp a b ≤ 0 → strcmp b c ≤ 0 →
      strcmp a c ≤ 0 ∧ (strcmp a b < 0 ∨ strcmp b c < 0 → strcmp a c < 0) := by
  induction a with
  | nil =>
    intro b c hab hbc
    cases b with
    | nil => exact ⟨hbc, fun h => h.elim (fun h1 => absurd h1 (by simp [strcmp])) id⟩
    | cons y ys =>
      cases c with
      | nil => simp [strcmp] at hbc
      | cons z zs => simp [strcmp]
  | cons x xs ih =>
    intro b c hab hbc
    cases b with
    | nil => simp [strcmp] at hab
    | cons y ys =>
      cases c with
      | nil => simp [strcmp] at hbc
      | cons z zs =>
        unfold strcmp at hab hbc ⊢
        by_cases hxy : x < y
        · have hxz : x < z := by
            by_cases hyz : y < z
            · omega
            · by_cases hzy : z < y
              · simp [hyz, hzy] at hbc
              · omega
          simp [hxz]
        · by_cases hyx : y < x
          · simp [hxy, hyx] at hab
          · have hxyeq : x = y := by omega
            subst hxyeq
            simp only [hxy, if_false] at hab ⊢
            by_cases hyz : x < z
            · simp [hyz]
            · by_cases hzy : z < x
              · simp [hyz, hzy] at hbc
              · simp only [hyz, hzy, if_false] at hbc ⊢
                exact ih ys zs hab hbc

theorem compare_commit_record_name_eq (a b : CommitRecord) :
    compare_commit_record_name a b =
      if name_after a.file_name b.file_name then 1 else 0 := by
  unfold compare_commit_record_name name_after
  by_cases h0 : strcasecmp a.file_name b.file_name = 0
  · simp [h0]
  · by_cases h1 : strcasecmp a.file_name b.file_name > 0
    · simp [h0, h1]
    · simp [h0, h1]

theorem compare_commit_record_name_le (a b : CommitRecord) :
    compare_commit_record_name a b ≤ 0 ↔ name_le a.file_name b.file_name := by
  rw [compare_commit_record_name_eq]
  unfold name_after name_le
  by_cases h : strcasecmp a.file_name b.file_name > 0 ∨
      (strcasecmp a.file_name b.file_name = 0 ∧ strcmp a.file_name b.file_name > 0)
  · rw [if_pos h]
    constructor
    · intro h1; omega
    · intro h1; omega
  · rw [if_neg h]
    constructor
    · intro _; omega
    · intro _; omega

theorem name_le_total (a b : CString) : name_le a b ∨ name_le b a := by
  unfold name_le strcasecmp
  rw [strcmp_swap (a.map tolower) (b.map tolower), strcmp_swap a b]
  omega

theorem name_le_trans (a b c : CString) (hab : name_le a b) (hbc : name_le b c) :
    name_le a c := by
  unfold name_le strcasecmp at hab hbc ⊢
  have h1 : strcmp (a.map tolower) (b.map tolower) ≤ 0 := by omega
  have h2 : strcmp (b.map tolower) (c.map tolower) ≤ 0 := by omega
  obtain ⟨t1, t2⟩ := strcmp_trans _ _ _ h1 h2
  by_cases hlt : strcmp (a.map tolower) (b.map tolower) < 0 ∨
      strcmp (b.map tolower) (c.map tolower) < 0
  · exact Or.inl (t2 hlt)
  · have e1 : strcmp (a.map tolower) (b.map tolower) = 0 := by omega
    have e2 : strcmp (b.map tolower) (c.map tolower) = 0 := by omega
    have s1 : strcmp a b ≤ 0 := by omega
    have s2 : strcmp b c ≤ 0 := by omega
    have s3 := (strcmp_trans _ _ _ s1 s2).1
    omega

/-- C27: `generate_commit_id` leaves in the commit a record list that is a
permutation of the one it had and that is sorted by file name (`name_le`:
first the comparison without case, then the comparison with case), and changes
no other field; `compare_commit_record_name(a, b)` is 1 when the name of `a`
is strictly after the name of `b` in that order, and 0 otherwise.  Names that
are not strictly after one another in either direction are equal. -/
theorem generate_commit_id_sorts (c : Commit) :
    (generate_commit_id c).2.commit_record.Perm c.commit_record ∧
      List.Sorted (fun a b => name_le a.file_name b.file_name)
        (generate_commit_id c).2.commit_record ∧
      (generate_commit_id c).2 =
        { c with commit_record := (generate_commit_id c).2.commit_record } ∧
      (∀ a b : CommitRecord, compare_commit_record_name a b =
        if name_after a.file_name b.file_name then 1 else 0) ∧
      (∀ a b : CString, name_after a b ↔ ¬ name_le a b) ∧
      (∀ a b : CString, name_le a b ∧ name_le b a ↔ a = b) := by
  have htotal : IsTotal CommitRecord (fun a b => compare_commit_record_name a b ≤ 0) :=
    ⟨fun a b => by
      simp only [compare_commit_record_name_le]
      exact name_le_total _ _⟩
  have htrans : IsTrans CommitRecord (fun a b => compare_commit_record_name a b ≤ 0) :=
    ⟨fun a b c => by
      simp only [compare_commit_record_name_le]
      exact name_le_trans _ _ _⟩
  refine ⟨?_, ?_, rfl, compare_commit_record_name_eq, ?_, ?_⟩
  · exact List.perm_insertionSort _ _
  · have hs : List.Sorted (fun a b => compare_commit_record_name a b ≤ 0)
        (generate_commit_id c).2.commit_record := List.sorted_insertionSort _ _
    exact hs.imp (fun {a b} h => (compare_commit_record_name_le a b).1 h)
  · intro a b
    unfold name_after name_le
    omega
  · intro a b
    constructor
    · intro ⟨h1, h2⟩
      unfold name_le strcasecmp at h1 h2
      rw [strcmp_swap (a.map tolower) (b.map tolower), strcmp_swap a b] at h2
      have h0 : strcmp a b = 0 := by omega
      exact (strcmp_eq_zero_iff a b).1 h0
    · intro h
      subst h
      unfold name_le strcasecmp
      rw [strcmp_self, strcmp_self]
      simp

/-! ## The error checks of `svc_merge` (C21) -/

theorem svc_merge_rejects (P : Params) (w : World) (resolutions : List resolution) :
    svc_merge P w none resolutions = some (none, w) ∧
      (∀ name, (∀ b ∈ w.vc.branches, b.name ≠ name) →
        svc_merge P w (some name) resolutions = some (none, w)) ∧
      (∀ name, get_branch_index w.vc (some name) = some w.vc.current_branch →
        svc_merge P w (some name) resolutions = some (none, w)) ∧
      (∀ name, check_uncommitted_changes w ≠ 0 →
        svc_merge P w name resolutions = some (none, w)) := by
  refine ⟨rfl, ?_, ?_, ?_⟩
  · intro name hno
    unfold svc_merge
    simp only [(get_branch_index_none_iff w.vc name).2 hno]
  · intro name hidx
    unfold svc_merge
    simp only [hidx, if_true]
  · intro name hch
    unfold svc_merge
    cases name with
    | none => rfl
    | some n =>
      simp only
      cases hidx : get_branch_index w.vc (some n) with
      | none => rfl
      | some idx =>
        simp only
        by_cases hself : idx = w.vc.current_branch
        · rw [if_pos hself]
        · rw [if_neg hself, if_pos hch]

/-- C21, failing input: in `stagedUnbornWorld` the active branch master holds
the Staged entry `a.txt` and has no commit; `svc_merge("dev")` does not return
absent: it returns the id `670353`, the log grows from one commit to two and
the roster entry becomes Tracked. -/
theorem svc_merge_with_staged_entry_merges :
    (current stagedUnbornWorld.vc).commit = none ∧
      (current stagedUnbornWorld.vc).files =
        [{ file_path := cstr "a.txt", state := FileState.Staged, previous_hash := 615 }] ∧
      stagedUnbornWorld.vc.commits.length = 1 ∧
      (svc_merge exampleParams stagedUnbornWorld (some (cstr "dev")) []).map
          (fun r => (r.1, r.2.vc.commits.length, (current r.2.vc).files)) =
        some (some (cstr "670353"), 2,
          [{ file_path := cstr "a.txt", state := FileState.Tracked, previous_hash := 615 }]) := by
  decide

/-! ## Staging by `svc_merge` (C22) -/

/-- C22, failing input: in `stagedGoneWorld` the active branch master has no
commit and holds the Staged entry `a.txt`, whose file is gone; the head
snapshot of dev names `a.txt`.  `svc_merge("dev")` with no resolutions passes
the error checks, does not restore the file (the name is known to the roster),
returns absent, and afterwards the roster entry of `a.txt` is Deleted, not
Tracked. -/
theorem svc_merge_leaves_known_name_deleted :
    stagedGoneWorld.vc.commits.map (fun c => c.snapshot.file_snapshots) =
        [[{ name := cstr "a.txt", hash := 615 }]] ∧
      stagedGoneWorld.vc.branches.map (fun b => (b.name, b.commit)) =
        [(cstr "master", none), (cstr "dev", some 0)] ∧
      check_uncommitted_changes stagedGoneWorld = 0 ∧
      (svc_merge exampleParams stagedGoneWorld (some (cstr "dev")) []).map
          (fun r => (r.1, (current r.2.vc).files, access r.2.fs (cstr "a.txt"))) =
        some (none,
          [{ file_path := cstr "a.txt", state := FileState.Deleted, previous_hash := 615 }],
          false) := by
  decide

/-! ## Steps of the engine: branch names and parent links -/

theorem list_set_same {α : Type} (l : List α) :
    ∀ (n : Nat) (a : α), (l.get? n = some a ∨ l.length ≤ n) → l.set n a = l := by
  induction l with
  | nil => intro n a _; rfl
  | cons x xs ih =>
    intro n a h
    cases n with
    | zero =>
      rcases h with h | h
      · simp only [List.get?_cons_zero, Option.some.injEq] at h
        simp [h]
      · simp at h
    | succ k =>
      simp only [List.set_cons_succ, List.cons.injEq, true_and]
      apply ih
      rcases h with h | h
      · exact Or.inl (by simpa using h)
      · exact Or.inr (by simpa using h)

theorem heads_setCurrent (vc : VersionControl) (b : Branch) :
    heads (setCurrent vc b) = (heads vc).set vc.current_branch (b.name, b.commit) := by
  unfold heads setCurrent
  simp only [List.map_set]

theorem heads_get_current (vc : VersionControl) :
    (heads vc).get? vc.current_branch = some ((current vc).name, (current vc).commit) ∨
      (heads vc).length ≤ vc.current_branch := by
  unfold heads current
  by_cases hlt : vc.current_branch < vc.branches.length
  · left
    simp only [List.get?_eq_getElem?, List.getElem?_map,
      List.getElem?_eq_getElem hlt, Option.map_some', Option.getD_some]
  · right
    simp only [List.length_map]
    omega

theorem heads_set_current (vc : VersionControl) :
    (heads vc).set vc.current_branch ((current vc).name, (current vc).commit) = heads vc :=
  list_set_same _ _ _ (heads_get_current vc)

theorem heads_roster (vc : VersionControl) (b : Branch)
    (hn : b.name = (current vc).name) (hc : b.commit = (current vc).commit) :
    heads (setCurrent vc b) = heads vc := by
  rw [heads_setCurrent, hn, hc, heads_set_current]

theorem current_commit_mem (vc : VersionControl) (k : Nat)
    (h : (current vc).commit = some k) : ∃ b ∈ vc.branches, b.commit = some k := by
  unfold current at h
  cases hget : vc.branches.get? vc.current_branch with
  | none => rw [hget] at h; simp at h
  | some b =>
    rw [hget] at h
    exact ⟨b, List.get?_mem hget, h⟩

theorem skeletonStep_same (vc vc2 : VersionControl) (h1 : heads vc2 = heads vc)
    (h2 : parent_lists vc2 = parent_lists vc) : SkeletonStep vc vc2 :=
  Or.inl ⟨h1, h2⟩

theorem skeletonStep_refl (vc : VersionControl) : SkeletonStep vc vc :=
  Or.inl ⟨rfl, rfl⟩

theorem svc_add_skeleton (P : Params) (w : World) (file_name : Option CString)
    (r : Int × World) (h : svc_add P w file_name = some r) :
    heads r.2.vc = heads w.vc ∧ r.2.vc.commits = w.vc.commits ∧
      r.2.vc.current_branch = w.vc.current_branch := by
  rcases svc_add_cases P w file_name r h with h1 | ⟨_, _, _, _, _, _, _, _, _, hvc⟩
  · rw [h1]
    exact ⟨rfl, rfl, rfl⟩
  · rw [hvc]
    exact ⟨heads_roster w.vc _ rfl rfl, rfl, rfl⟩

theorem svc_rm_skeleton (w : World) (file_name : Option CString) :
    heads (svc_rm w file_name).2.vc = heads w.vc ∧
      (svc_rm w file_name).2.vc.commits = w.vc.commits ∧
      (svc_rm w file_name).2.vc.current_branch = w.vc.current_branch := by
  unfold svc_rm
  cases file_name with
  | none => exact ⟨rfl, rfl, rfl⟩
  | some name => exact ⟨heads_roster w.vc _ rfl rfl, rfl, rfl⟩

theorem merge_stage_skeleton (P : Params) (entries : List FileSnapshot) :
    ∀ w w1, merge_stage P w entries = some w1 →
      heads w1.vc = heads w.vc ∧ w1.vc.commits = w.vc.commits ∧
        w1.vc.current_branch = w.vc.current_branch := by
  induction entries with
  | nil =>
    intro w w1 h
    simp only [merge_stage, Option.some.injEq] at h
    rw [← h]
    exact ⟨rfl, rfl, rfl⟩
  | cons e rest ih =>
    intro w w1 h
    rcases merge_stage_cons P w w1 e rest h with ⟨_, h1⟩ | ⟨_, fs, r, _, hadd, h1⟩
    · exact ih _ _ h1
    · obtain ⟨a1, a2, a3⟩ := svc_add_skeleton P { vc := w.vc, fs := fs } (some e.name) r hadd
      obtain ⟨b1, b2, b3⟩ := ih _ _ h1
      exact ⟨b1.trans a1, b2.trans a2, b3.trans a3⟩

theorem current_of_heads (vc vc1 : VersionControl) (hh : heads vc1 = heads vc)
    (hc : vc1.current_branch = vc.current_branch) :
    (current vc1).name = (current vc).name ∧ (current vc1).commit = (current vc).commit := by
  have hget : (vc1.branches.get? vc1.current_branch).map (fun b => (b.name, b.commit)) =
      (vc.branches.get? vc.current_branch).map (fun b => (b.name, b.commit)) := by
    have := congrArg (fun l => l.get? vc.current_branch) hh
    simp only [heads, List.get?_eq_getElem?, List.getElem?_map] at this
    simp only [List.get?_eq_getElem?, hc]
    exact this
  unfold current
  cases h1 : vc1.branches.get? vc1.current_branch with
  | none =>
    cases h2 : vc.branches.get? vc.current_branch with
    | none => exact ⟨rfl, rfl⟩
    | some b2 => rw [h1, h2] at hget; simp at hget
  | some b1 =>
    cases h2 : vc.branches.get? vc.current_branch with
    | none => rw [h1, h2] at hget; simp at hget
    | some b2 =>
      rw [h1, h2] at hget
      simp only [Option.map_some', Option.some.injEq, Prod.mk.injEq] at hget
      exact hget

theorem svc_commit_skeleton (P : Params) (w : World) (m : Option CString) :
    SkeletonStep w.vc (svc_commit P w m).2.vc := by
  cases hr : (svc_commit P w m).1 with
  | none =>
    cases m with
    | none => exact skeletonStep_refl _
    | some msg =>
      obtain ⟨hlog, hb, _⟩ := svc_commit_noop P w msg ((svc_commit_none_iff P w msg).1 hr)
      refine Or.inl ⟨?_, ?_⟩
      · have := heads_roster w.vc { current w.vc with files := (svc_commit_loop P w msg).2.2 }
          rfl rfl
        unfold heads setCurrent at this
        unfold heads
        rw [hb]
        exact this
      · unfold parent_lists
        rw [hlog]
  | some id =>
    obtain ⟨msg, _, _, _, hlog, hb, _, _⟩ := svc_commit_success P w m id hr
    refine Or.inr (Or.inr (Or.inl ⟨(match (current w.vc).commit with
      | some p => [p]
      | none => []), ?_, ?_, ?_, ?_⟩))
    · intro p hp
      cases hc : (current w.vc).commit with
      | none => rw [hc] at hp; simp at hp
      | some q =>
        rw [hc] at hp
        simp only [List.mem_singleton] at hp
        rw [hp]
        exact current_commit_mem w.vc q hc
    · cases (current w.vc).commit <;> simp
    · unfold parent_lists
      rw [hlog, List.map_append]
      rfl
    · unfold heads
      rw [hb, List.map_set]
      rfl

theorem svc_branch_skeleton (P : Params) (w : World) (branch_name : Option CString) :
    SkeletonStep w.vc (svc_branch P w branch_name).2.vc := by
  unfold svc_branch
  cases branch_name with
  | none => exact skeletonStep_refl _
  | some name =>
    simp only
    split
    · exact skeletonStep_refl _
    · split
      · exact skeletonStep_refl _
      · rename_i _ hidx
        split
        · exact skeletonStep_refl _
        · refine Or.inr (Or.inr (Or.inr ⟨name, ?_, rfl, ?_⟩))
          · apply (get_branch_index_none_iff w.vc name).1
            cases hg : get_branch_index w.vc (some name) with
            | none => rfl
            | some i => rw [hg] at hidx; simp at hidx
          · unfold heads
            simp only [List.map_append, List.map_cons, List.map_nil]

theorem svc_checkout_skeleton (P : Params) (w : World) (branch_name : Option CString)
    (r : Int × World) (h : svc_checkout P w branch_name = some r) :
    heads r.2.vc = heads w.vc ∧ r.2.vc.commits = w.vc.commits := by
  unfold svc_checkout at h
  cases branch_name with
  | none =>
    simp only [Option.some.injEq] at h
    rw [← h]
    exact ⟨rfl, rfl⟩
  | some name =>
    simp only at h
    split at h
    · simp only [Option.some.injEq] at h
      rw [← h]
      exact ⟨rfl, rfl⟩
    · split at h
      · simp only [Option.some.injEq] at h
        rw [← h]
        exact ⟨rfl, rfl⟩
      · split at h
        · simp only [Option.some.injEq] at h
          rw [← h]
          exact ⟨rfl, rfl⟩
        · split at h
          · exact Option.noConfusion h
          · split at h
            · exact Option.noConfusion h
            · simp only [Option.some.injEq] at h
              rw [← h]
              exact ⟨rfl, rfl⟩

theorem parent_lists_set (vc : VersionControl) (k : Nat) (c c1 : Commit)
    (hc : vc.commits.get? k = some c) (hp : c1.parent_commits = c.parent_commits) :
    (vc.commits.set k c1).map (fun x => x.parent_commits) = parent_lists vc := by
  unfold parent_lists
  rw [List.map_set]
  apply list_set_same
  left
  simp only [List.get?_eq_getElem?, List.getElem?_map] at hc ⊢
  rw [hc, hp]
  rfl

theorem svc_reset_skeleton (P : Params) (w : World) (commit_id : Option CString)
    (r : Int × World) (h : svc_reset P w commit_id = some r) :
    SkeletonStep w.vc r.2.vc := by
  unfold svc_reset at h
  cases commit_id with
  | none =>
    simp only [Option.some.injEq] at h
    rw [← h]
    exact skeletonStep_refl _
  | some id =>
    simp only at h
    cases hk : get_commit w.vc (some id) with
    | none =>
      rw [hk] at h
      simp only [Option.some.injEq] at h
      rw [← h]
      exact skeletonStep_refl _
    | some k =>
      rw [hk] at h
      simp only at h
      cases hc : w.vc.commits.get? k with
      | none => rw [hc] at h; exact Option.noConfusion h
      | some c =>
        rw [hc] at h
        simp only at h
        split at h
        · exact Option.noConfusion h
        · simp only [Option.some.injEq] at h
          rw [← h]
          refine Or.inr (Or.inl ⟨k, (get_commit_loop_some _ _ _ _ hk).1, ?_, ?_⟩)
          · exact parent_lists_set w.vc k c _ hc rfl
          · exact heads_setCurrent _ _

theorem print_commit_skeleton (w : World) (commit_id : Option CString) :
    heads (print_commit w commit_id).vc = heads w.vc ∧
      parent_lists (print_commit w commit_id).vc = parent_lists w.vc := by
  unfold print_commit
  cases commit_id with
  | none => exact ⟨rfl, rfl⟩
  | some id =>
    simp only
    cases hk : get_commit w.vc (some id) with
    | none => exact ⟨rfl, rfl⟩
    | some k =>
      simp only
      cases hc : w.vc.commits.get? k with
      | none => exact ⟨rfl, rfl⟩
      | some c => exact ⟨rfl, parent_lists_set w.vc k c _ hc rfl⟩

theorem svc_merge_absent (P : Params) (w : World) (branch_name : Option CString)
    (resolutions : List resolution) (w2 : World)
    (h : svc_merge P w branch_name resolutions = some (none, w2)) :
    w2 = w ∨ ∃ (n : CString) (merged : Commit) (w1 : World) (fs2 : FileSystem),
      branch_name = some n ∧
      merge_stage P w merged.snapshot.file_snapshots = some w1 ∧
      (svc_commit P { vc := w1.vc, fs := fs2 } (some (cstr "Merged branch " ++ n))).1 = none ∧
      w2 = (svc_commit P { vc := w1.vc, fs := fs2 } (some (cstr "Merged branch " ++ n))).2 := by
  cases branch_name with
  | none =>
    simp only [svc_merge, Option.some.injEq, Prod.mk.injEq, true_and] at h
    exact Or.inl h.symm
  | some n =>
    unfold svc_merge at h
    cases hidx : get_branch_index w.vc (some n) with
    | none =>
      simp only [hidx, Option.some.injEq, Prod.mk.injEq, true_and] at h
      exact Or.inl h.symm
    | some idx =>
      by_cases hself : idx = w.vc.current_branch
      · simp only [hidx, hself, if_true, Option.some.injEq, Prod.mk.injEq, true_and] at h
        exact Or.inl h.symm
      · by_cases hun : check_uncommitted_changes w = 0
        · cases hm : ((w.vc.branches.get? idx).bind (fun b => b.commit)).bind
              (fun c => w.vc.commits.get? c) with
          | none =>
            simp only [hidx, hself, hun, ne_eq, not_true_eq_false, if_false, hm] at h
            simp at h
          | some merged =>
            cases hst : merge_stage P w merged.snapshot.file_snapshots with
            | none =>
              simp only [hidx, hself, hun, ne_eq, not_true_eq_false, if_false, hm, hst] at h
              simp at h
            | some w1 =>
              cases hres : merge_resolve w1.fs resolutions with
              | none =>
                simp only [hidx, hself, hun, ne_eq, not_true_eq_false, if_false, hm, hst,
                  hres] at h
                simp at h
              | some fs2 =>
                cases hr : (svc_commit P { vc := w1.vc, fs := fs2 }
                    (some (cstr "Merged branch " ++ n))).1 with
                | none =>
                  simp only [hidx, hself, hun, ne_eq, not_true_eq_false, if_false, hm, hst,
                    hres, hr, Option.some.injEq, Prod.mk.injEq, true_and] at h
                  exact Or.inr ⟨n, merged, w1, fs2, rfl, hst, hr, h.symm⟩
                | some cid =>
                  simp only [hidx, hself, hun, ne_eq, not_true_eq_false, if_false, hm, hst,
                    hres, hr] at h
                  split at h
                  · simp at h
                  · exact Option.noConfusion h
        · simp only [hidx, hself, hun, ne_eq, not_false_eq_true, if_true, if_false,
            Option.some.injEq, Prod.mk.injEq, true_and] at h
          exact Or.inl h.symm

theorem svc_merge_skeleton (P : Params) (w : World) (branch_name : Option CString)
    (resolutions : List resolution) (r : Option CString × World)
    (h : svc_merge P w branch_name resolutions = some r) :
    SkeletonStep w.vc r.2.vc := by
  obtain ⟨rid, w2⟩ := r
  cases rid with
  | none =>
    rcases svc_merge_absent P w branch_name resolutions w2 h with h1 | ⟨n, merged, w1, fs2, _, hst, hnone, h2⟩
    · rw [h1]
      exact skeletonStep_refl _
    · obtain ⟨a1, a2, _⟩ := merge_stage_skeleton P _ w w1 hst
      obtain ⟨hlog, hb, _⟩ := svc_commit_noop P { vc := w1.vc, fs := fs2 } _
        ((svc_commit_none_iff P _ _).1 hnone)
      simp only at hlog hb
      refine Or.inl ⟨?_, ?_⟩
      · have := heads_roster w1.vc
          { current w1.vc with
            files := (svc_commit_loop P { vc := w1.vc, fs := fs2 }
              (cstr "Merged branch " ++ n)).2.2 } rfl rfl
        unfold heads setCurrent at this
        rw [← a1, h2]
        unfold heads
        simp only
        rw [hb]
        exact this
      · unfold parent_lists
        rw [h2]
        simp only
        rw [hlog, a2]
  | some id =>
    obtain ⟨n, idx, mb, head, merged, w1, fs2, _, _, _, _, hmb, _, hmbc, _, hst, _, hcid,
      c0, _, _, hpar, hfinal⟩ :=
      svc_merge_success P w branch_name resolutions id (by rw [h]; rfl)
    rw [h] at hfinal
    have hw2 := (Prod.mk.inj (Option.some.inj hfinal)).2
    obtain ⟨a1, a2, a3⟩ := merge_stage_skeleton P _ w w1 hst
    obtain ⟨_, _, _, _, _, hb, _, _⟩ := svc_commit_success P { vc := w1.vc, fs := fs2 }
      (some (cstr "Merged branch " ++ n)) id hcid
    simp only at hb
    obtain ⟨n1, _⟩ := current_of_heads w.vc w1.vc a1 a3
    refine Or.inr (Or.inr (Or.inl ⟨c0.parent_commits ++ [head], ?_, ?_, ?_, ?_⟩))
    · intro p hp
      rcases List.mem_append.1 hp with hp1 | hp1
      · rw [hpar] at hp1
        cases hc : (current w.vc).commit with
        | none => rw [hc] at hp1; simp at hp1
        | some q =>
          rw [hc] at hp1
          simp only [List.mem_singleton] at hp1
          rw [hp1]
          exact current_commit_mem w.vc q hc
      · simp only [List.mem_singleton] at hp1
        rw [hp1]
        exact ⟨mb, List.get?_mem hmb, hmbc⟩
    · rw [hpar]
      cases (current w.vc).commit <;> simp
    · simp only at hw2
      rw [hw2]
      unfold parent_lists
      simp only [List.map_append, List.map_cons, List.map_nil]
    · simp only at hw2
      rw [hw2]
      unfold heads
      simp only
      rw [hb, List.map_set]
      have e1 : w1.vc.branches.map (fun b => (b.name, b.commit)) = heads w.vc := a1
      rw [e1, a3, a2]
      simp only [clean_branch_files, n1]
      rfl

theorem apply_op_skeleton (P : Params) (w w2 : World) (op : Op)
    (h : apply_op P w op = some w2) : SkeletonStep w.vc w2.vc := by
  cases op with
  | add n =>
    simp only [apply_op] at h
    obtain ⟨r, hr, hw⟩ := Option.map_eq_some'.1 h
    rw [← hw]
    obtain ⟨a1, a2, _⟩ := svc_add_skeleton P w n r hr
    exact Or.inl ⟨a1, by unfold parent_lists; rw [a2]⟩
  | rm n =>
    simp only [apply_op, Option.some.injEq] at h
    rw [← h]
    obtain ⟨a1, a2, _⟩ := svc_rm_skeleton w n
    exact Or.inl ⟨a1, by unfold parent_lists; rw [a2]⟩
  | commit m =>
    simp only [apply_op, Option.some.injEq] at h
    rw [← h]
    exact svc_commit_skeleton P w m
  | branch n =>
    simp only [apply_op, Option.some.injEq] at h
    rw [← h]
    exact svc_branch_skeleton P w n
  | checkout n =>
    simp only [apply_op] at h
    obtain ⟨r, hr, hw⟩ := Option.map_eq_some'.1 h
    rw [← hw]
    obtain ⟨a1, a2⟩ := svc_checkout_skeleton P w n r hr
    exact Or.inl ⟨a1, by unfold parent_lists; rw [a2]⟩
  | reset id =>
    simp only [apply_op] at h
    obtain ⟨r, hr, hw⟩ := Option.map_eq_some'.1 h
    rw [← hw]
    exact svc_reset_skeleton P w id r hr
  | merge n rs =>
    simp only [apply_op] at h
    obtain ⟨r, hr, hw⟩ := Option.map_eq_some'.1 h
    rw [← hw]
    exact svc_merge_skeleton P w n rs r hr
  | print id =>
    simp only [apply_op, Option.some.injEq] at h
    rw [← h]
    exact Or.inl (print_commit_skeleton w id)
  | files fs =>
    simp only [apply_op, Option.some.injEq] at h
    rw [← h]
    exact skeletonStep_refl _

theorem run_ops_invariant (P : Params) (Inv : VersionControl → Prop)
    (hstep : ∀ vc vc2, SkeletonStep vc vc2 → Inv vc → Inv vc2) :
    ∀ (ops : List Op) (w w2 : World), Inv w.vc → run_ops P w ops = some w2 → Inv w2.vc := by
  intro ops
  induction ops with
  | nil =>
    intro w w2 hinv h
    simp only [run_ops, Option.some.injEq] at h
    rw [← h]
    exact hinv
  | cons op rest ih =>
    intro w w2 hinv h
    unfold run_ops at h
    cases hop : apply_op P w op with
    | none => rw [hop] at h; exact Option.noConfusion h
    | some w1 =>
      rw [hop] at h
      exact ih w1 w2 (hstep _ _ (apply_op_skeleton P w w1 op hop) hinv) h

theorem branch_names_heads (vc : VersionControl) :
    vc.branches.map (fun b => b.name) = (heads vc).map (fun h => h.1) := by
  unfold heads
  rw [List.map_map]
  rfl

theorem names_set_current (vc : VersionControl) (x : Option Nat) :
    ((heads vc).set vc.current_branch ((current vc).name, x)).map (fun h => h.1) =
      (heads vc).map (fun h => h.1) := by
  rw [List.map_set]
  apply list_set_same
  rcases heads_get_current vc with h | h
  · left
    simp only [List.get?_eq_getElem?, List.getElem?_map] at h ⊢
    rw [h]
    rfl
  · right
    simpa using h

theorem branchNamesUnique_step (vc vc2 : VersionControl) (hs : SkeletonStep vc vc2)
    (h : BranchNamesUnique vc) : BranchNamesUnique vc2 := by
  unfold BranchNamesUnique at h ⊢
  rw [branch_names_heads] at h ⊢
  rcases hs with ⟨h1, _⟩ | ⟨k, _, _, h1⟩ | ⟨ps, _, _, _, h1⟩ | ⟨n, hn, _, h1⟩
  · rw [h1]; exact h
  · rw [h1, names_set_current]; exact h
  · rw [h1, names_set_current]; exact h
  · rw [h1, List.map_append, List.nodup_append]
    refine ⟨h, by simp, ?_⟩
    intro x hx hx2
    simp only [List.map_cons, List.map_nil, List.mem_singleton] at hx2
    rw [← branch_names_heads] at hx
    obtain ⟨b, hb, hbn⟩ := List.mem_map.1 hx
    exact hn b hb (by rw [hbn, hx2])

/-- C24: in every world reached from `svc_init` by any sequence of steps
(calls of `svc_add`, `svc_rm`, `svc_commit`, `svc_branch`, `svc_checkout`,
`svc_reset`, `svc_merge`, `print_commit`, and changes to the files from
outside), no two entries of the branch list have the same name. -/
theorem branch_names_unique (P : Params) (w : World) (h : Reachable P w) :
    BranchNamesUnique w.vc := by
  obtain ⟨fs0, ops, hrun⟩ := h
  refine run_ops_invariant P BranchNamesUnique branchNamesUnique_step ops _ w ?_ hrun
  simp [BranchNamesUnique, svc_init]

/-- Witness for C24: the world reached by `svc_add("a.txt")`,
`svc_commit("first")` and `svc_branch("dev")` has the two branches master and
dev. -/
theorem branch_names_unique_witness :
    (svc_branch exampleParams exampleWorld2 (some (cstr "dev"))).2.vc.branches.map
        (fun b => b.name) = [cstr "master", cstr "dev"] ∧
      BranchNamesUnique (svc_branch exampleParams exampleWorld2 (some (cstr "dev"))).2.vc :=
  ⟨by decide,
    branch_names_unique exampleParams _
      ⟨singleFile (cstr "a.txt") (cstr "x"),
        [Op.add (some (cstr "a.txt")), Op.commit (some (cstr "first")),
          Op.branch (some (cstr "dev"))], rfl⟩⟩

/-! ## The commit graph (C26) -/

theorem commitDag_iff (vc : VersionControl) :
    CommitDag vc ↔
      (∀ i ps, (parent_lists vc).get? i = some ps → ∀ p ∈ ps, p < i) ∧
        (∀ ps ∈ parent_lists vc, ps.length ≤ 2) ∧
        ∀ h ∈ heads vc, ∀ k, h.2 = some k → k < (parent_lists vc).length := by
  unfold CommitDag parent_lists heads
  constructor
  · intro ⟨d1, d2, d3⟩
    refine ⟨?_, ?_, ?_⟩
    · intro i ps hps
      simp only [List.get?_eq_getElem?, List.getElem?_map] at hps
      obtain ⟨c, hc, hcp⟩ := Option.map_eq_some'.1 hps
      rw [← hcp]
      exact d1 i c (by simpa [List.get?_eq_getElem?] using hc)
    · intro ps hps
      obtain ⟨c, hc, hcp⟩ := List.mem_map.1 hps
      rw [← hcp]
      exact d2 c hc
    · intro h hh k hk
      obtain ⟨b, hb, hbh⟩ := List.mem_map.1 hh
      rw [← hbh] at hk
      rw [List.length_map]
      exact d3 b hb k hk
  · intro ⟨d1, d2, d3⟩
    refine ⟨?_, ?_, ?_⟩
    · intro i c hc
      apply d1 i c.parent_commits
      simp only [List.get?_eq_getElem?, List.getElem?_map] at hc ⊢
      rw [hc]
      rfl
    · intro c hc
      exact d2 _ (List.mem_map.2 ⟨c, hc, rfl⟩)
    · intro b hb k hk
      have := d3 (b.name, b.commit) (List.mem_map.2 ⟨b, hb, rfl⟩) k hk
      rwa [List.length_map] at this

theorem commitDag_step (vc vc2 : VersionControl) (hs : SkeletonStep vc vc2)
    (h : CommitDag vc) : CommitDag vc2 := by
  have hbranch := h.2.2
  have hlen : (parent_lists vc).length = vc.commits.length := by
    unfold parent_lists
    rw [List.length_map]
  rw [commitDag_iff] at h ⊢
  obtain ⟨d1, d2, d3⟩ := h
  rcases hs with ⟨h1, h2⟩ | ⟨k, hk, h2, h1⟩ | ⟨ps, hps, hps2, h2, h1⟩ | ⟨n, _, h2, h1⟩
  · rw [h1, h2]
    exact ⟨d1, d2, d3⟩
  · rw [h1, h2]
    refine ⟨d1, d2, ?_⟩
    intro x hx j hj
    rcases List.mem_or_eq_of_mem_set hx with hx1 | hx1
    · exact d3 x hx1 j hj
    · rw [hx1] at hj
      simp only [Option.some.injEq] at hj
      omega
  · rw [h1, h2]
    refine ⟨?_, ?_, ?_⟩
    · intro i qs hqs p hp
      by_cases hi : i < (parent_lists vc).length
      · simp only [List.get?_eq_getElem?] at hqs
        rw [List.getElem?_append_left hi] at hqs
        exact d1 i qs (by simpa [List.get?_eq_getElem?] using hqs) p hp
      · simp only [List.get?_eq_getElem?] at hqs
        rw [List.getElem?_append_right (by omega)] at hqs
        have hi2 : i = (parent_lists vc).length := by
          by_contra hne
          have hpos : i - (parent_lists vc).length = (i - (parent_lists vc).length - 1) + 1 := by
            omega
          rw [hpos] at hqs
          simp at hqs
        have hq : qs = ps := by
          rw [hi2] at hqs
          simpa using hqs.symm
        rw [hq] at hp
        obtain ⟨b, hb, hbc⟩ := hps p hp
        have := hbranch b hb p hbc
        omega
    · intro qs hqs
      rcases List.mem_append.1 hqs with hq | hq
      · exact d2 qs hq
      · simp only [List.mem_singleton] at hq
        rw [hq]
        exact hps2
    · intro x hx j hj
      rw [List.length_append]
      rcases List.mem_or_eq_of_mem_set hx with hx1 | hx1
      · have := d3 x hx1 j hj
        omega
      · rw [hx1] at hj
        simp only [Option.some.injEq] at hj
        simp only [List.length_singleton]
        omega
  · rw [h1, h2]
    refine ⟨d1, d2, ?_⟩
    intro x hx j hj
    rcases List.mem_append.1 hx with hx1 | hx1
    · exact d3 x hx1 j hj
    · simp only [List.mem_singleton] at hx1
      rw [hx1] at hj
      obtain ⟨b, hb, hbc⟩ := current_commit_mem vc j hj
      have := hbranch b hb j hbc
      omega

theorem parentPath_lt (vc : VersionControl)
    (d1 : ∀ i c, vc.commits.get? i = some c → ∀ p ∈ c.parent_commits, p < i) :
    ∀ (path : List Nat) (i j : Nat), path ≠ [] → ParentPath vc i path j → j < i := by
  intro path
  induction path with
  | nil => intro i j hne _; exact absurd rfl hne
  | cons k rest ih =>
    intro i j _ hp
    obtain ⟨⟨c, hc, hk⟩, hrest⟩ := hp
    have hki := d1 i c hc k hk
    cases rest with
    | nil =>
      have hkj : k = j := hrest
      omega
    | cons k2 rest2 =>
      have := ih k j (by simp) hrest
      omega

/-- C26: in every world reached from `svc_init` by any sequence of steps,
every parent of the commit at log index `i` is a log index strictly below `i`,
every commit has at most two parents, and the current commit of every branch
is absent or an index of the log; hence no commit reaches itself by following
parent links one or more times. -/
theorem commit_dag (P : Params) (w : World) (h : Reachable P w) :
    CommitDag w.vc ∧
      ∀ (i : Nat) (path : List Nat), path ≠ [] → ¬ ParentPath w.vc i path i := by
  obtain ⟨fs0, ops, hrun⟩ := h
  have hdag : CommitDag w.vc := by
    refine run_ops_invariant P CommitDag commitDag_step ops _ w ?_ hrun
    refine ⟨?_, ?_, ?_⟩
    · intro i c hc
      simp [svc_init] at hc
    · intro c hc
      simp [svc_init] at hc
    · intro b hb k hk
      simp only [svc_init, List.mem_singleton] at hb
      rw [hb] at hk
      simp [init_master_branch] at hk
  refine ⟨hdag, ?_⟩
  intro i path hne hp
  have := parentPath_lt w.vc hdag.1 path i i hne hp
  omega

/-- Witness for C26: the world reached by `svc_add("a.txt")`,
`svc_commit("first")`, a change of `a.txt` and `svc_commit("second")` has two
commits, the second with the first as its only parent. -/
theorem commit_dag_witness :
    (svc_commit exampleParams exampleWorld3 (some (cstr "second"))).2.vc.commits.map
        (fun c => c.parent_commits) = [[], [0]] ∧
      CommitDag (svc_commit exampleParams exampleWorld3 (some (cstr "second"))).2.vc :=
  ⟨by decide,
    (commit_dag exampleParams _
      ⟨singleFile (cstr "a.txt") (cstr "x"),
        [Op.add (some (cstr "a.txt")), Op.commit (some (cstr "first")),
          Op.files (writeFile exampleWorld2.fs (cstr "a.txt") (cstr "y")),
          Op.commit (some (cstr "second"))], rfl⟩).1⟩

/-! ## Logged commits under the operations (C25) -/

/-- C25, as the specification states it, fails.  In `mixedRecordsWorld` the
logged commit `418aa2` holds its records in the order Change `a.txt`, Add
`b.txt`; after `print_commit("418aa2")` the order is Add `b.txt`, Change
`a.txt`.  In `twoHeadsWorld` the logged commit `cd5c8c` has branch id 1; after
`svc_reset("cd5c8c")` on the active branch 0, which returns 0, its branch id is
0. -/
theorem logged_commit_changed :
    mixedRecordsWorld.vc.commits.map
        (fun c => (c.id, c.commit_record.map (fun r => (r.file_name, r.change_type)))) =
        [(some (cstr "443094"), [(cstr "a.txt", CommitChangeType.Add)]),
          (some (cstr "418aa2"),
            [(cstr "a.txt", CommitChangeType.Change), (cstr "b.txt", CommitChangeType.Add)])] ∧
      (print_commit mixedRecordsWorld (some (cstr "418aa2"))).vc.commits.map
        (fun c => (c.id, c.commit_record.map (fun r => (r.file_name, r.change_type)))) =
        [(some (cstr "443094"), [(cstr "a.txt", CommitChangeType.Add)]),
          (some (cstr "418aa2"),
            [(cstr "b.txt", CommitChangeType.Add), (cstr "a.txt", CommitChangeType.Change)])] ∧
      twoHeadsWorld.vc.current_branch = 0 ∧
      twoHeadsWorld.vc.commits.map (fun c => (c.id, c.branch_id)) =
        [(some (cstr "443094"), 0), (some (cstr "cd5c8c"), 1)] ∧
      (svc_reset exampleParams twoHeadsWorld (some (cstr "cd5c8c"))).map
          (fun r => (r.1, r.2.vc.commits.map (fun c => (c.id, c.branch_id)))) =
        some (0, [(some (cstr "443094"), 0), (some (cstr "cd5c8c"), 0)]) := by
  decide

theorem commitKept_refl (c : Commit) : CommitKept c c :=
  ⟨rfl, rfl, rfl, rfl, rfl, List.Perm.refl _⟩

theorem get_set_cases (cs : List Commit) (k : Nat) (c1 : Commit) (i : Nat) (c : Commit)
    (hc : cs.get? i = some c) :
    (i ≠ k ∧ (cs.set k c1).get? i = some c) ∨ (i = k ∧ (cs.set k c1).get? i = some c1) := by
  have hlt : i < cs.length := by
    by_contra hge
    rw [List.get?_eq_none.2 (by omega)] at hc
    exact Option.noConfusion hc
  by_cases hik : i = k
  · right
    subst hik
    refine ⟨rfl, ?_⟩
    simp only [List.get?_eq_getElem?]
    rw [List.getElem?_set_self hlt]
  · left
    refine ⟨hik, ?_⟩
    simp only [List.get?_eq_getElem?] at hc ⊢
    rw [List.getElem?_set_ne (fun h => hik h.symm)]
    exact hc

theorem get_append_left (cs : List Commit) (x : Commit) (i : Nat) (c : Commit)
    (hc : cs.get? i = some c) : (cs ++ [x]).get? i = some c := by
  have hlt : i < cs.length := by
    by_contra hge
    rw [List.get?_eq_none.2 (by omega)] at hc
    exact Option.noConfusion hc
  simp only [List.get?_eq_getElem?] at hc ⊢
  rw [List.getElem?_append_left hlt]
  exact hc

theorem svc_commit_log (P : Params) (w : World) (m : Option CString) :
    (svc_commit P w m).2.vc.commits = w.vc.commits ∨
      ∃ c, (svc_commit P w m).2.vc.commits = w.vc.commits ++ [c] := by
  cases hr : (svc_commit P w m).1 with
  | none =>
    cases m with
    | none => exact Or.inl rfl
    | some msg =>
      exact Or.inl (svc_commit_noop P w msg ((svc_commit_none_iff P w msg).1 hr)).1
  | some id =>
    obtain ⟨_, _, _, _, hlog, _⟩ := svc_commit_success P w m id hr
    exact Or.inr ⟨_, hlog⟩

theorem svc_branch_log (P : Params) (w : World) (branch_name : Option CString) :
    (svc_branch P w branch_name).2.vc.commits = w.vc.commits := by
  unfold svc_branch
  cases branch_name with
  | none => rfl
  | some name =>
    simp only
    split
    · rfl
    · split
      · rfl
      · split <;> rfl

theorem svc_reset_log (P : Params) (w : World) (commit_id : Option CString)
    (r : Int × World) (h : svc_reset P w commit_id = some r) :
    r.2.vc.commits = w.vc.commits ∨
      ∃ id k c, commit_id = some id ∧ get_commit w.vc (some id) = some k ∧
        w.vc.commits.get? k = some c ∧
        r.2.vc.commits = w.vc.commits.set k { c with branch_id := w.vc.current_branch } := by
  unfold svc_reset at h
  cases commit_id with
  | none =>
    simp only [Option.some.injEq] at h
    rw [← h]
    exact Or.inl rfl
  | some id =>
    simp only at h
    cases hk : get_commit w.vc (some id) with
    | none =>
      rw [hk] at h
      simp only [Option.some.injEq] at h
      rw [← h]
      exact Or.inl rfl
    | some k =>
      rw [hk] at h
      simp only at h
      cases hc : w.vc.commits.get? k with
      | none => rw [hc] at h; exact Option.noConfusion h
      | some c =>
        rw [hc] at h
        simp only at h
        split at h
        · exact Option.noConfusion h
        · simp only [Option.some.injEq] at h
          rw [← h]
          exact Or.inr ⟨id, k, c, rfl, hk, hc, rfl⟩

theorem print_commit_log (w : World) (commit_id : Option CString) :
    (print_commit w commit_id).vc.commits = w.vc.commits ∨
      ∃ id k c, commit_id = some id ∧ get_commit w.vc (some id) = some k ∧
        w.vc.commits.get? k = some c ∧
        (print_commit w commit_id).vc.commits = w.vc.commits.set k
          { c with commit_record := qsort compare_commit_record_change c.commit_record } := by
  unfold print_commit
  cases commit_id with
  | none => exact Or.inl rfl
  | some id =>
    simp only
    cases hk : get_commit w.vc (some id) with
    | none => exact Or.inl rfl
    | some k =>
      simp only
      cases hc : w.vc.commits.get? k with
      | none => exact Or.inl rfl
      | some c => exact Or.inr ⟨id, k, c, rfl, hk, hc, rfl⟩

theorem svc_merge_log (P : Params) (w : World) (branch_name : Option CString)
    (resolutions : List resolution) (r : Option CString × World)
    (h : svc_merge P w branch_name resolutions = some r) :
    r.2.vc.commits = w.vc.commits ∨ ∃ c, r.2.vc.commits = w.vc.commits ++ [c] := by
  obtain ⟨rid, w2⟩ := r
  cases rid with
  | none =>
    rcases svc_merge_absent P w branch_name resolutions w2 h with
      h1 | ⟨n, merged, w1, fs2, _, hst, hnone, h2⟩
    · rw [h1]
      exact Or.inl rfl
    · obtain ⟨_, a2, _⟩ := merge_stage_skeleton P _ w w1 hst
      obtain ⟨hlog, _, _⟩ := svc_commit_noop P { vc := w1.vc, fs := fs2 } _
        ((svc_commit_none_iff P _ _).1 hnone)
      simp only at hlog
      left
      rw [h2]
      simp only
      rw [hlog, a2]
  | some id =>
    obtain ⟨n, idx, mb, head, merged, w1, fs2, _, _, _, _, _, _, _, _, _, _, _,
      c0, _, _, _, hfinal⟩ :=
      svc_merge_success P w branch_name resolutions id (by rw [h]; rfl)
    rw [h] at hfinal
    have hw2 := (Prod.mk.inj (Option.some.inj hfinal)).2
    right
    simp only at hw2
    rw [hw2]
    exact ⟨_, rfl⟩

/-- C25, amended: let a step (a call of `svc_add`, `svc_rm`, `svc_commit`,
`svc_branch`, `svc_checkout`, `svc_reset`, `svc_merge` or `print_commit`, or a
change of the files from outside) lead from `w` to `w2`, and let `c` be the
commit at index `i` of the log of `w`.  Then the commit at index `i` of the log
of `w2` has the id, message, parents and snapshot of `c` and the same records
up to their order.  Its branch id is that of `c`, unless the step is the
`svc_reset` to this very commit, which sets it to the active branch index; its
records are in the order of `c`, unless the step is the `print_commit` of this
very commit, which sorts them by change type. -/
theorem logged_commit_kept (P : Params) (w w2 : World) (op : Op) (i : Nat) (c : Commit)
    (h : apply_op P w op = some w2) (hc : w.vc.commits.get? i = some c) :
    ∃ c2, w2.vc.commits.get? i = some c2 ∧ CommitKept c c2 ∧
      (c2.branch_id = c.branch_id ∨
        ∃ id, op = Op.reset (some id) ∧ get_commit w.vc (some id) = some i ∧
          c2.branch_id = w.vc.current_branch) ∧
      (c2.commit_record = c.commit_record ∨
        ∃ id, op = Op.print (some id) ∧ get_commit w.vc (some id) = some i ∧
          c2.commit_record = qsort compare_commit_record_change c.commit_record) := by
  have same : w2.vc.commits = w.vc.commits →
      ∃ c2, w2.vc.commits.get? i = some c2 ∧ CommitKept c c2 ∧
        (c2.branch_id = c.branch_id ∨
          ∃ id, op = Op.reset (some id) ∧ get_commit w.vc (some id) = some i ∧
            c2.branch_id = w.vc.current_branch) ∧
        (c2.commit_record = c.commit_record ∨
          ∃ id, op = Op.print (some id) ∧ get_commit w.vc (some id) = some i ∧
            c2.commit_record = qsort compare_commit_record_change c.commit_record) := by
    intro heq
    exact ⟨c, by rw [heq]; exact hc, commitKept_refl c, Or.inl rfl, Or.inl rfl⟩
  have grown : (∃ x, w2.vc.commits = w.vc.commits ++ [x]) →
      ∃ c2, w2.vc.commits.get? i = some c2 ∧ CommitKept c c2 ∧
        (c2.branch_id = c.branch_id ∨
          ∃ id, op = Op.reset (some id) ∧ get_commit w.vc (some id) = some i ∧
            c2.branch_id = w.vc.current_branch) ∧
        (c2.commit_record = c.commit_record ∨
          ∃ id, op = Op.print (some id) ∧ get_commit w.vc (some id) = some i ∧
            c2.commit_record = qsort compare_commit_record_change c.commit_record) := by
    intro ⟨x, heq⟩
    exact ⟨c, by rw [heq]; exact get_append_left _ x i c hc, commitKept_refl c,
      Or.inl rfl, Or.inl rfl⟩
  cases op with
  | add n =>
    simp only [apply_op] at h
    obtain ⟨r, hr, hw⟩ := Option.map_eq_some'.1 h
    exact same (by rw [← hw]; exact (svc_add_skeleton P w n r hr).2.1)
  | rm n =>
    simp only [apply_op, Option.some.injEq] at h
    exact same (by rw [← h]; exact (svc_rm_skeleton w n).2.1)
  | commit m =>
    simp only [apply_op, Option.some.injEq] at h
    rcases svc_commit_log P w m with h1 | h1
    · exact same (by rw [← h]; exact h1)
    · exact grown (by rw [← h]; exact h1)
  | branch n =>
    simp only [apply_op, Option.some.injEq] at h
    exact same (by rw [← h]; exact svc_branch_log P w n)
  | checkout n =>
    simp only [apply_op] at h
    obtain ⟨r, hr, hw⟩ := Option.map_eq_some'.1 h
    exact same (by rw [← hw]; exact (svc_checkout_skeleton P w n r hr).2)
  | reset id =>
    simp only [apply_op] at h
    obtain ⟨r, hr, hw⟩ := Option.map_eq_some'.1 h
    rcases svc_reset_log P w id r hr with h1 | ⟨id0, k, c0, hid, hk, hc0, h1⟩
    · exact same (by rw [← hw]; exact h1)
    · rw [← hw, h1]
      rcases get_set_cases w.vc.commits k { c0 with branch_id := w.vc.current_branch } i c hc
        with ⟨_, hget⟩ | ⟨hik, hget⟩
      · exact ⟨c, hget, commitKept_refl c, Or.inl rfl, Or.inl rfl⟩
      · subst hik
        rw [hc] at hc0
        have hcc : c = c0 := Option.some.inj hc0
        subst hcc
        exact ⟨_, hget, ⟨rfl, rfl, rfl, rfl, rfl, List.Perm.refl _⟩,
          Or.inr ⟨id0, by rw [hid], hk, rfl⟩, Or.inl rfl⟩
  | merge n rs =>
    simp only [apply_op] at h
    obtain ⟨r, hr, hw⟩ := Option.map_eq_some'.1 h
    rcases svc_merge_log P w n rs r hr with h1 | h1
    · exact same (by rw [← hw]; exact h1)
    · exact grown (by rw [← hw]; exact h1)
  | print id =>
    simp only [apply_op, Option.some.injEq] at h
    rcases print_commit_log w id with h1 | ⟨id0, k, c0, hid, hk, hc0, h1⟩
    · exact same (by rw [← h]; exact h1)
    · rw [← h, h1]
      rcases get_set_cases w.vc.commits k
        { c0 with commit_record := qsort compare_commit_record_change c0.commit_record } i c hc
        with ⟨_, hget⟩ | ⟨hik, hget⟩
      · exact ⟨c, hget, commitKept_refl c, Or.inl rfl, Or.inl rfl⟩
      · subst hik
        rw [hc] at hc0
        have hcc : c = c0 := Option.some.inj hc0
        subst hcc
        exact ⟨_, hget, ⟨rfl, rfl, rfl, rfl, rfl, List.perm_insertionSort _ _⟩,
          Or.inl rfl, Or.inr ⟨id0, by rw [hid], hk, rfl⟩⟩
  | files fs =>
    simp only [apply_op, Option.some.injEq] at h
    exact same (by rw [← h])

/-- Witness for C25: after `print_commit("418aa2")` in `mixedRecordsWorld`
the commit at index 1 keeps its id, message, parents, snapshot and branch id,
and holds the same records in another order. -/
theorem logged_commit_kept_witness :
    ∃ c c2, mixedRecordsWorld.vc.commits.get? 1 = some c ∧
      (print_commit mixedRecordsWorld (some (cstr "418aa2"))).vc.commits.get? 1 = some c2 ∧
      CommitKept c c2 ∧ c2.branch_id = c.branch_id ∧
      c2.commit_record = qsort compare_commit_record_change c.commit_record ∧
      c2.commit_record ≠ c.commit_record := by
  obtain ⟨c, hc⟩ : ∃ c, mixedRecordsWorld.vc.commits.get? 1 = some c :=
    ⟨(mixedRecordsWorld.vc.commits.get? 1).getD exampleCommit, by decide⟩
  obtain ⟨c2, h2, hk, hb, _⟩ := logged_commit_kept exampleParams mixedRecordsWorld
    (print_commit mixedRecordsWorld (some (cstr "418aa2"))) (Op.print (some (cstr "418aa2")))
    1 c rfl hc
  have hbranch : c2.branch_id = c.branch_id := by
    rcases hb with hb | ⟨id, hop, _⟩
    · exact hb
    · exact Op.noConfusion hop
  have hc0 : (mixedRecordsWorld.vc.commits.get? 1).getD exampleCommit = c := by
    rw [hc]; rfl
  have hc20 : ((print_commit mixedRecordsWorld (some (cstr "418aa2"))).vc.commits.get? 1).getD
      exampleCommit = c2 := by
    rw [h2]; rfl
  refine ⟨c, c2, hc, h2, hk, hbranch, ?_, ?_⟩
  · rw [← hc0, ← hc20]
    decide
  · rw [← hc0, ← hc20]
    decide

/-! ## Staging by `svc_merge` when the roster has no uncommitted change -/

theorem access_writeFile (fs : FileSystem) (p q : CString) (c : List Nat)
    (h : access fs q = true) : access (writeFile fs p c) q = true := by
  unfold access writeFile at *
  by_cases hq : q = p
  · simp [hq]
  · simp [hq, h]

theorem commit_entry_access (P : Params) (fs : FileSystem) (c : Commit) (fd : FileData)
    (q : CString) (h : access fs q = true) :
    access (commit_entry P fs c fd).2.1 q = true := by
  rcases commit_entry_fs P fs c fd with e | ⟨x, b, e, _⟩
  · rw [e]; exact h
  · rw [e]; exact access_writeFile fs _ q b h

theorem commit_entry_live (P : Params) (fs : FileSystem) (c : Commit) (fd : FileData)
    (hst : fd.state ≠ FileState.Deleted) (hacc : access fs fd.file_path = true) :
    (commit_entry P fs c fd).2.2.state = FileState.Tracked ∧
      (commit_entry P fs c fd).2.2.file_path = fd.file_path ∧
      (fd.state = FileState.Staged →
        ∃ r ∈ (commit_entry P fs c fd).1.commit_record,
          r.file_name = fd.file_path ∧ r.change_type = CommitChangeType.Add) ∧
      ∀ r ∈ c.commit_record, r ∈ (commit_entry P fs c fd).1.commit_record := by
  obtain ⟨e1, e2⟩ := commit_entry_spec P fs c fd
  have hentry : (expected_entry fs fd).state = FileState.Tracked ∧
      (expected_entry fs fd).file_path = fd.file_path := by
    unfold expected_entry
    cases hs : fd.state
    · simp [hacc, hs]
    · simp [hacc]
    · exact absurd hs hst
  have hrec : fd.state = FileState.Staged →
      expected_record fs fd = some
        { file_name := fd.file_path, change_type := CommitChangeType.Add,
          hash_change := { old_hash := none,
                           new_hash := some (current_hash fs fd.file_path) } } := by
    intro hs
    unfold expected_record
    rw [hs]
    simp [hacc]
  rw [e1, e2]
  refine ⟨hentry.1, hentry.2, ?_, fun r hr => List.mem_append_left _ hr⟩
  intro hs
  rw [hrec hs]
  exact ⟨{ file_name := fd.file_path, change_type := CommitChangeType.Add,
           hash_change := { old_hash := none,
                            new_hash := some (current_hash fs fd.file_path) } },
    List.mem_append_right _ (by simp), rfl, rfl⟩

theorem commit_entry_records_mono (P : Params) (fs : FileSystem) (c : Commit) (fd : FileData) :
    ∀ r ∈ c.commit_record, r ∈ (commit_entry P fs c fd).1.commit_record := by
  intro r hr
  rw [(commit_entry_spec P fs c fd).1]
  exact List.mem_append_left _ hr

theorem commit_files_live (P : Params) (files : List FileData) :
    ∀ (fs : FileSystem) (c : Commit),
      (∀ fd ∈ files, fd.state ≠ FileState.Deleted → access fs fd.file_path = true) →
      (∀ fd ∈ files, fd.state ≠ FileState.Deleted →
        ∃ x ∈ (commit_files P fs c files).2.2,
          x.file_path = fd.file_path ∧ x.state = FileState.Tracked) ∧
      (∀ fd ∈ files, fd.state = FileState.Staged →
        ∃ r ∈ (commit_files P fs c files).1.commit_record,
          r.file_name = fd.file_path ∧ r.change_type = CommitChangeType.Add) ∧
      ∀ r ∈ c.commit_record, r ∈ (commit_files P fs c files).1.commit_record := by
  induction files with
  | nil =>
    intro fs c _
    exact ⟨fun fd hfd => by simp at hfd, fun fd hfd => by simp at hfd,
      fun r hr => by simpa [commit_files] using hr⟩
  | cons fd rest ih =>
    intro fs c hlive
    obtain ⟨i1, i2, i3⟩ := ih (commit_entry P fs c fd).2.1 (commit_entry P fs c fd).1
      (fun x hx hxs => commit_entry_access P fs c fd _ (hlive x (by simp [hx]) hxs))
    simp only [commit_files]
    refine ⟨?_, ?_, ?_⟩
    · intro x hx hxs
      rcases List.mem_cons.1 hx with h | h
      · subst h
        obtain ⟨l1, l2, _, _⟩ := commit_entry_live P fs c x hxs (hlive x (by simp) hxs)
        exact ⟨_, by simp, l2, l1⟩
      · obtain ⟨y, hy, hy2⟩ := i1 x h hxs
        exact ⟨y, by simp [hy], hy2⟩
    · intro x hx hxs
      rcases List.mem_cons.1 hx with h | h
      · subst h
        have hnd : x.state ≠ FileState.Deleted := by rw [hxs]; simp
        obtain ⟨_, _, l3, _⟩ := commit_entry_live P fs c x hnd (hlive x (by simp) hnd)
        obtain ⟨r, hr, hr2⟩ := l3 hxs
        exact ⟨r, i3 r hr, hr2⟩
      · exact i2 x h hxs
    · intro r hr
      exact i3 r (commit_entry_records_mono P fs c fd r hr)

theorem svc_add_roster (P : Params) (w : World) (name : CString)
    (hG : 1 ≤ P.ARRAY_GROWTH_RATE) (hcap : 1 ≤ (current w.vc).files_len)
    (hwf : w.vc.current_branch < w.vc.branches.length)
    (hex : access w.fs name = true) (hun : is_unknown (current w.vc).files name = true) :
    ∃ r, svc_add P w (some name) = some r ∧
      (current r.2.vc).files =
        (current w.vc).files ++
          [{ file_path := name, state := FileState.Staged,
             previous_hash := hash_file w.fs (some name) }] ∧
      r.2.fs = w.fs ∧
      r.2.vc.current_branch = w.vc.current_branch ∧
      r.2.vc.branches.length = w.vc.branches.length ∧
      1 ≤ (current r.2.vc).files_len := by
  have hpos : 1 ≤ (current w.vc).files_len * P.ARRAY_GROWTH_RATE := Nat.mul_pos hcap hG
  obtain ⟨r, e, _, hfs, hc, hb, _⟩ := svc_add_accepts P w name hex hun (by omega)
  refine ⟨r, e, ?_, hfs, hc, ?_, ?_⟩
  · rw [current_of_set w.vc _ _ hb hc hwf]
  · rw [hb, List.length_set]
  · rw [current_of_set w.vc _ _ hb hc hwf]
    simp only
    split <;> omega

theorem merge_stage_spec (P : Params) (hG : 1 ≤ P.ARRAY_GROWTH_RATE)
    (entries : List FileSnapshot) :
    ∀ w : World, w.vc.current_branch < w.vc.branches.length →
      1 ≤ (current w.vc).files_len →
      (∀ e ∈ entries, canRead w.fs (P.svc_file_path e.hash) = true) →
      (∀ fd ∈ (current w.vc).files, fd.state ≠ FileState.Deleted →
        access w.fs fd.file_path = true) →
      ∃ w1, merge_stage P w entries = some w1 ∧
        w1.vc.current_branch < w1.vc.branches.length ∧
        (∀ fd ∈ (current w1.vc).files, fd.state ≠ FileState.Deleted →
          access w1.fs fd.file_path = true) ∧
        (∀ fd ∈ (current w.vc).files, fd ∈ (current w1.vc).files) ∧
        (∀ e ∈ entries, ∃ fd ∈ (current w1.vc).files,
          fd.file_path = e.name ∧ fd.state ≠ FileState.Deleted) ∧
        (∀ e ∈ entries, is_unknown (current w.vc).files e.name = true →
          ∃ fd ∈ (current w1.vc).files,
            fd.file_path = e.name ∧ fd.state = FileState.Staged) := by
  induction entries with
  | nil =>
    intro w hwf _ _ hlive
    exact ⟨w, rfl, hwf, hlive, fun fd h => h, fun e he => by simp at he,
      fun e he => by simp at he⟩
  | cons e rest ih =>
    intro w hwf hcap hblobs hlive
    by_cases hun : is_unknown (current w.vc).files e.name = true
    · -- the name is unknown: restore when missing, then add
      obtain ⟨fs1, hfs1, hacc1, hkeep, hblob1⟩ : ∃ fs1,
          (if access w.fs e.name = false then
              update_file w.fs e.name (some (P.svc_file_path e.hash))
            else some w.fs) = some fs1 ∧
          access fs1 e.name = true ∧
          (∀ q, access w.fs q = true → access fs1 q = true) ∧
          (∀ x ∈ rest, canRead fs1 (P.svc_file_path x.hash) = true) := by
        by_cases hacc : access w.fs e.name = true
        · refine ⟨w.fs, by simp [hacc], hacc, fun q h => h, fun x hx => hblobs x (by simp [hx])⟩
        · have hmissing : w.fs e.name = none := by
            unfold access at hacc
            cases hf : w.fs e.name with
            | none => rfl
            | some f => rw [hf] at hacc; simp at hacc
          have hup : canUpdate w.fs e.name = true := by
            unfold canUpdate
            rw [hmissing]
          refine ⟨writeFile w.fs e.name
            (if P.svc_file_path e.hash = e.name then []
             else fileContents w.fs (P.svc_file_path e.hash)), ?_, ?_, ?_, ?_⟩
          · rw [if_pos (by simpa using hacc)]
            exact update_file_some w.fs e.name _ hup (hblobs e (by simp))
          · unfold access
            rw [writeFile_same]
            rfl
          · intro q hq
            exact access_writeFile _ _ _ _ hq
          · intro x hx
            exact canRead_writeFile _ _ _ _ (hblobs x (by simp [hx]))
      obtain ⟨r, hadd, r1, r2, r3, r4, r5⟩ :=
        svc_add_roster P { vc := w.vc, fs := fs1 } e.name hG hcap hwf hacc1 hun
      simp only at r1 r2 r3 r4
      obtain ⟨w1, hw1, hwf1, hlive1, hsub1, hall1, hunk1⟩ :=
        ih r.2
          (by rw [r3, r4]; exact hwf)
          r5
          (by rw [r2]; exact hblob1)
          (by
            rw [r1, r2]
            intro fd hfd hst
            rcases List.mem_append.1 hfd with h | h
            · exact hkeep _ (hlive fd h hst)
            · simp only [List.mem_singleton] at h
              rw [h]
              exact hacc1)
      have hstaged : ∃ fd ∈ (current w1.vc).files,
          fd.file_path = e.name ∧ fd.state = FileState.Staged :=
        ⟨{ file_path := e.name, state := FileState.Staged,
           previous_hash := hash_file fs1 (some e.name) },
          hsub1 _ (by rw [r1]; simp), rfl, rfl⟩
      refine ⟨w1, ?_, hwf1, hlive1, ?_, ?_, ?_⟩
      · unfold merge_stage
        rw [if_pos hun]
        simp only
        rw [hfs1]
        simp only
        rw [hadd]
        exact hw1
      · intro fd hfd
        exact hsub1 fd (by rw [r1]; exact List.mem_append_left _ hfd)
      · intro x hx
        rcases List.mem_cons.1 hx with h | h
        · obtain ⟨fd, hfd, h1, h2⟩ := hstaged
          exact ⟨fd, hfd, by rw [h]; exact h1, by rw [h2]; simp⟩
        · exact hall1 x h
      · intro x hx hxun
        rcases List.mem_cons.1 hx with h | h
        · rw [h]
          exact hstaged
        · by_cases hname : x.name = e.name
          · rw [hname]
            exact hstaged
          · apply hunk1 x h
            rw [is_unknown_iff] at hxun ⊢
            rw [r1]
            intro y hy hyn
            rcases List.mem_append.1 hy with hy1 | hy1
            · exact hxun y hy1 hyn
            · simp only [List.mem_singleton] at hy1
              rw [hy1] at hyn
              exact absurd hyn.symm hname
    · -- the name is known
      obtain ⟨w1, hw1, hwf1, hlive1, hsub1, hall1, hunk1⟩ :=
        ih w hwf hcap (fun x hx => hblobs x (by simp [hx])) hlive
      refine ⟨w1, ?_, hwf1, hlive1, hsub1, ?_, ?_⟩
      · unfold merge_stage
        rw [if_neg hun]
        exact hw1
      · intro x hx
        rcases List.mem_cons.1 hx with h | h
        · have hknown : ¬ ∀ y ∈ (current w.vc).files, y.file_path = e.name →
              y.state = FileState.Deleted := fun hall => hun ((is_unknown_iff _ _).2 hall)
          simp only [not_forall] at hknown
          obtain ⟨y, hy, hyn, hys⟩ := hknown
          exact ⟨y, hsub1 y hy, by rw [h]; exact hyn, hys⟩
        · exact hall1 x h
      · intro x hx hxun
        rcases List.mem_cons.1 hx with h | h
        · rw [h] at hxun
          exact absurd hxun hun
        · exact hunk1 x h hxun

theorem svc_merge_runs (P : Params) (w : World) (n : CString) (resolutions : List resolution)
    (idx : Nat) (mb : Branch) (head : Nat) (merged : Commit) (w1 : World) (fs2 : FileSystem)
    (hidx : get_branch_index w.vc (some n) = some idx) (hself : idx ≠ w.vc.current_branch)
    (hun : check_uncommitted_changes w = 0)
    (hmb : w.vc.branches.get? idx = some mb) (hmbc : mb.commit = some head)
    (hmerged : w.vc.commits.get? head = some merged)
    (hst : merge_stage P w merged.snapshot.file_snapshots = some w1)
    (hres : merge_resolve w1.fs resolutions = some fs2) :
    ∃ w2, svc_merge P w (some n) resolutions =
        some ((svc_commit P { vc := w1.vc, fs := fs2 } (some (cstr "Merged branch " ++ n))).1,
          w2) ∧
      w2.vc.branches = (svc_commit P { vc := w1.vc, fs := fs2 }
        (some (cstr "Merged branch " ++ n))).2.vc.branches ∧
      w2.vc.current_branch = (svc_commit P { vc := w1.vc, fs := fs2 }
        (some (cstr "Merged branch " ++ n))).2.vc.current_branch ∧
      ((svc_commit P { vc := w1.vc, fs := fs2 } (some (cstr "Merged branch " ++ n))).1 = none →
        w2.vc.commits = w.vc.commits) ∧
      ((svc_commit P { vc := w1.vc, fs := fs2 } (some (cstr "Merged branch " ++ n))).1 ≠ none →
        ∃ c0 c1, (svc_commit P { vc := w1.vc, fs := fs2 }
            (some (cstr "Merged branch " ++ n))).2.vc.commits = w.vc.commits ++ [c0] ∧
          w2.vc.commits = w.vc.commits ++ [c1] ∧ c1.commit_record = c0.commit_record) := by
  have hm : ((w.vc.branches.get? idx).bind (fun b => b.commit)).bind
      (fun c => w.vc.commits.get? c) = some merged := by
    rw [hmb]
    simp only [Option.some_bind, hmbc, hmerged]
  obtain ⟨hs1, hs2, hs3, hs4⟩ := merge_stage_sameHeads P _ w w1 hst
  cases hr : (svc_commit P { vc := w1.vc, fs := fs2 }
      (some (cstr "Merged branch " ++ n))).1 with
  | none =>
    refine ⟨(svc_commit P { vc := w1.vc, fs := fs2 }
      (some (cstr "Merged branch " ++ n))).2, ?_, rfl, rfl, ?_, fun h => absurd rfl h⟩
    · unfold svc_merge
      simp only [hidx, hself, hun, ne_eq, not_true_eq_false, if_false, hm, hst, hres, hr]
    · intro _
      rw [(svc_commit_noop P { vc := w1.vc, fs := fs2 } _
        ((svc_commit_none_iff P _ _).1 hr)).1]
      exact hs1
  | some cid =>
    obtain ⟨msg, _, _, _, hlog0, hbr, hcb, _⟩ :=
      svc_commit_success P { vc := w1.vc, fs := fs2 }
        (some (cstr "Merged branch " ++ n)) cid hr
    simp only at hlog0 hbr hcb
    rw [hs1] at hlog0
    obtain ⟨c0, hlog⟩ : ∃ c0, (svc_commit P { vc := w1.vc, fs := fs2 }
        (some (cstr "Merged branch " ++ n))).2.vc.commits = w.vc.commits ++ [c0] :=
      ⟨_, hlog0⟩
    have hlast : (svc_commit P { vc := w1.vc, fs := fs2 }
        (some (cstr "Merged branch " ++ n))).2.vc.commits.length - 1 =
        w.vc.commits.length := by
      rw [hlog]; simp
    have hget0 : (svc_commit P { vc := w1.vc, fs := fs2 }
        (some (cstr "Merged branch " ++ n))).2.vc.commits.get?
        w.vc.commits.length = some c0 := by
      rw [hlog]; simp
    have hheadget : ((svc_commit P { vc := w1.vc, fs := fs2 }
        (some (cstr "Merged branch " ++ n))).2.vc.branches.get? idx).bind
        (fun b => b.commit) = some head := by
      rw [hbr]
      simp only [List.get?_eq_getElem?]
      rw [List.getElem?_set_ne (by rw [hs2]; exact fun h => hself h.symm)]
      have := hs4 idx hself
      simp only [List.get?_eq_getElem?] at this hmb
      rw [this, hmb]
      exact hmbc
    have key : (svc_merge P w (some n) resolutions).map
        (fun r => (r.1, r.2.vc.branches, r.2.vc.current_branch, r.2.vc.commits)) =
        some (some cid,
          (svc_commit P { vc := w1.vc, fs := fs2 }
            (some (cstr "Merged branch " ++ n))).2.vc.branches,
          (svc_commit P { vc := w1.vc, fs := fs2 }
            (some (cstr "Merged branch " ++ n))).2.vc.current_branch,
          w.vc.commits ++ [{ c0 with parent_commits := c0.parent_commits ++ [head] }]) := by
      unfold svc_merge
      simp only [hidx, hself, hun, ne_eq, not_true_eq_false, if_false, hm, hst, hres, hr,
        hlast, hget0, hheadget, Option.map_some']
      simp only [hlog, set_append_last]
    cases hsm : svc_merge P w (some n) resolutions with
    | none => rw [hsm] at key; simp at key
    | some r =>
      rw [hsm] at key
      simp only [Option.map_some', Option.some.injEq, Prod.mk.injEq] at key
      obtain ⟨k1, k2, k3, k4⟩ := key
      refine ⟨r.2, by rw [← k1], k2, k3, fun h => Option.noConfusion h, fun _ => ?_⟩
      exact ⟨c0, _, hlog, k4, rfl⟩

theorem hash_file_missing (fs : FileSystem) (p : CString) (h : access fs p = false) :
    hash_file fs (some p) = -2 := by
  have hnone : fs p = none := by
    unfold access at h
    cases hf : fs p with
    | none => rfl
    | some f => rw [hf] at h; simp at h
  simp [hash_file, hash_and_copy_file, fopen_errno, hnone]

theorem roster_live_of_committed (w : World) (k : Nat)
    (hk : (current w.vc).commit = some k) (hun : check_uncommitted_changes w = 0)
    (hhash : ∀ fd ∈ (current w.vc).files, fd.state = FileState.Tracked →
      fd.previous_hash ≠ -2) :
    ∀ fd ∈ (current w.vc).files, fd.state ≠ FileState.Deleted →
      fd.state = FileState.Tracked ∧ access w.fs fd.file_path = true := by
  intro fd hfd hst
  have hno : ¬ ∃ x ∈ (current w.vc).files, x.state = FileState.Staged ∨
      (x.state = FileState.Tracked ∧ hash_file w.fs (some x.file_path) ≠ x.previous_hash) := by
    intro hex
    have := (check_uncommitted_changes_iff w k hk).2 hex
    omega
  have htr : fd.state = FileState.Tracked := by
    cases hs : fd.state
    · rfl
    · exact absurd ⟨fd, hfd, Or.inl hs⟩ hno
    · exact absurd hs hst
  refine ⟨htr, ?_⟩
  by_contra hacc
  have hmiss := hash_file_missing w.fs fd.file_path (by simpa using hacc)
  have heq : hash_file w.fs (some fd.file_path) = fd.previous_hash := by
    by_contra hne
    exact hno ⟨fd, hfd, Or.inr ⟨htr, hne⟩⟩
  exact hhash fd hfd htr (by rw [← heq, hmiss])

/-- Staging by `svc_merge` when the check for uncommitted changes sees the
roster (C22 away from its failing input): let the active branch have a commit
and no uncommitted change, let no Tracked entry record the hash -2, let the
merged branch, other than the active one, have a head in the log, let the
blob of every entry of the head snapshot be readable, and let the active roster
have a capacity of at least 1 (the growth rate being at least 1), so that
`svc_add` can grow it.  Then `svc_merge` with no
resolutions returns, afterwards every file name of that snapshot has a Tracked
entry in the active roster, and for every name that was unknown to the roster
the merge returns an id and the commit it appends holds an Add record for that
name. -/
theorem svc_merge_stages (P : Params) (w : World) (n : CString) (idx k head : Nat)
    (mb : Branch) (merged : Commit)
    (hidx : get_branch_index w.vc (some n) = some idx) (hself : idx ≠ w.vc.current_branch)
    (hwf : w.vc.current_branch < w.vc.branches.length)
    (hG : 1 ≤ P.ARRAY_GROWTH_RATE) (hcap : 1 ≤ (current w.vc).files_len)
    (hun : check_uncommitted_changes w = 0) (hk : (current w.vc).commit = some k)
    (hhash : ∀ fd ∈ (current w.vc).files, fd.state = FileState.Tracked →
      fd.previous_hash ≠ -2)
    (hmb : w.vc.branches.get? idx = some mb) (hmbc : mb.commit = some head)
    (hmerged : w.vc.commits.get? head = some merged)
    (hblobs : ∀ e ∈ merged.snapshot.file_snapshots,
      canRead w.fs (P.svc_file_path e.hash) = true) :
    ∃ r w2, svc_merge P w (some n) [] = some (r, w2) ∧
      (∀ e ∈ merged.snapshot.file_snapshots, ∃ fd ∈ (current w2.vc).files,
        fd.file_path = e.name ∧ fd.state = FileState.Tracked) ∧
      (∀ e ∈ merged.snapshot.file_snapshots,
        is_unknown (current w.vc).files e.name = true →
        ∃ id c, r = some id ∧ w2.vc.commits = w.vc.commits ++ [c] ∧
          ∃ x ∈ c.commit_record,
            x.file_name = e.name ∧ x.change_type = CommitChangeType.Add) := by
  have hlive := roster_live_of_committed w k hk hun hhash
  obtain ⟨w1, hst, hwf1, hlive1, _, hall1, hunk1⟩ :=
    merge_stage_spec P hG merged.snapshot.file_snapshots w hwf hcap hblobs
      (fun fd hfd hs => (hlive fd hfd hs).2)
  obtain ⟨w2, hrun, hbr, hcb, hnone, hsome⟩ := svc_merge_runs P w n [] idx mb head merged w1
    w1.fs hidx hself hun hmb hmbc hmerged hst rfl
  obtain ⟨l1, l2, _⟩ := commit_files_live P (current w1.vc).files w1.fs
    { id := none, message := cstr "Merged branch " ++ n, branch_id := w1.vc.current_branch,
      commit_record := [], record_len := (current w1.vc).files.length, parent_commits := [],
      snapshot := init_snapshot P } hlive1
  have hloop : svc_commit_loop P { vc := w1.vc, fs := w1.fs } (cstr "Merged branch " ++ n) =
      commit_files P w1.fs
        { id := none, message := cstr "Merged branch " ++ n,
          branch_id := w1.vc.current_branch, commit_record := [],
          record_len := (current w1.vc).files.length, parent_commits := [],
          snapshot := init_snapshot P } (current w1.vc).files := rfl
  rw [← hloop] at l1 l2
  refine ⟨_, w2, hrun, ?_, ?_⟩
  · intro e he
    obtain ⟨fd, hfd, hname, hs⟩ := hall1 e he
    obtain ⟨x, hx, hxn, hxs⟩ := l1 fd hfd hs
    refine ⟨x, ?_, by rw [hxn, hname], hxs⟩
    cases hr : (svc_commit P { vc := w1.vc, fs := w1.fs }
        (some (cstr "Merged branch " ++ n))).1 with
    | none =>
      obtain ⟨_, hb, hc⟩ := svc_commit_noop P { vc := w1.vc, fs := w1.fs } _
        ((svc_commit_none_iff P _ _).1 hr)
      have hcur : current w2.vc = { current w1.vc with
          files := (svc_commit_loop P { vc := w1.vc, fs := w1.fs }
            (cstr "Merged branch " ++ n)).2.2 } :=
        current_of_set w1.vc w2.vc _ (by rw [hbr]; exact hb) (by rw [hcb]; exact hc) hwf1
      rw [hcur]
      exact hx
    | some cid =>
      obtain ⟨msg, hmsg, _, _, _, hb, hc, _⟩ := svc_commit_success P
        { vc := w1.vc, fs := w1.fs } (some (cstr "Merged branch " ++ n)) cid hr
      have hmsg2 : msg = cstr "Merged branch " ++ n := (Option.some.inj hmsg).symm
      subst hmsg2
      have hcur := current_of_set w1.vc w2.vc _ (by rw [hbr]; exact hb)
        (by rw [hcb]; exact hc) hwf1
      rw [hcur]
      simp only [clean_branch_files, List.mem_filter, decide_eq_true_eq]
      exact ⟨hx, by rw [hxs]; simp⟩
  · intro e he hunk
    obtain ⟨fd, hfd, hname, hs⟩ := hunk1 e he hunk
    obtain ⟨x, hx, hxn, hxt⟩ := l2 fd hfd hs
    cases hr : (svc_commit P { vc := w1.vc, fs := w1.fs }
        (some (cstr "Merged branch " ++ n))).1 with
    | none =>
      have := (svc_commit_none_iff P _ _).1 hr
      rw [this] at hx
      simp at hx
    | some cid =>
      obtain ⟨c0, c1, hlog0, hlog1, hrec⟩ := hsome (by rw [hr]; simp)
      obtain ⟨msg, hmsg, _, _, hlog, _⟩ := svc_commit_success P
        { vc := w1.vc, fs := w1.fs } (some (cstr "Merged branch " ++ n)) cid hr
      have hmsg2 : msg = cstr "Merged branch " ++ n := (Option.some.inj hmsg).symm
      subst hmsg2
      have hs1 : w1.vc.commits = w.vc.commits := (merge_stage_sameHeads P _ w w1 hst).1
      have hc0 : c0.commit_record =
          (generate_commit_id (svc_commit_loop P { vc := w1.vc, fs := w1.fs }
            (cstr "Merged branch " ++ n)).1).2.commit_record := by
        simp only at hlog
        rw [hlog, hs1] at hlog0
        have hl := List.append_cancel_left hlog0
        simp only [List.cons.injEq, and_true] at hl
        rw [← hl]
      refine ⟨cid, c1, rfl, hlog1, x, ?_, by rw [hxn, hname], hxt⟩
      rw [hrec, hc0]
      exact (List.perm_insertionSort _ _).mem_iff.2 hx

/-- Example for `svc_merge_stages`: in `twoHeadsWorld` master is active with
the commit `443094` and the Tracked `a.txt`, and the head snapshot of dev names
`a.txt` and `b.txt`; `svc_merge("dev")` returns, afterwards both names have a
Tracked entry, and the appended commit holds an Add record for `b.txt`, the
name that was unknown. -/
theorem svc_merge_stages_example :
    ∃ r w2, svc_merge exampleParams twoHeadsWorld (some (cstr "dev")) [] = some (r, w2) ∧
      (∃ fd ∈ (current w2.vc).files,
        fd.file_path = cstr "b.txt" ∧ fd.state = FileState.Tracked) ∧
      ∃ id c, r = some id ∧ w2.vc.commits = twoHeadsWorld.vc.commits ++ [c] ∧
        ∃ x ∈ c.commit_record,
          x.file_name = cstr "b.txt" ∧ x.change_type = CommitChangeType.Add := by
  obtain ⟨mb, hmb⟩ : ∃ mb, twoHeadsWorld.vc.branches.get? 1 = some mb :=
    ⟨(twoHeadsWorld.vc.branches.get? 1).getD (current twoHeadsWorld.vc), by decide⟩
  obtain ⟨merged, hmerged⟩ : ∃ c, twoHeadsWorld.vc.commits.get? 1 = some c :=
    ⟨(twoHeadsWorld.vc.commits.get? 1).getD exampleCommit, by decide⟩
  have hmb0 : (twoHeadsWorld.vc.branches.get? 1).getD (current twoHeadsWorld.vc) = mb := by
    rw [hmb]; rfl
  have hmerged0 : (twoHeadsWorld.vc.commits.get? 1).getD exampleCommit = merged := by
    rw [hmerged]; rfl
  have hsnap : merged.snapshot.file_snapshots =
      [{ name := cstr "a.txt", hash := 615 }, { name := cstr "b.txt", hash := 618 }] := by
    rw [← hmerged0]
    decide
  obtain ⟨r, w2, hrun, h1, h2⟩ := svc_merge_stages exampleParams twoHeadsWorld (cstr "dev")
    1 0 1 mb merged (by decide) (by decide) (by decide) (by decide) (by decide) (by decide)
    (by decide) (by decide) hmb (by rw [← hmb0]; decide) hmerged (by rw [hsnap]; decide)
  exact ⟨r, w2, hrun, h1 { name := cstr "b.txt", hash := 618 } (by rw [hsnap]; simp),
    h2 { name := cstr "b.txt", hash := 618 } (by rw [hsnap]; simp) (by decide)⟩

/-! ## The file hash in closed form (C37) -/

theorem cast_list_eq (l : List Nat) : (↑l : List Int) = l.map Int.ofNat := by
  induction l with
  | nil => rfl
  | cons x xs ih =>
    simp only [List.map_cons]
    rw [← ih]
    rfl

theorem byte_sum_nonneg (l : List Nat) : 0 ≤ byte_sum l := by
  unfold byte_sum
  induction l with
  | nil => simp
  | cons x xs ih =>
    simp only [List.map_cons, List.sum_cons, Int.ofNat_eq_coe]
    omega

theorem byte_sum_cons (x : Nat) (xs : List Nat) :
    byte_sum (x :: xs) = (x : Int) + byte_sum xs := by
  simp [byte_sum]

theorem path_fold_closed (path : CString) (hp : ∀ c ∈ path, isAscii c) :
    ∀ h : Int, 0 ≤ h → h < 1000 →
      path.foldl (fun h c => Int.tmod (h + charVal c) 1000) h = (h + byte_sum path) % 1000 ∧
      path.foldl checked_path_step (some h) = some ((h + byte_sum path) % 1000) := by
  induction path with
  | nil =>
    intro h h0 h1
    have hz : byte_sum [] = 0 := rfl
    simp only [List.foldl_nil, hz, add_zero]
    rw [Int.emod_eq_of_lt h0 h1]
    exact ⟨rfl, rfl⟩
  | cons c rest ih =>
    intro h h0 h1
    have hc := hp c (by simp)
    have hc2 := hc
    unfold isAscii at hc2
    have hstep : Int.tmod (h + charVal c) 1000 = (h + (c : Int)) % 1000 := by
      rw [charVal_of_ascii c hc, Int.tmod_eq_emod (by omega) (by omega)]
    have hchk : checked_path_step (some h) c = some ((h + (c : Int)) % 1000) := by
      unfold checked_path_step checkInt
      rw [charVal_of_ascii c hc]
      simp only [Option.some_bind]
      rw [if_pos (by omega)]
      simp only [Option.map_some']
      rw [Int.tmod_eq_emod (by omega) (by omega)]
    obtain ⟨i1, i2⟩ := ih (fun x hx => hp x (by simp [hx])) ((h + (c : Int)) % 1000)
      (Int.emod_nonneg _ (by omega)) (Int.emod_lt_of_pos _ (by omega))
    simp only [List.foldl_cons, hstep, hchk, byte_sum_cons]
    rw [i1, i2, Int.emod_add_emod, add_assoc]
    exact ⟨rfl, rfl⟩

theorem content_fold_closed (contents : List Nat) (hb : ∀ x ∈ contents, x < 256) :
    ∀ h : Int, 0 ≤ h → h < 2000000000 →
      (contents.map Int.ofNat).foldl (fun h c => Int.tmod (h + c) 2000000000) h =
        (h + byte_sum contents) % 2000000000 ∧
      contents.foldl checked_content_step (some h) =
        some ((h + byte_sum contents) % 2000000000) := by
  induction contents with
  | nil =>
    intro h h0 h1
    have hz : byte_sum [] = 0 := rfl
    simp only [List.map_nil, List.foldl_nil, hz, add_zero]
    rw [Int.emod_eq_of_lt h0 h1]
    exact ⟨rfl, rfl⟩
  | cons c rest ih =>
    intro h h0 h1
    have hc := hb c (by simp)
    have hstep : Int.tmod (h + Int.ofNat c) 2000000000 = (h + (c : Int)) % 2000000000 := by
      rw [Int.ofNat_eq_coe, Int.tmod_eq_emod (by omega) (by omega)]
    have hchk : checked_content_step (some h) c = some ((h + (c : Int)) % 2000000000) := by
      unfold checked_content_step checkInt
      simp only [Option.some_bind]
      rw [if_pos (by omega)]
      simp only [Option.map_some']
      rw [Int.tmod_eq_emod (by omega) (by omega)]
    obtain ⟨i1, i2⟩ := ih (fun x hx => hb x (by simp [hx])) ((h + (c : Int)) % 2000000000)
      (Int.emod_nonneg _ (by omega)) (Int.emod_lt_of_pos _ (by omega))
    simp only [List.map_cons, List.foldl_cons, hstep, hchk, byte_sum_cons]
    rw [i1, i2, Int.emod_add_emod, add_assoc]
    exact ⟨rfl, rfl⟩

/-- C37: for a readable file with an ASCII path and content bytes below 256,
the hash of `hash_and_copy_file` is the closed form `reference_file_hash`
(sum of the path characters modulo 1000, plus the sum of the content bytes,
modulo 2000000000); the loops with overflow detection return the same value,
so no intermediate value leaves the range of `int`; the hash lies in
`[0, 2000000000)`, `hash_file` returns it and not an error code, and a file at
the same path whose bytes have the same sum has the same hash. -/
theorem file_hash_closed_form (fs : FileSystem) (path : CString) (f : FileNode) (copy : Bool)
    (hf : fs path = some f) (hr : f.readable = true)
    (hp : ∀ c ∈ path, isAscii c) (hb : ∀ x ∈ f.contents, x < 256) :
    (hash_and_copy_file fs path copy).1 = reference_file_hash path f.contents ∧
      checked_file_hash path f.contents = some (reference_file_hash path f.contents) ∧
      0 ≤ reference_file_hash path f.contents ∧
      reference_file_hash path f.contents < 2000000000 ∧
      hash_file fs (some path) = reference_file_hash path f.contents ∧
      ∀ (fs2 : FileSystem) (f2 : FileNode), fs2 path = some f2 → f2.readable = true →
        (∀ x ∈ f2.contents, x < 256) → byte_sum f2.contents = byte_sum f.contents →
        (hash_and_copy_file fs2 path copy).1 = (hash_and_copy_file fs path copy).1 := by
  have hmodel : ∀ (fs1 : FileSystem) (f1 : FileNode) (cp : Bool), fs1 path = some f1 →
      f1.readable = true → (∀ x ∈ f1.contents, x < 256) →
      (hash_and_copy_file fs1 path cp).1 = reference_file_hash path f1.contents := by
    intro fs1 f1 cp h1 h2 h3
    obtain ⟨p1, _⟩ := path_fold_closed path hp 0 (by omega) (by omega)
    have pb0 : 0 ≤ (0 + byte_sum path) % 1000 := Int.emod_nonneg _ (by omega)
    have pb1 : (0 + byte_sum path) % 1000 < 1000 := Int.emod_lt_of_pos _ (by omega)
    obtain ⟨c1, _⟩ := content_fold_closed f1.contents h3 _ pb0 (by omega)
    unfold hash_and_copy_file reference_file_hash
    rw [h1]
    simp only [h2, if_true]
    rw [cast_list_eq, p1, c1, zero_add]
  have h0 : 0 ≤ reference_file_hash path f.contents := Int.emod_nonneg _ (by omega)
  have h1 : reference_file_hash path f.contents < 2000000000 :=
    Int.emod_lt_of_pos _ (by omega)
  refine ⟨hmodel fs f copy hf hr hb, ?_, h0, h1, ?_, ?_⟩
  · obtain ⟨_, p2⟩ := path_fold_closed path hp 0 (by omega) (by omega)
    have pb0 : 0 ≤ (0 + byte_sum path) % 1000 := Int.emod_nonneg _ (by omega)
    have pb1 : (0 + byte_sum path) % 1000 < 1000 := Int.emod_lt_of_pos _ (by omega)
    obtain ⟨_, c2⟩ := content_fold_closed f.contents hb _ pb0 (by omega)
    unfold checked_file_hash reference_file_hash
    rw [p2, c2, zero_add]
  · unfold hash_file
    simp only
    rw [hmodel fs f false hf hr hb, if_neg (by omega)]
  · intro fs2 f2 hf2 hr2 hb2 hsum
    rw [hmodel fs2 f2 copy hf2 hr2 hb2, hmodel fs f copy hf hr hb]
    unfold reference_file_hash
    rw [hsum]

/-- Witness for C37: for `a.txt` holding `x` the loops, the loops with
overflow detection and the closed form agree; the path characters sum to 495,
the content to 120, and `hash_file` returns 615. -/
theorem file_hash_closed_form_witness :
    (hash_and_copy_file exampleWorld0.fs (cstr "a.txt") true).1 =
        reference_file_hash (cstr "a.txt") (cstr "x") ∧
      checked_file_hash (cstr "a.txt") (cstr "x") =
        some (reference_file_hash (cstr "a.txt") (cstr "x")) ∧
      hash_file exampleWorld0.fs (some (cstr "a.txt")) = 615 := by
  obtain ⟨h1, h2, _, _, h3, _⟩ := file_hash_closed_form exampleWorld0.fs (cstr "a.txt")
    { readable := true, contents := cstr "x" } true (by decide) rfl (by decide) (by decide)
  exact ⟨h1, h2, by decide⟩

/-! ## The id does not depend on the order of the records (C36) -/

theorem sorted_perm_unique {α : Type} (r : α → α → Prop) :
    ∀ l1 l2 : List α, (∀ a ∈ l1, ∀ b ∈ l1, r a b → r b a → a = b) →
      l1.Perm l2 → List.Sorted r l1 → List.Sorted r l2 → l1 = l2 := by
  intro l1
  induction l1 with
  | nil =>
    intro l2 _ hp _ _
    exact (List.Perm.nil_eq hp)
  | cons a t ih =>
    intro l2 hanti hp hs1 hs2
    cases l2 with
    | nil => exact absurd hp.length_eq (by simp)
    | cons b t2 =>
      have hab : a = b := by
        by_contra hne
        have ha : a ∈ b :: t2 := hp.subset (by simp)
        have hb : b ∈ a :: t := hp.symm.subset (by simp)
        have ha2 : a ∈ t2 := by
          rcases List.mem_cons.1 ha with h | h
          · exact absurd h hne
          · exact h
        have hb2 : b ∈ t := by
          rcases List.mem_cons.1 hb with h | h
          · exact absurd h.symm hne
          · exact h
        have r1 : r a b := (List.sorted_cons.1 hs1).1 b hb2
        have r2 : r b a := (List.sorted_cons.1 hs2).1 a ha2
        exact hne (hanti a (by simp) b hb r1 r2)
      subst hab
      have hp2 : t.Perm t2 := List.Perm.cons_inv hp
      rw [ih t2 (fun x hx y hy => hanti x (by simp [hx]) y (by simp [hy])) hp2
        (List.sorted_cons.1 hs1).2 (List.sorted_cons.1 hs2).2]

theorem qsort_name_sorted (l : List CommitRecord) :
    List.Sorted (fun a b => compare_commit_record_name a b ≤ 0)
      (qsort compare_commit_record_name l) := by
  have htotal : IsTotal CommitRecord (fun a b => compare_commit_record_name a b ≤ 0) :=
    ⟨fun a b => by
      simp only [compare_commit_record_name_le]
      exact name_le_total _ _⟩
  have htrans : IsTrans CommitRecord (fun a b => compare_commit_record_name a b ≤ 0) :=
    ⟨fun a b c => by
      simp only [compare_commit_record_name_le]
      exact name_le_trans _ _ _⟩
  exact List.sorted_insertionSort _ _

theorem name_le_antisymm (a b : CString) (h1 : name_le a b) (h2 : name_le b a) : a = b := by
  unfold name_le strcasecmp at h1 h2
  rw [strcmp_swap (a.map tolower) (b.map tolower), strcmp_swap a b] at h2
  have h0 : strcmp a b = 0 := by omega
  exact (strcmp_eq_zero_iff a b).1 h0

/-- C36: two commits with the same message whose record lists are
permutations of each other, with pairwise distinct file names, get the same
sorted record list and the same id from `generate_commit_id`. -/
theorem generate_commit_id_order_independent (c1 c2 : Commit)
    (hm : c1.message = c2.message) (hperm : c1.commit_record.Perm c2.commit_record)
    (hd : (c1.commit_record.map (fun r => r.file_name)).Nodup) :
    (generate_commit_id c1).2.commit_record = (generate_commit_id c2).2.commit_record ∧
      (generate_commit_id c1).1 = (generate_commit_id c2).1 := by
  have hp1 : (qsort compare_commit_record_name c1.commit_record).Perm c1.commit_record :=
    List.perm_insertionSort _ _
  have hp2 : (qsort compare_commit_record_name c2.commit_record).Perm c2.commit_record :=
    List.perm_insertionSort _ _
  have hsorted : qsort compare_commit_record_name c1.commit_record =
      qsort compare_commit_record_name c2.commit_record := by
    apply sorted_perm_unique (fun a b => compare_commit_record_name a b ≤ 0) _ _ ?_
      (hp1.trans (hperm.trans hp2.symm)) (qsort_name_sorted _) (qsort_name_sorted _)
    intro a ha b hb r1 r2
    have hname : a.file_name = b.file_name :=
      name_le_antisymm _ _ ((compare_commit_record_name_le a b).1 r1)
        ((compare_commit_record_name_le b a).1 r2)
    exact List.inj_on_of_nodup_map hd (hp1.mem_iff.1 ha) (hp1.mem_iff.1 hb) hname
  unfold generate_commit_id
  simp only
  rw [hsorted, hm]
  exact ⟨rfl, rfl⟩

/-- Witness for C36: `commitBA` and `commitAB`, which hold the same two
records in different orders, get the same id. -/
theorem generate_commit_id_order_independent_witness :
    commitBA.commit_record ≠ commitAB.commit_record ∧
      (generate_commit_id commitBA).1 = (generate_commit_id commitAB).1 :=
  ⟨by decide,
    (generate_commit_id_order_independent commitBA commitAB rfl (List.Perm.swap _ _ _)
      (by decide)).2⟩

/-! ## The range of the commit id (C35) -/

theorem neg_tmod (a b : Int) : Int.tmod (-a) b = -Int.tmod a b := by
  rw [Int.tmod_def, Int.tmod_def, Int.neg_tdiv]
  ring

theorem tmod_bounds (x m : Int) (hm : 0 < m) : -m < Int.tmod x m ∧ Int.tmod x m < m := by
  refine ⟨?_, Int.tmod_lt_of_pos x hm⟩
  by_cases hx : 0 ≤ x
  · have := Int.tmod_nonneg m hx
    omega
  · have h1 : Int.tmod x m = -Int.tmod (-x) m := by
      rw [neg_tmod, neg_neg]
    have h2 := Int.tmod_lt_of_pos (-x) hm
    omega

theorem charVal_bounds (c : Nat) (h : c < 256) : -128 ≤ charVal c ∧ charVal c ≤ 127 := by
  unfold charVal
  split <;> omega

theorem message_fold_checked (m : CString) (hm : ∀ ch ∈ m, ch < 256) :
    ∀ id : Int, -1000 < id → id < 1000 →
      m.foldl checked_id_message_step (some id) = some (m.foldl id_message_step id) ∧
      -1000 < m.foldl id_message_step id ∧ m.foldl id_message_step id < 1000 := by
  induction m with
  | nil => intro id h0 h1; exact ⟨rfl, h0, h1⟩
  | cons c rest ih =>
    intro id h0 h1
    obtain ⟨c0, c1⟩ := charVal_bounds c (hm c (by simp))
    obtain ⟨b0, b1⟩ := tmod_bounds (id + charVal c) 1000 (by omega)
    have hstep : id_message_step id c = Int.tmod (id + charVal c) 1000 := by
      unfold id_message_step
      rw [wrapLL_eq_self _ (by omega) (by omega)]
    have hchk : checked_id_message_step (some id) c = some (id_message_step id c) := by
      unfold checked_id_message_step checkLL
      simp only [Option.some_bind]
      rw [if_pos (by omega), hstep]
      rfl
    simp only [List.foldl_cons, hchk]
    exact ih (fun x hx => hm x (by simp [hx])) _ (by rw [hstep]; exact b0)
      (by rw [hstep]; exact b1)

theorem name_step_checked (id : Int) (c : Nat) (h0 : 0 ≤ id)
    (h1 : id ≤ 95736810015485863) (hc : isAscii c) :
    checked_id_name_step (some id) c = some (id_name_step id c) ∧
      1 ≤ id_name_step id c ∧ id_name_step id c ≤ 15485863 := by
  obtain ⟨_, r0, r1⟩ := id_name_step_eq id c h0 h1 hc
  refine ⟨?_, r0, r1⟩
  have hc2 := hc
  unfold isAscii at hc2
  have hk0 : 0 ≤ (c : Int) % 37 := Int.emod_nonneg _ (by omega)
  have hk1 : (c : Int) % 37 ≤ 36 := by omega
  have hp0 : 0 ≤ id * ((c : Int) % 37) := mul_nonneg h0 hk0
  have hp1 : id * ((c : Int) % 37) ≤ 95736810015485863 * 36 :=
    mul_le_mul h1 hk1 hk0 (by norm_num)
  have hm0 := Int.emod_nonneg (id * ((c : Int) % 37)) (show (15485863 : Int) ≠ 0 by norm_num)
  have hm1 := Int.emod_lt_of_pos (id * ((c : Int) % 37)) (show (0 : Int) < 15485863 by norm_num)
  have t1 : Int.tmod (c : Int) 37 = (c : Int) % 37 :=
    Int.tmod_eq_emod (by omega) (by omega)
  have t2 : Int.tmod (id * ((c : Int) % 37)) 15485863 = (id * ((c : Int) % 37)) % 15485863 :=
    Int.tmod_eq_emod hp0 (by omega)
  unfold checked_id_name_step id_name_step checkLL
  rw [charVal_of_ascii c hc, t1]
  simp only [Option.some_bind]
  rw [if_pos (by omega)]
  simp only [Option.some_bind]
  rw [wrapLL_eq_self (id * ((c : Int) % 37)) (by omega) (by omega), t2,
    wrapLL_eq_self _ (by omega) (by omega), if_pos (by omega)]

theorem name_fold_checked (name : CString) (hn : ∀ ch ∈ name, isAscii ch) :
    ∀ id : Int, 0 ≤ id → id ≤ 95736810015485863 →
      name.foldl checked_id_name_step (some id) = some (name.foldl id_name_step id) ∧
      (name ≠ [] → 1 ≤ name.foldl id_name_step id ∧ name.foldl id_name_step id ≤ 15485863) ∧
      (name = [] → name.foldl id_name_step id = id) := by
  induction name with
  | nil => intro id _ _; exact ⟨rfl, fun h => absurd rfl h, fun _ => rfl⟩
  | cons c rest ih =>
    intro id h0 h1
    obtain ⟨e, b0, b1⟩ := name_step_checked id c h0 h1 (hn c (by simp))
    obtain ⟨e2, c1, c2⟩ :=
      ih (fun ch h => hn ch (by simp [h])) (id_name_step id c) (by omega) (by omega)
    simp only [List.foldl_cons, e]
    refine ⟨e2, fun _ => ?_, fun h => by simp at h⟩
    by_cases hrest : rest = []
    · rw [c2 hrest]
      exact ⟨b0, b1⟩
    · exact c1 hrest

theorem record_step_checked (id : Int) (r : CommitRecord) (h0 : -1000 < id)
    (h1 : id ≤ 15485863) (hne : r.file_name ≠ [])
    (hr : ∀ ch ∈ r.file_name, isAscii ch) :
    checked_id_record_step (some id) r = some (id_record_step id r) ∧
      1 ≤ id_record_step id r ∧ id_record_step id r ≤ 15485863 := by
  unfold checked_id_record_step id_record_step checkLL
  cases hct : r.change_type <;> simp only [Option.some_bind]
  · rw [wrapLL_eq_self _ (by omega) (by omega), if_pos (by omega)]
    obtain ⟨e, b, _⟩ := name_fold_checked r.file_name hr (id + 376591) (by omega) (by omega)
    exact ⟨e, b hne⟩
  · rw [wrapLL_eq_self _ (by omega) (by omega), if_pos (by omega)]
    obtain ⟨e, b, _⟩ := name_fold_checked r.file_name hr (id + 85973) (by omega) (by omega)
    exact ⟨e, b hne⟩
  · rw [wrapLL_eq_self _ (by omega) (by omega), if_pos (by omega)]
    obtain ⟨e, b, _⟩ := name_fold_checked r.file_name hr (id + 9573681) (by omega) (by omega)
    exact ⟨e, b hne⟩

theorem record_fold_checked (records : List CommitRecord)
    (hr : ∀ r ∈ records, r.file_name ≠ [] ∧ ∀ ch ∈ r.file_name, isAscii ch) :
    ∀ id : Int, -1000 < id → id ≤ 15485863 →
      records.foldl checked_id_record_step (some id) =
        some (records.foldl id_record_step id) ∧
      (records ≠ [] → 1 ≤ records.foldl id_record_step id ∧
        records.foldl id_record_step id ≤ 15485863) := by
  induction records with
  | nil => intro id _ _; exact ⟨rfl, fun h => absurd rfl h⟩
  | cons r rest ih =>
    intro id h0 h1
    obtain ⟨hn, ha⟩ := hr r (by simp)
    obtain ⟨e, b0, b1⟩ := record_step_checked id r h0 h1 hn ha
    obtain ⟨e2, c⟩ := ih (fun x h => hr x (by simp [h])) (id_record_step id r)
      (by omega) b1
    simp only [List.foldl_cons, e]
    refine ⟨e2, fun _ => ?_⟩
    by_cases hrest : rest = []
    · subst hrest
      exact ⟨b0, b1⟩
    · exact c hrest

theorem toHex_length_six (n : Nat) (h : n < 16777216) : (toHex n).length ≤ 6 := by
  have hlen := hexAux_length_le (n + 1) n [] 5 (by norm_num; omega)
  simp only [List.length_nil] at hlen
  unfold toHex
  omega

/-- C35: for a commit with at least one record, whose record file names are
non-empty ASCII strings (the message being any string of bytes), the loops of
`generate_commit_id` never leave the 64-bit range (the overflow-detecting
evaluation yields the value of the model), the number held by `id` before
rendering lies between 1 and 15485863, and the rendered id is that number in
lowercase hexadecimal, zero padded, with exactly six digits. -/
theorem commit_id_range (c : Commit) (hne : c.commit_record ≠ [])
    (hm : ∀ ch ∈ c.message, ch < 256)
    (hr : ∀ r ∈ c.commit_record, r.file_name ≠ [] ∧ ∀ ch ∈ r.file_name, isAscii ch) :
    checked_commit_id_number c.message (qsort compare_commit_record_name c.commit_record) =
        some (commit_id_number c.message (qsort compare_commit_record_name c.commit_record)) ∧
      1 ≤ commit_id_number c.message (qsort compare_commit_record_name c.commit_record) ∧
      commit_id_number c.message (qsort compare_commit_record_name c.commit_record)
        ≤ 15485863 ∧
      (generate_commit_id c).1 = List.leftpad 6 48 (toHex
        (commit_id_number c.message
          (qsort compare_commit_record_name c.commit_record)).toNat) ∧
      (generate_commit_id c).1.length = 6 ∧
      ∀ ch ∈ (generate_commit_id c).1, isLowerHex ch := by
  have hperm : (qsort compare_commit_record_name c.commit_record).Perm c.commit_record :=
    List.perm_insertionSort _ _
  have hsne : qsort compare_commit_record_name c.commit_record ≠ [] := by
    intro h
    rw [h] at hperm
    exact hne hperm.symm.eq_nil
  obtain ⟨e1, a0, a1⟩ := message_fold_checked c.message hm 0 (by omega) (by omega)
  obtain ⟨e2, b⟩ := record_fold_checked (qsort compare_commit_record_name c.commit_record)
    (fun r h => hr r (hperm.mem_iff.1 h)) (c.message.foldl id_message_step 0) a0 (by omega)
  obtain ⟨b0, b1⟩ := b hsne
  have hchk : checked_commit_id_number c.message
      (qsort compare_commit_record_name c.commit_record) =
      some (commit_id_number c.message (qsort compare_commit_record_name c.commit_record)) := by
    unfold checked_commit_id_number commit_id_number
    rw [e1, e2]
  have b0c : 1 ≤ commit_id_number c.message
      (qsort compare_commit_record_name c.commit_record) := b0
  have b1c : commit_id_number c.message
      (qsort compare_commit_record_name c.commit_record) ≤ 15485863 := b1
  have hrender : (generate_commit_id c).1 = List.leftpad 6 48 (toHex
      (commit_id_number c.message
        (qsort compare_commit_record_name c.commit_record)).toNat) := by
    unfold generate_commit_id
    exact snprintf_06llx_of_small _ (by omega) (by omega)
  refine ⟨hchk, b0c, b1c, hrender, ?_, ?_⟩
  · rw [hrender, List.leftpad_length]
    have := toHex_length_six (commit_id_number c.message
      (qsort compare_commit_record_name c.commit_record)).toNat (by omega)
    omega
  · unfold generate_commit_id
    exact snprintf_06llx_isLowerHex _

/-- C35 at the example commit (message `first`, one Add record for `a.txt`). -/
theorem commit_id_range_witness :
    exampleCommit.commit_record ≠ [] ∧
      checked_commit_id_number exampleCommit.message
          (qsort compare_commit_record_name exampleCommit.commit_record) =
        some (commit_id_number exampleCommit.message
          (qsort compare_commit_record_name exampleCommit.commit_record)) ∧
      1 ≤ commit_id_number exampleCommit.message
          (qsort compare_commit_record_name exampleCommit.commit_record) ∧
      commit_id_number exampleCommit.message
          (qsort compare_commit_record_name exampleCommit.commit_record) ≤ 15485863 ∧
      (generate_commit_id exampleCommit).1 = List.leftpad 6 48 (toHex
        (commit_id_number exampleCommit.message
          (qsort compare_commit_record_name exampleCommit.commit_record)).toNat) ∧
      (generate_commit_id exampleCommit).1.length = 6 ∧
      ∀ ch ∈ (generate_commit_id exampleCommit).1, isLowerHex ch :=
  ⟨by decide, commit_id_range exampleCommit (by decide) (by decide) (by decide)⟩

/-! ## A second commit on an unchanged working tree (C33) -/

/-- C33, failing input: on a fresh engine next to an `a.txt` that cannot be
opened, `svc_add("a.txt")` and `svc_commit("first")` return an id and leave
the working tree as it was, the roster then holds `a.txt` as Tracked with the
last hash -1, `hash_file` gives -3 for it, and `check_uncommitted_changes`
reports a change (`svc_branch` answers -3), although a second `svc_commit`
finds nothing to commit and returns absent. -/
theorem svc_commit_unreadable_reports_changes :
    (svc_commit exampleParams unreadableStagedWorld (some (cstr "first"))).1
        = some (cstr "443094") ∧
      unreadableCommittedWorld.fs = unreadableStagedWorld.fs ∧
      (current unreadableCommittedWorld.vc).files =
        [{ file_path := cstr "a.txt", previous_hash := -1, state := FileState.Tracked }] ∧
      hash_file unreadableCommittedWorld.fs (some (cstr "a.txt")) = -3 ∧
      check_uncommitted_changes unreadableCommittedWorld = 1 ∧
      (svc_branch exampleParams unreadableCommittedWorld (some (cstr "dev"))).1 = -3 ∧
      (svc_commit exampleParams unreadableCommittedWorld (some (cstr "second"))).1 = none ∧
      (svc_commit exampleParams unreadableCommittedWorld (some (cstr "second"))).2.vc.commits
        = unreadableCommittedWorld.vc.commits ∧
      (current (svc_commit exampleParams unreadableCommittedWorld
        (some (cstr "second"))).2.vc).files = (current unreadableCommittedWorld.vc).files := by
  refine ⟨by decide, rfl, by decide, by decide, by decide, by decide, by decide, by decide,
    by decide⟩

theorem current_hash_of_extends (fs fs2 : FileSystem) (h : FsExtends fs fs2) (path : CString)
    (hacc : access fs path = true) :
    access fs2 path = true ∧ current_hash fs2 path = current_hash fs path := by
  unfold access at hacc
  obtain ⟨f, hf⟩ := Option.isSome_iff_exists.1 hacc
  have hf2 := h path f hf
  unfold access current_hash hash_and_copy_file
  rw [hf, hf2]
  exact ⟨rfl, rfl⟩

theorem expected_entry_settled (fs : FileSystem) (fd : FileData)
    (hst : (expected_entry fs fd).state ≠ FileState.Deleted) :
    (expected_entry fs fd).state = FileState.Tracked ∧
      (expected_entry fs fd).file_path = fd.file_path ∧
      access fs fd.file_path = true ∧
      (expected_entry fs fd).previous_hash = current_hash fs fd.file_path := by
  unfold expected_entry at hst ⊢
  cases hs : fd.state
  · rw [hs] at hst
    by_cases hacc : access fs fd.file_path = true
    · simp [hacc, hs]
    · simp [hacc] at hst
  · rw [hs] at hst
    by_cases hacc : access fs fd.file_path = true
    · simp [hacc]
    · simp [hacc] at hst
  · rw [hs] at hst
    simp [hs] at hst

theorem commit_files_settled (P : Params) (files : List FileData) :
    ∀ (fs : FileSystem) (c : Commit),
      FsExtends fs (commit_files P fs c files).2.1 ∧
      ∀ x ∈ (commit_files P fs c files).2.2, x.state ≠ FileState.Deleted →
        x.state = FileState.Tracked ∧
        access (commit_files P fs c files).2.1 x.file_path = true ∧
        current_hash (commit_files P fs c files).2.1 x.file_path = x.previous_hash := by
  induction files with
  | nil =>
    intro fs c
    exact ⟨fun p f h => h, fun x hx => by simp [commit_files] at hx⟩
  | cons fd rest ih =>
    intro fs c
    obtain ⟨_, e2⟩ := commit_entry_spec P fs c fd
    have hext1 : FsExtends fs (commit_entry P fs c fd).2.1 :=
      commit_entry_fsExtends P fs fs c fd (fun p f h => h)
    obtain ⟨hext2, hrest⟩ := ih (commit_entry P fs c fd).2.1 (commit_entry P fs c fd).1
    have hext : FsExtends fs (commit_files P fs c (fd :: rest)).2.1 :=
      fun p f h => hext2 p f (hext1 p f h)
    refine ⟨hext, ?_⟩
    intro x hx hlive
    simp only [commit_files, List.mem_cons] at hx
    rcases hx with hx | hx
    · rw [e2] at hx
      rw [hx] at hlive ⊢
      obtain ⟨s1, s2, s3, s4⟩ := expected_entry_settled fs fd hlive
      obtain ⟨a1, a2⟩ := current_hash_of_extends fs _ hext fd.file_path s3
      rw [s2, s4]
      exact ⟨s1, a1, a2⟩
    · exact hrest x hx hlive

theorem hash_file_of_hash (fs : FileSystem) (path : CString)
    (h : current_hash fs path ≠ -1) : hash_file fs (some path) = current_hash fs path := by
  have hsame : (hash_and_copy_file fs path false).1 = current_hash fs path := by
    unfold current_hash hash_and_copy_file
    cases fs path with
    | none => rfl
    | some f => by_cases hr : f.readable = true <;> simp [hr]
  unfold hash_file
  simp only [hsame, h, if_false]

/-- A second `svc_commit` on an unchanged working tree (C33 away from its
failing input): after a `svc_commit` that returned an id, with the filesystem
left as the commit left it, a second `svc_commit` returns absent and leaves the
commit log and the active roster as they are; and `check_uncommitted_changes`
reports no change, provided that no file of the active roster has the hash -1,
the value that `hash_and_copy_file` also returns for a file that cannot be
opened. -/
theorem svc_commit_twice (P : Params) (w : World) (m1 m2 : CString) (id : CString)
    (h : (svc_commit P w (some m1)).1 = some id) :
    (svc_commit P (svc_commit P w (some m1)).2 (some m2)).1 = none ∧
      (svc_commit P (svc_commit P w (some m1)).2 (some m2)).2.vc.commits =
        (svc_commit P w (some m1)).2.vc.commits ∧
      (current (svc_commit P (svc_commit P w (some m1)).2 (some m2)).2.vc).files =
        (current (svc_commit P w (some m1)).2.vc).files ∧
      ((∀ fd ∈ (current (svc_commit P w (some m1)).2.vc).files,
          current_hash (svc_commit P w (some m1)).2.fs fd.file_path ≠ -1) →
        check_uncommitted_changes (svc_commit P w (some m1)).2 = 0) := by
  obtain ⟨msg, hm, hne, _, _, hb, hc, hfs⟩ := svc_commit_success P w (some m1) id h
  have hmsg : msg = m1 := (Option.some.inj hm).symm
  subst hmsg
  have hlt := svc_commit_loop_in_range P w msg hne
  have hcur := current_of_set w.vc _ _ hb hc hlt
  obtain ⟨_, hsettled⟩ := commit_files_settled P (current w.vc).files w.fs
    { id := none, message := msg, branch_id := w.vc.current_branch, commit_record := [],
      record_len := (current w.vc).files.length, parent_commits := [],
      snapshot := init_snapshot P }
  have hst : ∀ fd ∈ (current (svc_commit P w (some msg)).2.vc).files,
      fd.state = FileState.Tracked ∧
      access (svc_commit P w (some msg)).2.fs fd.file_path = true ∧
      current_hash (svc_commit P w (some msg)).2.fs fd.file_path = fd.previous_hash := by
    intro fd hfd
    rw [hcur] at hfd
    simp only [clean_branch_files, List.mem_filter, decide_eq_true_eq] at hfd
    rw [hfs]
    exact hsettled fd hfd.1 hfd.2
  obtain ⟨n1, n2, _⟩ := svc_commit_no_changes P (svc_commit P w (some msg)).2 (some m2) hst
  refine ⟨n1, n2, ?_, ?_⟩
  · have hrec := (svc_commit_none_iff P _ m2).1 n1
    obtain ⟨_, hb2, hc2⟩ := svc_commit_noop P (svc_commit P w (some msg)).2 m2 hrec
    have hlt2 : (svc_commit P w (some msg)).2.vc.current_branch <
        (svc_commit P w (some msg)).2.vc.branches.length := by
      rw [hc, hb, List.length_set]
      exact hlt
    rw [current_of_set _ _ _ hb2 hc2 hlt2]
    obtain ⟨extra, h1, h2⟩ := commit_files_no_record P
      (current (svc_commit P w (some msg)).2.vc).files (svc_commit P w (some msg)).2.fs
      { id := none, message := m2,
        branch_id := (svc_commit P w (some msg)).2.vc.current_branch, commit_record := [],
        record_len := (current (svc_commit P w (some msg)).2.vc).files.length,
        parent_commits := [], snapshot := init_snapshot P }
    have hextra : extra = [] := by
      have : (svc_commit_loop P (svc_commit P w (some msg)).2 m2).1.commit_record =
          [] ++ extra := h1
      rw [hrec] at this
      simpa using this.symm
    have hfiles : (svc_commit_loop P (svc_commit P w (some msg)).2 m2).2.2 =
        (current (svc_commit P w (some msg)).2.vc).files.map after_noop_commit := h2 hextra
    simp only
    rw [hfiles]
    conv_rhs => rw [← List.map_id (current (svc_commit P w (some msg)).2.vc).files]
    apply List.map_congr_left
    intro fd hfd
    unfold after_noop_commit
    simp [(hst fd hfd).1]
  · intro hhash
    rcases check_uncommitted_changes_range (svc_commit P w (some msg)).2 with h0 | h1
    · exact h0
    · exfalso
      have hk : (current (svc_commit P w (some msg)).2.vc).commit =
          some w.vc.commits.length := by
        rw [hcur]
        rfl
      obtain ⟨fd, hfd, hbad⟩ := (check_uncommitted_changes_iff _ _ hk).1 h1
      obtain ⟨t1, _, t3⟩ := hst fd hfd
      rcases hbad with hs | ⟨_, hh⟩
      · rw [t1] at hs
        exact FileState.noConfusion hs
      · apply hh
        rw [hash_file_of_hash _ _ (hhash fd hfd)]
        exact t3

/-! ## Remove records and the parent snapshot (C31) -/

/-- C31, failing input: on a fresh engine next to `a.txt`, after
`svc_add("a.txt")`, the removal of `a.txt` from the working tree,
`svc_commit("m1")` (which returns absent and leaves the entry Deleted) and
`svc_commit("m2")`, the log holds one commit, `0b9f54`, without a parent and
with a Remove record for `a.txt`, a file that was never committed.  A second
reachable state shows the same for a file of hash 0, which is committed
without a snapshot entry and then removed. -/
theorem remove_record_of_uncommitted_file :
    Reachable exampleParams removedUncommittedWorld ∧
      (svc_commit exampleParams missingStagedWorld (some (cstr "m1"))).1 = none ∧
      removedUncommittedWorld.vc.commits.map (fun c =>
          (c.id, c.parent_commits,
            c.commit_record.map (fun r => (r.file_name, r.change_type)))) =
        [(some (cstr "0b9f54"), [], [(cstr "a.txt", CommitChangeType.Remove)])] ∧
      (¬ ∀ c ∈ removedUncommittedWorld.vc.commits,
        RemoveRecordsCommitted removedUncommittedWorld.vc c) ∧
      Reachable exampleParams removedZeroHashWorld ∧
      removedZeroHashWorld.vc.commits.map (fun c =>
          (c.id, c.parent_commits,
            c.commit_record.map (fun r => (r.file_name, r.change_type)),
            c.snapshot.file_snapshots.map (fun e => e.name))) =
        [(some (cstr "cefc1a"), [], [(cstr "dddddddddd", CommitChangeType.Add)], []),
         (some (cstr "9ec4bb"), [0], [(cstr "dddddddddd", CommitChangeType.Remove)], [])] ∧
      ¬ ∀ c ∈ removedZeroHashWorld.vc.commits,
        RemoveRecordsCommitted removedZeroHashWorld.vc c := by
  refine ⟨⟨singleFile (cstr "a.txt") (cstr "x"),
      [Op.add (some (cstr "a.txt")),
       Op.files (removeFile exampleWorld1.fs (cstr "a.txt")),
       Op.commit (some (cstr "m1")), Op.commit (some (cstr "m2"))], rfl⟩,
    by decide, by decide, by decide,
    ⟨singleFile (cstr "dddddddddd") [],
      [Op.add (some (cstr "dddddddddd")), Op.commit (some (cstr "m1")),
       Op.rm (some (cstr "dddddddddd")), Op.commit (some (cstr "m2"))], rfl⟩,
    rfl, by decide⟩

/-! ## Uniqueness of roster paths and snapshot names (C34) -/

theorem live_paths_append (a b : List FileData) :
    live_paths (a ++ b) = live_paths a ++ live_paths b := by
  simp [live_paths]

theorem live_paths_cons (fd : FileData) (rest : List FileData) :
    live_paths (fd :: rest) = live_paths [fd] ++ live_paths rest :=
  live_paths_append [fd] rest

theorem live_paths_single (fd : FileData) :
    live_paths [fd] = if fd.state ≠ FileState.Deleted then [fd.file_path] else [] := by
  unfold live_paths
  by_cases h : fd.state = FileState.Deleted <;> simp [h]

theorem live_paths_clean (b : Branch) :
    live_paths (clean_branch_files b).files = live_paths b.files := by
  simp [live_paths, clean_branch_files, List.filter_filter]

theorem live_paths_roster_of_snapshot (entries : List FileSnapshot) :
    live_paths (roster_of_snapshot entries) = entries.map (fun e => e.name) := by
  induction entries with
  | nil => rfl
  | cons e rest ih =>
    have hcons : roster_of_snapshot (e :: rest) =
        { file_path := e.name, state := FileState.Tracked, previous_hash := e.hash } ::
          roster_of_snapshot rest := rfl
    rw [hcons, live_paths_cons, ih, live_paths_single]
    simp

theorem svc_rm_files_live (name : CString) (files : List FileData) :
    (live_paths (svc_rm_files files name).2).Sublist (live_paths files) := by
  induction files with
  | nil => exact List.Sublist.refl _
  | cons fd rest ih =>
    unfold svc_rm_files
    rw [live_paths_cons fd rest]
    split
    · exact List.sublist_append_right _ _
    · split
      · rw [live_paths_cons]
        apply List.Sublist.append _ (List.Sublist.refl _)
        rw [live_paths_single]
        simp
      · simp only
        rw [live_paths_cons fd]
        exact List.Sublist.append (List.Sublist.refl _) ih

theorem expected_entry_live_paths (fs : FileSystem) (fd : FileData) :
    (live_paths [expected_entry fs fd]).Sublist (live_paths [fd]) := by
  rw [live_paths_single, live_paths_single]
  unfold expected_entry
  cases hst : fd.state
  · by_cases hacc : access fs fd.file_path = true <;> simp [hacc, hst]
  · by_cases hacc : access fs fd.file_path = true <;> simp [hacc, hst]
  · simp [hst]

theorem expected_snapshot_live_paths (fs : FileSystem) (fd : FileData) :
    ((expected_snapshot fs fd).toList.map (fun e => e.name)).Sublist (live_paths [fd]) := by
  rw [live_paths_single]
  unfold expected_snapshot
  split
  · rename_i h
    simp [h.1]
  · simp

theorem commit_files_paths (P : Params) (files : List FileData) :
    ∀ (fs : FileSystem) (c : Commit),
      (live_paths (commit_files P fs c files).2.2).Sublist (live_paths files) ∧
      ∃ l, l.Sublist (live_paths files) ∧
        snapshot_names (commit_files P fs c files).1 = snapshot_names c ++ l := by
  induction files with
  | nil =>
    intro fs c
    exact ⟨List.Sublist.refl _, [], List.Sublist.refl _, by simp [commit_files]⟩
  | cons fd rest ih =>
    intro fs c
    obtain ⟨_, e2⟩ := commit_entry_spec P fs c fd
    obtain ⟨s1, _⟩ := commit_entry_snapshot P fs c fd
    obtain ⟨i1, l, i2, i3⟩ := ih (commit_entry P fs c fd).2.1 (commit_entry P fs c fd).1
    simp only [commit_files]
    rw [live_paths_cons fd rest]
    constructor
    · rw [live_paths_cons, e2]
      exact List.Sublist.append (expected_entry_live_paths fs fd) i1
    · refine ⟨(expected_snapshot fs fd).toList.map (fun e => e.name) ++ l,
        List.Sublist.append (expected_snapshot_live_paths fs fd) i2, ?_⟩
      rw [i3]
      unfold snapshot_names
      rw [s1, List.map_append, List.append_assoc]

theorem current_live_nodup (vc : VersionControl) (h : RosterPathsUnique vc) :
    (live_paths (current vc).files).Nodup := by
  unfold current
  cases hg : vc.branches.get? vc.current_branch with
  | none => simp [live_paths]
  | some b => exact h b (List.get?_mem hg)

theorem rosterPathsUnique_set (vc vc2 : VersionControl) (i : Nat) (b : Branch)
    (h : RosterPathsUnique vc) (hb : (live_paths b.files).Nodup)
    (hbs : vc2.branches = vc.branches.set i b) : RosterPathsUnique vc2 := by
  intro x hx
  rw [hbs] at hx
  rcases List.mem_or_eq_of_mem_set hx with h1 | h1
  · exact h x h1
  · rw [h1]
    exact hb

theorem svc_add_paths (P : Params) (w : World) (file_name : Option CString)
    (r : Int × World) (hr : svc_add P w file_name = some r)
    (h : RosterPathsUnique w.vc) : RosterPathsUnique r.2.vc := by
  rcases svc_add_cases P w file_name r hr with h1 | ⟨name, _, _, hun, _, _, _, _, hb, _⟩
  · rw [h1]
    exact h
  · refine rosterPathsUnique_set w.vc _ _ _ h ?_ hb
    simp only
    rw [live_paths_append, live_paths_single]
    simp only [ne_eq, reduceCtorEq, not_false_eq_true, if_true]
    rw [List.nodup_append]
    refine ⟨current_live_nodup w.vc h, List.nodup_singleton _, ?_⟩
    intro a ha hb2
    rw [List.mem_singleton] at hb2
    subst hb2
    unfold live_paths at ha
    obtain ⟨fd, hfd, hp⟩ := List.mem_map.1 ha
    obtain ⟨hmem, hst⟩ := List.mem_filter.1 hfd
    have := (is_unknown_iff _ _).1 hun fd hmem hp
    simp [this] at hst

theorem svc_rm_paths (w : World) (file_name : Option CString)
    (h : RosterPathsUnique w.vc) : RosterPathsUnique (svc_rm w file_name).2.vc := by
  cases file_name with
  | none => exact h
  | some name =>
    refine rosterPathsUnique_set w.vc _ w.vc.current_branch
      { current w.vc with files := (svc_rm_files (current w.vc).files name).2 } h ?_ rfl
    exact (svc_rm_files_live name _).nodup (current_live_nodup w.vc h)

theorem generate_commit_id_snapshot (c : Commit) :
    (generate_commit_id c).2.snapshot = c.snapshot := rfl

theorem svc_commit_paths (P : Params) (w : World) (m : Option CString)
    (h : PathsUnique w.vc) : PathsUnique (svc_commit P w m).2.vc := by
  obtain ⟨hr, hs⟩ := h
  have hcur := current_live_nodup w.vc hr
  cases hres : (svc_commit P w m).1 with
  | none =>
    cases m with
    | none => exact ⟨hr, hs⟩
    | some msg =>
      obtain ⟨hlog, hb, _⟩ := svc_commit_noop P w msg ((svc_commit_none_iff P w msg).1 hres)
      obtain ⟨p1, _⟩ := commit_files_paths P (current w.vc).files w.fs
        { id := none, message := msg, branch_id := w.vc.current_branch, commit_record := [],
          record_len := (current w.vc).files.length, parent_commits := [],
          snapshot := init_snapshot P }
      constructor
      · exact rosterPathsUnique_set w.vc _ _ _ hr (p1.nodup hcur) hb
      · intro c hc
        rw [hlog] at hc
        exact hs c hc
  | some id =>
    obtain ⟨msg, _, _, _, hlog, hb, _, _⟩ := svc_commit_success P w m id hres
    obtain ⟨p1, l, p2, p3⟩ := commit_files_paths P (current w.vc).files w.fs
      { id := none, message := msg, branch_id := w.vc.current_branch, commit_record := [],
        record_len := (current w.vc).files.length, parent_commits := [],
        snapshot := init_snapshot P }
    constructor
    · refine rosterPathsUnique_set w.vc _ _ _ hr ?_ hb
      rw [live_paths_clean]
      exact p1.nodup hcur
    · intro c hc
      rw [hlog] at hc
      rcases List.mem_append.1 hc with h1 | h1
      · exact hs c h1
      · rw [List.mem_singleton] at h1
        rw [h1]
        have hnames : snapshot_names (svc_commit_loop P w msg).1 = l := by
          have := p3
          simpa [snapshot_names, init_snapshot] using this
        have hn2 : (snapshot_names (svc_commit_loop P w msg).1).Nodup := by
          rw [hnames]
          exact p2.nodup hcur
        exact hn2

theorem svc_branch_paths (P : Params) (w : World) (branch_name : Option CString)
    (h : PathsUnique w.vc) : PathsUnique (svc_branch P w branch_name).2.vc := by
  refine ⟨?_, by rw [SnapshotNamesUnique, svc_branch_log]; exact h.2⟩
  unfold svc_branch
  cases branch_name with
  | none => exact h.1
  | some name =>
    simp only
    split
    · exact h.1
    · split
      · exact h.1
      · split
        · exact h.1
        · intro b hb
          simp only at hb
          rcases List.mem_append.1 hb with h1 | h1
          · exact h.1 b h1
          · rw [List.mem_singleton] at h1
            rw [h1]
            simp only [copy_file_data_eq]
            exact current_live_nodup w.vc h.1

theorem svc_checkout_rosters (P : Params) (w : World) (branch_name : Option CString)
    (r : Int × World) (h : svc_checkout P w branch_name = some r) :
    r.2.vc.branches = w.vc.branches ∧ r.2.vc.commits = w.vc.commits := by
  unfold svc_checkout at h
  cases branch_name with
  | none =>
    simp only [Option.some.injEq] at h
    rw [← h]
    exact ⟨rfl, rfl⟩
  | some name =>
    simp only at h
    split at h
    · simp only [Option.some.injEq] at h
      rw [← h]
      exact ⟨rfl, rfl⟩
    · split at h
      · simp only [Option.some.injEq] at h
        rw [← h]
        exact ⟨rfl, rfl⟩
      · split at h
        · simp only [Option.some.injEq] at h
          rw [← h]
          exact ⟨rfl, rfl⟩
        · split at h
          · exact Option.noConfusion h
          · split at h
            · exact Option.noConfusion h
            · simp only [Option.some.injEq] at h
              rw [← h]
              exact ⟨rfl, rfl⟩

theorem svc_reset_cases (P : Params) (w : World) (commit_id : Option CString)
    (r : Int × World) (h : svc_reset P w commit_id = some r) :
    r.2 = w ∨ ∃ k c, get_commit w.vc commit_id = some k ∧ w.vc.commits.get? k = some c ∧
      r.2.vc.commits = w.vc.commits.set k { c with branch_id := w.vc.current_branch } ∧
      r.2.vc.current_branch = w.vc.current_branch ∧
      r.2.vc.branches = w.vc.branches.set w.vc.current_branch
        { current w.vc with
          commit := some k,
          files := roster_of_snapshot c.snapshot.file_snapshots,
          files_len := (roster_of_snapshot c.snapshot.file_snapshots).length } := by
  unfold svc_reset at h
  cases commit_id with
  | none =>
    simp only [Option.some.injEq] at h
    rw [← h]
    exact Or.inl rfl
  | some id =>
    simp only at h
    cases hk : get_commit w.vc (some id) with
    | none =>
      rw [hk] at h
      simp only [Option.some.injEq] at h
      rw [← h]
      exact Or.inl rfl
    | some k =>
      rw [hk] at h
      simp only at h
      cases hc : w.vc.commits.get? k with
      | none => rw [hc] at h; exact Option.noConfusion h
      | some c =>
        rw [hc] at h
        simp only at h
        split at h
        · exact Option.noConfusion h
        · simp only [Option.some.injEq] at h
          rw [← h]
          exact Or.inr ⟨k, c, rfl, hc, rfl, rfl, rfl⟩

theorem svc_reset_paths (P : Params) (w : World) (commit_id : Option CString)
    (r : Int × World) (h : svc_reset P w commit_id = some r) (hinv : PathsUnique w.vc) :
    PathsUnique r.2.vc := by
  rcases svc_reset_cases P w commit_id r h with h1 | ⟨k, c, _, hc, hlog, _, hb⟩
  · rw [h1]
    exact hinv
  · have hcn : (snapshot_names c).Nodup := hinv.2 c (List.get?_mem hc)
    constructor
    · refine rosterPathsUnique_set w.vc _ _ _ hinv.1 ?_ hb
      rw [live_paths_roster_of_snapshot]
      exact hcn
    · intro x hx
      rw [hlog] at hx
      rcases List.mem_or_eq_of_mem_set hx with h2 | h2
      · exact hinv.2 x h2
      · rw [h2]
        exact hcn

theorem print_commit_paths (w : World) (commit_id : Option CString)
    (hinv : PathsUnique w.vc) : PathsUnique (print_commit w commit_id).vc := by
  unfold print_commit
  cases commit_id with
  | none => exact hinv
  | some id =>
    simp only
    cases hk : get_commit w.vc (some id) with
    | none => exact hinv
    | some k =>
      simp only
      cases hc : w.vc.commits.get? k with
      | none => exact hinv
      | some c =>
        refine ⟨hinv.1, ?_⟩
        intro x hx
        simp only at hx
        rcases List.mem_or_eq_of_mem_set hx with h2 | h2
        · exact hinv.2 x h2
        · rw [h2]
          exact hinv.2 c (List.get?_mem hc)

theorem merge_stage_paths (P : Params) (entries : List FileSnapshot) :
    ∀ w w1, merge_stage P w entries = some w1 → RosterPathsUnique w.vc →
      RosterPathsUnique w1.vc := by
  induction entries with
  | nil =>
    intro w w1 h hinv
    simp only [merge_stage, Option.some.injEq] at h
    rw [← h]
    exact hinv
  | cons e rest ih =>
    intro w w1 h hinv
    rcases merge_stage_cons P w w1 e rest h with ⟨_, h1⟩ | ⟨_, fs, r, _, hadd, h1⟩
    · exact ih _ _ h1 hinv
    · exact ih _ _ h1 (svc_add_paths P { vc := w.vc, fs := fs } (some e.name) r hadd hinv)

theorem svc_merge_cases (P : Params) (w : World) (branch_name : Option CString)
    (resolutions : List resolution) (r : Option CString × World)
    (h : svc_merge P w branch_name resolutions = some r) :
    r.2 = w ∨ ∃ (n : CString) (merged : Commit) (w1 : World) (fs2 : FileSystem),
      merge_stage P w merged.snapshot.file_snapshots = some w1 ∧
      r.2.vc.branches = (svc_commit P { vc := w1.vc, fs := fs2 }
        (some (cstr "Merged branch " ++ n))).2.vc.branches ∧
      r.2.vc.current_branch = (svc_commit P { vc := w1.vc, fs := fs2 }
        (some (cstr "Merged branch " ++ n))).2.vc.current_branch ∧
      r.2.vc.commits.map snapshot_names = (svc_commit P { vc := w1.vc, fs := fs2 }
        (some (cstr "Merged branch " ++ n))).2.vc.commits.map snapshot_names := by
  obtain ⟨rid, w2⟩ := r
  cases rid with
  | none =>
    rcases svc_merge_absent P w branch_name resolutions w2 h with
      h1 | ⟨n, merged, w1, fs2, _, hst, _, h2⟩
    · exact Or.inl h1
    · right
      refine ⟨n, merged, w1, fs2, hst, ?_, ?_, ?_⟩ <;> simp only [h2]
  | some id =>
    obtain ⟨n, idx, mb, head, merged, w1, fs2, _, _, _, _, _, _, _, _, hst, _, _,
      c0, hc0, _, _, hfinal⟩ :=
      svc_merge_success P w branch_name resolutions id (by rw [h]; rfl)
    rw [h] at hfinal
    have hw2 := (Prod.mk.inj (Option.some.inj hfinal)).2
    simp only at hw2
    right
    refine ⟨n, merged, w1, fs2, hst, ?_, ?_, ?_⟩
    · simp only [hw2]
    · simp only [hw2]
    · simp only [hw2, hc0, List.map_append, List.map_cons, List.map_nil]
      rfl

theorem snapshotNamesUnique_of_map (vc vc2 : VersionControl)
    (h : vc2.commits.map snapshot_names = vc.commits.map snapshot_names)
    (hinv : SnapshotNamesUnique vc) : SnapshotNamesUnique vc2 := by
  intro c hc
  have hmem : snapshot_names c ∈ vc2.commits.map snapshot_names := List.mem_map_of_mem _ hc
  rw [h] at hmem
  obtain ⟨c1, hc1, he⟩ := List.mem_map.1 hmem
  rw [← he]
  exact hinv c1 hc1

theorem svc_merge_paths (P : Params) (w : World) (branch_name : Option CString)
    (resolutions : List resolution) (r : Option CString × World)
    (h : svc_merge P w branch_name resolutions = some r) (hinv : PathsUnique w.vc) :
    PathsUnique r.2.vc := by
  rcases svc_merge_cases P w branch_name resolutions r h with
    h1 | ⟨n, merged, w1, fs2, hst, hb, _, hlog⟩
  · rw [h1]
    exact hinv
  · obtain ⟨_, a2, _⟩ := merge_stage_skeleton P _ w w1 hst
    have hw1 : PathsUnique w1.vc :=
      ⟨merge_stage_paths P _ w w1 hst hinv.1, by
        intro c hc
        rw [a2] at hc
        exact hinv.2 c hc⟩
    have hcommit := svc_commit_paths P { vc := w1.vc, fs := fs2 }
      (some (cstr "Merged branch " ++ n)) hw1
    constructor
    · intro b hb2
      rw [hb] at hb2
      exact hcommit.1 b hb2
    · exact snapshotNamesUnique_of_map _ _ hlog hcommit.2

theorem apply_op_paths (P : Params) (w w1 : World) (op : Op)
    (h : apply_op P w op = some w1) (hinv : PathsUnique w.vc) : PathsUnique w1.vc := by
  cases op with
  | add n =>
    simp only [apply_op] at h
    obtain ⟨r, hr, he⟩ := Option.map_eq_some'.1 h
    rw [← he]
    exact ⟨svc_add_paths P w n r hr hinv.1, by
      intro c hc
      rw [(svc_add_skeleton P w n r hr).2.1] at hc
      exact hinv.2 c hc⟩
  | rm n =>
    simp only [apply_op, Option.some.injEq] at h
    rw [← h]
    exact ⟨svc_rm_paths w n hinv.1, by
      intro c hc
      rw [(svc_rm_skeleton w n).2.1] at hc
      exact hinv.2 c hc⟩
  | commit m =>
    simp only [apply_op, Option.some.injEq] at h
    rw [← h]
    exact svc_commit_paths P w m hinv
  | branch n =>
    simp only [apply_op, Option.some.injEq] at h
    rw [← h]
    exact svc_branch_paths P w n hinv
  | checkout n =>
    simp only [apply_op] at h
    obtain ⟨r, hr, he⟩ := Option.map_eq_some'.1 h
    obtain ⟨e1, e2⟩ := svc_checkout_rosters P w n r hr
    rw [← he]
    exact ⟨by intro b hb; rw [e1] at hb; exact hinv.1 b hb,
      by intro c hc; rw [e2] at hc; exact hinv.2 c hc⟩
  | reset id =>
    simp only [apply_op] at h
    obtain ⟨r, hr, he⟩ := Option.map_eq_some'.1 h
    rw [← he]
    exact svc_reset_paths P w id r hr hinv
  | merge n rs =>
    simp only [apply_op] at h
    obtain ⟨r, hr, he⟩ := Option.map_eq_some'.1 h
    rw [← he]
    exact svc_merge_paths P w n rs r hr hinv
  | print id =>
    simp only [apply_op, Option.some.injEq] at h
    rw [← h]
    exact print_commit_paths w id hinv
  | files fs =>
    simp only [apply_op, Option.some.injEq] at h
    rw [← h]
    exact hinv

theorem run_ops_paths (P : Params) :
    ∀ (ops : List Op) (w w2 : World), PathsUnique w.vc → run_ops P w ops = some w2 →
      PathsUnique w2.vc := by
  intro ops
  induction ops with
  | nil =>
    intro w w2 hinv h
    simp only [run_ops, Option.some.injEq] at h
    rw [← h]
    exact hinv
  | cons op rest ih =>
    intro w w2 hinv h
    unfold run_ops at h
    cases hop : apply_op P w op with
    | none => rw [hop] at h; exact Option.noConfusion h
    | some w1 =>
      rw [hop] at h
      exact ih w1 w2 (apply_op_paths P w w1 op hop hinv) h

/-- C34: in every engine state reached from `svc_init` by calls of `svc_add`,
`svc_rm`, `svc_commit`, `svc_branch`, `svc_checkout`, `svc_reset`, `svc_merge`
(and `print_commit`), with any changes of the working tree in between, no
roster of any branch holds two entries with the same path that are both other
than Deleted, and no snapshot of a logged commit holds the same file name
twice. -/
theorem roster_paths_unique (P : Params) (w : World) (h : Reachable P w) :
    (∀ b ∈ w.vc.branches,
        ((b.files.filter (fun fd => fd.state ≠ FileState.Deleted)).map
          (fun fd => fd.file_path)).Nodup) ∧
      ∀ c ∈ w.vc.commits, (c.snapshot.file_snapshots.map (fun e => e.name)).Nodup := by
  obtain ⟨fs0, ops, hrun⟩ := h
  have hinit : PathsUnique (svc_init P) := by
    constructor
    · intro b hb
      simp only [svc_init, List.mem_singleton] at hb
      rw [hb]
      simp [live_paths, init_master_branch]
    · intro c hc
      simp [svc_init] at hc
  exact run_ops_paths P ops _ w hinit hrun

/-- C34 at the world reached by `svc_add("a.txt")`, `svc_commit("first")`,
`svc_rm("a.txt")`, `svc_add("a.txt")`, whose roster holds `a.txt` once as
Deleted and once as Staged. -/
theorem roster_paths_unique_witness :
    Reachable exampleParams readdedWorld ∧
      (current readdedWorld.vc).files.map (fun fd => (fd.file_path, fd.state)) =
        [(cstr "a.txt", FileState.Deleted), (cstr "a.txt", FileState.Staged)] ∧
      (∀ b ∈ readdedWorld.vc.branches,
        ((b.files.filter (fun fd => fd.state ≠ FileState.Deleted)).map
          (fun fd => fd.file_path)).Nodup) ∧
      ∀ c ∈ readdedWorld.vc.commits,
        (c.snapshot.file_snapshots.map (fun e => e.name)).Nodup :=
  ⟨⟨singleFile (cstr "a.txt") (cstr "x"),
      [Op.add (some (cstr "a.txt")), Op.commit (some (cstr "first")),
       Op.rm (some (cstr "a.txt")), Op.add (some (cstr "a.txt"))], rfl⟩,
    by decide,
    roster_paths_unique exampleParams readdedWorld
      ⟨singleFile (cstr "a.txt") (cstr "x"),
        [Op.add (some (cstr "a.txt")), Op.commit (some (cstr "first")),
         Op.rm (some (cstr "a.txt")), Op.add (some (cstr "a.txt"))], rfl⟩⟩

/-! ## Count and capacity of the rosters (C32) -/

theorem current_default (vc : VersionControl) (h : vc.branches.length ≤ vc.current_branch) :
    current vc = { name := [], commit := none, files := [], files_len := 0 } := by
  unfold current
  rw [List.get?_eq_none.2 h]
  rfl

theorem current_get (vc : VersionControl) (h : vc.current_branch < vc.branches.length) :
    vc.branches.get? vc.current_branch = some (current vc) := by
  unfold current
  rw [List.get?_eq_get h]
  rfl

theorem grown_refl (b : Branch) : Grown b b :=
  ⟨Nat.le_refl _, fun h => h⟩

theorem setStep_of_same (vc vc2 : VersionControl)
    (hb : vc2.branches = vc.branches) (hc : vc2.current_branch = vc.current_branch) :
    SetStep vc vc2 := by
  refine ⟨hc, current vc, ?_, grown_refl _⟩
  rw [hb]
  by_cases hlt : vc.current_branch < vc.branches.length
  · apply List.ext_get?
    intro i
    by_cases hi : vc.current_branch = i
    · subst hi
      simp only [List.get?_eq_getElem?]
      rw [List.getElem?_set_self hlt]
      have := current_get vc hlt
      simp only [List.get?_eq_getElem?] at this
      exact this
    · simp only [List.get?_eq_getElem?]
      rw [List.getElem?_set_ne hi]
  · rw [List.set_eq_of_length_le (by omega)]

theorem setStep_trans (vc vc1 vc2 : VersionControl)
    (h1 : SetStep vc vc1) (h2 : SetStep vc1 vc2) : SetStep vc vc2 := by
  obtain ⟨c1, b1, hb1, g1, f1⟩ := h1
  obtain ⟨c2, b2, hb2, g2, f2⟩ := h2
  refine ⟨c2.trans c1, b2, ?_, ?_⟩
  · rw [hb2, hb1, c1, List.set_set]
  · by_cases hlt : vc.current_branch < vc.branches.length
    · have hcur1 : current vc1 = b1 := current_of_set vc vc1 b1 hb1 c1 hlt
      rw [hcur1] at g2 f2
      exact ⟨Nat.le_trans g1 g2, fun hf => f2 (f1 hf)⟩
    · have hcur1 : current vc1 = current vc := by
        unfold current
        rw [hb1, List.set_eq_of_length_le (by omega), c1]
      rw [hcur1] at g2 f2
      exact ⟨g2, f2⟩

theorem svc_add_setStep (P : Params) (w : World) (file_name : Option CString)
    (hG : 2 ≤ P.ARRAY_GROWTH_RATE) (r : Int × World)
    (hr : svc_add P w file_name = some r) : SetStep w.vc r.2.vc := by
  rcases svc_add_cases P w file_name r hr with
    h1 | ⟨name, _, _, _, hroom, _, _, hc, hb, _⟩
  · rw [h1]
    exact setStep_of_same _ _ rfl rfl
  · refine ⟨hc, _, hb, ?_, ?_⟩
    · simp only
      split
      · exact Nat.le_mul_of_pos_right _ (by omega)
      · exact Nat.le_refl _
    · intro hfit
      simp only [List.length_append, List.length_singleton]
      split
      · rename_i hfull
        have hpos : (current w.vc).files_len * P.ARRAY_GROWTH_RATE ≠ 0 :=
          fun hz => hroom ⟨hfull, hz⟩
        have hcap : 1 ≤ (current w.vc).files_len := by
          rcases Nat.eq_zero_or_pos (current w.vc).files_len with h0 | h0
          · rw [h0] at hpos
            simp at hpos
          · exact h0
        have : (current w.vc).files_len * 2 ≤
            (current w.vc).files_len * P.ARRAY_GROWTH_RATE := Nat.mul_le_mul_left _ hG
        omega
      · omega

theorem svc_rm_files_length (name : CString) (files : List FileData) :
    (svc_rm_files files name).2.length ≤ files.length := by
  induction files with
  | nil => exact Nat.le_refl _
  | cons fd rest ih =>
    unfold svc_rm_files
    split
    · simp
    · split
      · simp
      · simp only [List.length_cons]
        omega

theorem svc_rm_setStep (w : World) (file_name : Option CString) :
    SetStep w.vc (svc_rm w file_name).2.vc := by
  cases file_name with
  | none => exact setStep_of_same _ _ rfl rfl
  | some name =>
    refine ⟨rfl, { current w.vc with files := (svc_rm_files (current w.vc).files name).2 },
      rfl, Nat.le_refl _, ?_⟩
    intro hfit
    have := svc_rm_files_length name (current w.vc).files
    simp only
    omega

theorem commit_files_length (P : Params) (files : List FileData) :
    ∀ (fs : FileSystem) (c : Commit),
      (commit_files P fs c files).2.2.length = files.length := by
  induction files with
  | nil => intro fs c; rfl
  | cons fd rest ih =>
    intro fs c
    simp only [commit_files, List.length_cons, ih]

theorem svc_commit_setStep (P : Params) (w : World) (m : Option CString) :
    SetStep w.vc (svc_commit P w m).2.vc := by
  have hlen : (svc_commit_loop P w (m.getD [])).2.2.length = (current w.vc).files.length :=
    commit_files_length P _ _ _
  cases hres : (svc_commit P w m).1 with
  | none =>
    cases m with
    | none => exact setStep_of_same _ _ rfl rfl
    | some msg =>
      obtain ⟨_, hb, hc⟩ := svc_commit_noop P w msg ((svc_commit_none_iff P w msg).1 hres)
      refine ⟨hc, _, hb, Nat.le_refl _, ?_⟩
      intro hfit
      simp only [Option.getD_some] at hlen
      simp only
      omega
  | some id =>
    obtain ⟨msg, hm, _, _, _, hb, hc, _⟩ := svc_commit_success P w m id hres
    refine ⟨hc, _, hb, Nat.le_refl _, ?_⟩
    intro hfit
    rw [hm] at hlen
    simp only [Option.getD_some] at hlen
    have hfilter := List.length_filter_le (fun fd : FileData => fd.state ≠ FileState.Deleted)
      (svc_commit_loop P w msg).2.2
    simp only [clean_branch_files]
    omega

theorem print_commit_rosters (w : World) (commit_id : Option CString) :
    (print_commit w commit_id).vc.branches = w.vc.branches ∧
      (print_commit w commit_id).vc.current_branch = w.vc.current_branch := by
  unfold print_commit
  cases commit_id with
  | none => exact ⟨rfl, rfl⟩
  | some id =>
    simp only
    cases get_commit w.vc (some id) with
    | none => exact ⟨rfl, rfl⟩
    | some k =>
      simp only
      cases w.vc.commits.get? k with
      | none => exact ⟨rfl, rfl⟩
      | some c => exact ⟨rfl, rfl⟩

theorem merge_stage_setStep (P : Params) (hG : 2 ≤ P.ARRAY_GROWTH_RATE)
    (entries : List FileSnapshot) :
    ∀ w w1, merge_stage P w entries = some w1 → SetStep w.vc w1.vc := by
  induction entries with
  | nil =>
    intro w w1 h
    simp only [merge_stage, Option.some.injEq] at h
    rw [← h]
    exact setStep_of_same _ _ rfl rfl
  | cons e rest ih =>
    intro w w1 h
    rcases merge_stage_cons P w w1 e rest h with ⟨_, h1⟩ | ⟨_, fs, r, _, hadd, h1⟩
    · exact ih _ _ h1
    · exact setStep_trans _ _ _
        (svc_add_setStep P { vc := w.vc, fs := fs } (some e.name) hG r hadd) (ih _ _ h1)

theorem svc_merge_setStep (P : Params) (hG : 2 ≤ P.ARRAY_GROWTH_RATE) (w : World)
    (branch_name : Option CString) (resolutions : List resolution)
    (r : Option CString × World) (h : svc_merge P w branch_name resolutions = some r) :
    SetStep w.vc r.2.vc := by
  rcases svc_merge_cases P w branch_name resolutions r h with
    h1 | ⟨n, merged, w1, fs2, hst, hb, hc, _⟩
  · rw [h1]
    exact setStep_of_same _ _ rfl rfl
  · have s1 := merge_stage_setStep P hG _ w w1 hst
    have s2 := svc_commit_setStep P { vc := w1.vc, fs := fs2 }
      (some (cstr "Merged branch " ++ n))
    obtain ⟨c3, b3, hb3, g3⟩ := setStep_trans _ _ _ s1 s2
    exact ⟨hc.trans c3, b3, hb.trans hb3, g3⟩

theorem setStep_fits (vc vc2 : VersionControl)
    (h : SetStep vc vc2) (hinv : RosterFits vc) : RosterFits vc2 := by
  obtain ⟨hc, b1, hb, _, hfit⟩ := h
  obtain ⟨hlt, hall⟩ := hinv
  constructor
  · rw [hc, hb, List.length_set]
    exact hlt
  · intro b hmem
    rw [hb] at hmem
    rcases List.mem_or_eq_of_mem_set hmem with h1 | h1
    · exact hall b h1
    · rw [h1]
      exact hfit (hall _ (List.get?_mem (current_get vc hlt)))

theorem setStep_cap (vc vc2 : VersionControl) (h : SetStep vc vc2)
    (i : Nat) (b : Branch) (hget : vc.branches.get? i = some b) :
    ∃ b1, vc2.branches.get? i = some b1 ∧ b.files_len ≤ b1.files_len := by
  obtain ⟨_, b1, hb, hcap, _⟩ := h
  have hlt : i < vc.branches.length := by
    by_contra hge
    rw [List.get?_eq_none.2 (by omega)] at hget
    exact Option.noConfusion hget
  rw [hb]
  by_cases hi : vc.current_branch = i
  · refine ⟨b1, ?_, ?_⟩
    · subst hi
      simp only [List.get?_eq_getElem?]
      rw [List.getElem?_set_self hlt]
    · have hcur : current vc = b := by
        apply current_of_get
        rw [hi]
        exact hget
      rw [hcur] at hcap
      exact hcap
  · refine ⟨b, ?_, Nat.le_refl _⟩
    simp only [List.get?_eq_getElem?] at hget ⊢
    rw [List.getElem?_set_ne hi]
    exact hget

theorem svc_branch_rosters (P : Params) (w : World) (branch_name : Option CString) :
    (svc_branch P w branch_name).2.vc.current_branch = w.vc.current_branch ∧
      ((svc_branch P w branch_name).2.vc.branches = w.vc.branches ∨
        ∃ b, (svc_branch P w branch_name).2.vc.branches = w.vc.branches ++ [b] ∧
          b.files = (current w.vc).files ∧ b.files_len = (current w.vc).files_len) := by
  unfold svc_branch
  cases branch_name with
  | none => exact ⟨rfl, Or.inl rfl⟩
  | some name =>
    simp only
    split
    · exact ⟨rfl, Or.inl rfl⟩
    · split
      · exact ⟨rfl, Or.inl rfl⟩
      · split
        · exact ⟨rfl, Or.inl rfl⟩
        · exact ⟨rfl, Or.inr ⟨_, rfl, copy_file_data_eq _, rfl⟩⟩

theorem get_branch_index_lt (vc : VersionControl) (name : Option CString) (idx : Nat)
    (h : get_branch_index vc name = some idx) : idx < vc.branches.length := by
  cases name with
  | none => simp [get_branch_index] at h
  | some n =>
    unfold get_branch_index at h
    exact (get_branch_index_loop_some vc.branches n _ idx h).1

theorem svc_checkout_in_range (P : Params) (w : World) (branch_name : Option CString)
    (r : Int × World) (h : svc_checkout P w branch_name = some r)
    (hlt : w.vc.current_branch < w.vc.branches.length) :
    r.2.vc.current_branch < r.2.vc.branches.length := by
  unfold svc_checkout at h
  cases branch_name with
  | none =>
    simp only [Option.some.injEq] at h
    rw [← h]
    exact hlt
  | some name =>
    simp only at h
    cases hidx : get_branch_index w.vc (some name) with
    | none =>
      rw [hidx] at h
      simp only [Option.some.injEq] at h
      rw [← h]
      exact hlt
    | some idx =>
      have hi := get_branch_index_lt w.vc (some name) idx hidx
      rw [hidx] at h
      simp only at h
      split at h
      · simp only [Option.some.injEq] at h
        rw [← h]
        exact hlt
      · split at h
        · simp only [Option.some.injEq] at h
          rw [← h]
          exact hi
        · split at h
          · exact Option.noConfusion h
          · split at h
            · exact Option.noConfusion h
            · simp only [Option.some.injEq] at h
              rw [← h]
              exact hi

theorem apply_op_fits (P : Params) (hG : 2 ≤ P.ARRAY_GROWTH_RATE) (w w1 : World) (op : Op)
    (h : apply_op P w op = some w1) (hinv : RosterFits w.vc) : RosterFits w1.vc := by
  cases op with
  | add n =>
    simp only [apply_op] at h
    obtain ⟨r, hr, he⟩ := Option.map_eq_some'.1 h
    rw [← he]
    exact setStep_fits _ _ (svc_add_setStep P w n hG r hr) hinv
  | rm n =>
    simp only [apply_op, Option.some.injEq] at h
    rw [← h]
    exact setStep_fits _ _ (svc_rm_setStep w n) hinv
  | commit m =>
    simp only [apply_op, Option.some.injEq] at h
    rw [← h]
    exact setStep_fits _ _ (svc_commit_setStep P w m) hinv
  | branch n =>
    simp only [apply_op, Option.some.injEq] at h
    rw [← h]
    obtain ⟨hc, hb | ⟨b, hb, hf, hl⟩⟩ := svc_branch_rosters P w n
    · exact ⟨by rw [hc, hb]; exact hinv.1, by rw [hb]; exact hinv.2⟩
    · constructor
      · rw [hc, hb, List.length_append]
        have := hinv.1
        omega
      · intro x hx
        rw [hb] at hx
        rcases List.mem_append.1 hx with h1 | h1
        · exact hinv.2 x h1
        · rw [List.mem_singleton] at h1
          rw [h1, hf, hl]
          exact hinv.2 _ (List.get?_mem (current_get w.vc hinv.1))
  | checkout n =>
    simp only [apply_op] at h
    obtain ⟨r, hr, he⟩ := Option.map_eq_some'.1 h
    obtain ⟨e1, _⟩ := svc_checkout_rosters P w n r hr
    rw [← he]
    exact ⟨svc_checkout_in_range P w n r hr hinv.1, by rw [e1]; exact hinv.2⟩
  | reset id =>
    simp only [apply_op] at h
    obtain ⟨r, hr, he⟩ := Option.map_eq_some'.1 h
    rw [← he]
    rcases svc_reset_cases P w id r hr with h1 | ⟨k, c, _, _, _, hc, hb⟩
    · rw [h1]
      exact hinv
    · constructor
      · rw [hc, hb, List.length_set]
        exact hinv.1
      · intro x hx
        rw [hb] at hx
        rcases List.mem_or_eq_of_mem_set hx with h2 | h2
        · exact hinv.2 x h2
        · rw [h2]
  | merge n rs =>
    simp only [apply_op] at h
    obtain ⟨r, hr, he⟩ := Option.map_eq_some'.1 h
    rw [← he]
    exact setStep_fits _ _ (svc_merge_setStep P hG w n rs r hr) hinv
  | print id =>
    simp only [apply_op, Option.some.injEq] at h
    rw [← h]
    obtain ⟨e1, e2⟩ := print_commit_rosters w id
    exact ⟨by rw [e1, e2]; exact hinv.1, by rw [e1]; exact hinv.2⟩
  | files fs =>
    simp only [apply_op, Option.some.injEq] at h
    rw [← h]
    exact hinv

theorem get_same (vc vc2 : VersionControl) (hb : vc2.branches = vc.branches) (i : Nat)
    (b : Branch) (hget : vc.branches.get? i = some b) :
    ∃ b1, vc2.branches.get? i = some b1 ∧ b.files_len ≤ b1.files_len :=
  ⟨b, by rw [hb]; exact hget, Nat.le_refl _⟩

theorem get_set_self_branch (bs : List Branch) (i : Nat) (x : Branch) (hlt : i < bs.length) :
    (bs.set i x).get? i = some x := by
  simp only [List.get?_eq_getElem?]
  rw [List.getElem?_set_self hlt]

theorem apply_op_cap (P : Params) (hG : 2 ≤ P.ARRAY_GROWTH_RATE) (w w1 : World) (op : Op)
    (h : apply_op P w op = some w1) (i : Nat) (b : Branch)
    (hget : w.vc.branches.get? i = some b) :
    ∃ b1, w1.vc.branches.get? i = some b1 ∧
      (b.files_len ≤ b1.files_len ∨
        ∃ id k c, op = Op.reset id ∧ i = w.vc.current_branch ∧
          get_commit w.vc id = some k ∧ w.vc.commits.get? k = some c ∧
          b1.files_len = c.snapshot.file_snapshots.length ∧
          b1.files.length = b1.files_len) := by
  have weaken : ∀ x : World,
      (∃ b1, x.vc.branches.get? i = some b1 ∧ b.files_len ≤ b1.files_len) →
      ∃ b1, x.vc.branches.get? i = some b1 ∧
        (b.files_len ≤ b1.files_len ∨
          ∃ id k c, op = Op.reset id ∧ i = w.vc.current_branch ∧
            get_commit w.vc id = some k ∧ w.vc.commits.get? k = some c ∧
            b1.files_len = c.snapshot.file_snapshots.length ∧
            b1.files.length = b1.files_len) := by
    rintro x ⟨b1, h1, h2⟩
    exact ⟨b1, h1, Or.inl h2⟩
  have hlt : i < w.vc.branches.length := by
    by_contra hge
    rw [List.get?_eq_none.2 (by omega)] at hget
    exact Option.noConfusion hget
  cases op with
  | add n =>
    simp only [apply_op] at h
    obtain ⟨r, hr, he⟩ := Option.map_eq_some'.1 h
    rw [← he]
    exact weaken _ (setStep_cap _ _ (svc_add_setStep P w n hG r hr) i b hget)
  | rm n =>
    simp only [apply_op, Option.some.injEq] at h
    rw [← h]
    exact weaken _ (setStep_cap _ _ (svc_rm_setStep w n) i b hget)
  | commit m =>
    simp only [apply_op, Option.some.injEq] at h
    rw [← h]
    exact weaken _ (setStep_cap _ _ (svc_commit_setStep P w m) i b hget)
  | branch n =>
    simp only [apply_op, Option.some.injEq] at h
    rw [← h]
    obtain ⟨_, hb | ⟨x, hb, _, _⟩⟩ := svc_branch_rosters P w n
    · exact weaken _ (get_same _ _ hb i b hget)
    · refine weaken _ ⟨b, ?_, Nat.le_refl _⟩
      rw [hb]
      simp only [List.get?_eq_getElem?] at hget ⊢
      rw [List.getElem?_append_left hlt]
      exact hget
  | checkout n =>
    simp only [apply_op] at h
    obtain ⟨r, hr, he⟩ := Option.map_eq_some'.1 h
    obtain ⟨e1, _⟩ := svc_checkout_rosters P w n r hr
    rw [← he]
    exact weaken _ (get_same _ _ e1 i b hget)
  | reset id =>
    simp only [apply_op] at h
    obtain ⟨r, hr, he⟩ := Option.map_eq_some'.1 h
    rw [← he]
    rcases svc_reset_cases P w id r hr with h1 | ⟨k, c, hk, hcm, _, _, hb⟩
    · rw [h1]
      exact ⟨b, hget, Or.inl (Nat.le_refl _)⟩
    · rw [hb]
      by_cases hi : w.vc.current_branch = i
      · subst hi
        exact ⟨_, get_set_self_branch _ _ _ hlt,
          Or.inr ⟨id, k, c, rfl, rfl, hk, hcm, by simp [roster_of_snapshot], rfl⟩⟩
      · refine ⟨b, ?_, Or.inl (Nat.le_refl _)⟩
        simp only [List.get?_eq_getElem?] at hget ⊢
        rw [List.getElem?_set_ne hi]
        exact hget
  | merge n rs =>
    simp only [apply_op] at h
    obtain ⟨r, hr, he⟩ := Option.map_eq_some'.1 h
    rw [← he]
    exact weaken _ (setStep_cap _ _ (svc_merge_setStep P hG w n rs r hr) i b hget)
  | print id =>
    simp only [apply_op, Option.some.injEq] at h
    rw [← h]
    exact weaken _ (get_same _ _ (print_commit_rosters w id).1 i b hget)
  | files fs =>
    simp only [apply_op, Option.some.injEq] at h
    rw [← h]
    exact ⟨b, hget, Or.inl (Nat.le_refl _)⟩

theorem run_ops_fits (P : Params) (hG : 2 ≤ P.ARRAY_GROWTH_RATE) :
    ∀ (ops : List Op) (w w2 : World), RosterFits w.vc → run_ops P w ops = some w2 →
      RosterFits w2.vc := by
  intro ops
  induction ops with
  | nil =>
    intro w w2 hinv h
    simp only [run_ops, Option.some.injEq] at h
    rw [← h]
    exact hinv
  | cons op rest ih =>
    intro w w2 hinv h
    unfold run_ops at h
    cases hop : apply_op P w op with
    | none => rw [hop] at h; exact Option.noConfusion h
    | some w1 =>
      rw [hop] at h
      exact ih w1 w2 (apply_op_fits P hG w w1 op hop hinv) h

/-- C32, counterexample: in the reachable state after `svc_add("a.txt")` and
`svc_commit("first")` the roster of master has one entry and the capacity 4;
`svc_reset("443094")` returns 0 and leaves the roster with the capacity 1. -/
theorem svc_reset_lowers_capacity :
    Reachable exampleParams exampleWorld2 ∧
      (current exampleWorld2.vc).files.length = 1 ∧
      (current exampleWorld2.vc).files_len = 4 ∧
      (svc_reset exampleParams exampleWorld2 (some (cstr "443094"))).map (fun r => r.1)
        = some 0 ∧
      (current resetFirstWorld.vc).files.length = 1 ∧
      (current resetFirstWorld.vc).files_len = 1 := by
  refine ⟨⟨singleFile (cstr "a.txt") (cstr "x"),
      [Op.add (some (cstr "a.txt")), Op.commit (some (cstr "first"))], rfl⟩,
    by decide, by decide, by decide, by decide, by decide⟩

theorem svc_add_after_empty_reset :
    Reachable exampleParams resetEmptyWorld ∧
      (current resetEmptyWorld.vc).files.length = 0 ∧
      (current resetEmptyWorld.vc).files_len = 0 ∧
      access resetEmptyWorld.fs (cstr "a.txt") = true ∧
      is_unknown (current resetEmptyWorld.vc).files (cstr "a.txt") = true ∧
      svc_add exampleParams resetEmptyWorld (some (cstr "a.txt")) = none := by
  refine ⟨⟨singleFile (cstr "a.txt") (cstr "x"),
      [Op.add (some (cstr "a.txt")), Op.commit (some (cstr "first")),
       Op.rm (some (cstr "a.txt")), Op.commit (some (cstr "second")),
       Op.reset (some (cstr "725200"))], rfl⟩,
    by decide, by decide, by decide, by decide, rfl⟩

/-- C32, amended: let the growth factor be at least 2.  In every engine state
reached from `svc_init` the roster count of every branch is at most its
capacity.  No operation lowers the capacity of a roster, except `svc_reset`,
which sets the capacity of the active roster to the number of entries of the
restored snapshot, the count being the same number.  And `svc_add` of an
acceptable path on a full roster returns, when the capacity is not 0, with the
capacity multiplied by the growth factor and the new entry appended; on a full
roster of capacity 0 the process ends in `safe_realloc` and no entry is
written. -/
theorem roster_growth (P : Params) (hG : 2 ≤ P.ARRAY_GROWTH_RATE) :
    (∀ w : World, Reachable P w → ∀ b ∈ w.vc.branches, b.files.length ≤ b.files_len) ∧
      (∀ (w w1 : World) (op : Op), apply_op P w op = some w1 →
        ∀ (i : Nat) (b : Branch), w.vc.branches.get? i = some b →
          ∃ b1, w1.vc.branches.get? i = some b1 ∧
            (b.files_len ≤ b1.files_len ∨
              ∃ id k c, op = Op.reset id ∧ i = w.vc.current_branch ∧
                get_commit w.vc id = some k ∧ w.vc.commits.get? k = some c ∧
                b1.files_len = c.snapshot.file_snapshots.length ∧
                b1.files.length = b1.files_len)) ∧
      ∀ (w : World) (name : CString), access w.fs name = true →
        is_unknown (current w.vc).files name = true →
        (current w.vc).files.length = (current w.vc).files_len →
        ((current w.vc).files_len ≠ 0 →
          svc_add P w (some name) = some (hash_file w.fs (some name),
            { vc := setCurrent w.vc
                { current w.vc with
                  files := (current w.vc).files ++
                    [{ file_path := name, state := FileState.Staged,
                       previous_hash := hash_file w.fs (some name) }],
                  files_len := (current w.vc).files_len * P.ARRAY_GROWTH_RATE },
              fs := w.fs })) ∧
        ((current w.vc).files_len = 0 → svc_add P w (some name) = none) := by
  refine ⟨?_, ?_, ?_⟩
  · intro w hreach
    obtain ⟨fs0, ops, hrun⟩ := hreach
    have hinit : RosterFits (svc_init P) := by
      constructor
      · simp [svc_init]
      · intro b hb
        simp only [svc_init, List.mem_singleton] at hb
        rw [hb]
        simp [init_master_branch]
    exact (run_ops_fits P hG ops _ w hinit hrun).2
  · intro w w1 op h i b hget
    exact apply_op_cap P hG w w1 op h i b hget
  · intro w name hex hun hfull
    constructor
    · intro hcap
      have hroom : ¬ ((current w.vc).files.length = (current w.vc).files_len ∧
          (current w.vc).files_len * P.ARRAY_GROWTH_RATE = 0) := by
        intro hz
        rcases Nat.mul_eq_zero.1 hz.2 with h0 | h0
        · exact hcap h0
        · omega
      obtain ⟨r, e, a1, a2, _, _, a5⟩ := svc_add_accepts P w name hex hun hroom
      rw [e]
      rw [if_pos hfull] at a5
      obtain ⟨r1, r2⟩ := r
      obtain ⟨rvc, rfs⟩ := r2
      simp only at a1 a2 a5
      rw [a1, a2, a5]
    · intro hcap
      exact svc_add_ends P w name hex hun ⟨hfull, by rw [hcap, Nat.zero_mul]⟩

/-- C32, amended, on the example engine (growth factor 2, initial roster
capacity 4): after five calls of `svc_add` the count 5 is at most the capacity,
the fifth call having met a full roster of capacity 4 and left the capacity 8;
and `svc_reset("443094")` after the first commit takes the capacity of the
roster of master from 4 to 1, the number of entries of the snapshot. -/
theorem roster_growth_witness :
    2 ≤ exampleParams.ARRAY_GROWTH_RATE ∧
      (∀ b ∈ fiveAddedWorld.vc.branches, b.files.length ≤ b.files_len) ∧
      (current fourAddedWorld.vc).files.length = 4 ∧
      (current fourAddedWorld.vc).files_len = 4 ∧
      (current fiveAddedWorld.vc).files.length = 5 ∧
      (current fiveAddedWorld.vc).files_len = 8 ∧
      svc_add exampleParams fourAddedWorld (some (cstr "e.txt")) =
        some (hash_file fourAddedWorld.fs (some (cstr "e.txt")),
          { vc := setCurrent fourAddedWorld.vc
              { current fourAddedWorld.vc with
                files := (current fourAddedWorld.vc).files ++
                  [{ file_path := cstr "e.txt", state := FileState.Staged,
                     previous_hash := hash_file fourAddedWorld.fs (some (cstr "e.txt")) }],
                files_len := (current fourAddedWorld.vc).files_len *
                  exampleParams.ARRAY_GROWTH_RATE },
            fs := fourAddedWorld.fs }) ∧
      ∃ b1, resetFirstWorld.vc.branches.get? 0 = some b1 ∧
        ((current exampleWorld2.vc).files_len ≤ b1.files_len ∨
          ∃ id k c, Op.reset (some (cstr "443094")) = Op.reset id ∧
            0 = exampleWorld2.vc.current_branch ∧
            get_commit exampleWorld2.vc id = some k ∧
            exampleWorld2.vc.commits.get? k = some c ∧
            b1.files_len = c.snapshot.file_snapshots.length ∧
            b1.files.length = b1.files_len) :=
  ⟨by decide,
    (roster_growth exampleParams (by decide)).1 fiveAddedWorld
      ⟨fiveFiles,
        [Op.add (some (cstr "a.txt")), Op.add (some (cstr "b.txt")),
         Op.add (some (cstr "c.txt")), Op.add (some (cstr "d.txt")),
         Op.add (some (cstr "e.txt"))], rfl⟩,
    by decide, by decide, by decide, by decide,
    ((roster_growth exampleParams (by decide)).2.2 fourAddedWorld (cstr "e.txt")
      (by decide) (by decide) (by decide)).1 (by decide),
    (roster_growth exampleParams (by decide)).2.1 exampleWorld2 resetFirstWorld
      (Op.reset (some (cstr "443094"))) rfl 0 (current exampleWorld2.vc) rfl⟩

end SVC
